import Mathlib

/-! # Verification of `tmoc/graph`

A shallow embedding of `graph.go` (adjacency-list graph, breadth-first and
depth-first traversal engine with three hooks, and the algorithms built on it),
followed by theorems about the embedded program.

Modelling conventions.

* Vertex ids are natural numbers.  Go slices become lists; `xs[i]` is
  `xs.getD i default` and `xs[i] = a` is `xs.set i a`.  Every theorem below is
  stated for graphs whose ids are the dense range `1..n`, where every index used
  by the program lies inside `0..n`, the length-`n+1` slices it allocates.
* A hook is a closure over algorithm-local variables; the captured variables
  are an explicit state of type `σ` threaded through the traversal.  A hook
  receives the traversal data read-only and may fail (`log.Fatal`, a panic).
* `log.Fatal`/`log.Fatalf` and the nil-dereference panic of popping an empty
  `container/list` are error results of type `Failure`.
* The recursion of `depthFirstTraverseVertex` and the queue loop of
  `BreadthFirstTraversal` are driven by a fuel argument; running out of fuel is
  the separate failure `outOfFuel`, which the theorems show is never reached
  once the fuel exceeds the number of vertices.
-/

namespace Tmoc

/-! ## Data model -/

/-- Ways in which a call can terminate abnormally. -/
inductive Failure where
  | undirectedInput
  | backEdge (x y : Nat)
  | cannotClassify (x y : Nat)
  | emptyStack
  | outOfFuel
  deriving DecidableEq, Repr

/-- The `Graph` struct; each `*edge` linked list is the list of its `y` fields
read from the head. -/
structure Graph where
  directed : Bool
  edges : List (List Nat)
  nEdges : Nat
  nVertices : Nat
  deriving DecidableEq, Repr

/-- The zero value `&Graph{}`. -/
def Graph.zero : Graph := ⟨false, [], 0, 0⟩

/-- The `TraversalData` struct. -/
structure TraversalData where
  discovered : List Bool
  processed : List Bool
  parent : List Nat
  time : Nat
  entryTime : List Nat
  exitTime : List Nat
  deriving DecidableEq, Repr

/-- The zero value `&TraversalData{}`. -/
def TraversalData.zero : TraversalData := ⟨[], [], [], 0, [], []⟩

/-- The `EdgeClass` constants. -/
inductive EdgeClass where
  | TREE
  | BACK
  | FORWARD
  | CROSS
  deriving DecidableEq, Repr

/-- The function `adjustSize`. -/
def adjustSize (size : Nat) : Nat := size + 1

/-- The adjacency sequence `g.edges[v]`, read from the head. -/
def Graph.adj (g : Graph) (v : Nat) : List Nat := g.edges.getD v []

/-- Read `data.discovered[v]`. -/
def TraversalData.disc (d : TraversalData) (v : Nat) : Bool := d.discovered.getD v false

/-- Read `data.processed[v]`. -/
def TraversalData.proc (d : TraversalData) (v : Nat) : Bool := d.processed.getD v false

/-- Read `data.parent[v]`. -/
def TraversalData.par (d : TraversalData) (v : Nat) : Nat := d.parent.getD v 0

/-- Read `data.entryTime[v]`. -/
def TraversalData.entry (d : TraversalData) (v : Nat) : Nat := d.entryTime.getD v 0

/-- Read `data.exitTime[v]`. -/
def TraversalData.exit (d : TraversalData) (v : Nat) : Nat := d.exitTime.getD v 0

/-- The function `edgeClassification`; the `log.Fatalf` branch is the failure
`cannotClassify`. -/
def edgeClassification (x y : Nat) (data : TraversalData) : Except Failure EdgeClass :=
  if data.par y = x then .ok .TREE
  else if data.disc y = true ∧ data.proc y = false then .ok .BACK
  else if data.proc y = true ∧ data.entry y > data.entry x then .ok .FORWARD
  else if data.proc y = true ∧ data.entry y < data.entry x then .ok .CROSS
  else .error (.cannotClassify x y)

/-- The method `(*TraversalData).Init`; it leaves `time` untouched. -/
def TraversalData.Init (data : TraversalData) (g : Graph) : TraversalData :=
  let size := adjustSize g.nVertices
  { data with
    discovered := List.replicate size false
    processed := List.replicate size false
    parent := List.replicate size 0
    entryTime := List.replicate size 0
    exitTime := List.replicate size 0 }

/-- The assignment `data.discovered[v] = true`. -/
def TraversalData.markDiscovered (d : TraversalData) (v : Nat) : TraversalData :=
  { d with discovered := d.discovered.set v true }

/-- The assignment `data.processed[v] = true`. -/
def TraversalData.markProcessed (d : TraversalData) (v : Nat) : TraversalData :=
  { d with processed := d.processed.set v true }

/-- The assignment `data.parent[y] = v`. -/
def TraversalData.setParent (d : TraversalData) (y v : Nat) : TraversalData :=
  { d with parent := d.parent.set y v }

/-- The statements `data.time++; data.entryTime[v] = data.time`. -/
def TraversalData.stampEntry (d : TraversalData) (v : Nat) : TraversalData :=
  { d with time := d.time + 1, entryTime := d.entryTime.set v (d.time + 1) }

/-- The statements `data.exitTime[v] = data.time; data.time++`. -/
def TraversalData.stampExit (d : TraversalData) (v : Nat) : TraversalData :=
  { d with exitTime := d.exitTime.set v d.time, time := d.time + 1 }

/-! ## Construction -/

/-- The method `insertEdge`: the new node is placed at the head of `x`'s list;
an undirected insertion calls itself once more, directed, with the endpoints
swapped, and only that inner call counts the edge. -/
def Graph.insertEdge (g : Graph) (directed : Bool) (x y : Nat) : Graph :=
  let g1 := { g with edges := g.edges.set x (y :: g.edges.getD x []) }
  if directed then { g1 with nEdges := g1.nEdges + 1 }
  else
    let g2 := { g1 with edges := g1.edges.set y (x :: g1.edges.getD y []) }
    { g2 with nEdges := g2.nEdges + 1 }

/-- The second loop of `Init`: `xIndex` runs over `0, 2, 4, ...` while
`xIndex < length - 1`, so a trailing unpaired element is skipped. -/
def Graph.insertPairs (directed : Bool) : List Nat → Graph → Graph
  | x :: y :: rest, g => Graph.insertPairs directed rest (g.insertEdge directed x y)
  | _, g => g

/-- The method `(*Graph).Init`.  `keyMap` is the set of distinct values of
`edgeList`; `nEdges` is not reset. -/
def Graph.Init (g : Graph) (directed : Bool) (edgeList : List Nat) : Graph :=
  let nVertices := edgeList.dedup.length
  Graph.insertPairs directed edgeList
    { g with
      directed := directed
      nVertices := nVertices
      edges := List.replicate (adjustSize nVertices) [] }

/-! ## Traversal engine -/

/-- The three hooks handed to a traversal, over captured variables `σ`. -/
structure Hooks (σ : Type) where
  pve : Nat → TraversalData → σ → Except Failure σ
  pvl : Nat → TraversalData → σ → Except Failure σ
  pe : Nat → Nat → TraversalData → σ → Except Failure σ

/-- The inner loop of `BreadthFirstTraversal` over the adjacency of
`currentVertex`; the state is the data, the queue and the captured variables. -/
def bfsEdges {σ : Type} (g : Graph) (h : Hooks σ) (currentVertex : Nat) :
    List Nat → TraversalData × List Nat × σ → Except Failure (TraversalData × List Nat × σ)
  | [], st => .ok st
  | y :: ys, (data, queue, a) =>
    match (if g.directed = true ∨ data.proc y = false then h.pe currentVertex y data a
           else .ok a) with
    | .error e => .error e
    | .ok a1 =>
      if data.disc y = false then
        bfsEdges g h currentVertex ys
          ((data.markDiscovered y).setParent y currentVertex, queue ++ [y], a1)
      else bfsEdges g h currentVertex ys (data, queue, a1)

/-- The outer loop `for queue.Len() != 0` of `BreadthFirstTraversal`. -/
def bfsLoop {σ : Type} (g : Graph) (h : Hooks σ) :
    Nat → TraversalData × List Nat × σ → Except Failure (TraversalData × σ)
  | _, (data, [], a) => .ok (data, a)
  | 0, (_, _ :: _, _) => .error .outOfFuel
  | fuel + 1, (data, currentVertex :: queue, a) =>
    match h.pve currentVertex data a with
    | .error e => .error e
    | .ok a1 =>
      match bfsEdges g h currentVertex (g.adj currentVertex)
          (data.markProcessed currentVertex, queue, a1) with
      | .error e => .error e
      | .ok (data2, queue2, a2) =>
        match h.pvl currentVertex data2 a2 with
        | .error e => .error e
        | .ok a3 => bfsLoop g h fuel (data2, queue2, a3)

/-- The method `BreadthFirstTraversal`. -/
def BreadthFirstTraversal {σ : Type} (g : Graph) (fuel : Nat) (start : Nat) (h : Hooks σ)
    (st : TraversalData × σ) : Except Failure (TraversalData × σ) :=
  bfsLoop g h fuel (st.1.markDiscovered start, [start], st.2)

/-- The adjacency loop of `depthFirstTraverseVertex`; `rec` is the recursive
call. -/
def dfsEdges {σ : Type} (g : Graph) (h : Hooks σ)
    (rec : Nat → TraversalData × σ → Except Failure (TraversalData × σ)) (v : Nat) :
    List Nat → TraversalData × σ → Except Failure (TraversalData × σ)
  | [], st => .ok st
  | y :: ys, (data, a) =>
    if data.disc y = false then
      match h.pe v y (data.setParent y v) a with
      | .error e => .error e
      | .ok a1 =>
        match rec y (data.setParent y v, a1) with
        | .error e => .error e
        | .ok st2 => dfsEdges g h rec v ys st2
    else if g.directed = true ∨ (data.proc y = false ∧ data.par v ≠ y) then
      match h.pe v y data a with
      | .error e => .error e
      | .ok a1 => dfsEdges g h rec v ys (data, a1)
    else dfsEdges g h rec v ys (data, a)

/-- The method `depthFirstTraverseVertex`. -/
def depthFirstTraverseVertex {σ : Type} (g : Graph) (h : Hooks σ) :
    Nat → Nat → TraversalData × σ → Except Failure (TraversalData × σ)
  | 0, _, _ => .error .outOfFuel
  | fuel + 1, v, (data, a) =>
    match h.pve v (data.markDiscovered v) a with
    | .error e => .error e
    | .ok a1 =>
      match dfsEdges g h (fun y st => depthFirstTraverseVertex g h fuel y st) v (g.adj v)
          ((data.markDiscovered v).stampEntry v, a1) with
      | .error e => .error e
      | .ok (data3, a3) =>
        match h.pvl v (data3.markProcessed v) a3 with
        | .error e => .error e
        | .ok a4 => .ok ((data3.markProcessed v).stampExit v, a4)

/-- The method `DepthFirstTraversal`. -/
def DepthFirstTraversal {σ : Type} (g : Graph) (fuel : Nat) (start : Nat) (h : Hooks σ)
    (st : TraversalData × σ) : Except Failure (TraversalData × σ) :=
  depthFirstTraverseVertex g h fuel start st

/-! ## Algorithms -/

/-- Hooks `func(...) {}` that do nothing. -/
def noHooks : Hooks Unit :=
  ⟨fun _ _ a => .ok a, fun _ _ a => .ok a, fun _ _ _ a => .ok a⟩

/-- The loop `for i := 1; i <= g.nVertices; i++` of `ConnectedComponents`. -/
def ccLoop (g : Graph) (fuel : Nat) :
    List Nat → TraversalData × Nat → Except Failure (TraversalData × Nat)
  | [], st => .ok st
  | i :: rest, (data, count) =>
    if data.disc i = false then
      match BreadthFirstTraversal g fuel i noHooks (data, ()) with
      | .error e => .error e
      | .ok (data1, _) => ccLoop g fuel rest (data1, count + 1)
    else ccLoop g fuel rest (data, count)

/-- The method `ConnectedComponents`. -/
def ConnectedComponents (g : Graph) (fuel : Nat) : Except Failure Nat :=
  if g.nVertices = 0 then .ok 0
  else
    match ccLoop g fuel (List.range' 1 g.nVertices) (TraversalData.zero.Init g, 0) with
    | .error e => .error e
    | .ok (_, count) => .ok count

/-- The hooks of `Bipartite`; the captured variables are `bipartite` and
`color`. -/
def bipartiteHooks : Hooks (Bool × List Nat) where
  pve := fun _ _ a => .ok a
  pvl := fun _ _ a => .ok a
  pe := fun x y _ a =>
    if a.2.getD x 0 = a.2.getD y 0 then .ok (false, a.2)
    else if a.2.getD x 0 = 1 then .ok (a.1, a.2.set y 2)
    else .ok (a.1, a.2.set y 1)

/-- The loop of `Bipartite`, which breaks as soon as `bipartite` is false. -/
def bipartiteLoop (g : Graph) (fuel : Nat) :
    List Nat → TraversalData × Bool × List Nat → Except Failure (TraversalData × Bool × List Nat)
  | [], st => .ok st
  | i :: rest, (data, bipartite, color) =>
    if bipartite = false then .ok (data, bipartite, color)
    else if data.disc i = false then
      match BreadthFirstTraversal g fuel i bipartiteHooks (data, bipartite, color.set i 1) with
      | .error e => .error e
      | .ok st1 => bipartiteLoop g fuel rest st1
    else bipartiteLoop g fuel rest (data, bipartite, color)

/-- The method `Bipartite`. -/
def Bipartite (g : Graph) (fuel : Nat) : Except Failure Bool :=
  if g.nVertices = 0 then .ok true
  else
    match bipartiteLoop g fuel (List.range' 1 g.nVertices)
        (TraversalData.zero.Init g, true, List.replicate (adjustSize g.nVertices) 0) with
    | .error e => .error e
    | .ok (_, bipartite, _) => .ok bipartite

/-- The hooks of `HasCycles`; the captured variable is `hasCycles`. -/
def hasCyclesHooks : Hooks Bool where
  pve := fun _ _ a => .ok a
  pvl := fun _ _ a => .ok a
  pe := fun x y data a =>
    if data.disc y = true ∧ data.par x ≠ y then .ok true else .ok a

/-- The method `HasCycles`. -/
def HasCycles (g : Graph) (fuel : Nat) : Except Failure Bool :=
  if g.nVertices = 0 then .ok false
  else
    match DepthFirstTraversal g fuel 1 hasCyclesHooks (TraversalData.zero.Init g, false) with
    | .error e => .error e
    | .ok (_, hasCycles) => .ok hasCycles

/-- The captured variables of `ArticulationVertices`; the Go map `cutNodes` is
an association list with at most one entry per key. -/
structure CutState where
  cutNodes : List (Nat × String)
  ancestor : List Nat
  outDegree : List Nat
  deriving DecidableEq, Repr

/-- The map assignment `m[k] = s`. -/
def mapSet (m : List (Nat × String)) (k : Nat) (s : String) : List (Nat × String) :=
  (k, s) :: m.filter (fun p => p.1 ≠ k)

/-- The hooks of `ArticulationVertices`. -/
def articulationHooks : Hooks CutState where
  pve := fun v _ a => .ok { a with ancestor := a.ancestor.set v v }
  pvl := fun v data a =>
    if data.par v = 0 ∧ a.outDegree.getD v 0 > 1 then
      .ok { a with cutNodes := mapSet a.cutNodes v "root" }
    else
      let parentIsRoot : Bool := data.par (data.par v) = 0
      let a1 : CutState :=
        if parentIsRoot = false then
          if a.ancestor.getD v 0 = data.par v then
            { a with cutNodes := mapSet a.cutNodes (data.par v) "parent" }
          else if a.ancestor.getD v 0 = v then
            if a.outDegree.getD v 0 > 0 then
              { a with cutNodes := mapSet (mapSet a.cutNodes (data.par v) "bridge") v "bridge" }
            else { a with cutNodes := mapSet a.cutNodes (data.par v) "bridge" }
          else a
        else a
      let timeV := data.entry (a1.ancestor.getD v 0)
      let timeParent := data.entry (a1.ancestor.getD (data.par v) 0)
      if timeV < timeParent then
        .ok { a1 with ancestor := a1.ancestor.set (data.par v) (a1.ancestor.getD v 0) }
      else .ok a1
  pe := fun x y data a =>
    match edgeClassification x y data with
    | .error e => .error e
    | .ok cls =>
      if cls = .TREE then
        .ok { a with outDegree := a.outDegree.set x (a.outDegree.getD x 0 + 1) }
      else if cls = .BACK ∧ data.par x ≠ y then
        if data.entry y < data.entry (a.ancestor.getD x 0) then
          .ok { a with ancestor := a.ancestor.set x y }
        else .ok a
      else .ok a

/-- The method `ArticulationVertices`. -/
def ArticulationVertices (g : Graph) (fuel : Nat) (start : Nat) :
    Except Failure (List (Nat × String)) :=
  if g.nVertices = 0 then .ok []
  else
    match DepthFirstTraversal g fuel start articulationHooks
        (TraversalData.zero.Init g,
          { cutNodes := []
            ancestor := List.replicate (adjustSize g.nVertices) 0
            outDegree := List.replicate (adjustSize g.nVertices) 0 }) with
    | .error e => .error e
    | .ok (_, a) => .ok a.cutNodes

/-- The hooks of `TopologicalSort`; the captured variable is `sorted`. -/
def topologicalHooks : Hooks (List Nat) where
  pve := fun _ _ a => .ok a
  pvl := fun v _ a => .ok (a ++ [v])
  pe := fun x y data a =>
    if data.disc y = true ∧ data.proc y = false then .error (.backEdge x y) else .ok a

/-- A loop `for i := 1; i <= g.nVertices; i++` running one depth-first
traversal from every vertex that is still undiscovered. -/
def dfsAll {σ : Type} (g : Graph) (fuel : Nat) (h : Hooks σ) :
    List Nat → TraversalData × σ → Except Failure (TraversalData × σ)
  | [], st => .ok st
  | i :: rest, (data, a) =>
    if data.disc i = false then
      match DepthFirstTraversal g fuel i h (data, a) with
      | .error e => .error e
      | .ok st1 => dfsAll g fuel h rest st1
    else dfsAll g fuel h rest (data, a)

/-- The method `TopologicalSort`. -/
def TopologicalSort (g : Graph) (fuel : Nat) : Except Failure (List Nat) :=
  if g.directed = false then .error .undirectedInput
  else
    match dfsAll g fuel topologicalHooks (List.range' 1 g.nVertices)
        (TraversalData.zero.Init g, []) with
    | .error e => .error e
    | .ok (_, sorted) => .ok sorted

/-- The captured variables of `StronglyConnectedComponents`; `active` is the
stack, its front first. -/
structure SccState where
  componentCount : Nat
  scc : List Nat
  low : List Nat
  active : List Nat
  deriving DecidableEq, Repr

/-- The pops of the `pvl` hook of `StronglyConnectedComponents`: pop `current`;
while it differs from `v`, label it and pop again.  Popping the empty stack
panics. -/
def popComponent (v componentCount : Nat) :
    List Nat → List Nat → Except Failure (List Nat × List Nat)
  | [], _ => .error .emptyStack
  | current :: active, scc =>
    if current = v then .ok (active, scc)
    else popComponent v componentCount active (scc.set current componentCount)

/-- The first half of the `pvl` hook of `StronglyConnectedComponents`: when
`low[v] == v` a component is completed and popped off the stack. -/
def sccComplete (v : Nat) (a : SccState) : Except Failure SccState :=
  if a.low.getD v 0 = v then
    match popComponent v (a.componentCount + 1) a.active
        (a.scc.set v (a.componentCount + 1)) with
    | .error e => .error e
    | .ok (active, scc) =>
      .ok { a with componentCount := a.componentCount + 1, scc := scc, active := active }
  else .ok a

/-- The hooks of `StronglyConnectedComponents`. -/
def sccHooks : Hooks SccState where
  pve := fun v _ a => .ok { a with active := v :: a.active }
  pvl := fun v data a =>
    match sccComplete v a with
    | .error e => .error e
    | .ok a1 =>
      if data.par v > 0 ∧
          data.entry (a1.low.getD v 0) < data.entry (a1.low.getD (data.par v) 0) then
        .ok { a1 with low := a1.low.set (data.par v) (a1.low.getD v 0) }
      else .ok a1
  pe := fun x y data a =>
    match edgeClassification x y data with
    | .error e => .error e
    | .ok cls =>
      if cls = .BACK then
        if data.entry y < data.entry (a.low.getD x 0) then .ok { a with low := a.low.set x y }
        else .ok a
      else if cls = .CROSS ∧ a.scc.getD y 0 = 0 ∧
          data.entry y < data.entry (a.low.getD x 0) then
        .ok { a with low := a.low.set x y }
      else .ok a

/-- The method `StronglyConnectedComponents`. -/
def StronglyConnectedComponents (g : Graph) (fuel : Nat) : Except Failure (Nat × List Nat) :=
  if g.directed = false then .error .undirectedInput
  else
    match dfsAll g fuel sccHooks (List.range' 1 g.nVertices)
        (TraversalData.zero.Init g,
          { componentCount := 0
            scc := List.replicate (adjustSize g.nVertices) 0
            low := List.range (adjustSize g.nVertices)
            active := [] }) with
    | .error e => .error e
    | .ok (_, a) => .ok (a.componentCount, a.scc)

/-! ## Specification vocabulary -/

/-- The distinct ids of the pair list are exactly `1..n`. -/
def DenseIds (pairs : List Nat) (n : Nat) : Prop :=
  (∀ x ∈ pairs, 1 ≤ x ∧ x ≤ n) ∧ ∀ x ∈ List.range' 1 n, x ∈ pairs

instance (pairs : List Nat) (n : Nat) : Decidable (DenseIds pairs n) := by
  unfold DenseIds; infer_instance

/-- A graph over the dense ids `1..nVertices`: one adjacency list per index
`0..nVertices`, every neighbour an id, none stored at index 0. -/
structure Graph.Dense (g : Graph) : Prop where
  edges_length : g.edges.length = g.nVertices + 1
  adj_range : ∀ v, ∀ y ∈ g.adj v, 1 ≤ y ∧ y ≤ g.nVertices
  adj_zero : g.adj 0 = []

/-- What a scan of the complete pairs `(a, b)` in list order emits for the
vertex `x`: `b` when `a = x`, and then, in an undirected graph only, `a` when
`b = x`. -/
def emitted (directed : Bool) (x : Nat) : List Nat → List Nat
  | a :: b :: rest =>
    (if a = x then [b] else []) ++ (if directed = false ∧ b = x then [a] else []) ++
      emitted directed x rest
  | _ => []

/-- There is an edge `x -> y`: `y` occurs in the adjacency sequence of `x`. -/
def Graph.Adj (g : Graph) (x y : Nat) : Prop := y ∈ g.adj x

instance (g : Graph) (x y : Nat) : Decidable (g.Adj x y) := by
  unfold Graph.Adj; infer_instance

/-- The vertex `y` is reachable from `x` along edges (in zero or more steps). -/
def Graph.Reach (g : Graph) (x y : Nat) : Prop := Relation.ReflTransGen g.Adj x y

/-- The graph contains a directed cycle; a self-loop is one. -/
def Graph.Cyclic (g : Graph) : Prop := ∃ v, Relation.TransGen g.Adj v v

/-- All five slices of the traversal data have the length `n + 1` that
`TraversalData.Init` gives them. -/
structure TraversalData.Sized (d : TraversalData) (n : Nat) : Prop where
  discovered : d.discovered.length = n + 1
  processed : d.processed.length = n + 1
  parent : d.parent.length = n + 1
  entryTime : d.entryTime.length = n + 1
  exitTime : d.exitTime.length = n + 1

/-- The number of indices `0..n` not yet marked discovered. -/
def TraversalData.undisc (d : TraversalData) : Nat := d.discovered.count false

/-- Discovered but not yet processed: the vertex is on the recursion stack. -/
def TraversalData.gray (d : TraversalData) (u : Nat) : Prop :=
  d.disc u = true ∧ d.proc u = false

/-- The vertex `p` is the parent of `c` in the tree given by the parent
pointers (`0` means no parent). -/
def TraversalData.ParentStep (d : TraversalData) (p c : Nat) : Prop :=
  d.par c = p ∧ p ≠ 0

/-- The vertex `u` is `v` or an ancestor of `v` in the tree of parent pointers. -/
def TraversalData.Anc (d : TraversalData) (u v : Nat) : Prop :=
  Relation.ReflTransGen d.ParentStep u v

/-- The vertex `u` is a proper ancestor of `v` in the tree of parent pointers. -/
def TraversalData.PAnc (d : TraversalData) (u v : Nat) : Prop :=
  Relation.TransGen d.ParentStep u v

/-- What holds of the traversal data between any two steps of depth-first
traversals that started on freshly initialised data. -/
structure DfsInv (g : Graph) (d : TraversalData) : Prop where
  sized : d.Sized g.nVertices
  proc_disc : ∀ u, d.proc u = true → d.disc u = true
  entry_pos : ∀ u, d.disc u = true → 1 ≤ d.entry u ∧ d.entry u ≤ d.time
  entry_inj : ∀ u w, d.disc u = true → d.disc w = true → d.entry u = d.entry w → u = w
  par_entry : ∀ c, d.disc c = true → d.par c ≠ 0 →
    d.disc (d.par c) = true ∧ d.entry (d.par c) < d.entry c
  par_adj : ∀ c, d.par c ≠ 0 → g.Adj (d.par c) c
  proc_closed : ∀ x, d.proc x = true → ∀ y ∈ g.adj x, d.disc y = true

/-- How the data `d` after some steps of a call on `v` relates to the data
`d0` in which the call started: what was discovered keeps its record, and what
is new lies below `v`. -/
structure DfsFrame (v : Nat) (d0 d : TraversalData) : Prop where
  undisc_start : d0.disc v = false
  keep : ∀ u, d0.disc u = true →
    d.disc u = true ∧ d.proc u = d0.proc u ∧ d.entry u = d0.entry u ∧ d.par u = d0.par u
  keep_par : d.par v = d0.par v
  fresh_below : ∀ u, d.disc u = true → d0.disc u = false → d.Anc v u
  undisc_lt : d.undisc < d0.undisc

/-- The data precondition of a call of `depthFirstTraverseVertex` on `v` with
fuel `k`: `v` is an undiscovered vertex whose parent pointer, if set, names the
calling vertex, and the gray vertices are exactly its proper ancestors. -/
structure DfsPre (g : Graph) (k v : Nat) (d : TraversalData) : Prop where
  inv : DfsInv g d
  range : 1 ≤ v ∧ v ≤ g.nVertices
  undisc : d.disc v = false
  fuel : d.undisc ≤ k
  fresh_par : ∀ u, d.disc u = false → u ≠ v → d.par u = 0
  gray_anc : ∀ u, d.gray u ↔ d.PAnc u v

/-- The data invariant of the adjacency loop of a call on `v` that started in
`d0`, with `ys` still to scan. -/
structure DfsLoop (g : Graph) (k v : Nat) (d0 : TraversalData) (ys : List Nat)
    (d : TraversalData) : Prop where
  inv : DfsInv g d
  range : 1 ≤ v ∧ v ≤ g.nVertices
  gray_self : d.gray v
  fuel : d.undisc ≤ k
  scanned : ∃ done, g.adj v = done ++ ys ∧ ∀ y ∈ done, d.disc y = true
  fresh_par : ∀ u, d.disc u = false → d.par u = 0
  gray_anc : ∀ u, d.gray u ↔ d.Anc u v
  later_below : ∀ w, d.disc w = true → d.entry v < d.entry w → d.PAnc v w
  new_done : ∀ u, d.disc u = true → d0.disc u = false → u = v ∨ d.proc u = true
  frame : DfsFrame v d0 d

/-- The data postcondition of a call on `v` that started in `d0`. -/
structure DfsPost (g : Graph) (v : Nat) (d0 d : TraversalData) : Prop where
  inv : DfsInv g d
  fresh_par : ∀ u, d.disc u = false → d.par u = 0
  new_done : ∀ u, d.disc u = true → d0.disc u = false → d.proc u = true
  done_self : d.disc v = true
  frame : DfsFrame v d0 d

/-- What holds of the traversal data between two runs from different roots:
the invariant, no parent pointer on an undiscovered vertex, and nothing left
on the recursion stack. -/
structure DfsIdle (g : Graph) (d : TraversalData) : Prop where
  inv : DfsInv g d
  fresh_par : ∀ u, d.disc u = false → d.par u = 0
  no_gray : ∀ u, d.disc u = true → d.proc u = true

/-- Hooks whose edge hook first calls `edgeClassification`, as the edge hooks
of `ArticulationVertices` and `StronglyConnectedComponents` do, and then goes
on as the edge hook of `h`. -/
def withClassification {σ : Type} (h : Hooks σ) : Hooks σ where
  pve := h.pve
  pvl := h.pvl
  pe := fun x y data a =>
    match edgeClassification x y data with
    | .error e => .error e
    | .ok _ => h.pe x y data a

/-- A sequence of `DepthFirstTraversal` runs, one from each of the given start
vertices in turn, all sharing one `TraversalData`. -/
def dfsRuns {σ : Type} (g : Graph) (fuel : Nat) (h : Hooks σ) :
    List Nat → TraversalData × σ → Except Failure (TraversalData × σ)
  | [], st => .ok st
  | i :: rest, st =>
    match DepthFirstTraversal g fuel i h st with
    | .error e => .error e
    | .ok st1 => dfsRuns g fuel h rest st1

/-- Hooks that record every invocation `pe(x, y)` of the edge hook together
with the traversal data it is handed. -/
def recordEdges : Hooks (List (Nat × Nat × TraversalData)) where
  pve := fun _ _ a => .ok a
  pvl := fun _ _ a => .ok a
  pe := fun x y data a => .ok (a ++ [(x, y, data)])

/-- The class that `edgeClassification x y data` returns agrees with the tree of
parent pointers of `data`. -/
def ClassAgrees (x y : Nat) (data : TraversalData) : Prop :=
  match edgeClassification x y data with
  | .ok .TREE => data.par y = x
  | .ok .BACK => (y = x ∨ data.PAnc y x) ∧ data.proc y = false
  | .ok .FORWARD => data.proc y = true ∧ data.PAnc x y
  | .ok .CROSS => data.proc y = true ∧ ¬ data.Anc y x ∧ ¬ data.Anc x y
  | .error _ => False

/-- What `TopologicalSort` maintains of `sorted`: it lists the processed
vertices, each once, and every neighbour of a processed vertex stands before it. -/
structure SortedInv (g : Graph) (d : TraversalData) (sorted : List Nat) : Prop where
  mem_iff : ∀ u, d.proc u = true ↔ u ∈ sorted
  nodup : sorted.Nodup
  before : ∀ x, d.proc x = true → ∀ y ∈ g.adj x,
    y ∈ sorted ∧ sorted.indexOf y < sorted.indexOf x
  range : ∀ u ∈ sorted, 1 ≤ u ∧ u ≤ g.nVertices

/-- What holds of the traversal data and the queue between any two steps of a
breadth-first traversal: the queue lists, each once, the vertices that are
discovered but not yet processed, and a parent pointer names a processed
neighbour. -/
structure BfsInv (g : Graph) (d : TraversalData) (q : List Nat) : Prop where
  sized : d.Sized g.nVertices
  proc_disc : ∀ u, d.proc u = true → d.disc u = true
  queue_iff : ∀ u, u ∈ q ↔ (d.disc u = true ∧ d.proc u = false)
  queue_nodup : q.Nodup
  disc_range : ∀ u, d.disc u = true → 1 ≤ u ∧ u ≤ g.nVertices
  par_proc : ∀ u, d.par u ≠ 0 → d.proc (d.par u) = true ∧ g.Adj (d.par u) u ∧ d.disc u = true

/-- The data invariant of the queue loop of `BreadthFirstTraversal` with fuel
`k`: every neighbour of a processed vertex is discovered. -/
structure BfsOuter (g : Graph) (k : Nat) (d : TraversalData) (q : List Nat) : Prop where
  inv : BfsInv g d q
  closed : ∀ x, d.proc x = true → ∀ y ∈ g.adj x, d.disc y = true
  fuel : q.length + d.undisc ≤ k

/-- The data invariant of the adjacency loop of the dequeued vertex `x`, with
`ys` still to scan. -/
structure BfsScan (g : Graph) (k x : Nat) (ys : List Nat) (d : TraversalData)
    (q : List Nat) : Prop where
  inv : BfsInv g d q
  proc_self : d.proc x = true
  range : 1 ≤ x ∧ x ≤ g.nVertices
  closed : ∀ z, d.proc z = true → z ≠ x → ∀ y ∈ g.adj z, d.disc y = true
  scanned : ∃ done, g.adj x = done ++ ys ∧ ∀ y ∈ done, d.disc y = true
  fuel : q.length + d.undisc ≤ k

/-- The number of recorded invocations `pe(a, b)` of the edge hook. -/
def edgeCalls (tr : List (Nat × Nat × TraversalData)) (a b : Nat) : Nat :=
  tr.countP (fun e => decide (e.1 = a ∧ e.2.1 = b))

/-- The number of occurrences in the pair list of the pair `(a, b)`, in either
order, among the complete pairs. -/
def pairOccurrences (a b : Nat) : List Nat → Nat
  | x :: y :: rest =>
    (if (x = a ∧ y = b) ∨ (x = b ∧ y = a) then 1 else 0) + pairOccurrences a b rest
  | _ => 0

/-- What holds of the recorded edge-hook invocations of a breadth-first
traversal from `start` at the head of the queue loop. -/
structure BfsCallsOuter (g : Graph) (start : Nat) (d : TraversalData)
    (tr : List (Nat × Nat × TraversalData)) : Prop where
  start_disc : d.disc start = true
  reach : ∀ u, d.disc u = true → g.Reach start u
  entries : ∀ e ∈ tr, e.1 ≠ e.2.1 ∧ e.2.2.par e.1 ≠ e.2.1 ∧ d.par e.1 ≠ e.2.1 ∧
    d.disc e.1 = true
  calls : ∀ a b, a ≠ b →
    edgeCalls tr a b + edgeCalls tr b a =
      if d.proc a = true ∨ d.proc b = true then (g.adj a).count b else 0

/-- What holds of the recorded edge-hook invocations during the adjacency loop
of the dequeued vertex `x`, with `ys` still to scan. -/
structure BfsCallsScan (g : Graph) (start x : Nat) (ys : List Nat) (d : TraversalData)
    (tr : List (Nat × Nat × TraversalData)) : Prop where
  start_disc : d.disc start = true
  reach : ∀ u, d.disc u = true → g.Reach start u
  entries : ∀ e ∈ tr, e.1 ≠ e.2.1 ∧ e.2.2.par e.1 ≠ e.2.1 ∧ d.par e.1 ≠ e.2.1 ∧
    d.disc e.1 = true
  calls_self : ∃ done, g.adj x = done ++ ys ∧ ∀ b, b ≠ x →
    edgeCalls tr x b + edgeCalls tr b x =
      if d.proc b = true then (g.adj x).count b else done.count b
  calls_other : ∀ a b, a ≠ b → a ≠ x → b ≠ x →
    edgeCalls tr a b + edgeCalls tr b a =
      if d.proc a = true ∨ d.proc b = true then (g.adj a).count b else 0

/-- What holds of the exit times: a processed vertex was left no earlier than it
was entered and before the current time, and before its parent was left. -/
structure ExitInv (d : TraversalData) : Prop where
  exit_time : ∀ u, d.proc u = true → d.entry u ≤ d.exit u ∧ d.exit u < d.time
  exit_parent : ∀ u, d.proc u = true → d.par u ≠ 0 → d.proc (d.par u) = true →
    d.exit u < d.exit (d.par u)

/-- How the data and the queue of a breadth-first traversal from `start` relate
to the data `d0` in which it started: what was discovered stays discovered, and
what is in the queue or newly discovered is reachable from `start`. -/
structure BfsReachOuter (g : Graph) (start : Nat) (d0 d : TraversalData) (q : List Nat) :
    Prop where
  start_disc : d.disc start = true
  keep : ∀ u, d0.disc u = true → d.disc u = true
  queue_reach : ∀ u ∈ q, g.Reach start u
  disc_reach : ∀ u, d.disc u = true → d0.disc u = true ∨ g.Reach start u

/-- The same during the adjacency loop of the dequeued vertex `x`. -/
structure BfsReachScan (g : Graph) (start x : Nat) (d0 d : TraversalData) (q : List Nat) :
    Prop where
  outer : BfsReachOuter g start d0 d q
  self_reach : g.Reach start x

/-- Modelled on the wording of the specification ("connectedComponents() computed
via breadth-first and via depth-first-based component counting must agree"); the
repository has no such function: the loop of `ConnectedComponents` with
`DepthFirstTraversal` in place of `BreadthFirstTraversal`. -/
def ccLoopDepthFirst (g : Graph) (fuel : Nat) :
    List Nat → TraversalData × Nat → Except Failure (TraversalData × Nat)
  | [], st => .ok st
  | i :: rest, (data, count) =>
    if data.disc i = false then
      match DepthFirstTraversal g fuel i noHooks (data, ()) with
      | .error e => .error e
      | .ok (data1, _) => ccLoopDepthFirst g fuel rest (data1, count + 1)
    else ccLoopDepthFirst g fuel rest (data, count)

/-- Modelled on the wording of the specification: component counting based on
the depth-first traversal, to be compared with `ConnectedComponents`. -/
def ConnectedComponentsDepthFirst (g : Graph) (fuel : Nat) : Except Failure Nat :=
  if g.nVertices = 0 then .ok 0
  else
    match ccLoopDepthFirst g fuel (List.range' 1 g.nVertices) (TraversalData.zero.Init g, 0) with
    | .error e => .error e
    | .ok (_, count) => .ok count

/-- There is a walk of exactly `k` edges from `s` to `v`. -/
def Graph.ReachIn (g : Graph) (s : Nat) : Nat → Nat → Prop
  | 0, v => v = s
  | k + 1, v => ∃ u, g.ReachIn s k u ∧ g.Adj u v

/-- The fewest-edges distance from `s` to `v` is `k`. -/
def Graph.Dist (g : Graph) (s v k : Nat) : Prop :=
  g.ReachIn s k v ∧ ∀ j, g.ReachIn s j v → k ≤ j

/-- What holds of the levels `lev` (the depth in the tree of parent pointers)
throughout a breadth-first traversal from `start` on fresh data. -/
structure BfsLevelCore (g : Graph) (start : Nat) (lev : Nat → Nat) (d : TraversalData) :
    Prop where
  lev_start : lev start = 0
  start_disc : d.disc start = true
  par_start : d.par start = 0
  walk : ∀ u, d.disc u = true → g.ReachIn start (lev u) u
  par_lev : ∀ u, d.disc u = true → u ≠ start → d.par u ≠ 0 ∧ lev u = lev (d.par u) + 1

/-- The level invariant at the head of the queue loop: no edge from a processed
vertex skips a level, the queue is ordered by level, and no level exceeds that
of the head of the queue by more than one. -/
structure BfsLevelOuter (g : Graph) (start : Nat) (lev : Nat → Nat) (d : TraversalData)
    (q : List Nat) : Prop where
  core : BfsLevelCore g start lev d
  edge : ∀ x, d.proc x = true → ∀ y ∈ g.adj x, lev y ≤ lev x + 1
  sorted : q.Pairwise (fun a b => lev a ≤ lev b)
  bound : ∀ h ∈ q.head?, ∀ u, d.disc u = true → lev u ≤ lev h + 1

/-- The level invariant during the adjacency loop of the dequeued vertex `x`. -/
structure BfsLevelScan (g : Graph) (start : Nat) (lev : Nat → Nat) (x : Nat) (ys : List Nat)
    (d : TraversalData) (q : List Nat) : Prop where
  core : BfsLevelCore g start lev d
  edge_other : ∀ z, d.proc z = true → z ≠ x → ∀ y ∈ g.adj z, lev y ≤ lev z + 1
  edge_done : ∃ done, g.adj x = done ++ ys ∧ ∀ y ∈ done, lev y ≤ lev x + 1
  sorted : q.Pairwise (fun a b => lev a ≤ lev b)
  bound : ∀ u, d.disc u = true → lev u ≤ lev x + 1
  queue_ge : ∀ w ∈ q, lev x ≤ lev w

/-- The graph has a closed walk of odd length (and so a cycle of odd length). -/
def Graph.OddClosedWalk (g : Graph) : Prop := ∃ v k, g.ReachIn v (2 * k + 1) v

/-- The vertices can be two-coloured so that the two endpoints of every edge get
different colours. -/
def Graph.TwoColourable (g : Graph) : Prop :=
  ∃ c : Nat → Bool, ∀ x y, g.Adj x y → c x ≠ c y

/-- The colour `Bipartite` gives to a vertex at the end of a walk of `k` edges
from the root, which it colours 1. -/
def levelColour (k : Nat) : Nat := if k % 2 = 0 then 1 else 2

/-- What holds of the captured variables of `Bipartite` at every step: exactly
the discovered vertices are coloured, with 1 or 2, and `bipartite` is false only
if the graph has a closed walk of odd length. -/
structure BipInv (g : Graph) (d : TraversalData) (st : Bool × List Nat) : Prop where
  size : st.2.length = g.nVertices + 1
  uncoloured : ∀ u, d.disc u = false → st.2.getD u 0 = 0
  coloured : ∀ u, d.disc u = true → st.2.getD u 0 = 1 ∨ st.2.getD u 0 = 2
  conflict : st.1 = false → g.OddClosedWalk

/-- The invariant of `Bipartite` at the head of the queue loop of a traversal
from the root `r`. -/
structure BipOuter (g : Graph) (r : Nat) (d : TraversalData) (q : List Nat)
    (st : Bool × List Nat) : Prop where
  inv : BipInv g d st
  proper : st.1 = true → ∀ x, d.proc x = true → ∀ y ∈ g.adj x, st.2.getD x 0 ≠ st.2.getD y 0
  walks : ∀ u ∈ q, ∃ k, g.ReachIn r k u ∧ st.2.getD u 0 = levelColour k

/-- The invariant of `Bipartite` during the adjacency loop of the dequeued
vertex `x`. -/
structure BipScan (g : Graph) (r x : Nat) (ys : List Nat) (d : TraversalData) (q : List Nat)
    (st : Bool × List Nat) : Prop where
  inv : BipInv g d st
  proper_other : st.1 = true → ∀ z, d.proc z = true → z ≠ x →
    ∀ y ∈ g.adj z, st.2.getD z 0 ≠ st.2.getD y 0
  proper_done : ∃ done, g.adj x = done ++ ys ∧
    (st.1 = true → ∀ y ∈ done, st.2.getD x 0 ≠ st.2.getD y 0)
  walks : ∀ u ∈ q, ∃ k, g.ReachIn r k u ∧ st.2.getD u 0 = levelColour k
  walk_self : ∃ k, g.ReachIn r k x ∧ st.2.getD x 0 = levelColour k

/-- The pair list contains no pair `(x, x)`. -/
def NoLoopPair : List Nat → Prop
  | a :: b :: rest => a ≠ b ∧ NoLoopPair rest
  | _ => True

instance : (pairs : List Nat) → Decidable (NoLoopPair pairs)
  | [] => isTrue trivial
  | [_] => isTrue trivial
  | a :: b :: rest =>
    have := instDecidableNoLoopPair rest
    inferInstanceAs (Decidable (a ≠ b ∧ NoLoopPair rest))

/-- The list `c` is a cycle of an undirected graph: at least three vertices,
all distinct, each adjacent to the next one and the last adjacent to the first. -/
def Graph.IsCycle (g : Graph) (c : List Nat) : Prop :=
  3 ≤ c.length ∧ c.Nodup ∧ List.Chain' g.Adj c ∧
    ∀ a ∈ c.getLast?, ∀ b ∈ c.head?, g.Adj a b

/-- The connected component of `s` contains a cycle: some cycle runs through
vertices reachable from `s` only. -/
def Graph.CycleInComponent (g : Graph) (s : Nat) : Prop :=
  ∃ c, g.IsCycle c ∧ ∀ v ∈ c, g.Reach s v

/-- Every edge at a processed vertex joins a vertex and its parent. -/
def TreeEdgesOnly (g : Graph) (d : TraversalData) : Prop :=
  ∀ x, d.proc x = true → ∀ y ∈ g.adj x, d.par y = x ∨ d.par x = y

/-- Some cycle runs through discovered vertices only. -/
def CycleSeen (g : Graph) (d : TraversalData) : Prop :=
  ∃ c, g.IsCycle c ∧ ∀ v ∈ c, d.disc v = true

/-- The entry `scc[w]` of the captured variables. -/
def SccState.comp (a : SccState) (w : Nat) : Nat := a.scc.getD w 0

/-- The entry `low[w]` of the captured variables. -/
def SccState.lowOf (a : SccState) (w : Nat) : Nat := a.low.getD w 0

/-- What `StronglyConnectedComponents` maintains between any two steps: the
stack `active` lists the discovered vertices without a component id, newest
first; the vertices with an id form complete strongly connected components,
closed under edges and numbered in the order of completion; every stack vertex
reaches a vertex of the recursion stack that is not newer, and is reached from
every vertex of the recursion stack that is not newer; `low` of a vertex of the
recursion stack is a stack vertex, not newer, that the vertex reaches. -/
structure SccInv (g : Graph) (d : TraversalData) (a : SccState) : Prop where
  scc_len : a.scc.length = g.nVertices + 1
  low_len : a.low.length = g.nVertices + 1
  sorted : a.active.Pairwise (fun x y => d.entry y < d.entry x)
  mem_iff : ∀ w, w ∈ a.active ↔ d.disc w = true ∧ a.comp w = 0
  assigned : ∀ w, a.comp w ≠ 0 → d.proc w = true ∧ a.comp w ≤ a.componentCount
  classes : ∀ w x, a.comp w ≠ 0 → (a.comp x = a.comp w ↔ g.Reach w x ∧ g.Reach x w)
  closed : ∀ x, a.comp x ≠ 0 → ∀ y ∈ g.adj x, a.comp y ≠ 0 ∧ a.comp y ≤ a.comp x
  used : ∀ c, 1 ≤ c → c ≤ a.componentCount → ∃ w, 1 ≤ w ∧ w ≤ g.nVertices ∧ a.comp w = c
  to_gray : ∀ w ∈ a.active, ∃ u, d.gray u ∧ d.entry u ≤ d.entry w ∧ g.Reach w u
  from_gray : ∀ u, d.gray u → ∀ w ∈ a.active, d.entry u ≤ d.entry w → g.Reach u w
  low_gray : ∀ u, d.gray u →
    a.lowOf u ∈ a.active ∧ d.entry (a.lowOf u) ≤ d.entry u ∧ g.Reach u (a.lowOf u)
  low_fresh : ∀ w, w ≤ g.nVertices → d.disc w = false → a.lowOf w = w

/-- The invariant of the adjacency loop of a call on `v` that started in
`(d0, a0)`, with `ys` still to scan: the stack is the one of the start with `v`
and a segment of vertices discovered since on top, and no edge scanned so far
from `v` or from the segment leads to a stack vertex older than `low[v]`. -/
structure SccLoop (g : Graph) (v : Nat) (d0 : TraversalData) (a0 : SccState) (ys : List Nat)
    (d : TraversalData) (a : SccState) : Prop where
  inv : SccInv g d a
  stack : ∃ seg, a.active = seg ++ v :: a0.active ∧ (∀ x ∈ seg, d0.disc x = false) ∧
    ∀ x ∈ seg, ∀ w ∈ g.adj x, w ∈ a.active → d.entry (a.lowOf v) ≤ d.entry w
  scanned : ∃ done, g.adj v = done ++ ys ∧
    ∀ w ∈ done, w ∈ a.active → d.entry (a.lowOf v) ≤ d.entry w
  low_keep : ∀ u, d0.disc u = true → a.lowOf u = a0.lowOf u

/-- The postcondition of a call on `v` that started in `(d0, a0)`: the stack is
the one of the start with a segment of vertices discovered since on top (empty
when `v` completed a component), no edge from the segment leads to a stack
vertex older than `low[v]`, and of the older vertices only the parent of `v`
may have a new `low`, which is not newer than before nor than `low[v]`. -/
structure SccPost (g : Graph) (v : Nat) (d0 : TraversalData) (a0 : SccState)
    (d : TraversalData) (a : SccState) : Prop where
  inv : SccInv g d a
  stack : ∃ seg, a.active = seg ++ a0.active ∧ (∀ x ∈ seg, d0.disc x = false) ∧
    (∀ x ∈ seg, ∀ w ∈ g.adj x, w ∈ a.active → d.entry (a.lowOf v) ≤ d.entry w) ∧
    (seg ≠ [] → d.entry (a.lowOf (d0.par v)) ≤ d.entry (a.lowOf v))
  low_keep : ∀ u, d0.disc u = true → u ≠ d0.par v → a.lowOf u = a0.lowOf u
  low_par : d0.par v ≠ 0 → d.entry (a.lowOf (d0.par v)) ≤ d.entry (a0.lowOf (d0.par v))

/-- The vertex `b` can be reached from `a` along edges without visiting `u`
after the first vertex and without leaving from `u`. -/
def Graph.ReachAvoiding (g : Graph) (u a b : Nat) : Prop :=
  Relation.ReflTransGen (fun x y => g.Adj x y ∧ x ≠ u ∧ y ≠ u) a b

/-- The vertex `v` is a cut vertex of the connected component of `start`: it
is reachable from `start`, and two vertices of the component, both different
from `v`, are connected only by paths through `v`. -/
def Graph.IsCutVertex (g : Graph) (start v : Nat) : Prop :=
  g.Reach start v ∧ ∃ a b, g.Reach start a ∧ g.Reach start b ∧ a ≠ v ∧ b ≠ v ∧
    ¬ g.ReachAvoiding v a b

/-- The entry `ancestor[u]` of the captured variables. -/
def CutState.anc (a : CutState) (u : Nat) : Nat := a.ancestor.getD u 0

/-- The entry `outDegree[u]` of the captured variables. -/
def CutState.deg (a : CutState) (u : Nat) : Nat := a.outDegree.getD u 0

/-- The keys of the map `cutNodes`. -/
def CutState.keys (a : CutState) : List Nat := a.cutNodes.map Prod.fst

/-- What `ArticulationVertices(start)` maintains between any two steps: every
key of `cutNodes` is a cut vertex; a processed vertex whose parent is not the
root either has its parent among the keys or reaches its grandparent without
passing through its parent; `ancestor` of a vertex on the recursion stack is
the vertex itself or an older vertex of the recursion stack, reached from the
vertex without passing through any other older vertex. -/
structure ArtInv (g : Graph) (start : Nat) (d : TraversalData) (a : CutState) : Prop where
  anc_len : a.ancestor.length = g.nVertices + 1
  deg_len : a.outDegree.length = g.nVertices + 1
  zero_disc : d.disc 0 = false
  zero_entry : d.entry 0 = 0
  zero_anc : a.anc 0 = 0
  reach : ∀ x, d.disc x = true → g.Reach start x
  sound : ∀ k ∈ a.keys, g.IsCutVertex start k
  complete : ∀ c, d.proc c = true → d.par c ≠ 0 → d.par (d.par c) ≠ 0 →
    d.par c ∈ a.keys ∨ g.ReachAvoiding (d.par c) c (d.par (d.par c))
  deg_fresh : ∀ w, w ≤ g.nVertices → d.disc w = false → a.deg w = 0
  anc_gray : ∀ v, d.gray v → a.anc v = v ∨ (d.gray (a.anc v) ∧ d.entry (a.anc v) < d.entry v)
  anc_reach : ∀ v, d.gray v → ∀ u, d.entry u < d.entry v → u ≠ a.anc v →
    g.ReachAvoiding u v (a.anc v)

/-- The invariant of the adjacency loop of a call on `v` that started in
`(d0, a0)`, with `ys` still to scan: `outDegree[v]` counts the children of `v`;
the children of a root are pairwise separated by it; and no edge scanned so far
from `v` (its parent edge apart) or from a vertex discovered below `v` leads to
a vertex older than `ancestor[v]`. -/
structure ArtLoop (g : Graph) (start v : Nat) (d0 : TraversalData) (a0 : CutState)
    (ys : List Nat) (d : TraversalData) (a : CutState) : Prop where
  inv : ArtInv g start d a
  kids : ∃ cs : List Nat, cs.Nodup ∧ cs.length = a.deg v ∧
    ∀ c, c ∈ cs ↔ d.disc c = true ∧ d.par c = v
  root_sep : d.par v = 0 → ∀ c1 c2, d.disc c1 = true → d.par c1 = v → d.disc c2 = true →
    d.par c2 = v → c1 ≠ c2 → ¬ g.ReachAvoiding v c1 c2
  bound_self : ∃ done, g.adj v = done ++ ys ∧
    ∀ y ∈ done, y ≠ d.par v → d.entry (a.anc v) ≤ d.entry y
  bound_below : ∀ x, d.disc x = true → d0.disc x = false → x ≠ v →
    ∀ y ∈ g.adj x, d.entry (a.anc v) ≤ d.entry y
  old_entry : ∀ y, d0.disc y = true → d.entry y < d.entry v
  old_closed : ∀ y, d0.proc y = true → ∀ x ∈ g.adj y, d0.disc x = true
  frame : ∀ u, d0.disc u = true → a.anc u = a0.anc u ∧ a.deg u = a0.deg u

/-- The postcondition of a call on `v` that started in `(d0, a0)`: no edge from
a vertex discovered by the call (the parent edge of `v` apart) leads to a vertex
older than `ancestor[v]`; `ancestor` of the parent is not newer than before nor
than `ancestor[v]`; nothing else changed for the older vertices; and a root
that is not a key has at most one child. -/
structure ArtPost (g : Graph) (start v : Nat) (d0 : TraversalData) (a0 : CutState)
    (d : TraversalData) (a : CutState) : Prop where
  inv : ArtInv g start d a
  bound : ∀ x, d.disc x = true → d0.disc x = false → ∀ y ∈ g.adj x,
    ¬ (x = v ∧ y = d0.par v) → d.entry (a.anc v) ≤ d.entry y
  par_le : d0.par v ≠ 0 → d.entry (a.anc (d0.par v)) ≤ d.entry (a.anc v) ∧
    d.entry (a.anc (d0.par v)) ≤ d.entry (a0.anc (d0.par v))
  frame : ∀ u, d0.disc u = true → a.deg u = a0.deg u ∧ (u ≠ d0.par v → a.anc u = a0.anc u)
  root_done : d0.par v = 0 → v ∈ a.keys ∨ ∀ c1 c2, d.disc c1 = true → d.par c1 = v →
    d.disc c2 = true → d.par c2 = v → c1 = c2

/-- Hooks that record every invocation `pve(v)` of the vertex-enter hook. -/
def recordEnters : Hooks (List Nat) where
  pve := fun v _ a => .ok (a ++ [v])
  pvl := fun _ _ a => .ok a
  pe := fun _ _ _ a => .ok a

/-- What holds of the recorded vertex-enter invocations `tr` of a breadth-first
traversal from `start` with queue `q` and levels `lev`: every processed vertex
was entered once, and the entered vertices followed by the queue begin with
`start` and are ordered by level. -/
structure EnterInv (lev : Nat → Nat) (start : Nat) (d : TraversalData) (q tr : List Nat) :
    Prop where
  nodup : tr.Nodup
  mem_iff : ∀ v, v ∈ tr ↔ d.proc v = true
  sorted : (tr ++ q).Pairwise (fun a b => lev a ≤ lev b)
  head : (tr ++ q).head? = some start

/-- The vertex `b` can be reached from `a` along edges without using the edge
between `x` and `y` in either direction. -/
def Graph.ReachWithout (g : Graph) (x y a b : Nat) : Prop :=
  Relation.ReflTransGen (fun p q => g.Adj p q ∧ ¬ (p = x ∧ q = y) ∧ ¬ (p = y ∧ q = x)) a b

/-- The edge between `x` and `y` is a bridge: its removal disconnects its two
endpoints. -/
def Graph.IsBridge (g : Graph) (x y : Nat) : Prop := g.Adj x y ∧ ¬ g.ReachWithout x y x y

/-- The vertex `k` is an endpoint of a bridge. -/
def Graph.BridgeEnd (g : Graph) (k : Nat) : Prop := ∃ x y, g.IsBridge x y ∧ (k = x ∨ k = y)

/-- Every key of `cutNodes` with the label "bridge" is an endpoint of a bridge. -/
def BridgeInv (g : Graph) (a : CutState) : Prop :=
  ∀ p ∈ a.cutNodes, p.2 = "bridge" → g.BridgeEnd p.1

/-- What holds of the traversal data between any two steps of any sequence of
depth-first runs on data that was fresh at the beginning, whether or not a run
starts at a vertex that is already discovered: entry times of discovered
vertices are distinct and not in the future, and every discovered vertex is
reachable from one of the start vertices `prev` used so far. -/
structure RestartInv (g : Graph) (prev : List Nat) (d : TraversalData) : Prop where
  sized : d.Sized g.nVertices
  proc_disc : ∀ u, d.proc u = true → d.disc u = true
  entry_le : ∀ u, d.disc u = true → d.entry u ≤ d.time
  entry_inj : ∀ u w, d.disc u = true → d.disc w = true → d.entry u = d.entry w → u = w
  reach : ∀ u, d.disc u = true → ∃ s ∈ prev, g.Reach s u

/-! # Theorems -/

/-! ## Slices -/

theorem getD_set_self {α : Type} (xs : List α) (i : Nat) (a d : α) (h : i < xs.length) :
    (xs.set i a).getD i d = a := by
  simp [List.getD_eq_getElem?_getD, List.getElem?_set, h]

theorem getD_set_other {α : Type} (xs : List α) (i j : Nat) (a d : α) (h : i ≠ j) :
    (xs.set i a).getD j d = xs.getD j d := by
  simp [List.getD_eq_getElem?_getD, List.getElem?_set, h]

theorem getD_replicate_self {α : Type} (n i : Nat) (a : α) :
    (List.replicate n a).getD i a = a := by
  simp [List.getD_eq_getElem?_getD, List.getElem?_replicate]
  split <;> simp

/-! ## Construction -/

theorem denseIds_dedup_length {pairs : List Nat} {n : Nat} (h : DenseIds pairs n) :
    pairs.dedup.length = n := by
  have hp : pairs.dedup.Perm (List.range' 1 n) := by
    rw [List.perm_ext_iff_of_nodup (List.nodup_dedup pairs) (List.nodup_range' 1 n)]
    intro a
    rw [List.mem_dedup]
    constructor
    · intro ha
      have := h.1 a ha
      rw [List.mem_range'_1]; omega
    · intro ha
      exact h.2 a ha
  rw [hp.length_eq, List.length_range']

theorem insertEdge_nVertices (g : Graph) (directed : Bool) (x y : Nat) :
    (g.insertEdge directed x y).nVertices = g.nVertices := by
  unfold Graph.insertEdge; cases directed <;> simp

theorem insertEdge_directed (g : Graph) (directed : Bool) (x y : Nat) :
    (g.insertEdge directed x y).directed = g.directed := by
  unfold Graph.insertEdge; cases directed <;> simp

theorem insertEdge_nEdges (g : Graph) (directed : Bool) (x y : Nat) :
    (g.insertEdge directed x y).nEdges = g.nEdges + 1 := by
  unfold Graph.insertEdge; cases directed <;> simp

theorem insertEdge_edges_length (g : Graph) (directed : Bool) (x y : Nat) :
    (g.insertEdge directed x y).edges.length = g.edges.length := by
  unfold Graph.insertEdge; cases directed <;> simp

theorem insertEdge_adj (g : Graph) (directed : Bool) (x y v : Nat)
    (hx : x < g.edges.length) (hy : y < g.edges.length) :
    (g.insertEdge directed x y).adj v =
      (if directed = false ∧ y = v then [x] else []) ++ (if x = v then [y] else []) ++
        g.adj v := by
  unfold Graph.insertEdge Graph.adj
  cases directed
  · by_cases hyv : y = v
    · subst hyv
      by_cases hxy : x = y
      · subst hxy
        simp [getD_set_self, hx]
      · simp [getD_set_self, getD_set_other, hx, hy, hxy]
    · by_cases hxv : x = v
      · subst hxv
        simp [getD_set_self, getD_set_other, hx, hy, hyv]
      · simp [getD_set_other, hxv, hyv]
  · by_cases hxv : x = v
    · subst hxv
      simp [getD_set_self, hx]
    · simp [getD_set_other, hxv]

theorem insertPairs_nVertices (directed : Bool) (pairs : List Nat) (g : Graph) :
    (Graph.insertPairs directed pairs g).nVertices = g.nVertices := by
  induction pairs, g using Graph.insertPairs.induct directed with
  | case1 x y rest g ih => rw [Graph.insertPairs, ih, insertEdge_nVertices]
  | case2 l g hl =>
    unfold Graph.insertPairs
    split
    · exact absurd rfl (hl _ _ _)
    · rfl

theorem insertPairs_directed (directed : Bool) (pairs : List Nat) (g : Graph) :
    (Graph.insertPairs directed pairs g).directed = g.directed := by
  induction pairs, g using Graph.insertPairs.induct directed with
  | case1 x y rest g ih => rw [Graph.insertPairs, ih, insertEdge_directed]
  | case2 l g hl =>
    unfold Graph.insertPairs
    split
    · exact absurd rfl (hl _ _ _)
    · rfl

theorem insertPairs_edges_length (directed : Bool) (pairs : List Nat) (g : Graph) :
    (Graph.insertPairs directed pairs g).edges.length = g.edges.length := by
  induction pairs, g using Graph.insertPairs.induct directed with
  | case1 x y rest g ih => rw [Graph.insertPairs, ih, insertEdge_edges_length]
  | case2 l g hl =>
    unfold Graph.insertPairs
    split
    · exact absurd rfl (hl _ _ _)
    · rfl

theorem insertPairs_nEdges (directed : Bool) (pairs : List Nat) (g : Graph) :
    (Graph.insertPairs directed pairs g).nEdges = g.nEdges + pairs.length / 2 := by
  induction pairs, g using Graph.insertPairs.induct directed with
  | case1 x y rest g ih =>
    rw [Graph.insertPairs, ih, insertEdge_nEdges]
    simp only [List.length_cons]
    omega
  | case2 l g hl =>
    unfold Graph.insertPairs
    split
    · exact absurd rfl (hl _ _ _)
    · match l, hl with
      | [], _ => simp
      | [_], _ => simp
      | x :: y :: rest, hl => exact absurd rfl (hl x y rest)

theorem insertPairs_adj (directed : Bool) (pairs : List Nat) (g : Graph) (v : Nat)
    (hr : ∀ x ∈ pairs, x < g.edges.length) :
    (Graph.insertPairs directed pairs g).adj v = (emitted directed v pairs).reverse ++ g.adj v := by
  induction pairs, g using Graph.insertPairs.induct directed with
  | case1 x y rest g ih =>
    have hx : x < g.edges.length := hr x (by simp)
    have hy : y < g.edges.length := hr y (by simp)
    rw [Graph.insertPairs, ih, insertEdge_adj g directed x y v hx hy, emitted]
    · by_cases h1 : x = v <;> by_cases h2 : (directed = false ∧ y = v) <;> simp [h1, h2]
    · intro z hz
      rw [insertEdge_edges_length]
      exact hr z (by simp [hz])
  | case2 l g hl =>
    unfold Graph.insertPairs
    split
    · exact absurd rfl (hl _ _ _)
    · match l, hl with
      | [], _ => simp [emitted]
      | [_], _ => simp [emitted]
      | x :: y :: rest, hl => exact absurd rfl (hl x y rest)

theorem emitted_range (directed : Bool) (v : Nat) (pairs : List Nat) :
    ∀ y ∈ emitted directed v pairs, y ∈ pairs := by
  induction pairs using emitted.induct directed v with
  | case1 a b rest ih =>
    intro y hy
    rw [emitted] at hy
    simp only [List.mem_append] at hy
    rcases hy with (hy | hy) | hy
    · split at hy <;> simp_all
    · split at hy <;> simp_all
    · have := ih y hy
      simp [this]
  | case2 l hl =>
    intro y hy
    unfold emitted at hy
    split at hy
    · exact absurd rfl (hl _ _ _)
    · simp at hy

theorem emitted_source (directed : Bool) (v : Nat) (pairs : List Nat)
    (h : emitted directed v pairs ≠ []) : v ∈ pairs := by
  induction pairs using emitted.induct directed v with
  | case1 a b rest ih =>
    rw [emitted] at h
    by_cases h1 : a = v
    · simp [h1]
    · by_cases h2 : b = v
      · simp [h2]
      · have : emitted directed v rest ≠ [] := by
          intro h3; apply h; simp [h1, h2, h3]
        have := ih this
        simp [this]
  | case2 l hl =>
    unfold emitted at h
    split at h
    · exact absurd rfl (hl _ _ _)
    · exact absurd rfl h

theorem emitted_count_symm (x y : Nat) (pairs : List Nat) :
    (emitted false x pairs).count y = (emitted false y pairs).count x := by
  induction pairs using emitted.induct false x with
  | case1 a b rest ih =>
    rw [emitted, emitted]
    simp only [List.count_append, ih]
    by_cases h1 : a = x <;> by_cases h2 : b = x <;> by_cases h3 : a = y <;> by_cases h4 : b = y <;>
      simp_all [List.count_cons, List.count_nil]
  | case2 l hl =>
    match l, hl with
    | [], _ => simp [emitted]
    | [_], _ => simp [emitted]
    | x :: y :: rest, hl => exact absurd rfl (hl x y rest)

theorem Init_nVertices (g0 : Graph) (directed : Bool) (pairs : List Nat) :
    (g0.Init directed pairs).nVertices = pairs.dedup.length := by
  unfold Graph.Init; rw [insertPairs_nVertices]

theorem Init_directed (g0 : Graph) (directed : Bool) (pairs : List Nat) :
    (g0.Init directed pairs).directed = directed := by
  unfold Graph.Init; rw [insertPairs_directed]

theorem Init_adj (g0 : Graph) (directed : Bool) (pairs : List Nat) (n : Nat)
    (h : DenseIds pairs n) (v : Nat) :
    (g0.Init directed pairs).adj v = (emitted directed v pairs).reverse := by
  unfold Graph.Init
  rw [insertPairs_adj]
  · simp [Graph.adj, getD_replicate_self]
  · intro x hx
    have := h.1 x hx
    simp [adjustSize, denseIds_dedup_length h]
    omega

theorem Init_dense (g0 : Graph) (directed : Bool) (pairs : List Nat) (n : Nat)
    (h : DenseIds pairs n) : (g0.Init directed pairs).Dense := by
  have hn := denseIds_dedup_length h
  refine ⟨?_, ?_, ?_⟩
  · rw [Init_nVertices]
    unfold Graph.Init
    rw [insertPairs_edges_length]
    simp [adjustSize]
  · intro v y hy
    rw [Init_adj g0 directed pairs n h, List.mem_reverse] at hy
    rw [Init_nVertices, hn]
    exact h.1 y (emitted_range directed v pairs y hy)
  · rw [Init_adj g0 directed pairs n h]
    by_contra hne
    have hmem : 0 ∈ pairs := emitted_source directed 0 pairs (by simpa using hne)
    have := h.1 0 hmem
    omega

/-- C13: after `Init` on a zero-valued graph, the adjacency sequence of a vertex
`x`, read from the head, is the reverse of what a scan of the complete pairs in
list order emits for `x`; hence in an undirected graph `y` occurs in the
adjacency of `x` exactly as often as `x` occurs in that of `y`. -/
theorem init_adjacency_is_reversed_scan (directed : Bool) (pairs : List Nat) (n x : Nat)
    (h : DenseIds pairs n) (_hx : 1 ≤ x ∧ x ≤ n) :
    (Graph.zero.Init directed pairs).adj x = (emitted directed x pairs).reverse ∧
      (directed = false → ∀ y, 1 ≤ y ∧ y ≤ n →
        ((Graph.zero.Init directed pairs).adj x).count y =
          ((Graph.zero.Init directed pairs).adj y).count x) := by
  refine ⟨Init_adj _ directed pairs n h x, ?_⟩
  intro hd y _
  subst hd
  rw [Init_adj _ false pairs n h x, Init_adj _ false pairs n h y, List.count_reverse,
    List.count_reverse]
  exact emitted_count_symm x y pairs

theorem init_adjacency_is_reversed_scan_witness :
    (Graph.zero.Init false [1, 2, 1, 3, 3, 4]).adj 1 =
        (emitted false 1 [1, 2, 1, 3, 3, 4]).reverse ∧
      (false = false → ∀ y, 1 ≤ y ∧ y ≤ 4 →
        ((Graph.zero.Init false [1, 2, 1, 3, 3, 4]).adj 1).count y =
          ((Graph.zero.Init false [1, 2, 1, 3, 3, 4]).adj y).count 1) :=
  init_adjacency_is_reversed_scan false [1, 2, 1, 3, 3, 4] 4 1 (by decide) (by decide)

/-- C14: for both values of the directed flag, `Init` on a zero-valued graph sets
`nVertices` to the number of distinct values of the pair list (which is `n` when
the ids are `1..n`) and `nEdges` to the number of complete pairs,
`len(L) / 2`: an undirected pair is counted once. -/
theorem init_counts (directed : Bool) (pairs : List Nat) (n : Nat) (h : DenseIds pairs n) :
    (Graph.zero.Init directed pairs).nVertices = pairs.toFinset.card ∧
      (Graph.zero.Init directed pairs).nVertices = n ∧
      (Graph.zero.Init directed pairs).nEdges = pairs.length / 2 := by
  refine ⟨?_, ?_, ?_⟩
  · rw [Init_nVertices, List.card_toFinset]
  · rw [Init_nVertices, denseIds_dedup_length h]
  · unfold Graph.Init
    rw [insertPairs_nEdges]
    simp [Graph.zero]

theorem init_counts_witness :
    (Graph.zero.Init false [1, 2, 1, 3, 3, 4, 4, 1, 4, 2]).nVertices =
        ([1, 2, 1, 3, 3, 4, 4, 1, 4, 2] : List Nat).toFinset.card ∧
      (Graph.zero.Init false [1, 2, 1, 3, 3, 4, 4, 1, 4, 2]).nVertices = 4 ∧
      (Graph.zero.Init false [1, 2, 1, 3, 3, 4, 4, 1, 4, 2]).nEdges =
        ([1, 2, 1, 3, 3, 4, 4, 1, 4, 2] : List Nat).length / 2 :=
  init_counts false [1, 2, 1, 3, 3, 4, 4, 1, 4, 2] 4 (by decide)

/-- C15: on the directed graph with the single edge `2 -> 1`, whose two vertices
are joined by that edge and so form one weakly connected component,
`ConnectedComponents` returns 2. -/
theorem connectedComponents_directed_eval :
    ConnectedComponents (Graph.zero.Init true [2, 1]) 3 = .ok 2 ∧
      (Graph.zero.Init true [2, 1]).Adj 2 1 :=
  ⟨by rfl, by decide⟩

/-- C16: `HasCycles` returns true on the directed acyclic graph
`1 -> 2, 1 -> 3, 2 -> 3` (every edge goes to a larger id), and false on the
directed cycle `1 -> 2 -> 1`; in both graphs every vertex is reachable from 1. -/
theorem hasCycles_directed_eval :
    (HasCycles (Graph.zero.Init true [1, 2, 1, 3, 2, 3]) 4 = .ok true ∧
        ¬ (Graph.zero.Init true [1, 2, 1, 3, 2, 3]).Cyclic) ∧
      (HasCycles (Graph.zero.Init true [1, 2, 2, 1]) 3 = .ok false ∧
        (Graph.zero.Init true [1, 2, 2, 1]).Cyclic) := by
  refine ⟨⟨by rfl, ?_⟩, ⟨by rfl, ?_⟩⟩
  · have hlt : ∀ x y, (Graph.zero.Init true [1, 2, 1, 3, 2, 3]).Adj x y → x < y := by
      intro x y hxy
      have he : (Graph.zero.Init true [1, 2, 1, 3, 2, 3]).edges = [[], [3, 2], [3], []] := by rfl
      unfold Graph.Adj Graph.adj at hxy
      rw [he] at hxy
      match x, hxy with
      | 0, hxy => simp at hxy
      | 1, hxy => simp at hxy; omega
      | 2, hxy => simp at hxy; omega
      | 3, hxy => simp at hxy
      | k + 4, hxy => simp at hxy
    have htr : ∀ x y, Relation.TransGen (Graph.zero.Init true [1, 2, 1, 3, 2, 3]).Adj x y →
        x < y := by
      intro x y hxy
      induction hxy with
      | single h1 => exact hlt _ _ h1
      | tail _ h2 ih => exact lt_trans ih (hlt _ _ h2)
    rintro ⟨v, hv⟩
    exact absurd (htr v v hv) (lt_irrefl v)
  · have h12 : (Graph.zero.Init true [1, 2, 2, 1]).Adj 1 2 := by decide
    have h21 : (Graph.zero.Init true [1, 2, 2, 1]).Adj 2 1 := by decide
    exact ⟨1, Relation.TransGen.tail (Relation.TransGen.single h12) h21⟩

/-- C17: `Bipartite` returns false on the directed graph `1 -> 2, 2 -> 3, 4 -> 3`,
although colouring the vertices by parity gives the two endpoints of every edge
different colours, so that the graph without directions has no odd cycle. -/
theorem bipartite_directed_eval :
    Bipartite (Graph.zero.Init true [1, 2, 2, 3, 4, 3]) 5 = .ok false ∧
      ∀ x y, (Graph.zero.Init true [1, 2, 2, 3, 4, 3]).Adj x y → x % 2 ≠ y % 2 := by
  refine ⟨by rfl, ?_⟩
  intro x y hxy
  have he : (Graph.zero.Init true [1, 2, 2, 3, 4, 3]).edges = [[], [2], [3], [], [3]] := by rfl
  unfold Graph.Adj Graph.adj at hxy
  rw [he] at hxy
  match x, hxy with
  | 0, hxy => simp at hxy
  | 1, hxy => simp at hxy; omega
  | 2, hxy => simp at hxy; omega
  | 3, hxy => simp at hxy
  | 4, hxy => simp at hxy; omega
  | k + 5, hxy => simp at hxy

/-! ## The assignments to the traversal data -/

theorem getD_set_ite {α : Type} (xs : List α) (i j : Nat) (a d : α) (h : i < xs.length) :
    (xs.set i a).getD j d = if j = i then a else xs.getD j d := by
  by_cases hji : j = i
  · subst hji; simp [getD_set_self, h]
  · rw [if_neg hji, getD_set_other _ _ _ _ _ (Ne.symm hji)]

theorem disc_markDiscovered {d : TraversalData} {n : Nat} (hs : d.Sized n) (v : Nat)
    (hv : v ≤ n) (u : Nat) :
    (d.markDiscovered v).disc u = if u = v then true else d.disc u := by
  unfold TraversalData.markDiscovered TraversalData.disc
  exact getD_set_ite _ _ _ _ _ (by have := hs.discovered; omega)

@[simp] theorem proc_markDiscovered (d : TraversalData) (v u : Nat) :
    (d.markDiscovered v).proc u = d.proc u := rfl

@[simp] theorem par_markDiscovered (d : TraversalData) (v u : Nat) :
    (d.markDiscovered v).par u = d.par u := rfl

@[simp] theorem entry_markDiscovered (d : TraversalData) (v u : Nat) :
    (d.markDiscovered v).entry u = d.entry u := rfl

@[simp] theorem exit_markDiscovered (d : TraversalData) (v u : Nat) :
    (d.markDiscovered v).exit u = d.exit u := rfl

@[simp] theorem time_markDiscovered (d : TraversalData) (v : Nat) :
    (d.markDiscovered v).time = d.time := rfl

theorem sized_markDiscovered {d : TraversalData} {n : Nat} (hs : d.Sized n) (v : Nat) :
    (d.markDiscovered v).Sized n := by
  unfold TraversalData.markDiscovered
  exact ⟨by simpa using hs.discovered, by simpa using hs.processed, by simpa using hs.parent,
    by simpa using hs.entryTime, by simpa using hs.exitTime⟩

@[simp] theorem disc_markProcessed (d : TraversalData) (v u : Nat) :
    (d.markProcessed v).disc u = d.disc u := rfl

theorem proc_markProcessed {d : TraversalData} {n : Nat} (hs : d.Sized n) (v : Nat)
    (hv : v ≤ n) (u : Nat) :
    (d.markProcessed v).proc u = if u = v then true else d.proc u := by
  unfold TraversalData.markProcessed TraversalData.proc
  exact getD_set_ite _ _ _ _ _ (by have := hs.processed; omega)

@[simp] theorem par_markProcessed (d : TraversalData) (v u : Nat) :
    (d.markProcessed v).par u = d.par u := rfl

@[simp] theorem entry_markProcessed (d : TraversalData) (v u : Nat) :
    (d.markProcessed v).entry u = d.entry u := rfl

@[simp] theorem exit_markProcessed (d : TraversalData) (v u : Nat) :
    (d.markProcessed v).exit u = d.exit u := rfl

@[simp] theorem time_markProcessed (d : TraversalData) (v : Nat) :
    (d.markProcessed v).time = d.time := rfl

theorem sized_markProcessed {d : TraversalData} {n : Nat} (hs : d.Sized n) (v : Nat) :
    (d.markProcessed v).Sized n := by
  unfold TraversalData.markProcessed
  exact ⟨by simpa using hs.discovered, by simpa using hs.processed, by simpa using hs.parent,
    by simpa using hs.entryTime, by simpa using hs.exitTime⟩

@[simp] theorem disc_setParent (d : TraversalData) (y v u : Nat) :
    (d.setParent y v).disc u = d.disc u := rfl

@[simp] theorem proc_setParent (d : TraversalData) (y v u : Nat) :
    (d.setParent y v).proc u = d.proc u := rfl

theorem par_setParent {d : TraversalData} {n : Nat} (hs : d.Sized n) (y v : Nat)
    (hy : y ≤ n) (u : Nat) :
    (d.setParent y v).par u = if u = y then v else d.par u := by
  unfold TraversalData.setParent TraversalData.par
  exact getD_set_ite _ _ _ _ _ (by have := hs.parent; omega)

@[simp] theorem entry_setParent (d : TraversalData) (y v u : Nat) :
    (d.setParent y v).entry u = d.entry u := rfl

@[simp] theorem exit_setParent (d : TraversalData) (y v u : Nat) :
    (d.setParent y v).exit u = d.exit u := rfl

@[simp] theorem time_setParent (d : TraversalData) (y v : Nat) :
    (d.setParent y v).time = d.time := rfl

theorem sized_setParent {d : TraversalData} {n : Nat} (hs : d.Sized n) (y v : Nat) :
    (d.setParent y v).Sized n := by
  unfold TraversalData.setParent
  exact ⟨by simpa using hs.discovered, by simpa using hs.processed, by simpa using hs.parent,
    by simpa using hs.entryTime, by simpa using hs.exitTime⟩

@[simp] theorem disc_stampEntry (d : TraversalData) (v u : Nat) :
    (d.stampEntry v).disc u = d.disc u := rfl

@[simp] theorem proc_stampEntry (d : TraversalData) (v u : Nat) :
    (d.stampEntry v).proc u = d.proc u := rfl

@[simp] theorem par_stampEntry (d : TraversalData) (v u : Nat) :
    (d.stampEntry v).par u = d.par u := rfl

theorem entry_stampEntry {d : TraversalData} {n : Nat} (hs : d.Sized n) (v : Nat)
    (hv : v ≤ n) (u : Nat) :
    (d.stampEntry v).entry u = if u = v then (d.time + 1) else d.entry u := by
  unfold TraversalData.stampEntry TraversalData.entry
  exact getD_set_ite _ _ _ _ _ (by have := hs.entryTime; omega)

@[simp] theorem exit_stampEntry (d : TraversalData) (v u : Nat) :
    (d.stampEntry v).exit u = d.exit u := rfl

@[simp] theorem time_stampEntry (d : TraversalData) (v : Nat) :
    (d.stampEntry v).time = d.time + 1 := rfl

theorem sized_stampEntry {d : TraversalData} {n : Nat} (hs : d.Sized n) (v : Nat) :
    (d.stampEntry v).Sized n := by
  unfold TraversalData.stampEntry
  exact ⟨by simpa using hs.discovered, by simpa using hs.processed, by simpa using hs.parent,
    by simpa using hs.entryTime, by simpa using hs.exitTime⟩

@[simp] theorem disc_stampExit (d : TraversalData) (v u : Nat) :
    (d.stampExit v).disc u = d.disc u := rfl

@[simp] theorem proc_stampExit (d : TraversalData) (v u : Nat) :
    (d.stampExit v).proc u = d.proc u := rfl

@[simp] theorem par_stampExit (d : TraversalData) (v u : Nat) :
    (d.stampExit v).par u = d.par u := rfl

@[simp] theorem entry_stampExit (d : TraversalData) (v u : Nat) :
    (d.stampExit v).entry u = d.entry u := rfl

theorem exit_stampExit {d : TraversalData} {n : Nat} (hs : d.Sized n) (v : Nat)
    (hv : v ≤ n) (u : Nat) :
    (d.stampExit v).exit u = if u = v then d.time else d.exit u := by
  unfold TraversalData.stampExit TraversalData.exit
  exact getD_set_ite _ _ _ _ _ (by have := hs.exitTime; omega)

@[simp] theorem time_stampExit (d : TraversalData) (v : Nat) :
    (d.stampExit v).time = d.time + 1 := rfl

theorem sized_stampExit {d : TraversalData} {n : Nat} (hs : d.Sized n) (v : Nat) :
    (d.stampExit v).Sized n := by
  unfold TraversalData.stampExit
  exact ⟨by simpa using hs.discovered, by simpa using hs.processed, by simpa using hs.parent,
    by simpa using hs.entryTime, by simpa using hs.exitTime⟩

theorem sized_Init (d : TraversalData) (g : Graph) : (d.Init g).Sized g.nVertices := by
  unfold TraversalData.Init adjustSize
  exact ⟨by simp, by simp, by simp, by simp, by simp⟩

@[simp] theorem disc_Init (d : TraversalData) (g : Graph) (u : Nat) : (d.Init g).disc u = false := by
  unfold TraversalData.Init TraversalData.disc
  exact getD_replicate_self _ _ _

@[simp] theorem proc_Init (d : TraversalData) (g : Graph) (u : Nat) : (d.Init g).proc u = false := by
  unfold TraversalData.Init TraversalData.proc
  exact getD_replicate_self _ _ _

@[simp] theorem par_Init (d : TraversalData) (g : Graph) (u : Nat) : (d.Init g).par u = 0 := by
  unfold TraversalData.Init TraversalData.par
  exact getD_replicate_self _ _ _

@[simp] theorem entry_Init (d : TraversalData) (g : Graph) (u : Nat) : (d.Init g).entry u = 0 := by
  unfold TraversalData.Init TraversalData.entry
  exact getD_replicate_self _ _ _

@[simp] theorem time_Init (d : TraversalData) (g : Graph) : (d.Init g).time = d.time := rfl

theorem disc_false_of_gt {d : TraversalData} {n : Nat} (hs : d.Sized n) {u : Nat} (hu : n < u) :
    d.disc u = false := by
  unfold TraversalData.disc
  rw [List.getD_eq_default]
  have := hs.discovered; omega

theorem proc_false_of_gt {d : TraversalData} {n : Nat} (hs : d.Sized n) {u : Nat} (hu : n < u) :
    d.proc u = false := by
  unfold TraversalData.proc
  rw [List.getD_eq_default]
  have := hs.processed; omega

/-! ## A proof rule for the depth-first traversal

`P k v s` is the precondition of a call on `v` in state `s` with fuel `k`,
`Q v s s'` relates the states before and after a call on `v`, and
`L k v s0 ys s` is the invariant of the adjacency loop of the call that started
in `s0`, with `ys` still to scan; `E` collects the failures that may occur. -/

theorem dfsEdges_rule {σ : Type} (g : Graph) (h : Hooks σ)
    (rec : Nat → TraversalData × σ → Except Failure (TraversalData × σ))
    (P : Nat → TraversalData × σ → Prop)
    (Q : Nat → TraversalData × σ → TraversalData × σ → Prop)
    (L : Nat → TraversalData × σ → List Nat → TraversalData × σ → Prop)
    (E : Failure → Prop)
    (hTree : ∀ v s0 y ys d a, L v s0 (y :: ys) (d, a) → d.disc y = false →
      (∀ e, h.pe v y (d.setParent y v) a = .error e → E e) ∧
      (∀ a1, h.pe v y (d.setParent y v) a = .ok a1 →
        P y (d.setParent y v, a1) ∧ ∀ s2, Q y (d.setParent y v, a1) s2 → L v s0 ys s2))
    (hSeen : ∀ v s0 y ys d a, L v s0 (y :: ys) (d, a) → d.disc y = true →
      (g.directed = true ∨ (d.proc y = false ∧ d.par v ≠ y)) →
      (∀ e, h.pe v y d a = .error e → E e) ∧
      (∀ a1, h.pe v y d a = .ok a1 → L v s0 ys (d, a1)))
    (hSkip : ∀ v s0 y ys d a, L v s0 (y :: ys) (d, a) → d.disc y = true →
      ¬ (g.directed = true ∨ (d.proc y = false ∧ d.par v ≠ y)) → L v s0 ys (d, a))
    (hrec : ∀ y s, P y s →
      (∀ e, rec y s = .error e → E e) ∧ (∀ s2, rec y s = .ok s2 → Q y s s2))
    (v : Nat) (s0 : TraversalData × σ) :
    ∀ ys s, L v s0 ys s →
      (∀ e, dfsEdges g h rec v ys s = .error e → E e) ∧
      (∀ s2, dfsEdges g h rec v ys s = .ok s2 → L v s0 [] s2) := by
  intro ys
  induction ys with
  | nil =>
    intro s hL
    constructor
    · intro e he; simp [dfsEdges] at he
    · intro s2 hs2
      simp only [dfsEdges, Except.ok.injEq] at hs2
      exact hs2 ▸ hL
  | cons y ys ih =>
    rintro ⟨d, a⟩ hL
    unfold dfsEdges
    by_cases hd : d.disc y = false
    · simp only [hd, if_true]
      obtain ⟨hpeE, hpeOk⟩ := hTree v s0 y ys d a hL hd
      cases hpe : h.pe v y (d.setParent y v) a with
      | error e =>
          dsimp only
          exact ⟨fun e2 he2 => by cases he2; exact hpeE e hpe, fun s2 hs2 => by cases hs2⟩
      | ok a1 =>
        dsimp only
        obtain ⟨hP, hQL⟩ := hpeOk a1 hpe
        obtain ⟨hrE, hrOk⟩ := hrec y _ hP
        cases hr : rec y (d.setParent y v, a1) with
        | error e =>
          dsimp only
          exact ⟨fun e2 he2 => by cases he2; exact hrE e hr, fun s2 hs2 => by cases hs2⟩
        | ok st2 =>
          dsimp only
          exact ih st2 (hQL st2 (hrOk st2 hr))
    · have hd1 : d.disc y = true := by simpa using hd
      simp only [hd, if_false]
      by_cases hc : g.directed = true ∨ (d.proc y = false ∧ d.par v ≠ y)
      · simp only [hc, if_true]
        obtain ⟨hpeE, hpeOk⟩ := hSeen v s0 y ys d a hL hd1 hc
        cases hpe : h.pe v y d a with
        | error e =>
          dsimp only
          exact ⟨fun e2 he2 => by cases he2; exact hpeE e hpe, fun s2 hs2 => by cases hs2⟩
        | ok a1 =>
          dsimp only
          exact ih (d, a1) (hpeOk a1 hpe)
      · simp only [hc, if_false]
        exact ih (d, a) (hSkip v s0 y ys d a hL hd1 hc)

theorem dfs_rule {σ : Type} (g : Graph) (h : Hooks σ)
    (P : Nat → Nat → TraversalData × σ → Prop)
    (Q : Nat → TraversalData × σ → TraversalData × σ → Prop)
    (L : Nat → Nat → TraversalData × σ → List Nat → TraversalData × σ → Prop)
    (E : Failure → Prop)
    (hFuel : ∀ v s, P 0 v s → E .outOfFuel)
    (hEnter : ∀ k v d a, P (k + 1) v (d, a) →
      (∀ e, h.pve v (d.markDiscovered v) a = .error e → E e) ∧
      (∀ a1, h.pve v (d.markDiscovered v) a = .ok a1 →
        L k v (d, a) (g.adj v) ((d.markDiscovered v).stampEntry v, a1)))
    (hTree : ∀ k v s0 y ys d a, L k v s0 (y :: ys) (d, a) → d.disc y = false →
      (∀ e, h.pe v y (d.setParent y v) a = .error e → E e) ∧
      (∀ a1, h.pe v y (d.setParent y v) a = .ok a1 →
        P k y (d.setParent y v, a1) ∧ ∀ s2, Q y (d.setParent y v, a1) s2 → L k v s0 ys s2))
    (hSeen : ∀ k v s0 y ys d a, L k v s0 (y :: ys) (d, a) → d.disc y = true →
      (g.directed = true ∨ (d.proc y = false ∧ d.par v ≠ y)) →
      (∀ e, h.pe v y d a = .error e → E e) ∧
      (∀ a1, h.pe v y d a = .ok a1 → L k v s0 ys (d, a1)))
    (hSkip : ∀ k v s0 y ys d a, L k v s0 (y :: ys) (d, a) → d.disc y = true →
      ¬ (g.directed = true ∨ (d.proc y = false ∧ d.par v ≠ y)) → L k v s0 ys (d, a))
    (hExit : ∀ k v s0 d a, L k v s0 [] (d, a) →
      (∀ e, h.pvl v (d.markProcessed v) a = .error e → E e) ∧
      (∀ a1, h.pvl v (d.markProcessed v) a = .ok a1 →
        Q v s0 ((d.markProcessed v).stampExit v, a1))) :
    ∀ fuel v s0, P fuel v s0 →
      (∀ e, depthFirstTraverseVertex g h fuel v s0 = .error e → E e) ∧
      (∀ s2, depthFirstTraverseVertex g h fuel v s0 = .ok s2 → Q v s0 s2) := by
  intro fuel
  induction fuel with
  | zero =>
    intro v s0 hP
    constructor
    · intro e he
      simp only [depthFirstTraverseVertex, Except.error.injEq] at he
      exact he ▸ hFuel v s0 hP
    · intro s2 hs2
      simp [depthFirstTraverseVertex] at hs2
  | succ k ih =>
    rintro v ⟨d, a⟩ hP
    unfold depthFirstTraverseVertex
    obtain ⟨hE1, hOk1⟩ := hEnter k v d a hP
    cases hpve : h.pve v (d.markDiscovered v) a with
    | error e =>
          dsimp only
          exact ⟨fun e2 he2 => by cases he2; exact hE1 e hpve, fun s2 hs2 => by cases hs2⟩
    | ok a1 =>
      dsimp only
      have hL := hOk1 a1 hpve
      obtain ⟨hE2, hOk2⟩ := dfsEdges_rule g h (fun y st => depthFirstTraverseVertex g h k y st)
        (P k) Q (L k) E (hTree k) (hSeen k) (hSkip k) (fun y s hPy => ih y s hPy) v (d, a)
        (g.adj v) _ hL
      cases hed : dfsEdges g h (fun y st => depthFirstTraverseVertex g h k y st) v (g.adj v)
          ((d.markDiscovered v).stampEntry v, a1) with
      | error e =>
          dsimp only
          exact ⟨fun e2 he2 => by cases he2; exact hE2 e hed, fun s2 hs2 => by cases hs2⟩
      | ok st3 =>
        obtain ⟨d3, a3⟩ := st3
        dsimp only
        obtain ⟨hE3, hOk3⟩ := hExit k v (d, a) d3 a3 (hOk2 _ hed)
        cases hpvl : h.pvl v (d3.markProcessed v) a3 with
        | error e =>
          dsimp only
          exact ⟨fun e2 he2 => by cases he2; exact hE3 e hpvl, fun s2 hs2 => by cases hs2⟩
        | ok a4 =>
          dsimp only
          refine ⟨fun e2 he2 => (by cases he2), fun s2 hs2 => ?_⟩
          cases hs2
          exact hOk3 a4 hpvl

/-! ## Counting the undiscovered -/

theorem count_false_set_true (xs : List Bool) (i : Nat) (hi : i < xs.length)
    (h : xs.getD i false = false) : (xs.set i true).count false + 1 = xs.count false := by
  induction xs generalizing i with
  | nil => simp at hi
  | cons x xs ih =>
    cases i with
    | zero =>
      simp at h
      subst h
      simp
    | succ i =>
      simp at hi h
      have := ih i hi (by simpa [List.getD_eq_getElem?_getD] using h)
      cases x <;> simp [List.count_cons] <;> omega

theorem undisc_markDiscovered {d : TraversalData} {n : Nat} (hs : d.Sized n) (v : Nat)
    (hv : v ≤ n) (hd : d.disc v = false) : (d.markDiscovered v).undisc + 1 = d.undisc := by
  unfold TraversalData.undisc TraversalData.markDiscovered
  exact count_false_set_true _ _ (by have := hs.discovered; omega) hd

@[simp] theorem undisc_markProcessed (d : TraversalData) (v : Nat) :
    (d.markProcessed v).undisc = d.undisc := rfl

@[simp] theorem undisc_setParent (d : TraversalData) (y v : Nat) :
    (d.setParent y v).undisc = d.undisc := rfl

@[simp] theorem undisc_stampEntry (d : TraversalData) (v : Nat) :
    (d.stampEntry v).undisc = d.undisc := rfl

@[simp] theorem undisc_stampExit (d : TraversalData) (v : Nat) :
    (d.stampExit v).undisc = d.undisc := rfl

theorem undisc_pos {d : TraversalData} {n : Nat} (hs : d.Sized n) (v : Nat)
    (hv : v ≤ n) (hd : d.disc v = false) : 1 ≤ d.undisc := by
  have := undisc_markDiscovered hs v hv hd
  omega

/-! ## Ancestors in the tree of parent pointers -/

/-- Two records that agree on the parent pointers of a set `S` closed under
taking parents have the same ancestors for every member of `S`. -/
theorem anc_congr {d e : TraversalData} (S : Nat → Prop)
    (hpar : ∀ c, S c → e.par c = d.par c)
    (hclosed : ∀ c, S c → d.par c ≠ 0 → S (d.par c))
    {u v : Nat} (h : d.Anc u v) : S v → e.Anc u v := by
  unfold TraversalData.Anc at h ⊢
  induction h with
  | refl => intro _; exact Relation.ReflTransGen.refl
  | tail _ hbc ih =>
    intro hS
    obtain ⟨h1, h2⟩ := hbc
    have hSb := hclosed _ hS (by rw [h1]; exact h2)
    rw [h1] at hSb
    exact Relation.ReflTransGen.tail (ih hSb) ⟨by rw [hpar _ hS]; exact h1, h2⟩

theorem anc_iff_eq_or_panc (d : TraversalData) (u v : Nat) :
    d.Anc u v ↔ u = v ∨ d.PAnc u v := by
  unfold TraversalData.Anc TraversalData.PAnc
  rw [Relation.reflTransGen_iff_eq_or_transGen]
  constructor
  · rintro (h | h)
    · exact Or.inl h.symm
    · exact Or.inr h
  · rintro (h | h)
    · exact Or.inl h.symm
    · exact Or.inr h

theorem panc_iff_parent (d : TraversalData) (u v : Nat) :
    d.PAnc u v ↔ d.par v ≠ 0 ∧ d.Anc u (d.par v) := by
  unfold TraversalData.Anc TraversalData.PAnc
  rw [Relation.transGen_iff]
  constructor
  · rintro (h | ⟨b, hub, hbv⟩)
    · obtain ⟨h1, h2⟩ := h
      refine ⟨by rw [h1]; exact h2, ?_⟩
      rw [h1]
    · have hbv2 := hbv
      obtain ⟨h1, h2⟩ := hbv
      refine ⟨by rw [h1]; exact h2, ?_⟩
      rw [h1]
      exact hub.to_reflTransGen
  · rintro ⟨h0, h⟩
    have hstep : d.ParentStep (d.par v) v := ⟨rfl, h0⟩
    rcases Relation.reflTransGen_iff_eq_or_transGen.mp h with h1 | h1
    · left; rw [← h1]; exact hstep
    · right; exact ⟨_, h1, hstep⟩

theorem anc_of_par_eq {d e : TraversalData} (h : ∀ c, e.par c = d.par c) (u v : Nat) :
    e.Anc u v ↔ d.Anc u v :=
  ⟨fun hx => anc_congr (fun _ => True) (fun c _ => (h c).symm) (fun _ _ _ => trivial) hx trivial,
   fun hx => anc_congr (fun _ => True) (fun c _ => h c) (fun _ _ _ => trivial) hx trivial⟩

theorem panc_of_par_eq {d e : TraversalData} (h : ∀ c, e.par c = d.par c) (u v : Nat) :
    e.PAnc u v ↔ d.PAnc u v := by
  rw [panc_iff_parent, panc_iff_parent, h v, anc_of_par_eq h]

/-! ## The data invariant of the depth-first traversal -/

theorem dfsLoop_enter {g : Graph} {k v : Nat} {d : TraversalData}
    (hP : DfsPre g (k + 1) v d) :
    DfsLoop g k v d (g.adj v) ((d.markDiscovered v).stampEntry v) := by
  obtain ⟨inv, ⟨hv1, hvn⟩, hund, hfuel, hfresh, hgray⟩ := hP
  have hs := inv.sized
  have hs1 := sized_markDiscovered hs v
  have hdisc : ∀ u, ((d.markDiscovered v).stampEntry v).disc u =
      if u = v then true else d.disc u := by
    intro u; rw [disc_stampEntry, disc_markDiscovered hs v hvn u]
  have hproc : ∀ u, ((d.markDiscovered v).stampEntry v).proc u = d.proc u := fun u => rfl
  have hpar : ∀ u, ((d.markDiscovered v).stampEntry v).par u = d.par u := fun u => rfl
  have hentry : ∀ u, ((d.markDiscovered v).stampEntry v).entry u =
      if u = v then d.time + 1 else d.entry u := by
    intro u; rw [entry_stampEntry hs1 v hvn u]; rfl
  have htime : ((d.markDiscovered v).stampEntry v).time = d.time + 1 := rfl
  have hpv : d.proc v = false := by
    cases h : d.proc v
    · rfl
    · have := inv.proc_disc v h; rw [hund] at this; cases this
  have hparv : d.par v ≠ 0 → d.disc (d.par v) = true := by
    intro h0
    have h1 : d.PAnc (d.par v) v := by
      rw [panc_iff_parent]; exact ⟨h0, Relation.ReflTransGen.refl⟩
    exact ((hgray _).mpr h1).1
  refine ⟨⟨sized_stampEntry hs1 v, ?_, ?_, ?_, ?_, ?_, ?_⟩, ⟨hv1, hvn⟩, ?_, ?_, ?_, ?_, ?_, ?_, ?_,
    ⟨hund, ?_, ?_, ?_, ?_⟩⟩
  · -- proc_disc
    intro u hu
    rw [hdisc]; rw [hproc] at hu
    split
    · rfl
    · exact inv.proc_disc u hu
  · -- entry_pos
    intro u hu
    rw [hentry, htime]; rw [hdisc] at hu
    by_cases huv : u = v
    · simp [huv]
    · simp only [huv, if_false] at hu ⊢
      have := inv.entry_pos u hu; omega
  · -- entry_inj
    intro u w hu hw he
    rw [hdisc] at hu hw; rw [hentry, hentry] at he
    by_cases huv : u = v <;> by_cases hwv : w = v
    · rw [huv, hwv]
    · simp only [huv, hwv, if_true, if_false] at hw he
      have := inv.entry_pos w hw; omega
    · simp only [huv, hwv, if_true, if_false] at hu he
      have := inv.entry_pos u hu; omega
    · simp only [huv, hwv, if_false] at hu hw he
      exact inv.entry_inj u w hu hw he
  · -- par_entry
    intro c hc h0
    rw [hpar] at h0 ⊢; rw [hdisc] at hc
    by_cases hcv : c = v
    · subst hcv
      have hpd := hparv h0
      have hne : d.par c ≠ c := by intro h; rw [h, hund] at hpd; cases hpd
      rw [hdisc, hentry, hentry]
      simp only [hne, if_false, if_true]
      exact ⟨hpd, by have := inv.entry_pos _ hpd; omega⟩
    · simp only [hcv, if_false] at hc
      obtain ⟨h1, h2⟩ := inv.par_entry c hc h0
      have hne : d.par c ≠ v := by intro h; rw [h, hund] at h1; cases h1
      rw [hdisc, hentry, hentry]
      simp only [hne, hcv, if_false]
      exact ⟨h1, h2⟩
  · -- par_adj
    intro c h0
    exact inv.par_adj c h0
  · -- proc_closed
    intro x hx y hy
    rw [hdisc]
    split
    · rfl
    · exact inv.proc_closed x hx y hy
  · -- gray_self
    exact ⟨by rw [hdisc]; simp, hpv⟩
  · -- fuel
    have := undisc_markDiscovered hs v hvn hund
    show (d.markDiscovered v).undisc ≤ k
    omega
  · -- scanned
    exact ⟨[], by simp, by simp⟩
  · -- fresh_par
    intro u hu
    rw [hdisc] at hu
    by_cases huv : u = v
    · simp [huv] at hu
    · simp only [huv, if_false] at hu
      exact hfresh u hu huv
  · -- gray_anc
    intro u
    rw [anc_of_par_eq hpar, anc_iff_eq_or_panc, ← hgray]
    unfold TraversalData.gray
    rw [hdisc, hproc]
    by_cases huv : u = v
    · subst huv; simp [hpv]
    · simp [huv]
  · -- later_below
    intro w hw hlt
    rw [hentry, hentry] at hlt; rw [hdisc] at hw
    by_cases hwv : w = v
    · simp [hwv] at hlt
    · simp only [hwv, if_false, if_true] at hw hlt
      have := inv.entry_pos w hw; omega
  · -- new_done
    intro u hu hu0
    rw [hdisc] at hu
    by_cases huv : u = v
    · exact Or.inl huv
    · simp only [huv, if_false] at hu
      rw [hu] at hu0; cases hu0
  · -- frame.keep
    intro u hu
    have huv : u ≠ v := by intro h; rw [h, hund] at hu; cases hu
    exact ⟨by rw [hdisc]; simp [huv, hu], rfl, by rw [hentry]; simp [huv], rfl⟩
  · rfl
  · -- fresh_below
    intro u hu hu0
    rw [hdisc] at hu
    by_cases huv : u = v
    · rw [huv]; exact Relation.ReflTransGen.refl
    · simp only [huv, if_false] at hu
      rw [hu] at hu0; cases hu0
  · -- undisc_lt
    have := undisc_markDiscovered hs v hvn hund
    show (d.markDiscovered v).undisc < d.undisc
    omega

theorem anc_congr_disc {g : Graph} {d e : TraversalData} (inv : DfsInv g d)
    (hpar : ∀ c, d.disc c = true → e.par c = d.par c) {u v : Nat} (hv : d.disc v = true) :
    e.Anc u v ↔ d.Anc u v := by
  constructor
  · intro h
    refine anc_congr (fun c => d.disc c = true) (fun c hc => (hpar c hc).symm) ?_ h hv
    intro c hc h0
    rw [hpar c hc] at h0 ⊢
    exact (inv.par_entry c hc h0).1
  · intro h
    exact anc_congr (fun c => d.disc c = true) hpar (fun c hc h0 => (inv.par_entry c hc h0).1) h hv

theorem panc_congr_disc {g : Graph} {d e : TraversalData} (inv : DfsInv g d)
    (hpar : ∀ c, d.disc c = true → e.par c = d.par c) {u v : Nat} (hv : d.disc v = true) :
    e.PAnc u v ↔ d.PAnc u v := by
  rw [panc_iff_parent, panc_iff_parent, hpar v hv]
  constructor
  · rintro ⟨h0, h⟩
    exact ⟨h0, (anc_congr_disc inv hpar (inv.par_entry v hv h0).1).mp h⟩
  · rintro ⟨h0, h⟩
    exact ⟨h0, (anc_congr_disc inv hpar (inv.par_entry v hv h0).1).mpr h⟩

theorem dfsLoop_mem {g : Graph} {k v : Nat} {d0 d : TraversalData} {y : Nat} {ys : List Nat}
    (hL : DfsLoop g k v d0 (y :: ys) d) : y ∈ g.adj v := by
  obtain ⟨done, h, _⟩ := hL.scanned
  rw [h]; simp

theorem dfsPre_tree {g : Graph} (hg : g.Dense) {k v : Nat} {d0 d : TraversalData} {y : Nat}
    {ys : List Nat} (hL : DfsLoop g k v d0 (y :: ys) d) (hy : d.disc y = false) :
    DfsPre g k y (d.setParent y v) := by
  have hmem := dfsLoop_mem hL
  have hyr := hg.adj_range v y hmem
  obtain ⟨inv, ⟨hv1, hvn⟩, hgs, hfuel, _, hfresh, hgray, _, _, _⟩ := hL
  have hs := inv.sized
  have hpar : ∀ u, (d.setParent y v).par u = if u = y then v else d.par u :=
    fun u => par_setParent hs y v hyr.2 u
  have hpar2 : ∀ c, d.disc c = true → (d.setParent y v).par c = d.par c := by
    intro c hc
    have : c ≠ y := by intro h; rw [h, hy] at hc; cases hc
    rw [hpar]; simp [this]
  refine ⟨⟨sized_setParent hs y v, inv.proc_disc, inv.entry_pos, inv.entry_inj, ?_, ?_,
    inv.proc_closed⟩, hyr, hy, hfuel, ?_, ?_⟩
  · intro c hc h0
    have hc2 : d.disc c = true := hc
    rw [hpar2 c hc2] at h0 ⊢
    exact inv.par_entry c hc2 h0
  · intro c h0
    rw [hpar] at h0 ⊢
    by_cases hcy : c = y
    · subst hcy; simp only [if_true]; exact hmem
    · simp only [hcy, if_false] at h0 ⊢
      exact inv.par_adj c h0
  · intro u hu huy
    rw [hpar]; simp only [huy, if_false]
    exact hfresh u hu
  · intro u
    have h1 : (d.setParent y v).gray u ↔ d.gray u := Iff.rfl
    rw [h1, hgray, panc_iff_parent, hpar]
    simp only [if_true]
    rw [anc_congr_disc inv hpar2 hgs.1]
    constructor
    · intro h; exact ⟨by omega, h⟩
    · intro h; exact h.2

theorem dfsLoop_seen {g : Graph} {k v : Nat} {d0 d : TraversalData} {y : Nat}
    {ys : List Nat} (hL : DfsLoop g k v d0 (y :: ys) d) (hy : d.disc y = true) :
    DfsLoop g k v d0 ys d := by
  obtain ⟨inv, hr, hgs, hfuel, ⟨done, hdone, hdd⟩, hfresh, hgray, hlater, hnew, hframe⟩ := hL
  refine ⟨inv, hr, hgs, hfuel, ⟨done ++ [y], by simp [hdone], ?_⟩, hfresh, hgray, hlater, hnew,
    hframe⟩
  intro z hz
  rcases List.mem_append.mp hz with h | h
  · exact hdd z h
  · simp at h; rw [h]; exact hy

theorem dfsLoop_tree {g : Graph} (hg : g.Dense) {k v : Nat} {d0 d d2 : TraversalData} {y : Nat}
    {ys : List Nat} (hL : DfsLoop g k v d0 (y :: ys) d) (hy : d.disc y = false)
    (hQ : DfsPost g y (d.setParent y v) d2) : DfsLoop g k v d0 ys d2 := by
  have hmem := dfsLoop_mem hL
  have hyr := hg.adj_range v y hmem
  obtain ⟨inv, ⟨hv1, hvn⟩, hgs, hfuel, ⟨done, hdone, hdd⟩, hfresh, hgray, hlater, hnew,
    ⟨hf0, hfkeep, hfpar, hfbelow, hflt⟩⟩ := hL
  obtain ⟨inv2, hfresh2, hnew2, hself2, ⟨_, hkeep, hkpar, hbelow, hlt⟩⟩ := hQ
  have hs := inv.sized
  have hpar1 : ∀ u, (d.setParent y v).par u = if u = y then v else d.par u :=
    fun u => par_setParent hs y v hyr.2 u
  have hvy : v ≠ y := by intro h; rw [← h, hgs.1] at hy; cases hy
  -- what was discovered before the call keeps its record
  have hk : ∀ u, d.disc u = true →
      d2.disc u = true ∧ d2.proc u = d.proc u ∧ d2.entry u = d.entry u ∧ d2.par u = d.par u := by
    intro u hu
    obtain ⟨h1, h2, h3, h4⟩ := hkeep u hu
    have huy : u ≠ y := by intro h; rw [h, hy] at hu; cases hu
    refine ⟨h1, h2, h3, ?_⟩
    rw [h4, hpar1]; simp [huy]
  have hpar2 : ∀ c, d.disc c = true → d2.par c = d.par c := fun c hc => (hk c hc).2.2.2
  have hstep : d2.ParentStep v y := by
    refine ⟨?_, by omega⟩
    rw [hkpar, hpar1]; simp
  refine ⟨inv2, ⟨hv1, hvn⟩, ?_, ?_, ⟨done ++ [y], by simp [hdone], ?_⟩, hfresh2, ?_, ?_, ?_,
    ⟨hf0, ?_, ?_, ?_, ?_⟩⟩
  · -- gray_self
    obtain ⟨h1, h2, _, _⟩ := hk v hgs.1
    exact ⟨h1, by rw [h2]; exact hgs.2⟩
  · -- fuel
    have : d2.undisc < d.undisc := hlt
    omega
  · -- scanned
    intro z hz
    rcases List.mem_append.mp hz with h | h
    · exact (hk z (hdd z h)).1
    · simp at h; rw [h]; exact hself2
  · -- gray_anc
    intro u
    rw [anc_congr_disc inv hpar2 hgs.1, ← hgray]
    constructor
    · rintro ⟨h1, h2⟩
      cases hdu : d.disc u
      · have := hnew2 u h1 hdu
        rw [h2] at this; cases this
      · exact ⟨hdu, by rw [← (hk u hdu).2.1]; exact h2⟩
    · rintro ⟨h1, h2⟩
      exact ⟨(hk u h1).1, by rw [(hk u h1).2.1]; exact h2⟩
  · -- later_below
    intro w hw hlt2
    cases hdw : d.disc w
    · exact Relation.TransGen.trans_left (Relation.TransGen.single hstep) (hbelow w hw hdw)
    · rw [(hk v hgs.1).2.2.1, (hk w hdw).2.2.1] at hlt2
      exact (panc_congr_disc inv hpar2 hdw).mpr (hlater w hdw hlt2)
  · -- new_done
    intro u hu hu0
    cases hdu : d.disc u
    · exact Or.inr (hnew2 u hu hdu)
    · rcases hnew u hdu hu0 with h | h
      · exact Or.inl h
      · exact Or.inr (by rw [(hk u hdu).2.1]; exact h)
  · -- frame.keep
    intro u hu
    obtain ⟨h1, h2, h3, h4⟩ := hfkeep u hu
    obtain ⟨k1, k2, k3, k4⟩ := hk u h1
    exact ⟨k1, by rw [k2, h2], by rw [k3, h3], by rw [k4, h4]⟩
  · -- frame.keep_par
    rw [hpar2 v hgs.1, hfpar]
  · -- frame.fresh_below
    intro u hu hu0
    cases hdu : d.disc u
    · exact Relation.ReflTransGen.head hstep (hbelow u hu hdu)
    · exact (anc_congr_disc inv hpar2 hdu).mpr (hfbelow u hdu hu0)
  · -- frame.undisc_lt
    have : d2.undisc < d.undisc := hlt
    omega

theorem dfsPost_exit {g : Graph} {k v : Nat} {d0 d : TraversalData}
    (hL : DfsLoop g k v d0 [] d) :
    DfsPost g v d0 ((d.markProcessed v).stampExit v) := by
  obtain ⟨inv, ⟨hv1, hvn⟩, hgs, hfuel, ⟨done, hdone, hdd⟩, hfresh, hgray, hlater, hnew,
    ⟨hf0, hfkeep, hfpar, hfbelow, hflt⟩⟩ := hL
  have hs := inv.sized
  have hproc : ∀ u, ((d.markProcessed v).stampExit v).proc u =
      if u = v then true else d.proc u := by
    intro u; rw [proc_stampExit, proc_markProcessed hs v hvn u]
  have hpar : ∀ u, ((d.markProcessed v).stampExit v).par u = d.par u := fun u => rfl
  refine ⟨⟨sized_stampExit (sized_markProcessed hs v) v, ?_, ?_, inv.entry_inj, inv.par_entry,
    inv.par_adj, ?_⟩, hfresh, ?_, hgs.1, ⟨hf0, ?_, hfpar, ?_, hflt⟩⟩
  · intro u hu
    rw [hproc] at hu
    by_cases huv : u = v
    · rw [huv]; exact hgs.1
    · simp only [huv, if_false] at hu
      exact inv.proc_disc u hu
  · intro u hu
    have := inv.entry_pos u hu
    have ht : ((d.markProcessed v).stampExit v).time = d.time + 1 := rfl
    have he : ((d.markProcessed v).stampExit v).entry u = d.entry u := rfl
    rw [ht, he]; omega
  · intro x hx y hy
    rw [hproc] at hx
    by_cases hxv : x = v
    · subst hxv
      rw [hdone] at hy
      simp at hy
      exact hdd y hy
    · simp only [hxv, if_false] at hx
      exact inv.proc_closed x hx y hy
  · intro u hu hu0
    rw [hproc]
    rcases hnew u hu hu0 with h | h
    · simp [h]
    · split
      · rfl
      · exact h
  · intro u hu
    obtain ⟨h1, h2, h3, h4⟩ := hfkeep u hu
    have huv : u ≠ v := by intro h; rw [h, hf0] at hu; cases hu
    refine ⟨h1, ?_, h3, h4⟩
    rw [hproc]; simp only [huv, if_false]; exact h2
  · intro u hu hu0
    exact (anc_of_par_eq hpar v u).mpr (hfbelow u hu hu0)

/-- The proof rule for traversals of a dense graph that started on fresh data:
the data invariant is carried by the rule, and the conditions on the hooks may
assume it. -/
theorem dfs_fresh_rule {σ : Type} (g : Graph) (hg : g.Dense) (h : Hooks σ)
    (P : Nat → TraversalData × σ → Prop)
    (Q : Nat → TraversalData × σ → TraversalData × σ → Prop)
    (L : Nat → TraversalData × σ → List Nat → TraversalData × σ → Prop)
    (E : Failure → Prop)
    (hEnter : ∀ k v d a, DfsPre g (k + 1) v d → P v (d, a) →
      (∀ e, h.pve v (d.markDiscovered v) a = .error e → E e) ∧
      (∀ a1, h.pve v (d.markDiscovered v) a = .ok a1 →
        L v (d, a) (g.adj v) ((d.markDiscovered v).stampEntry v, a1)))
    (hTree : ∀ k v d0 a0 y ys d a, DfsLoop g k v d0 (y :: ys) d →
      L v (d0, a0) (y :: ys) (d, a) → d.disc y = false →
      (∀ e, h.pe v y (d.setParent y v) a = .error e → E e) ∧
      (∀ a1, h.pe v y (d.setParent y v) a = .ok a1 →
        P y (d.setParent y v, a1) ∧
        ∀ d2 a2, DfsPost g y (d.setParent y v) d2 → Q y (d.setParent y v, a1) (d2, a2) →
          L v (d0, a0) ys (d2, a2)))
    (hSeen : ∀ k v d0 a0 y ys d a, DfsLoop g k v d0 (y :: ys) d →
      L v (d0, a0) (y :: ys) (d, a) → d.disc y = true →
      (g.directed = true ∨ (d.proc y = false ∧ d.par v ≠ y)) →
      (∀ e, h.pe v y d a = .error e → E e) ∧
      (∀ a1, h.pe v y d a = .ok a1 → L v (d0, a0) ys (d, a1)))
    (hSkip : ∀ k v d0 a0 y ys d a, DfsLoop g k v d0 (y :: ys) d →
      L v (d0, a0) (y :: ys) (d, a) → d.disc y = true →
      ¬ (g.directed = true ∨ (d.proc y = false ∧ d.par v ≠ y)) → L v (d0, a0) ys (d, a))
    (hExit : ∀ k v d0 a0 d a, DfsLoop g k v d0 [] d → L v (d0, a0) [] (d, a) →
      (∀ e, h.pvl v (d.markProcessed v) a = .error e → E e) ∧
      (∀ a1, h.pvl v (d.markProcessed v) a = .ok a1 →
        Q v (d0, a0) ((d.markProcessed v).stampExit v, a1))) :
    ∀ fuel v d a, DfsPre g fuel v d → P v (d, a) →
      (∀ e, depthFirstTraverseVertex g h fuel v (d, a) = .error e → E e) ∧
      (∀ d2 a2, depthFirstTraverseVertex g h fuel v (d, a) = .ok (d2, a2) →
        DfsPost g v d d2 ∧ Q v (d, a) (d2, a2)) := by
  intro fuel v d a hPd hP
  have key := dfs_rule g h
    (fun k v s => DfsPre g k v s.1 ∧ P v s)
    (fun v s s2 => DfsPost g v s.1 s2.1 ∧ Q v s s2)
    (fun k v s0 ys s => DfsLoop g k v s0.1 ys s.1 ∧ L v s0 ys s)
    E ?_ ?_ ?_ ?_ ?_ ?_ fuel v (d, a) ⟨hPd, hP⟩
  · exact ⟨key.1, fun d2 a2 h2 => key.2 (d2, a2) h2⟩
  · -- fuel
    rintro v ⟨d, a⟩ ⟨hpre, _⟩
    have := undisc_pos hpre.inv.sized v hpre.range.2 hpre.undisc
    have := hpre.fuel
    omega
  · -- enter
    rintro k v d a ⟨hpre, hp⟩
    obtain ⟨h1, h2⟩ := hEnter k v d a hpre hp
    exact ⟨h1, fun a1 ha1 => ⟨dfsLoop_enter hpre, h2 a1 ha1⟩⟩
  · -- tree
    rintro k v ⟨d0, a0⟩ y ys d a ⟨hl, hL⟩ hy
    obtain ⟨h1, h2⟩ := hTree k v d0 a0 y ys d a hl hL hy
    refine ⟨h1, fun a1 ha1 => ?_⟩
    obtain ⟨h3, h4⟩ := h2 a1 ha1
    refine ⟨⟨dfsPre_tree hg hl hy, h3⟩, ?_⟩
    rintro ⟨d2, a2⟩ ⟨hq, hQ⟩
    exact ⟨dfsLoop_tree hg hl hy hq, h4 d2 a2 hq hQ⟩
  · -- seen
    rintro k v ⟨d0, a0⟩ y ys d a ⟨hl, hL⟩ hy hc
    obtain ⟨h1, h2⟩ := hSeen k v d0 a0 y ys d a hl hL hy hc
    exact ⟨h1, fun a1 ha1 => ⟨dfsLoop_seen hl hy, h2 a1 ha1⟩⟩
  · -- skip
    rintro k v ⟨d0, a0⟩ y ys d a ⟨hl, hL⟩ hy hc
    exact ⟨dfsLoop_seen hl hy, hSkip k v d0 a0 y ys d a hl hL hy hc⟩
  · -- exit
    rintro k v ⟨d0, a0⟩ d a ⟨hl, hL⟩
    obtain ⟨h1, h2⟩ := hExit k v d0 a0 d a hl hL
    exact ⟨h1, fun a1 ha1 => ⟨dfsPost_exit hl, h2 a1 ha1⟩⟩

/-! ## Runs from several roots -/

theorem undisc_le {d : TraversalData} {n : Nat} (hs : d.Sized n) : d.undisc ≤ n + 1 := by
  unfold TraversalData.undisc
  have := List.count_le_length false d.discovered
  have := hs.discovered
  omega

theorem dfsIdle_Init (g : Graph) (d : TraversalData) : DfsIdle g (d.Init g) := by
  refine ⟨⟨sized_Init d g, ?_, ?_, ?_, ?_, ?_, ?_⟩, ?_, ?_⟩
  · intro u hu; simp at hu
  · intro u hu; simp at hu
  · intro u w hu; simp at hu
  · intro c hc; simp at hc
  · intro c hc; simp at hc
  · intro x hx; simp at hx
  · intro u _; simp
  · intro u hu; simp at hu

theorem dfsPre_root {g : Graph} {d : TraversalData} {i fuel : Nat} (hI : DfsIdle g d)
    (hi : 1 ≤ i ∧ i ≤ g.nVertices) (hd : d.disc i = false) (hfuel : g.nVertices < fuel) :
    DfsPre g fuel i d := by
  refine ⟨hI.inv, hi, hd, ?_, fun u hu _ => hI.fresh_par u hu, ?_⟩
  · have := undisc_le hI.inv.sized; omega
  · intro u
    constructor
    · rintro ⟨h1, h2⟩
      rw [hI.no_gray u h1] at h2; cases h2
    · intro h
      rw [panc_iff_parent] at h
      exact absurd (hI.fresh_par i hd) h.1

theorem dfsIdle_post {g : Graph} {d d2 : TraversalData} {i : Nat} (hI : DfsIdle g d)
    (hQ : DfsPost g i d d2) : DfsIdle g d2 := by
  refine ⟨hQ.inv, hQ.fresh_par, ?_⟩
  intro u hu
  cases hdu : d.disc u
  · exact hQ.new_done u hu hdu
  · rw [(hQ.frame.keep u hdu).2.1]; exact hI.no_gray u hdu

theorem dfsAll_fresh_rule {σ : Type} (g : Graph) (h : Hooks σ) (fuel : Nat)
    (hfuel : g.nVertices < fuel) (I : TraversalData × σ → Prop) (E : Failure → Prop)
    (hRun : ∀ i d a, DfsPre g fuel i d → DfsIdle g d → I (d, a) →
      (∀ e, depthFirstTraverseVertex g h fuel i (d, a) = .error e → E e) ∧
      (∀ d2 a2, depthFirstTraverseVertex g h fuel i (d, a) = .ok (d2, a2) →
        DfsPost g i d d2 ∧ I (d2, a2))) :
    ∀ starts, (∀ i ∈ starts, 1 ≤ i ∧ i ≤ g.nVertices) → ∀ d a, DfsIdle g d → I (d, a) →
      (∀ e, dfsAll g fuel h starts (d, a) = .error e → E e) ∧
      (∀ d2 a2, dfsAll g fuel h starts (d, a) = .ok (d2, a2) →
        DfsIdle g d2 ∧ I (d2, a2) ∧ (∀ i ∈ starts, d2.disc i = true) ∧
          (∀ u, d.disc u = true → d2.disc u = true)) := by
  intro starts
  induction starts with
  | nil =>
    intro _ d a hI hInv
    constructor
    · intro e he; simp [dfsAll] at he
    · intro d2 a2 h2
      simp only [dfsAll, Except.ok.injEq, Prod.mk.injEq] at h2
      obtain ⟨h3, h4⟩ := h2
      subst h3; subst h4
      exact ⟨hI, hInv, by simp, fun u hu => hu⟩
  | cons i rest ih =>
    intro hst d a hI hInv
    have hi := hst i (by simp)
    have hrest : ∀ j ∈ rest, 1 ≤ j ∧ j ≤ g.nVertices := fun j hj => hst j (by simp [hj])
    unfold dfsAll
    by_cases hd : d.disc i = false
    · simp only [hd, if_true, DepthFirstTraversal]
      obtain ⟨hE, hOk⟩ := hRun i d a (dfsPre_root hI hi hd hfuel) hI hInv
      cases hr : depthFirstTraverseVertex g h fuel i (d, a) with
      | error e =>
        dsimp only
        exact ⟨fun e2 he2 => by cases he2; exact hE e hr, fun d2 a2 h2 => by cases h2⟩
      | ok st1 =>
        obtain ⟨d1, a1⟩ := st1
        dsimp only
        obtain ⟨hQ, hInv1⟩ := hOk d1 a1 hr
        obtain ⟨hE2, hOk2⟩ := ih hrest d1 a1 (dfsIdle_post hI hQ) hInv1
        refine ⟨hE2, fun d2 a2 h2 => ?_⟩
        obtain ⟨k1, k2, k3, k4⟩ := hOk2 d2 a2 h2
        refine ⟨k1, k2, ?_, ?_⟩
        · intro j hj
          rcases List.mem_cons.mp hj with h | h
          · rw [h]; exact k4 i hQ.done_self
          · exact k3 j h
        · intro u hu
          exact k4 u (hQ.frame.keep u hu).1
    · have hd1 : d.disc i = true := by simpa using hd
      simp only [hd, if_false]
      obtain ⟨hE2, hOk2⟩ := ih hrest d a hI hInv
      refine ⟨hE2, fun d2 a2 h2 => ?_⟩
      obtain ⟨k1, k2, k3, k4⟩ := hOk2 d2 a2 h2
      refine ⟨k1, k2, ?_, k4⟩
      intro j hj
      rcases List.mem_cons.mp hj with h | h
      · rw [h]; exact k4 i hd1
      · exact k3 j h

/-! ## Edge classification during a depth-first traversal -/

theorem classification_tree {g : Graph} (hg : g.Dense) {k v : Nat} {d0 d : TraversalData}
    {y : Nat} {ys : List Nat} (hL : DfsLoop g k v d0 (y :: ys) d) :
    edgeClassification v y (d.setParent y v) = .ok .TREE := by
  have hyr := hg.adj_range v y (dfsLoop_mem hL)
  unfold edgeClassification
  rw [par_setParent hL.inv.sized y v hyr.2 y]
  simp

theorem classification_seen {g : Graph} {k v : Nat} {d0 d : TraversalData}
    {y : Nat} {ys : List Nat} (hL : DfsLoop g k v d0 (y :: ys) d) (hy : d.disc y = true) :
    ∃ c, edgeClassification v y d = .ok c := by
  unfold edgeClassification
  by_cases h1 : d.par y = v
  · exact ⟨.TREE, by simp [h1]⟩
  · by_cases h2 : d.proc y = false
    · exact ⟨.BACK, by simp [h1, h2, hy]⟩
    · have h2t : d.proc y = true := by simpa using h2
      have hne : y ≠ v := by
        intro h; rw [h, hL.gray_self.2] at h2t; cases h2t
      have hent : d.entry y ≠ d.entry v := fun h =>
        hne (hL.inv.entry_inj y v hy hL.gray_self.1 h)
      rcases Nat.lt_or_gt_of_ne hent with h3 | h3
      · refine ⟨.CROSS, ?_⟩
        have h4 : ¬ d.entry y > d.entry v := by omega
        simp [h1, h2t, h3, h4]
      · exact ⟨.FORWARD, by simp [h1, h2t, h3]⟩

theorem articulationHooks_pvl_ok (v : Nat) (d : TraversalData) (a : CutState) :
    ∃ a1, articulationHooks.pvl v d a = .ok a1 := by
  simp only [articulationHooks]
  split_ifs <;> exact ⟨_, rfl⟩

theorem articulationHooks_pe_ok (x y : Nat) (d : TraversalData) (a : CutState) (c : EdgeClass)
    (hc : edgeClassification x y d = .ok c) : ∃ a1, articulationHooks.pe x y d a = .ok a1 := by
  simp only [articulationHooks, hc]
  split_ifs <;> exact ⟨_, rfl⟩

theorem articulation_run_ok (g : Graph) (hg : g.Dense) (fuel v : Nat) (d : TraversalData)
    (a : CutState) (hP : DfsPre g fuel v d) :
    ∃ s, depthFirstTraverseVertex g articulationHooks fuel v (d, a) = .ok s := by
  have key := dfs_fresh_rule g hg articulationHooks (fun _ _ => True) (fun _ _ _ => True)
    (fun _ _ _ _ => True) (fun _ => False) ?_ ?_ ?_ ?_ ?_ fuel v d a hP trivial
  · cases hr : depthFirstTraverseVertex g articulationHooks fuel v (d, a) with
    | error e => exact absurd (key.1 e hr) id
    | ok s => exact ⟨s, rfl⟩
  · intro k v d a _ _
    exact ⟨fun e he => (by simp [articulationHooks] at he), fun _ _ => trivial⟩
  · intro k v d0 a0 y ys d a hL _ _
    obtain ⟨a1, ha1⟩ := articulationHooks_pe_ok v y (d.setParent y v) a _
      (classification_tree hg hL)
    exact ⟨fun e he => (by rw [ha1] at he; cases he), fun _ _ => ⟨trivial, fun _ _ _ _ => trivial⟩⟩
  · intro k v d0 a0 y ys d a hL _ hy _
    obtain ⟨c, hc⟩ := classification_seen hL hy
    obtain ⟨a1, ha1⟩ := articulationHooks_pe_ok v y d a c hc
    exact ⟨fun e he => (by rw [ha1] at he; cases he), fun _ _ => trivial⟩
  · intro _ _ _ _ _ _ _ _ _ _ _ _
    trivial
  · intro k v d0 a0 d a _ _
    obtain ⟨a1, ha1⟩ := articulationHooks_pvl_ok v (d.markProcessed v) a
    exact ⟨fun e he => (by rw [ha1] at he; cases he), fun _ _ => trivial⟩

theorem classified_run_ok {σ : Type} (g : Graph) (hg : g.Dense) (h : Hooks σ)
    (hpve : ∀ v d a, ∃ a1, h.pve v d a = .ok a1)
    (hpvl : ∀ v d a, ∃ a1, h.pvl v d a = .ok a1)
    (hpe : ∀ x y d a, ∃ a1, h.pe x y d a = .ok a1)
    (fuel v : Nat) (d : TraversalData) (a : σ) (hP : DfsPre g fuel v d) :
    (∀ e, depthFirstTraverseVertex g (withClassification h) fuel v (d, a) = .error e → False) ∧
    (∀ d2 a2, depthFirstTraverseVertex g (withClassification h) fuel v (d, a) = .ok (d2, a2) →
      DfsPost g v d d2 ∧ True) := by
  refine dfs_fresh_rule g hg (withClassification h) (fun _ _ => True) (fun _ _ _ => True)
    (fun _ _ _ _ => True) (fun _ => False) ?_ ?_ ?_ ?_ ?_ fuel v d a hP trivial
  · intro k v d a _ _
    obtain ⟨a1, ha1⟩ := hpve v (d.markDiscovered v) a
    exact ⟨fun e he => (by simp only [withClassification] at he; rw [ha1] at he; cases he),
      fun _ _ => trivial⟩
  · intro k v d0 a0 y ys d a hL _ _
    obtain ⟨a1, ha1⟩ := hpe v y (d.setParent y v) a
    refine ⟨fun e he => ?_, fun _ _ => ⟨trivial, fun _ _ _ _ => trivial⟩⟩
    simp only [withClassification, classification_tree hg hL] at he
    rw [ha1] at he; cases he
  · intro k v d0 a0 y ys d a hL _ hy _
    obtain ⟨c, hc⟩ := classification_seen hL hy
    obtain ⟨a1, ha1⟩ := hpe v y d a
    refine ⟨fun e he => ?_, fun _ _ => trivial⟩
    simp only [withClassification, hc] at he
    rw [ha1] at he; cases he
  · intro _ _ _ _ _ _ _ _ _ _ _ _
    trivial
  · intro k v d0 a0 d a _ _
    obtain ⟨a1, ha1⟩ := hpvl v (d.markProcessed v) a
    exact ⟨fun e he => (by simp only [withClassification] at he; rw [ha1] at he; cases he),
      fun _ _ => trivial⟩

/-- On the directed graph with the single self-loop `1 -> 1`, a second
`DepthFirstTraversal` run started at the already processed vertex 1 over the
same `TraversalData` reaches the fatal branch of `edgeClassification` at the
invocation `pe(1, 1)`. No method of the package starts a run at a discovered
vertex: `ArticulationVertices` and `HasCycles` start one run on fresh data, and
the loops of `TopologicalSort` and `StronglyConnectedComponents` test
`!data.discovered[i]` first. -/
theorem classification_fatal_on_repeated_start :
    dfsRuns (Graph.zero.Init true [1, 1]) 2 (withClassification noHooks) [1, 1]
      (TraversalData.zero.Init (Graph.zero.Init true [1, 1]), ()) =
      .error (.cannotClassify 1 1) := by
  rfl

/-! ## `StronglyConnectedComponents` returns normally -/

theorem popComponent_suffix (v c : Nat) (rest : List Nat) :
    ∀ (active scc : List Nat), (v :: rest) <:+ active →
      ∃ active2 scc2, popComponent v c active scc = .ok (active2, scc2) ∧ rest <:+ active2 := by
  intro active
  induction active with
  | nil =>
    intro scc h
    have := List.IsSuffix.length_le h
    simp at this
  | cons cur tl ih =>
    intro scc h
    unfold popComponent
    by_cases hc : cur = v
    · simp only [hc, if_true]
      refine ⟨tl, scc, rfl, ?_⟩
      rcases List.suffix_cons_iff.mp h with h1 | h1
      · have : rest = tl := by injection h1
        rw [this]
      · exact (List.suffix_cons v rest).trans h1
    · simp only [hc, if_false]
      rcases List.suffix_cons_iff.mp h with h1 | h1
      · have : v = cur := by injection h1
        exact absurd this.symm hc
      · exact ih _ h1

theorem sccComplete_ok (v : Nat) (a : SccState) (rest : List Nat)
    (h : (v :: rest) <:+ a.active) :
    ∃ a1, sccComplete v a = .ok a1 ∧ rest <:+ a1.active := by
  unfold sccComplete
  by_cases hl : a.low.getD v 0 = v
  · simp only [hl, if_true]
    obtain ⟨act2, scc2, h1, h2⟩ := popComponent_suffix v (a.componentCount + 1) rest a.active
      (a.scc.set v (a.componentCount + 1)) h
    rw [h1]
    exact ⟨_, rfl, h2⟩
  · simp only [hl, if_false]
    exact ⟨a, rfl, (List.suffix_cons v rest).trans h⟩

theorem sccHooks_pvl_ok (v : Nat) (d : TraversalData) (a : SccState) (rest : List Nat)
    (h : (v :: rest) <:+ a.active) :
    ∃ a2, sccHooks.pvl v d a = .ok a2 ∧ rest <:+ a2.active := by
  obtain ⟨a1, h1, h2⟩ := sccComplete_ok v a rest h
  simp only [sccHooks, h1]
  split_ifs
  · exact ⟨_, rfl, h2⟩
  · exact ⟨_, rfl, h2⟩

theorem sccHooks_pe_ok (x y : Nat) (d : TraversalData) (a : SccState) (c : EdgeClass)
    (hc : edgeClassification x y d = .ok c) :
    ∃ a1, sccHooks.pe x y d a = .ok a1 ∧ a1.active = a.active := by
  simp only [sccHooks, hc]
  split_ifs <;> exact ⟨_, rfl, rfl⟩

theorem scc_run_ok (g : Graph) (hg : g.Dense) (fuel v : Nat) (d : TraversalData)
    (a : SccState) (hP : DfsPre g fuel v d) :
    (∀ e, depthFirstTraverseVertex g sccHooks fuel v (d, a) = .error e → False) ∧
    (∀ d2 a2, depthFirstTraverseVertex g sccHooks fuel v (d, a) = .ok (d2, a2) →
      DfsPost g v d d2 ∧ a.active <:+ a2.active) := by
  refine dfs_fresh_rule g hg sccHooks (fun _ _ => True)
    (fun _ s s2 => s.2.active <:+ s2.2.active)
    (fun v s0 _ s => (v :: s0.2.active) <:+ s.2.active) (fun _ => False)
    ?_ ?_ ?_ ?_ ?_ fuel v d a hP trivial
  · intro k v d a _ _
    refine ⟨fun e he => (by simp [sccHooks] at he), fun a1 ha1 => ?_⟩
    simp only [sccHooks, Except.ok.injEq] at ha1
    subst ha1
    exact List.suffix_refl _
  · intro k v d0 a0 y ys d a hL hS _
    obtain ⟨a1, ha1, hact⟩ := sccHooks_pe_ok v y (d.setParent y v) a _
      (classification_tree hg hL)
    refine ⟨fun e he => (by rw [ha1] at he; cases he), fun a1b ha1b => ⟨trivial, ?_⟩⟩
    rw [ha1] at ha1b
    cases ha1b
    intro d2 a2 _ hQ
    have hS2 : (v :: a0.active) <:+ a1.active := by rw [hact]; exact hS
    exact hS2.trans hQ
  · intro k v d0 a0 y ys d a hL hS hy _
    obtain ⟨c, hc⟩ := classification_seen hL hy
    obtain ⟨a1, ha1, hact⟩ := sccHooks_pe_ok v y d a c hc
    refine ⟨fun e he => (by rw [ha1] at he; cases he), fun a1b ha1b => ?_⟩
    rw [ha1] at ha1b
    cases ha1b
    show (v :: a0.active) <:+ a1.active
    rw [hact]; exact hS
  · intro _ _ _ _ _ _ _ _ _ hS _ _
    exact hS
  · intro k v d0 a0 d a _ hS
    obtain ⟨a2, ha2, hsuf⟩ := sccHooks_pvl_ok v (d.markProcessed v) a a0.active hS
    refine ⟨fun e he => (by rw [ha2] at he; cases he), fun a1b ha1b => ?_⟩
    rw [ha2] at ha1b
    cases ha1b
    exact hsuf

/-- C12: with fatal termination and panics as error results, for every graph
built by `Init` from a pair list with ids `1..n`, `StronglyConnectedComponents`
fails when the graph was built undirected and returns normally on every
directed graph (no `Cannot classify edge`, no pop of the empty stack, and the
fuel of the model is not exhausted). -/
theorem scc_fails_iff_undirected (directed : Bool) (pairs : List Nat) (n : Nat)
    (h : DenseIds pairs n) (fuel : Nat) (hfuel : n < fuel) :
    (directed = false →
        StronglyConnectedComponents (Graph.zero.Init directed pairs) fuel =
          .error .undirectedInput) ∧
      (directed = true →
        ∃ r, StronglyConnectedComponents (Graph.zero.Init directed pairs) fuel = .ok r) := by
  have hg := Init_dense Graph.zero directed pairs n h
  have hn : (Graph.zero.Init directed pairs).nVertices = n := by
    rw [Init_nVertices, denseIds_dedup_length h]
  constructor
  · intro hd
    unfold StronglyConnectedComponents
    simp [Init_directed, hd]
  · intro hd
    unfold StronglyConnectedComponents
    simp only [Init_directed, hd, Bool.true_eq_false, if_false]
    have key := dfsAll_fresh_rule (Graph.zero.Init true pairs) sccHooks fuel
      (by rw [← hd, hn]; exact hfuel) (fun _ => True) (fun _ => False) ?_
      (List.range' 1 (Graph.zero.Init true pairs).nVertices) ?_
      (TraversalData.zero.Init (Graph.zero.Init true pairs))
      { componentCount := 0
        scc := List.replicate (adjustSize (Graph.zero.Init true pairs).nVertices) 0
        low := List.range (adjustSize (Graph.zero.Init true pairs).nVertices)
        active := [] }
      (dfsIdle_Init _ _) trivial
    · cases hr : dfsAll (Graph.zero.Init true pairs) fuel sccHooks
          (List.range' 1 (Graph.zero.Init true pairs).nVertices)
          (TraversalData.zero.Init (Graph.zero.Init true pairs),
            { componentCount := 0
              scc := List.replicate (adjustSize (Graph.zero.Init true pairs).nVertices) 0
              low := List.range (adjustSize (Graph.zero.Init true pairs).nVertices)
              active := [] }) with
      | error e => exact absurd (key.1 e hr) id
      | ok s => exact ⟨_, rfl⟩
    · intro i d a hP _ _
      obtain ⟨h1, h2⟩ := scc_run_ok _ (hd ▸ hg) fuel i d a hP
      exact ⟨h1, fun d2 a2 hr => ⟨(h2 d2 a2 hr).1, trivial⟩⟩
    · intro i hi
      rw [List.mem_range'_1] at hi
      omega

theorem scc_fails_iff_undirected_witness :
    (true = false →
        StronglyConnectedComponents (Graph.zero.Init true [1, 2, 2, 3, 3, 4, 4, 2]) 5 =
          .error .undirectedInput) ∧
      (true = true →
        ∃ r, StronglyConnectedComponents (Graph.zero.Init true [1, 2, 2, 3, 3, 4, 4, 2]) 5 =
          .ok r) :=
  scc_fails_iff_undirected true [1, 2, 2, 3, 3, 4, 4, 2] 4 (by decide) 5 (by decide)

/-! ## Edge classes and the depth-first tree -/

theorem anc_entry_le {g : Graph} {d : TraversalData} (inv : DfsInv g d) {x y : Nat}
    (h : d.Anc x y) : d.disc y = true → d.entry x ≤ d.entry y := by
  unfold TraversalData.Anc at h
  induction h with
  | refl => intro _; exact le_refl _
  | tail _ hbc ih =>
    intro hc
    obtain ⟨h1, h2⟩ := hbc
    obtain ⟨h3, h4⟩ := inv.par_entry _ hc (by rw [h1]; exact h2)
    rw [h1] at h3 h4
    have := ih h3
    omega

theorem classAgrees_tree {g : Graph} (hg : g.Dense) {k v : Nat} {d0 d : TraversalData}
    {y : Nat} {ys : List Nat} (hL : DfsLoop g k v d0 (y :: ys) d) :
    ClassAgrees v y (d.setParent y v) := by
  have hyr := hg.adj_range v y (dfsLoop_mem hL)
  unfold ClassAgrees
  rw [classification_tree hg hL]
  simp only
  rw [par_setParent hL.inv.sized y v hyr.2 y]
  simp

theorem classAgrees_seen {g : Graph} {k v : Nat} {d0 d : TraversalData}
    {y : Nat} {ys : List Nat} (hL : DfsLoop g k v d0 (y :: ys) d) (hy : d.disc y = true) :
    ClassAgrees v y d := by
  obtain ⟨c, hc⟩ := classification_seen hL hy
  unfold ClassAgrees
  rw [hc]
  unfold edgeClassification at hc
  split_ifs at hc with h1 h2 h3 h4
  · cases hc; exact h1
  · cases hc
    refine ⟨?_, h2.2⟩
    have := (hL.gray_anc y).mp h2
    rw [anc_iff_eq_or_panc] at this
    exact this
  · cases hc
    exact ⟨h3.1, hL.later_below y hy h3.2⟩
  · cases hc
    refine ⟨h4.1, ?_, ?_⟩
    · intro ha
      have := ((hL.gray_anc y).mpr ha).2
      rw [h4.1] at this; cases this
    · intro ha
      have := anc_entry_le hL.inv ha hy
      omega

theorem recordEdges_run (g : Graph) (hg : g.Dense) (fuel v : Nat) (d : TraversalData)
    (tr : List (Nat × Nat × TraversalData)) (hP : DfsPre g fuel v d)
    (htr : ∀ e ∈ tr, ClassAgrees e.1 e.2.1 e.2.2) :
    (∀ e, depthFirstTraverseVertex g recordEdges fuel v (d, tr) = .error e → False) ∧
    (∀ d2 tr2, depthFirstTraverseVertex g recordEdges fuel v (d, tr) = .ok (d2, tr2) →
      DfsPost g v d d2 ∧ ∀ e ∈ tr2, ClassAgrees e.1 e.2.1 e.2.2) := by
  refine dfs_fresh_rule g hg recordEdges
    (fun _ s => ∀ e ∈ s.2, ClassAgrees e.1 e.2.1 e.2.2)
    (fun _ _ s2 => ∀ e ∈ s2.2, ClassAgrees e.1 e.2.1 e.2.2)
    (fun _ _ _ s => ∀ e ∈ s.2, ClassAgrees e.1 e.2.1 e.2.2) (fun _ => False)
    ?_ ?_ ?_ ?_ ?_ fuel v d tr hP htr
  · intro k v d a _ hA
    refine ⟨fun e he => (by simp [recordEdges] at he), fun a1 ha1 => ?_⟩
    simp only [recordEdges, Except.ok.injEq] at ha1
    subst ha1
    exact hA
  · intro k v d0 a0 y ys d a hL hA _
    refine ⟨fun e he => (by simp [recordEdges] at he), fun a1 ha1 => ?_⟩
    simp only [recordEdges, Except.ok.injEq] at ha1
    subst ha1
    refine ⟨?_, fun d2 a2 _ hQ => hQ⟩
    intro e he
    rcases List.mem_append.mp he with h | h
    · exact hA e h
    · simp only [List.mem_singleton] at h
      subst h
      exact classAgrees_tree hg hL
  · intro k v d0 a0 y ys d a hL hA hy _
    refine ⟨fun e he => (by simp [recordEdges] at he), fun a1 ha1 => ?_⟩
    simp only [recordEdges, Except.ok.injEq] at ha1
    subst ha1
    intro e he
    rcases List.mem_append.mp he with h | h
    · exact hA e h
    · simp only [List.mem_singleton] at h
      subst h
      exact classAgrees_seen hL hy
  · intro _ _ _ _ _ _ _ _ _ hA _ _
    exact hA
  · intro k v d0 a0 d a _ hA
    refine ⟨fun e he => (by simp [recordEdges] at he), fun a1 ha1 => ?_⟩
    simp only [recordEdges, Except.ok.injEq] at ha1
    subst ha1
    exact hA

/-- C19: for every directed graph with dense ids `1..n` and every start in
`1..n`, `DepthFirstTraversal(start)` on freshly initialised data returns
normally, and at every invocation `pe(x, y)` of the edge hook the class returned
by `edgeClassification(x, y, data)` agrees with the tree of parent pointers:
TREE implies `parent[y] == x`; BACK implies that `y` is `x` or a proper ancestor
of `x`, and unprocessed; FORWARD implies that `y` is a processed proper
descendant of `x`; CROSS implies that `y` is processed and neither an ancestor
nor a descendant of `x`. -/
theorem edge_classes_agree_with_tree (g : Graph) (hg : g.Dense) (_hdir : g.directed = true)
    (fuel : Nat) (hfuel : g.nVertices < fuel) (start : Nat)
    (hstart : 1 ≤ start ∧ start ≤ g.nVertices) :
    ∃ d tr, DepthFirstTraversal g fuel start recordEdges (TraversalData.zero.Init g, []) =
        .ok (d, tr) ∧ ∀ e ∈ tr, ClassAgrees e.1 e.2.1 e.2.2 := by
  obtain ⟨h1, h2⟩ := recordEdges_run g hg fuel start (TraversalData.zero.Init g) []
    (dfsPre_root (dfsIdle_Init g _) hstart (by simp) hfuel) (by simp)
  unfold DepthFirstTraversal
  cases hr : depthFirstTraverseVertex g recordEdges fuel start (TraversalData.zero.Init g, []) with
  | error e => exact absurd (h1 e hr) id
  | ok s =>
    obtain ⟨d2, tr2⟩ := s
    exact ⟨d2, tr2, rfl, (h2 d2 tr2 hr).2⟩

theorem edge_classes_agree_with_tree_witness :
    ∃ d tr, DepthFirstTraversal (Graph.zero.Init true [1, 2, 2, 3, 3, 1, 1, 3, 3, 3]) 4 1
        recordEdges (TraversalData.zero.Init (Graph.zero.Init true [1, 2, 2, 3, 3, 1, 1, 3, 3, 3]),
          []) = .ok (d, tr) ∧ ∀ e ∈ tr, ClassAgrees e.1 e.2.1 e.2.2 :=
  edge_classes_agree_with_tree (Graph.zero.Init true [1, 2, 2, 3, 3, 1, 1, 3, 3, 3])
    (Init_dense Graph.zero true [1, 2, 2, 3, 3, 1, 1, 3, 3, 3] 3 (by decide)) (by rfl) 4
    (by decide) 1 (by decide)

/-! ## `TopologicalSort` -/

theorem anc_reach {g : Graph} {d : TraversalData} (inv : DfsInv g d) {u v : Nat}
    (h : d.Anc u v) : g.Reach u v := by
  unfold TraversalData.Anc at h
  unfold Graph.Reach
  induction h with
  | refl => exact Relation.ReflTransGen.refl
  | tail _ hbc ih =>
    obtain ⟨h1, h2⟩ := hbc
    have := inv.par_adj _ (by rw [h1]; exact h2)
    rw [h1] at this
    exact Relation.ReflTransGen.tail ih this

theorem dense_source_range {g : Graph} (hg : g.Dense) {v y : Nat} (h : g.Adj v y) :
    1 ≤ v ∧ v ≤ g.nVertices := by
  unfold Graph.Adj at h
  constructor
  · rcases Nat.eq_zero_or_pos v with h0 | h0
    · rw [h0, hg.adj_zero] at h; simp at h
    · exact h0
  · by_contra hlt
    unfold Graph.adj at h
    rw [List.getD_eq_default _ _ (by have := hg.edges_length; omega)] at h
    simp at h

theorem sortedInv_acyclic {g : Graph} (hg : g.Dense) {d : TraversalData} {sorted : List Nat}
    (hS : SortedInv g d sorted) (hall : ∀ i, 1 ≤ i → i ≤ g.nVertices → d.proc i = true) :
    ¬ g.Cyclic := by
  have step : ∀ x y, Relation.TransGen g.Adj x y → d.proc x = true →
      d.proc y = true ∧ sorted.indexOf y < sorted.indexOf x := by
    intro x y hxy
    induction hxy with
    | single hab =>
      intro hx
      obtain ⟨h1, h2⟩ := hS.before x hx _ hab
      exact ⟨(hS.mem_iff _).mpr h1, h2⟩
    | tail _ hbc ih =>
      intro hx
      obtain ⟨h1, h2⟩ := ih hx
      obtain ⟨h3, h4⟩ := hS.before _ h1 _ hbc
      exact ⟨(hS.mem_iff _).mpr h3, by omega⟩
  rintro ⟨v, hv⟩
  obtain ⟨b, hvb, _⟩ := Relation.TransGen.head'_iff.mp hv
  obtain ⟨h1, h2⟩ := dense_source_range hg hvb
  have := (step v v hv (hall v h1 h2)).2
  omega

theorem sortedInv_exit {g : Graph} {k v : Nat} {d0 d : TraversalData} {a : List Nat}
    (hL : DfsLoop g k v d0 [] d) (hS : SortedInv g d a)
    (hdone : ∃ done, g.adj v = done ++ [] ∧ ∀ y ∈ done, d.proc y = true) :
    SortedInv g ((d.markProcessed v).stampExit v) (a ++ [v]) := by
  have hproc : ∀ u, ((d.markProcessed v).stampExit v).proc u =
      if u = v then true else d.proc u := by
    intro u; rw [proc_stampExit, proc_markProcessed hL.inv.sized v hL.range.2 u]
  have hva : v ∉ a := by
    intro h
    have := (hS.mem_iff v).mpr h
    rw [hL.gray_self.2] at this; cases this
  obtain ⟨done, hd1, hd2⟩ := hdone
  rw [List.append_nil] at hd1
  refine ⟨?_, ?_, ?_, ?_⟩
  · intro u
    rw [hproc, List.mem_append, List.mem_singleton]
    by_cases huv : u = v
    · simp [huv]
    · simp only [huv, if_false, or_false]
      exact hS.mem_iff u
  · rw [List.nodup_append]
    refine ⟨hS.nodup, List.nodup_singleton v, ?_⟩
    intro x hx hx2
    rw [List.mem_singleton] at hx2
    exact hva (hx2 ▸ hx)
  · intro x hx y hy
    rw [hproc] at hx
    by_cases hxv : x = v
    · subst hxv
      rw [hd1] at hy
      have hya : y ∈ a := (hS.mem_iff y).mp (hd2 y hy)
      refine ⟨List.mem_append_left _ hya, ?_⟩
      rw [List.indexOf_append_of_mem hya, List.indexOf_append_of_not_mem hva]
      have := List.indexOf_lt_length.mpr hya
      omega
    · simp only [hxv, if_false] at hx
      obtain ⟨h1, h2⟩ := hS.before x hx y hy
      have hxa : x ∈ a := (hS.mem_iff x).mp hx
      refine ⟨List.mem_append_left _ h1, ?_⟩
      rw [List.indexOf_append_of_mem h1, List.indexOf_append_of_mem hxa]
      exact h2
  · intro u hu
    rcases List.mem_append.mp hu with h | h
    · exact hS.range u h
    · rw [List.mem_singleton] at h
      rw [h]; exact hL.range

theorem topological_run (g : Graph) (hg : g.Dense) (hdir : g.directed = true) (fuel v : Nat)
    (d : TraversalData) (a : List Nat) (hP : DfsPre g fuel v d) (hS : SortedInv g d a) :
    (∀ e, depthFirstTraverseVertex g topologicalHooks fuel v (d, a) = .error e →
      g.Cyclic ∧ ∃ x y, e = .backEdge x y) ∧
    (∀ d2 a2, depthFirstTraverseVertex g topologicalHooks fuel v (d, a) = .ok (d2, a2) →
      DfsPost g v d d2 ∧ SortedInv g d2 a2) := by
  refine dfs_fresh_rule g hg topologicalHooks
    (fun _ s => SortedInv g s.1 s.2)
    (fun _ _ s2 => SortedInv g s2.1 s2.2)
    (fun v _ ys s => SortedInv g s.1 s.2 ∧
      ∃ done, g.adj v = done ++ ys ∧ ∀ y ∈ done, s.1.proc y = true)
    (fun e => g.Cyclic ∧ ∃ x y, e = .backEdge x y)
    ?_ ?_ ?_ ?_ ?_ fuel v d a hP hS
  · intro k v d a _ hA
    refine ⟨fun e he => (by simp [topologicalHooks] at he), fun a1 ha1 => ?_⟩
    simp only [topologicalHooks, Except.ok.injEq] at ha1
    subst ha1
    exact ⟨⟨hA.mem_iff, hA.nodup, hA.before, hA.range⟩, [], by simp, by simp⟩
  · intro k v d0 a0 y ys d a hL hA hy
    have hpe : topologicalHooks.pe v y (d.setParent y v) a = .ok a := by
      have : (d.setParent y v).disc y = false := hy
      simp [topologicalHooks, this]
    refine ⟨fun e he => (by rw [hpe] at he; cases he), fun a1 ha1 => ?_⟩
    rw [hpe] at ha1
    cases ha1
    refine ⟨⟨hA.1.mem_iff, hA.1.nodup, hA.1.before, hA.1.range⟩, ?_⟩
    intro d2 a2 hQ hS2
    refine ⟨hS2, ?_⟩
    obtain ⟨done, hd1, hd2⟩ := hA.2
    refine ⟨done ++ [y], by simp [hd1], ?_⟩
    intro z hz
    rcases List.mem_append.mp hz with h | h
    · have hz1 := hd2 z h
      have hz2 : (d.setParent y v).disc z = true := hL.inv.proc_disc z hz1
      rw [(hQ.frame.keep z hz2).2.1]
      exact hz1
    · simp only [List.mem_singleton] at h
      subst h
      exact hQ.new_done z hQ.done_self hy
  · intro k v d0 a0 y ys d a hL hA hy _
    by_cases hp : d.proc y = false
    · have hpe : topologicalHooks.pe v y d a = .error (.backEdge v y) := by
        simp [topologicalHooks, hy, hp]
      refine ⟨fun e he => ?_, fun a1 ha1 => (by rw [hpe] at ha1; cases ha1)⟩
      rw [hpe] at he
      cases he
      refine ⟨⟨v, ?_⟩, v, y, rfl⟩
      have hanc := (hL.gray_anc y).mp ⟨hy, hp⟩
      exact Relation.TransGen.head' (dfsLoop_mem hL) (anc_reach hL.inv hanc)
    · have hp1 : d.proc y = true := by simpa using hp
      have hpe : topologicalHooks.pe v y d a = .ok a := by
        simp [topologicalHooks, hp1]
      refine ⟨fun e he => (by rw [hpe] at he; cases he), fun a1 ha1 => ?_⟩
      rw [hpe] at ha1
      cases ha1
      refine ⟨hA.1, ?_⟩
      obtain ⟨done, hd1, hd2⟩ := hA.2
      refine ⟨done ++ [y], by simp [hd1], ?_⟩
      intro z hz
      rcases List.mem_append.mp hz with h | h
      · exact hd2 z h
      · simp only [List.mem_singleton] at h
        subst h
        exact hp1
  · intro _ _ _ _ _ _ _ _ _ _ _ hc
    exact absurd (Or.inl hdir) hc
  · intro k v d0 a0 d a hL hA
    refine ⟨fun e he => (by simp [topologicalHooks] at he), fun a1 ha1 => ?_⟩
    simp only [topologicalHooks, Except.ok.injEq] at ha1
    subst ha1
    exact sortedInv_exit hL hA.1 hA.2

theorem sortedInv_Init (g : Graph) (d : TraversalData) : SortedInv g (d.Init g) [] := by
  refine ⟨?_, List.nodup_nil, ?_, ?_⟩
  · intro u; simp
  · intro x hx; simp at hx
  · intro u hu; simp at hu

theorem topologicalSort_directed (g : Graph) (hg : g.Dense) (hdir : g.directed = true)
    (fuel : Nat) (hfuel : g.nVertices < fuel) :
    (∀ e, TopologicalSort g fuel = .error e → g.Cyclic ∧ ∃ x y, e = .backEdge x y) ∧
    (∀ sorted, TopologicalSort g fuel = .ok sorted →
      ∃ d, SortedInv g d sorted ∧ ∀ i, 1 ≤ i → i ≤ g.nVertices → d.proc i = true) := by
  have key := dfsAll_fresh_rule g topologicalHooks fuel hfuel (fun s => SortedInv g s.1 s.2)
    (fun e => g.Cyclic ∧ ∃ x y, e = .backEdge x y)
    (fun i d a hP _ hS => topological_run g hg hdir fuel i d a hP hS)
    (List.range' 1 g.nVertices) (by intro i hi; rw [List.mem_range'_1] at hi; omega)
    (TraversalData.zero.Init g) [] (dfsIdle_Init g _) (sortedInv_Init g _)
  unfold TopologicalSort
  simp only [hdir, Bool.true_eq_false, if_false]
  cases hr : dfsAll g fuel topologicalHooks (List.range' 1 g.nVertices)
      (TraversalData.zero.Init g, []) with
  | error e =>
    dsimp only
    exact ⟨fun e2 he2 => by cases he2; exact key.1 e hr, fun s hs => by cases hs⟩
  | ok st =>
    obtain ⟨d2, a2⟩ := st
    dsimp only
    refine ⟨fun e2 he2 => (by cases he2), fun s hs => ?_⟩
    cases hs
    obtain ⟨hI, hS, hall, _⟩ := key.2 d2 a2 hr
    refine ⟨d2, hS, ?_⟩
    intro i h1 h2
    exact hI.no_gray i (hall i (by rw [List.mem_range'_1]; omega))

/-- C11: with fatal termination as an error result, for every graph built by
`Init` from a pair list with ids `1..n`, `TopologicalSort` fails if and only if
the graph was built undirected or contains a directed cycle (a self-loop is
one); the failure is the undirected-input or the back-edge fatal, never an
exhausted fuel of the model, and on every directed acyclic graph a sequence is
returned. -/
theorem topologicalSort_fails_iff (directed : Bool) (pairs : List Nat) (n : Nat)
    (h : DenseIds pairs n) (fuel : Nat) (hfuel : n < fuel) :
    ((∃ e, TopologicalSort (Graph.zero.Init directed pairs) fuel = .error e) ↔
        (directed = false ∨ (Graph.zero.Init directed pairs).Cyclic)) ∧
      (∀ e, TopologicalSort (Graph.zero.Init directed pairs) fuel = .error e →
        e = .undirectedInput ∨ ∃ x y, e = .backEdge x y) ∧
      (directed = true → ¬ (Graph.zero.Init directed pairs).Cyclic →
        ∃ sorted, TopologicalSort (Graph.zero.Init directed pairs) fuel = .ok sorted) := by
  have hg := Init_dense Graph.zero directed pairs n h
  have hn : (Graph.zero.Init directed pairs).nVertices = n := by
    rw [Init_nVertices, denseIds_dedup_length h]
  cases directed with
  | false =>
    have hu : TopologicalSort (Graph.zero.Init false pairs) fuel = .error .undirectedInput := by
      unfold TopologicalSort
      simp [Init_directed]
    refine ⟨⟨fun _ => Or.inl rfl, fun _ => ⟨_, hu⟩⟩, ?_, fun hd => by cases hd⟩
    intro e he
    rw [hu] at he
    cases he
    exact Or.inl rfl
  | true =>
    obtain ⟨hE, hOk⟩ := topologicalSort_directed (Graph.zero.Init true pairs) hg
      (Init_directed _ _ _) fuel (by rw [hn]; exact hfuel)
    have hacyc : ∀ sorted, TopologicalSort (Graph.zero.Init true pairs) fuel = .ok sorted →
        ¬ (Graph.zero.Init true pairs).Cyclic := by
      intro sorted hs
      obtain ⟨d, hS, hall⟩ := hOk sorted hs
      exact sortedInv_acyclic hg hS hall
    refine ⟨⟨?_, ?_⟩, ?_, ?_⟩
    · rintro ⟨e, he⟩
      exact Or.inr (hE e he).1
    · rintro (hd | hc)
      · cases hd
      · cases hr : TopologicalSort (Graph.zero.Init true pairs) fuel with
        | error e => exact ⟨e, rfl⟩
        | ok sorted => exact absurd hc (hacyc sorted hr)
    · intro e he
      exact Or.inr (hE e he).2
    · intro _ hc
      cases hr : TopologicalSort (Graph.zero.Init true pairs) fuel with
      | error e => exact absurd (hE e hr).1 hc
      | ok sorted => exact ⟨sorted, rfl⟩

theorem topologicalSort_fails_iff_witness :
    ((∃ e, TopologicalSort (Graph.zero.Init true [1, 2, 2, 3, 3, 1]) 4 = .error e) ↔
        (true = false ∨ (Graph.zero.Init true [1, 2, 2, 3, 3, 1]).Cyclic)) ∧
      (∀ e, TopologicalSort (Graph.zero.Init true [1, 2, 2, 3, 3, 1]) 4 = .error e →
        e = .undirectedInput ∨ ∃ x y, e = .backEdge x y) ∧
      (true = true → ¬ (Graph.zero.Init true [1, 2, 2, 3, 3, 1]).Cyclic →
        ∃ sorted, TopologicalSort (Graph.zero.Init true [1, 2, 2, 3, 3, 1]) 4 = .ok sorted) :=
  topologicalSort_fails_iff true [1, 2, 2, 3, 3, 1] 3 (by decide) 4 (by decide)

/-! ## A proof rule for the breadth-first traversal

`Lo k s` is the invariant of the queue loop with fuel `k`, `Li k x ys s` the
invariant of the adjacency loop of the dequeued vertex `x` with `ys` still to
scan, and `Qf` what holds when the queue has run empty. -/

theorem bfsEdges_rule {σ : Type} (g : Graph) (h : Hooks σ) (x : Nat)
    (Li : List Nat → TraversalData × List Nat × σ → Prop) (E : Failure → Prop)
    (hStep : ∀ y ys d q a, Li (y :: ys) (d, q, a) →
      (∀ e, (if g.directed = true ∨ d.proc y = false then h.pe x y d a else .ok a) = .error e →
        E e) ∧
      (∀ a1, (if g.directed = true ∨ d.proc y = false then h.pe x y d a else .ok a) = .ok a1 →
        (d.disc y = false → Li ys ((d.markDiscovered y).setParent y x, q ++ [y], a1)) ∧
        (d.disc y = true → Li ys (d, q, a1)))) :
    ∀ ys s, Li ys s →
      (∀ e, bfsEdges g h x ys s = .error e → E e) ∧
      (∀ s2, bfsEdges g h x ys s = .ok s2 → Li [] s2) := by
  intro ys
  induction ys with
  | nil =>
    intro s hL
    constructor
    · intro e he; simp [bfsEdges] at he
    · intro s2 hs2
      simp only [bfsEdges, Except.ok.injEq] at hs2
      exact hs2 ▸ hL
  | cons y ys ih =>
    rintro ⟨d, q, a⟩ hL
    obtain ⟨hE, hOk⟩ := hStep y ys d q a hL
    unfold bfsEdges
    cases hpe : (if g.directed = true ∨ d.proc y = false then h.pe x y d a else .ok a) with
    | error e =>
      dsimp only
      exact ⟨fun e2 he2 => by cases he2; exact hE e hpe, fun s2 hs2 => by cases hs2⟩
    | ok a1 =>
      dsimp only
      obtain ⟨h1, h2⟩ := hOk a1 hpe
      by_cases hd : d.disc y = false
      · simp only [hd, if_true]
        exact ih _ (h1 hd)
      · have hd1 : d.disc y = true := by simpa using hd
        simp only [hd, if_false]
        exact ih _ (h2 hd1)

theorem bfsLoop_rule {σ : Type} (g : Graph) (h : Hooks σ)
    (Lo : Nat → TraversalData × List Nat × σ → Prop)
    (Li : Nat → Nat → List Nat → TraversalData × List Nat × σ → Prop)
    (Qf : TraversalData × σ → Prop) (E : Failure → Prop)
    (hFuel : ∀ d v q a, Lo 0 (d, v :: q, a) → E .outOfFuel)
    (hDone : ∀ k d a, Lo k (d, [], a) → Qf (d, a))
    (hDeq : ∀ k d v q a, Lo (k + 1) (d, v :: q, a) →
      (∀ e, h.pve v d a = .error e → E e) ∧
      (∀ a1, h.pve v d a = .ok a1 → Li k v (g.adj v) (d.markProcessed v, q, a1)))
    (hStep : ∀ k x y ys d q a, Li k x (y :: ys) (d, q, a) →
      (∀ e, (if g.directed = true ∨ d.proc y = false then h.pe x y d a else .ok a) = .error e →
        E e) ∧
      (∀ a1, (if g.directed = true ∨ d.proc y = false then h.pe x y d a else .ok a) = .ok a1 →
        (d.disc y = false → Li k x ys ((d.markDiscovered y).setParent y x, q ++ [y], a1)) ∧
        (d.disc y = true → Li k x ys (d, q, a1))))
    (hEnd : ∀ k x d q a, Li k x [] (d, q, a) →
      (∀ e, h.pvl x d a = .error e → E e) ∧
      (∀ a3, h.pvl x d a = .ok a3 → Lo k (d, q, a3))) :
    ∀ fuel s, Lo fuel s →
      (∀ e, bfsLoop g h fuel s = .error e → E e) ∧
      (∀ r, bfsLoop g h fuel s = .ok r → Qf r) := by
  intro fuel
  induction fuel with
  | zero =>
    rintro ⟨d, q, a⟩ hL
    cases q with
    | nil =>
      unfold bfsLoop
      refine ⟨fun e he => (by cases he), fun r hr => ?_⟩
      cases hr
      exact hDone 0 d a hL
    | cons v q =>
      unfold bfsLoop
      refine ⟨fun e he => ?_, fun r hr => (by cases hr)⟩
      cases he
      exact hFuel d v q a hL
  | succ k ih =>
    rintro ⟨d, q, a⟩ hL
    cases q with
    | nil =>
      unfold bfsLoop
      refine ⟨fun e he => (by cases he), fun r hr => ?_⟩
      cases hr
      exact hDone (k + 1) d a hL
    | cons v q =>
      unfold bfsLoop
      obtain ⟨hE1, hOk1⟩ := hDeq k d v q a hL
      cases hpve : h.pve v d a with
      | error e =>
        dsimp only
        exact ⟨fun e2 he2 => by cases he2; exact hE1 e hpve, fun s2 hs2 => by cases hs2⟩
      | ok a1 =>
        dsimp only
        obtain ⟨hE2, hOk2⟩ := bfsEdges_rule g h v (Li k v) E (hStep k v) (g.adj v) _
          (hOk1 a1 hpve)
        cases hed : bfsEdges g h v (g.adj v) (d.markProcessed v, q, a1) with
        | error e =>
          dsimp only
          exact ⟨fun e2 he2 => by cases he2; exact hE2 e hed, fun s2 hs2 => by cases hs2⟩
        | ok st2 =>
          obtain ⟨d2, q2, a2⟩ := st2
          dsimp only
          obtain ⟨hE3, hOk3⟩ := hEnd k v d2 q2 a2 (hOk2 _ hed)
          cases hpvl : h.pvl v d2 a2 with
          | error e =>
            dsimp only
            exact ⟨fun e2 he2 => by cases he2; exact hE3 e hpvl, fun s2 hs2 => by cases hs2⟩
          | ok a3 =>
            dsimp only
            exact ih _ (hOk3 a3 hpvl)

/-! ## The data invariant of the breadth-first traversal -/

theorem bfsScan_deq {g : Graph} {k v : Nat} {d : TraversalData} {q : List Nat}
    (hO : BfsOuter g (k + 1) d (v :: q)) : BfsScan g k v (g.adj v) (d.markProcessed v) q := by
  obtain ⟨⟨hs, hpd, hq, hnd, hr, hpp⟩, hcl, hfuel⟩ := hO
  have hv := (hq v).mp (by simp)
  have hvr := hr v hv.1
  have hproc : ∀ u, (d.markProcessed v).proc u = if u = v then true else d.proc u :=
    fun u => proc_markProcessed hs v hvr.2 u
  have hvq : v ∉ q := (List.nodup_cons.mp hnd).1
  refine ⟨⟨sized_markProcessed hs v, ?_, ?_, (List.nodup_cons.mp hnd).2, hr, ?_⟩, ?_, hvr, ?_,
    ⟨[], by simp, by simp⟩, ?_⟩
  · intro u hu
    rw [hproc] at hu
    by_cases huv : u = v
    · rw [huv]; exact hv.1
    · simp only [huv, if_false] at hu; exact hpd u hu
  · intro u
    rw [hproc]
    by_cases huv : u = v
    · subst huv; simp [hvq]
    · simp only [huv, if_false]
      show u ∈ q ↔ d.disc u = true ∧ d.proc u = false
      rw [← hq u]; simp [huv]
  · intro u hu
    obtain ⟨h1, h2, h3⟩ := hpp u hu
    refine ⟨?_, h2, h3⟩
    rw [hproc]; split
    · rfl
    · exact h1
  · rw [hproc]; simp
  · intro z hz hzv y hy
    rw [hproc] at hz
    simp only [hzv, if_false] at hz
    exact hcl z hz y hy
  · simp only [List.length_cons] at hfuel
    show q.length + d.undisc ≤ k
    omega

theorem bfsScan_mem {g : Graph} {k x : Nat} {d : TraversalData} {q : List Nat} {y : Nat}
    {ys : List Nat} (hS : BfsScan g k x (y :: ys) d q) : y ∈ g.adj x := by
  obtain ⟨done, h, _⟩ := hS.scanned
  rw [h]; simp

theorem bfsScan_step_new {g : Graph} (hg : g.Dense) {k x : Nat} {d : TraversalData}
    {q : List Nat} {y : Nat} {ys : List Nat} (hS : BfsScan g k x (y :: ys) d q)
    (hy : d.disc y = false) :
    BfsScan g k x ys ((d.markDiscovered y).setParent y x) (q ++ [y]) := by
  have hmem := bfsScan_mem hS
  have hyr := hg.adj_range x y hmem
  obtain ⟨⟨hs, hpd, hq, hnd, hr, hpp⟩, hps, hxr, hcl, ⟨done, hd1, hd2⟩, hfuel⟩ := hS
  have hdisc : ∀ u, ((d.markDiscovered y).setParent y x).disc u =
      if u = y then true else d.disc u := fun u => disc_markDiscovered hs y hyr.2 u
  have hpar : ∀ u, ((d.markDiscovered y).setParent y x).par u =
      if u = y then x else d.par u :=
    fun u => par_setParent (sized_markDiscovered hs y) y x hyr.2 u
  have hproc : ∀ u, ((d.markDiscovered y).setParent y x).proc u = d.proc u := fun u => rfl
  have hpy : d.proc y = false := by
    cases h : d.proc y
    · rfl
    · have := hpd y h; rw [hy] at this; cases this
  have hyq : y ∉ q := by
    intro h; have := ((hq y).mp h).1; rw [hy] at this; cases this
  have hxy : x ≠ y := by intro h; rw [h, hpy] at hps; cases hps
  refine ⟨⟨sized_setParent (sized_markDiscovered hs y) y x, ?_, ?_, ?_, ?_, ?_⟩, hps, hxr, ?_,
    ⟨done ++ [y], by simp [hd1], ?_⟩, ?_⟩
  · intro u hu
    rw [hdisc]; split
    · rfl
    · exact hpd u hu
  · intro u
    rw [hdisc, hproc, List.mem_append, List.mem_singleton]
    by_cases huy : u = y
    · subst huy; simp [hpy]
    · simp only [huy, if_false, or_false]
      exact hq u
  · rw [List.nodup_append]
    refine ⟨hnd, List.nodup_singleton y, ?_⟩
    intro z hz hz2
    rw [List.mem_singleton] at hz2
    exact hyq (hz2 ▸ hz)
  · intro u hu
    rw [hdisc] at hu
    by_cases huy : u = y
    · rw [huy]; exact hyr
    · simp only [huy, if_false] at hu; exact hr u hu
  · intro u hu
    rw [hpar] at hu ⊢
    rw [hdisc, hproc]
    by_cases huy : u = y
    · subst huy
      simp only [if_true]
      exact ⟨hps, hmem, trivial⟩
    · simp only [huy, if_false] at hu ⊢
      exact hpp u hu
  · intro z hz hzx w hw
    rw [hdisc]; split
    · rfl
    · exact hcl z hz hzx w hw
  · intro z hz
    rw [hdisc]
    rcases List.mem_append.mp hz with h | h
    · split
      · rfl
      · exact hd2 z h
    · simp at h; simp [h]
  · have := undisc_markDiscovered hs y hyr.2 hy
    simp only [List.length_append, List.length_singleton]
    show q.length + 1 + (d.markDiscovered y).undisc ≤ k
    omega

theorem bfsScan_step_old {g : Graph} {k x : Nat} {d : TraversalData}
    {q : List Nat} {y : Nat} {ys : List Nat} (hS : BfsScan g k x (y :: ys) d q)
    (hy : d.disc y = true) : BfsScan g k x ys d q := by
  obtain ⟨inv, hps, hxr, hcl, ⟨done, hd1, hd2⟩, hfuel⟩ := hS
  refine ⟨inv, hps, hxr, hcl, ⟨done ++ [y], by simp [hd1], ?_⟩, hfuel⟩
  intro z hz
  rcases List.mem_append.mp hz with h | h
  · exact hd2 z h
  · simp at h; rw [h]; exact hy

theorem bfsOuter_end {g : Graph} {k x : Nat} {d : TraversalData} {q : List Nat}
    (hS : BfsScan g k x [] d q) : BfsOuter g k d q := by
  obtain ⟨inv, hps, hxr, hcl, ⟨done, hd1, hd2⟩, hfuel⟩ := hS
  refine ⟨inv, ?_, hfuel⟩
  intro z hz y hy
  by_cases hzx : z = x
  · rw [hzx, hd1, List.append_nil] at hy
    exact hd2 y hy
  · exact hcl z hz hzx y hy

/-- The proof rule for a breadth-first traversal of a dense graph: the data
invariant is carried by the rule, and the conditions on the hooks may assume
it. -/
theorem bfs_fresh_rule {σ : Type} (g : Graph) (hg : g.Dense) (h : Hooks σ)
    (Lo : TraversalData × List Nat × σ → Prop)
    (Li : Nat → List Nat → TraversalData × List Nat × σ → Prop)
    (Qf : TraversalData × σ → Prop) (E : Failure → Prop)
    (hDone : ∀ k d a, BfsOuter g k d [] → Lo (d, [], a) → Qf (d, a))
    (hDeq : ∀ k d v q a, BfsOuter g (k + 1) d (v :: q) → Lo (d, v :: q, a) →
      (∀ e, h.pve v d a = .error e → E e) ∧
      (∀ a1, h.pve v d a = .ok a1 → Li v (g.adj v) (d.markProcessed v, q, a1)))
    (hStep : ∀ k x y ys d q a, BfsScan g k x (y :: ys) d q → Li x (y :: ys) (d, q, a) →
      (∀ e, (if g.directed = true ∨ d.proc y = false then h.pe x y d a else .ok a) = .error e →
        E e) ∧
      (∀ a1, (if g.directed = true ∨ d.proc y = false then h.pe x y d a else .ok a) = .ok a1 →
        (d.disc y = false → Li x ys ((d.markDiscovered y).setParent y x, q ++ [y], a1)) ∧
        (d.disc y = true → Li x ys (d, q, a1))))
    (hEnd : ∀ k x d q a, BfsScan g k x [] d q → Li x [] (d, q, a) →
      (∀ e, h.pvl x d a = .error e → E e) ∧
      (∀ a3, h.pvl x d a = .ok a3 → Lo (d, q, a3))) :
    ∀ fuel d q a, BfsOuter g fuel d q → Lo (d, q, a) →
      (∀ e, bfsLoop g h fuel (d, q, a) = .error e → E e) ∧
      (∀ r, bfsLoop g h fuel (d, q, a) = .ok r → Qf r) := by
  intro fuel d q a hO hL
  refine bfsLoop_rule g h
    (fun k s => BfsOuter g k s.1 s.2.1 ∧ Lo s)
    (fun k x ys s => BfsScan g k x ys s.1 s.2.1 ∧ Li x ys s)
    Qf E ?_ ?_ ?_ ?_ ?_ fuel (d, q, a) ⟨hO, hL⟩
  · rintro d v q a ⟨hO, _⟩
    have := hO.fuel
    simp only [List.length_cons] at this
    omega
  · rintro k d a ⟨hO, hL⟩
    exact hDone k d a hO hL
  · rintro k d v q a ⟨hO, hL⟩
    obtain ⟨h1, h2⟩ := hDeq k d v q a hO hL
    exact ⟨h1, fun a1 ha1 => ⟨bfsScan_deq hO, h2 a1 ha1⟩⟩
  · rintro k x y ys d q a ⟨hS, hL⟩
    obtain ⟨h1, h2⟩ := hStep k x y ys d q a hS hL
    refine ⟨h1, fun a1 ha1 => ?_⟩
    obtain ⟨h3, h4⟩ := h2 a1 ha1
    exact ⟨fun hy => ⟨bfsScan_step_new hg hS hy, h3 hy⟩,
      fun hy => ⟨bfsScan_step_old hS hy, h4 hy⟩⟩
  · rintro k x d q a ⟨hS, hL⟩
    obtain ⟨h1, h2⟩ := hEnd k x d q a hS hL
    exact ⟨h1, fun a3 ha3 => ⟨bfsOuter_end hS, h2 a3 ha3⟩⟩

theorem bfsOuter_Init (g : Graph) (d : TraversalData) (k : Nat) (hk : g.nVertices < k) :
    BfsOuter g k (d.Init g) [] := by
  refine ⟨⟨sized_Init d g, ?_, ?_, List.nodup_nil, ?_, ?_⟩, ?_, ?_⟩
  · intro u hu; simp at hu
  · intro u; simp
  · intro u hu; simp at hu
  · intro u hu; simp at hu
  · intro x hx; simp at hx
  · have := undisc_le (sized_Init d g)
    simp only [List.length_nil]
    omega

theorem bfsOuter_start {g : Graph} {k : Nat} {d : TraversalData} {start : Nat}
    (hO : BfsOuter g k d []) (hr : 1 ≤ start ∧ start ≤ g.nVertices)
    (hd : d.disc start = false) : BfsOuter g k (d.markDiscovered start) [start] := by
  obtain ⟨⟨hs, hpd, hq, _, hrg, hpp⟩, hcl, hfuel⟩ := hO
  have hdisc : ∀ u, (d.markDiscovered start).disc u = if u = start then true else d.disc u :=
    fun u => disc_markDiscovered hs start hr.2 u
  have hps : d.proc start = false := by
    cases h : d.proc start
    · rfl
    · have := hpd _ h; rw [hd] at this; cases this
  refine ⟨⟨sized_markDiscovered hs start, ?_, ?_, List.nodup_singleton _, ?_, ?_⟩, ?_, ?_⟩
  · intro u hu
    rw [hdisc]; split
    · rfl
    · exact hpd u hu
  · intro u
    rw [hdisc, List.mem_singleton]
    by_cases hus : u = start
    · subst hus; simp; exact hps
    · simp only [hus, if_false, false_iff]
      have := (hq u).not
      simp only [List.not_mem_nil, not_false_eq_true, true_iff] at this
      exact this
  · intro u hu
    rw [hdisc] at hu
    by_cases hus : u = start
    · rw [hus]; exact hr
    · simp only [hus, if_false] at hu; exact hrg u hu
  · intro u hu
    obtain ⟨h1, h2, h3⟩ := hpp u hu
    refine ⟨h1, h2, ?_⟩
    rw [hdisc]; split
    · rfl
    · exact h3
  · intro x hx y hy
    rw [hdisc]; split
    · rfl
    · exact hcl x hx y hy
  · have := undisc_markDiscovered hs start hr.2 hd
    simp only [List.length_nil, List.length_singleton] at hfuel ⊢
    omega

/-! ## The edge hook of an undirected breadth-first traversal -/

theorem edgeCalls_append (tr : List (Nat × Nat × TraversalData)) (x y : Nat)
    (d : TraversalData) (a b : Nat) :
    edgeCalls (tr ++ [(x, y, d)]) a b = edgeCalls tr a b + (if x = a ∧ y = b then 1 else 0) := by
  unfold edgeCalls
  rw [List.countP_append]
  simp [List.countP_cons]

theorem callsScan_deq {g : Graph} {k start v : Nat} {d : TraversalData} {q : List Nat}
    {tr : List (Nat × Nat × TraversalData)} (hO : BfsOuter g (k + 1) d (v :: q))
    (hC : BfsCallsOuter g start d tr) :
    BfsCallsScan g start v (g.adj v) (d.markProcessed v) tr := by
  have hv := (hO.inv.queue_iff v).mp (by simp)
  have hvr := hO.inv.disc_range v hv.1
  have hproc : ∀ u, (d.markProcessed v).proc u = if u = v then true else d.proc u :=
    fun u => proc_markProcessed hO.inv.sized v hvr.2 u
  obtain ⟨h1, h2, h3, h4⟩ := hC
  refine ⟨h1, h2, h3, ⟨[], by simp, ?_⟩, ?_⟩
  · intro b hb
    rw [hproc]
    simp only [hb, if_false, List.count_nil]
    have := h4 v b (Ne.symm hb)
    rw [this]
    simp [hv.2]
  · intro a b hab hav hbv
    rw [hproc, hproc]
    simp only [hav, hbv, if_false]
    exact h4 a b hab

theorem callsScan_call {g : Graph} (hg : g.Dense) {k start x y : Nat} {ys : List Nat}
    {d : TraversalData} {q : List Nat} {tr : List (Nat × Nat × TraversalData)}
    (hS : BfsScan g k x (y :: ys) d q) (hC : BfsCallsScan g start x (y :: ys) d tr)
    (hy : d.proc y = false) :
    BfsCallsScan g start x ys d (tr ++ [(x, y, d)]) := by
  have hmem := bfsScan_mem hS
  have hyr := hg.adj_range x y hmem
  have hxy : x ≠ y := by intro h; rw [← h, hS.proc_self] at hy; cases hy
  obtain ⟨h1, h2, h3, ⟨done, hd1, hd2⟩, h5⟩ := hC
  refine ⟨h1, h2, ?_, ⟨done ++ [y], by simp [hd1], ?_⟩, ?_⟩
  · intro e he
    rcases List.mem_append.mp he with h | h
    · exact h3 e h
    · simp only [List.mem_singleton] at h
      subst h
      have hpar : d.par x ≠ y := by
        intro hp
        have h0 : d.par x ≠ 0 := by rw [hp]; omega
        have := (hS.inv.par_proc x h0).1
        rw [hp, hy] at this; cases this
      exact ⟨hxy, hpar, hpar, hS.inv.proc_disc x hS.proc_self⟩
  · intro b hb
    rw [edgeCalls_append, edgeCalls_append]
    have hbx : ¬ (x = b ∧ y = x) := fun h => hb h.1.symm
    simp only [hbx, if_false, true_and, Nat.add_zero]
    have := hd2 b hb
    by_cases hpb : d.proc b = true
    · have hyb : y ≠ b := by intro h; rw [h, hpb] at hy; cases hy
      simp only [hpb, if_true, hyb, if_false] at this ⊢
      omega
    · simp only [hpb, Bool.false_eq_true, if_false, List.count_append] at this ⊢
      by_cases hyb : y = b
      · subst hyb
        simp only [if_true, List.count_singleton_self]
        omega
      · simp only [hyb, if_false]
        rw [List.count_singleton]
        have hbeq : ¬ (y == b) = true := by simpa using hyb
        simp only [hbeq, Bool.false_eq_true, if_false]
        omega
  · intro a b hab hax hbx
    rw [edgeCalls_append, edgeCalls_append]
    have h6 : ¬ (x = a ∧ y = b) := fun h => hax h.1.symm
    have h7 : ¬ (x = b ∧ y = a) := fun h => hbx h.1.symm
    simp only [h6, h7, if_false, Nat.add_zero]
    exact h5 a b hab hax hbx

theorem callsScan_skip {g : Graph} {start x y : Nat} {ys : List Nat}
    {d : TraversalData} {tr : List (Nat × Nat × TraversalData)}
    (hC : BfsCallsScan g start x (y :: ys) d tr) (hy : d.proc y = true) :
    BfsCallsScan g start x ys d tr := by
  obtain ⟨h1, h2, h3, ⟨done, hd1, hd2⟩, h5⟩ := hC
  refine ⟨h1, h2, h3, ⟨done ++ [y], by simp [hd1], ?_⟩, h5⟩
  intro b hb
  have := hd2 b hb
  by_cases hpb : d.proc b = true
  · simp only [hpb, if_true] at this ⊢
    exact this
  · have hyb : y ≠ b := by intro h; rw [h] at hy; exact hpb hy
    simp only [hpb, Bool.false_eq_true, if_false, List.count_append] at this ⊢
    rw [List.count_singleton]
    have hbeq : ¬ (y == b) = true := by simpa using hyb
    simp only [hbeq, Bool.false_eq_true, if_false]
    omega

theorem callsScan_discover {g : Graph} (hg : g.Dense) {k start x y : Nat} {ys ys2 : List Nat}
    {d : TraversalData} {q : List Nat} {tr : List (Nat × Nat × TraversalData)}
    (hS : BfsScan g k x (y :: ys) d q) (hC : BfsCallsScan g start x ys2 d tr)
    (hy : d.disc y = false) :
    BfsCallsScan g start x ys2 ((d.markDiscovered y).setParent y x) tr := by
  have hmem := bfsScan_mem hS
  have hyr := hg.adj_range x y hmem
  have hs := hS.inv.sized
  have hdisc : ∀ u, ((d.markDiscovered y).setParent y x).disc u =
      if u = y then true else d.disc u := fun u => disc_markDiscovered hs y hyr.2 u
  have hpar : ∀ u, ((d.markDiscovered y).setParent y x).par u =
      if u = y then x else d.par u :=
    fun u => par_setParent (sized_markDiscovered hs y) y x hyr.2 u
  obtain ⟨h1, h2, h3, h4, h5⟩ := hC
  refine ⟨?_, ?_, ?_, h4, h5⟩
  · rw [hdisc]; split
    · rfl
    · exact h1
  · intro u hu
    rw [hdisc] at hu
    by_cases huy : u = y
    · rw [huy]
      exact Relation.ReflTransGen.tail (h2 x (hS.inv.proc_disc x hS.proc_self)) hmem
    · simp only [huy, if_false] at hu
      exact h2 u hu
  · intro e he
    obtain ⟨k1, k2, k3, k4⟩ := h3 e he
    have hne : e.1 ≠ y := by intro h; rw [h, hy] at k4; cases k4
    refine ⟨k1, k2, ?_, ?_⟩
    · rw [hpar]; simp only [hne, if_false]; exact k3
    · rw [hdisc]; simp only [hne, if_false]; exact k4

theorem callsOuter_end {g : Graph} (hsym : ∀ a b, (g.adj a).count b = (g.adj b).count a)
    {k start x : Nat} {d : TraversalData} {q : List Nat}
    {tr : List (Nat × Nat × TraversalData)}
    (hS : BfsScan g k x [] d q) (hC : BfsCallsScan g start x [] d tr) :
    BfsCallsOuter g start d tr := by
  obtain ⟨h1, h2, h3, ⟨done, hd1, hd2⟩, h5⟩ := hC
  rw [List.append_nil] at hd1
  refine ⟨h1, h2, h3, ?_⟩
  intro a b hab
  by_cases hax : a = x
  · subst hax
    have := hd2 b (Ne.symm hab)
    rw [this, ← hd1]
    simp [hS.proc_self]
  · by_cases hbx : b = x
    · subst hbx
      have := hd2 a hax
      rw [Nat.add_comm, this, ← hd1]
      simp [hS.proc_self, hsym a b]
    · exact h5 a b hab hax hbx

theorem bfs_calls_run (g : Graph) (hg : g.Dense) (hdir : g.directed = false)
    (hsym : ∀ a b, (g.adj a).count b = (g.adj b).count a)
    (fuel : Nat) (hfuel : g.nVertices < fuel) (start : Nat)
    (hstart : 1 ≤ start ∧ start ≤ g.nVertices) :
    ∃ d tr, BreadthFirstTraversal g fuel start recordEdges (TraversalData.zero.Init g, []) =
        .ok (d, tr) ∧ (∃ k, BfsOuter g k d []) ∧ BfsCallsOuter g start d tr := by
  have hO := bfsOuter_start (bfsOuter_Init g TraversalData.zero fuel hfuel) hstart (by simp)
  have hdisc : ∀ u, ((TraversalData.zero.Init g).markDiscovered start).disc u =
      if u = start then true else false := by
    intro u
    rw [disc_markDiscovered (sized_Init _ g) start hstart.2 u, disc_Init]
  have hC : BfsCallsOuter g start ((TraversalData.zero.Init g).markDiscovered start) [] := by
    refine ⟨by rw [hdisc]; simp, ?_, by simp, ?_⟩
    · intro u hu
      rw [hdisc] at hu
      by_cases hus : u = start
      · rw [hus]; exact Relation.ReflTransGen.refl
      · simp [hus] at hu
    · intro a b _
      have hp : ∀ u, ((TraversalData.zero.Init g).markDiscovered start).proc u = false := by
        intro u; rw [proc_markDiscovered, proc_Init]
      simp [edgeCalls, hp]
  have key := bfs_fresh_rule g hg recordEdges
    (fun s => BfsCallsOuter g start s.1 s.2.2)
    (fun x ys s => BfsCallsScan g start x ys s.1 s.2.2)
    (fun r => (∃ k, BfsOuter g k r.1 []) ∧ BfsCallsOuter g start r.1 r.2)
    (fun _ => False) ?_ ?_ ?_ ?_ fuel _ _ [] hO hC
  · unfold BreadthFirstTraversal
    cases hr : bfsLoop g recordEdges fuel
        ((TraversalData.zero.Init g).markDiscovered start, [start], []) with
    | error e => exact absurd (key.1 e hr) id
    | ok r =>
      obtain ⟨d, tr⟩ := r
      exact ⟨d, tr, rfl, key.2 _ hr⟩
  · intro k d a hO2 hL
    exact ⟨⟨k, hO2⟩, hL⟩
  · intro k d v q a hO2 hL
    refine ⟨fun e he => (by simp [recordEdges] at he), fun a1 ha1 => ?_⟩
    simp only [recordEdges, Except.ok.injEq] at ha1
    subst ha1
    exact callsScan_deq hO2 hL
  · intro k x y ys d q a hS hL
    by_cases hp : d.proc y = false
    · have hpe : (if g.directed = true ∨ d.proc y = false then recordEdges.pe x y d a
          else .ok a) = .ok (a ++ [(x, y, d)]) := by
        simp [hp, recordEdges]
      rw [hpe]
      refine ⟨fun e he => (by cases he), fun a1 ha1 => ?_⟩
      cases ha1
      have hcall := callsScan_call hg hS hL hp
      exact ⟨fun hy => callsScan_discover hg hS hcall hy, fun _ => hcall⟩
    · have hp1 : d.proc y = true := by simpa using hp
      have hpe : (if g.directed = true ∨ d.proc y = false then recordEdges.pe x y d a
          else .ok a) = .ok a := by
        simp [hp1, hdir]
      rw [hpe]
      refine ⟨fun e he => (by cases he), fun a1 ha1 => ?_⟩
      cases ha1
      have hskip := callsScan_skip hL hp1
      exact ⟨fun hy => callsScan_discover hg hS hskip hy, fun _ => hskip⟩
  · intro k x d q a hS hL
    refine ⟨fun e he => (by simp [recordEdges] at he), fun a1 ha1 => ?_⟩
    simp only [recordEdges, Except.ok.injEq] at ha1
    subst ha1
    exact callsOuter_end hsym hS hL

theorem bfs_final_proc_iff {g : Graph} {k start : Nat} {d : TraversalData}
    (hO : BfsOuter g k d []) (hstart : d.disc start = true)
    (hreach : ∀ u, d.disc u = true → g.Reach start u) (u : Nat) :
    d.proc u = true ↔ g.Reach start u := by
  have hdp : ∀ w, d.disc w = true → d.proc w = true := by
    intro w hw
    cases hp : d.proc w
    · have := (hO.inv.queue_iff w).mpr ⟨hw, hp⟩
      simp at this
    · rfl
  constructor
  · intro hu
    exact hreach u (hO.inv.proc_disc u hu)
  · intro hu
    unfold Graph.Reach at hu
    induction hu with
    | refl => exact hdp _ hstart
    | tail _ hbc ih => exact hdp _ (hO.closed _ ih _ hbc)

theorem emitted_count_pairOccurrences (a b : Nat) (hab : a ≠ b) (pairs : List Nat) :
    (emitted false a pairs).count b = pairOccurrences a b pairs := by
  induction pairs using emitted.induct false a with
  | case1 x y rest ih =>
    rw [emitted, pairOccurrences]
    simp only [List.count_append, ih, true_and]
    by_cases h1 : x = a <;> by_cases h2 : y = a <;> by_cases h3 : x = b <;> by_cases h4 : y = b <;>
      simp_all [List.count_cons, List.count_nil]
  | case2 l hl =>
    match l, hl with
    | [], _ => simp [emitted, pairOccurrences]
    | [_], _ => simp [emitted, pairOccurrences]
    | x :: y :: rest, hl => exact absurd rfl (hl x y rest)

/-- C20: for every undirected graph built by `Init` from a pair list with ids
`1..n` and every start in `1..n`, `BreadthFirstTraversal(start)` on freshly
initialised data returns normally; for `a != b` with `a` reachable from start
the edge hook is invoked, as `pe(a, b)` or `pe(b, a)`, exactly as many times as
the pair occurs in the pair list (once per occurrence, not once per direction),
and not at all when `a` is unreachable; it is never invoked as `pe(x, x)`, and
never as `pe(v, parent[v])`, neither for the parent pointers at the time of the
invocation nor for the final ones. -/
theorem bfs_edge_hook_once (pairs : List Nat) (n : Nat) (h : DenseIds pairs n)
    (fuel : Nat) (hfuel : n < fuel) (start : Nat) (hstart : 1 ≤ start ∧ start ≤ n) :
    ∃ d tr, BreadthFirstTraversal (Graph.zero.Init false pairs) fuel start recordEdges
        (TraversalData.zero.Init (Graph.zero.Init false pairs), []) = .ok (d, tr) ∧
      (∀ a b, a ≠ b → (Graph.zero.Init false pairs).Reach start a →
        edgeCalls tr a b + edgeCalls tr b a = pairOccurrences a b pairs) ∧
      (∀ a b, a ≠ b → ¬ (Graph.zero.Init false pairs).Reach start a →
        edgeCalls tr a b + edgeCalls tr b a = 0) ∧
      (∀ e ∈ tr, e.1 ≠ e.2.1) ∧
      (∀ e ∈ tr, e.2.2.par e.1 ≠ e.2.1 ∧ d.par e.1 ≠ e.2.1) := by
  have hg := Init_dense Graph.zero false pairs n h
  have hn : (Graph.zero.Init false pairs).nVertices = n := by
    rw [Init_nVertices, denseIds_dedup_length h]
  have hadj : ∀ a b, ((Graph.zero.Init false pairs).adj a).count b =
      (emitted false a pairs).count b := by
    intro a b
    rw [Init_adj Graph.zero false pairs n h a, List.count_reverse]
  have hsym : ∀ a b, ((Graph.zero.Init false pairs).adj a).count b =
      ((Graph.zero.Init false pairs).adj b).count a := by
    intro a b
    rw [hadj, hadj]
    exact emitted_count_symm a b pairs
  obtain ⟨d, tr, hrun, ⟨k, hO⟩, hC⟩ := bfs_calls_run (Graph.zero.Init false pairs) hg
    (Init_directed _ _ _) hsym fuel (by rw [hn]; exact hfuel) start (by rw [hn]; exact hstart)
  have hiff := bfs_final_proc_iff hO hC.start_disc hC.reach
  refine ⟨d, tr, hrun, ?_, ?_, fun e he => (hC.entries e he).1,
    fun e he => ⟨(hC.entries e he).2.1, (hC.entries e he).2.2.1⟩⟩
  · intro a b hab hra
    rw [hC.calls a b hab]
    simp only [(hiff a).mpr hra, true_or, if_true]
    rw [hadj, emitted_count_pairOccurrences a b hab]
  · intro a b hab hra
    rw [hC.calls a b hab]
    have hpa : d.proc a = false := by
      cases hp : d.proc a
      · rfl
      · exact absurd ((hiff a).mp hp) hra
    by_cases hpb : d.proc b = true
    · simp only [hpb, or_true, if_true]
      rw [hsym a b, List.count_eq_zero]
      intro hmem
      have hda := hO.closed b hpb a hmem
      exact hra (hC.reach a hda)
    · simp [hpa, hpb]

theorem bfs_edge_hook_once_witness :
    ∃ d tr, BreadthFirstTraversal (Graph.zero.Init false [1, 2, 2, 3, 3, 1, 2, 1, 3, 3, 4, 5])
        6 1 recordEdges
        (TraversalData.zero.Init (Graph.zero.Init false [1, 2, 2, 3, 3, 1, 2, 1, 3, 3, 4, 5]),
          []) = .ok (d, tr) ∧
      (∀ a b, a ≠ b → (Graph.zero.Init false [1, 2, 2, 3, 3, 1, 2, 1, 3, 3, 4, 5]).Reach 1 a →
        edgeCalls tr a b + edgeCalls tr b a =
          pairOccurrences a b [1, 2, 2, 3, 3, 1, 2, 1, 3, 3, 4, 5]) ∧
      (∀ a b, a ≠ b → ¬ (Graph.zero.Init false [1, 2, 2, 3, 3, 1, 2, 1, 3, 3, 4, 5]).Reach 1 a →
        edgeCalls tr a b + edgeCalls tr b a = 0) ∧
      (∀ e ∈ tr, e.1 ≠ e.2.1) ∧
      (∀ e ∈ tr, e.2.2.par e.1 ≠ e.2.1 ∧ d.par e.1 ≠ e.2.1) :=
  bfs_edge_hook_once [1, 2, 2, 3, 3, 1, 2, 1, 3, 3, 4, 5] 5 (by decide) 6 (by decide) 1
    (by decide)

/-- C3: for every directed acyclic graph built by `Init` from a pair list with
ids `1..n`, `TopologicalSort` returns a sequence that contains each vertex of
`1..n` exactly once (it is a permutation of `1..n`) and in which, for every
edge `x -> y`, `y` stands before `x`. -/
theorem topologicalSort_order (pairs : List Nat) (n : Nat) (h : DenseIds pairs n)
    (fuel : Nat) (hfuel : n < fuel) (hacyc : ¬ (Graph.zero.Init true pairs).Cyclic) :
    ∃ sorted, TopologicalSort (Graph.zero.Init true pairs) fuel = .ok sorted ∧
      sorted.Perm (List.range' 1 n) ∧
      ∀ x y, (Graph.zero.Init true pairs).Adj x y →
        y ∈ sorted ∧ x ∈ sorted ∧ sorted.indexOf y < sorted.indexOf x := by
  have hg := Init_dense Graph.zero true pairs n h
  have hn : (Graph.zero.Init true pairs).nVertices = n := by
    rw [Init_nVertices, denseIds_dedup_length h]
  obtain ⟨hE, hOk⟩ := topologicalSort_directed (Graph.zero.Init true pairs) hg
    (Init_directed _ _ _) fuel (by rw [hn]; exact hfuel)
  cases hr : TopologicalSort (Graph.zero.Init true pairs) fuel with
  | error e => exact absurd (hE e hr).1 hacyc
  | ok sorted =>
    obtain ⟨d, hS, hall⟩ := hOk sorted hr
    refine ⟨sorted, rfl, ?_, ?_⟩
    · rw [List.perm_ext_iff_of_nodup hS.nodup (List.nodup_range' 1 n)]
      intro u
      rw [List.mem_range'_1]
      constructor
      · intro hu
        have := hS.range u hu
        rw [hn] at this
        omega
      · intro hu
        exact (hS.mem_iff u).mp (hall u hu.1 (by rw [hn]; omega))
    · intro x y hxy
      obtain ⟨h1, h2⟩ := dense_source_range hg hxy
      have hx := hall x h1 h2
      obtain ⟨h3, h4⟩ := hS.before x hx y hxy
      exact ⟨h3, (hS.mem_iff x).mp hx, h4⟩

theorem topologicalSort_order_witness :
    ∃ sorted, TopologicalSort (Graph.zero.Init true [1, 2, 2, 3, 2, 4, 4, 5]) 6 = .ok sorted ∧
      sorted.Perm (List.range' 1 5) ∧
      ∀ x y, (Graph.zero.Init true [1, 2, 2, 3, 2, 4, 4, 5]).Adj x y →
        y ∈ sorted ∧ x ∈ sorted ∧ sorted.indexOf y < sorted.indexOf x := by
  have hacyc : ¬ (Graph.zero.Init true [1, 2, 2, 3, 2, 4, 4, 5]).Cyclic := by
    have hlt : ∀ x y, (Graph.zero.Init true [1, 2, 2, 3, 2, 4, 4, 5]).Adj x y → x < y := by
      intro x y hxy
      have he : (Graph.zero.Init true [1, 2, 2, 3, 2, 4, 4, 5]).edges =
          [[], [2], [4, 3], [], [5], []] := by rfl
      unfold Graph.Adj Graph.adj at hxy
      rw [he] at hxy
      match x, hxy with
      | 0, hxy => simp at hxy
      | 1, hxy => simp at hxy; omega
      | 2, hxy => simp at hxy; omega
      | 3, hxy => simp at hxy
      | 4, hxy => simp at hxy; omega
      | 5, hxy => simp at hxy
      | k + 6, hxy => simp at hxy
    rintro ⟨v, hv⟩
    have htr : ∀ x y, Relation.TransGen (Graph.zero.Init true [1, 2, 2, 3, 2, 4, 4, 5]).Adj x y →
        x < y := by
      intro x y hxy
      induction hxy with
      | single h1 => exact hlt _ _ h1
      | tail _ h2 ih => exact lt_trans ih (hlt _ _ h2)
    exact absurd (htr v v hv) (lt_irrefl v)
  exact topologicalSort_order [1, 2, 2, 3, 2, 4, 4, 5] 5 (by decide) 6 (by decide) hacyc

/-! ## Entry and exit times -/

theorem exitInv_Init (g : Graph) (d : TraversalData) : ExitInv (d.Init g) := by
  refine ⟨?_, ?_⟩
  · intro u hu; simp at hu
  · intro u hu; simp at hu

theorem exitInv_enter {g : Graph} {k v : Nat} {d : TraversalData}
    (hP : DfsPre g (k + 1) v d) (hX : ExitInv d) :
    ExitInv ((d.markDiscovered v).stampEntry v) := by
  have hs1 := sized_markDiscovered hP.inv.sized v
  have hpv : d.proc v = false := by
    cases h : d.proc v
    · rfl
    · have := hP.inv.proc_disc v h; rw [hP.undisc] at this; cases this
  have hentry : ∀ u, ((d.markDiscovered v).stampEntry v).entry u =
      if u = v then d.time + 1 else d.entry u := by
    intro u; rw [entry_stampEntry hs1 v hP.range.2 u]; rfl
  refine ⟨?_, ?_⟩
  · intro u hu
    have hu1 : d.proc u = true := hu
    have huv : u ≠ v := by intro h; rw [h, hpv] at hu1; cases hu1
    have := hX.exit_time u hu1
    rw [hentry]
    simp only [huv, if_false]
    show d.entry u ≤ d.exit u ∧ d.exit u < d.time + 1
    omega
  · intro u hu h0 hp
    exact hX.exit_parent u hu h0 hp

theorem exitInv_setParent {g : Graph} (hg : g.Dense) {k v : Nat} {d0 d : TraversalData}
    {y : Nat} {ys : List Nat} (hL : DfsLoop g k v d0 (y :: ys) d) (hy : d.disc y = false)
    (hX : ExitInv d) : ExitInv (d.setParent y v) := by
  have hyr := hg.adj_range v y (dfsLoop_mem hL)
  have hpar : ∀ u, (d.setParent y v).par u = if u = y then v else d.par u :=
    fun u => par_setParent hL.inv.sized y v hyr.2 u
  refine ⟨hX.exit_time, ?_⟩
  intro u hu h0 hp
  have hu1 : d.proc u = true := hu
  have huy : u ≠ y := by
    intro h
    have := hL.inv.proc_disc u hu1
    rw [h, hy] at this; cases this
  rw [hpar] at h0 hp ⊢
  simp only [huy, if_false] at h0 hp ⊢
  exact hX.exit_parent u hu1 h0 hp

theorem exitInv_exit {g : Graph} {k v : Nat} {d0 d : TraversalData}
    (hL : DfsLoop g k v d0 [] d) (hX : ExitInv d) :
    ExitInv ((d.markProcessed v).stampExit v) := by
  have hs := hL.inv.sized
  have hvn := hL.range.2
  have hproc : ∀ u, ((d.markProcessed v).stampExit v).proc u =
      if u = v then true else d.proc u := by
    intro u; rw [proc_stampExit, proc_markProcessed hs v hvn u]
  have hexit : ∀ u, ((d.markProcessed v).stampExit v).exit u =
      if u = v then d.time else d.exit u := by
    intro u; rw [exit_stampExit (sized_markProcessed hs v) v hvn u]; rfl
  have hpar : ∀ u, ((d.markProcessed v).stampExit v).par u = d.par u := fun u => rfl
  have hentry : ∀ u, ((d.markProcessed v).stampExit v).entry u = d.entry u := fun u => rfl
  have htime : ((d.markProcessed v).stampExit v).time = d.time + 1 := rfl
  refine ⟨?_, ?_⟩
  · intro u hu
    rw [hentry, hexit, htime]
    rw [hproc] at hu
    by_cases huv : u = v
    · subst huv
      simp only [if_true]
      have := hL.inv.entry_pos u hL.gray_self.1
      omega
    · simp only [huv, if_false] at hu ⊢
      have := hX.exit_time u hu
      omega
  · intro u hu h0 hp
    rw [hpar] at h0 hp ⊢
    rw [hproc] at hu hp
    rw [hexit, hexit]
    by_cases huv : u = v
    · subst huv
      -- the parent of the vertex being left is still on the stack
      have hanc : d.Anc (d.par u) u :=
        Relation.ReflTransGen.single ⟨rfl, h0⟩
      have hgray := (hL.gray_anc _).mpr hanc
      have hne : d.par u ≠ u := by
        intro h
        have h1 := hL.inv.par_entry u hL.gray_self.1 h0
        rw [h] at h1
        omega
      simp only [hne, if_false] at hp
      rw [hgray.2] at hp; cases hp
    · simp only [huv, if_false] at hu ⊢
      by_cases hpv : d.par u = v
      · simp only [hpv, if_true]
        exact (hX.exit_time u hu).2
      · simp only [hpv, if_false] at hp ⊢
        exact hX.exit_parent u hu h0 hp

theorem dfs_total_run {σ : Type} (g : Graph) (hg : g.Dense) (h : Hooks σ)
    (hpve : ∀ v d a, ∃ a1, h.pve v d a = .ok a1)
    (hpvl : ∀ v d a, ∃ a1, h.pvl v d a = .ok a1)
    (hpe : ∀ x y d a, ∃ a1, h.pe x y d a = .ok a1)
    (fuel v : Nat) (d : TraversalData) (a : σ) (hP : DfsPre g fuel v d) (hX : ExitInv d) :
    ∃ d2 a2, depthFirstTraverseVertex g h fuel v (d, a) = .ok (d2, a2) ∧
      DfsPost g v d d2 ∧ ExitInv d2 := by
  have key := dfs_fresh_rule g hg h (fun _ s => ExitInv s.1) (fun _ _ s2 => ExitInv s2.1)
    (fun _ _ _ s => ExitInv s.1) (fun _ => False) ?_ ?_ ?_ ?_ ?_ fuel v d a hP hX
  · cases hr : depthFirstTraverseVertex g h fuel v (d, a) with
    | error e => exact absurd (key.1 e hr) id
    | ok s =>
      obtain ⟨d2, a2⟩ := s
      exact ⟨d2, a2, rfl, key.2 d2 a2 hr⟩
  · intro k v d a hPre hA
    obtain ⟨a1, ha1⟩ := hpve v (d.markDiscovered v) a
    exact ⟨fun e he => (by rw [ha1] at he; cases he), fun _ _ => exitInv_enter hPre hA⟩
  · intro k v d0 a0 y ys d a hL hA hy
    obtain ⟨a1, ha1⟩ := hpe v y (d.setParent y v) a
    exact ⟨fun e he => (by rw [ha1] at he; cases he),
      fun _ _ => ⟨exitInv_setParent hg hL hy hA, fun _ _ _ hQ => hQ⟩⟩
  · intro k v d0 a0 y ys d a _ hA _ _
    obtain ⟨a1, ha1⟩ := hpe v y d a
    exact ⟨fun e he => (by rw [ha1] at he; cases he), fun _ _ => hA⟩
  · intro _ _ _ _ _ _ _ _ _ hA _ _
    exact hA
  · intro k v d0 a0 d a hL hA
    obtain ⟨a1, ha1⟩ := hpvl v (d.markProcessed v) a
    exact ⟨fun e he => (by rw [ha1] at he; cases he), fun _ _ => exitInv_exit hL hA⟩

theorem dfs_post_disc_iff {g : Graph} {d d2 : TraversalData} {i : Nat} (hI : DfsIdle g d)
    (hQ : DfsPost g i d d2) (u : Nat) :
    d2.disc u = true ↔ (d.disc u = true ∨ g.Reach i u) := by
  have hI2 := dfsIdle_post hI hQ
  constructor
  · intro hu
    cases hdu : d.disc u
    · exact Or.inr (anc_reach hQ.inv (hQ.frame.fresh_below u hu hdu))
    · exact Or.inl rfl
  · rintro (hu | hu)
    · exact (hQ.frame.keep u hu).1
    · unfold Graph.Reach at hu
      induction hu with
      | refl => exact hQ.done_self
      | tail _ hbc ih => exact hQ.inv.proc_closed _ (hI2.no_gray _ ih) _ hbc

/-- C6: on the undirected graph with the single edge `1 - 2`, the traversal
from 1 on freshly initialised data stamps `entryTime[1] = 1`,
`entryTime[2] = 2`, `exitTime[2] = 2`, `exitTime[1] = 3` with `parent[2] = 1`:
the vertex 2, reachable from the start and different from it, is entered and
left at the same time, so the strict chain
`entryTime[parent[v]] < entryTime[v] < exitTime[v] < exitTime[parent[v]]`
fails at `v = 2` in its middle inequality. The entry code increments `time`
and then records it, the exit code records `time` and then increments it. -/
theorem dfs_leaf_entry_equals_exit :
    ∃ d, DepthFirstTraversal (Graph.zero.Init false [1, 2]) 3 1 noHooks
        (TraversalData.zero.Init (Graph.zero.Init false [1, 2]), ()) = .ok (d, ()) ∧
      (Graph.zero.Init false [1, 2]).Reach 1 2 ∧
      d.par 2 = 1 ∧ d.entry 1 = 1 ∧ d.entry 2 = 2 ∧ d.exit 2 = 2 ∧ d.exit 1 = 3 ∧
      ¬ (d.entry (d.par 2) < d.entry 2 ∧ d.entry 2 < d.exit 2 ∧ d.exit 2 < d.exit (d.par 2)) := by
  refine ⟨_, rfl, ?_, by decide, by decide, by decide, by decide, by decide, by decide⟩
  have h12 : (Graph.zero.Init false [1, 2]).Adj 1 2 := by decide
  exact Relation.ReflTransGen.single h12

/-- The part of the time chain that every traversal satisfies: for every graph
with dense ids `1..n` and every start in `1..n`, `DepthFirstTraversal(start)`
on freshly initialised data with hooks that do not modify the data and do not
fail returns normally, and every vertex `v` reachable from start and different
from start satisfies `entryTime[parent[v]] < entryTime[v]`,
`entryTime[v] <= exitTime[v]` and `exitTime[v] < exitTime[parent[v]]`. -/
theorem dfs_time_chain {σ : Type} (g : Graph) (hg : g.Dense) (h : Hooks σ)
    (hpve : ∀ v d a, ∃ a1, h.pve v d a = .ok a1)
    (hpvl : ∀ v d a, ∃ a1, h.pvl v d a = .ok a1)
    (hpe : ∀ x y d a, ∃ a1, h.pe x y d a = .ok a1)
    (fuel : Nat) (hfuel : g.nVertices < fuel) (start : Nat)
    (hstart : 1 ≤ start ∧ start ≤ g.nVertices) (a : σ) :
    ∃ d2 a2, DepthFirstTraversal g fuel start h (TraversalData.zero.Init g, a) = .ok (d2, a2) ∧
      ∀ v, v ≠ start → g.Reach start v →
        d2.entry (d2.par v) < d2.entry v ∧ d2.entry v ≤ d2.exit v ∧
          d2.exit v < d2.exit (d2.par v) := by
  have hI := dfsIdle_Init g TraversalData.zero
  obtain ⟨d2, a2, hr, hQ, hX⟩ := dfs_total_run g hg h hpve hpvl hpe fuel start
    (TraversalData.zero.Init g) a (dfsPre_root hI hstart (by simp) hfuel) (exitInv_Init g _)
  refine ⟨d2, a2, hr, ?_⟩
  intro v hv hreach
  have hI2 := dfsIdle_post hI hQ
  have hdv : d2.disc v = true := (dfs_post_disc_iff hI hQ v).mpr (Or.inr hreach)
  have hanc := hQ.frame.fresh_below v hdv (by simp)
  rw [anc_iff_eq_or_panc] at hanc
  rcases hanc with h1 | h1
  · exact absurd h1.symm hv
  · have h0 := ((panc_iff_parent d2 start v).mp h1).1
    obtain ⟨h2, h3⟩ := hQ.inv.par_entry v hdv h0
    have hpv := hI2.no_gray v hdv
    exact ⟨h3, (hX.exit_time v hpv).1, hX.exit_parent v hpv h0 (hI2.no_gray _ h2)⟩

theorem dfs_time_chain_witness :
    ∃ d2 a2, DepthFirstTraversal (Graph.zero.Init false [1, 2, 1, 3, 3, 4]) 5 1 noHooks
        (TraversalData.zero.Init (Graph.zero.Init false [1, 2, 1, 3, 3, 4]), ()) = .ok (d2, a2) ∧
      ∀ v, v ≠ 1 → (Graph.zero.Init false [1, 2, 1, 3, 3, 4]).Reach 1 v →
        d2.entry (d2.par v) < d2.entry v ∧ d2.entry v ≤ d2.exit v ∧
          d2.exit v < d2.exit (d2.par v) :=
  dfs_time_chain (Graph.zero.Init false [1, 2, 1, 3, 3, 4])
    (Init_dense Graph.zero false [1, 2, 1, 3, 3, 4] 4 (by decide)) noHooks
    (fun _ _ a => ⟨a, rfl⟩) (fun _ _ a => ⟨a, rfl⟩) (fun _ _ _ a => ⟨a, rfl⟩)
    5 (by decide) 1 (by decide) ()

/-! ## What a breadth-first traversal marks -/

theorem bfsReach_deq {g : Graph} {start v : Nat} {d0 d : TraversalData} {q : List Nat}
    (hR : BfsReachOuter g start d0 d (v :: q)) :
    BfsReachScan g start v d0 (d.markProcessed v) q :=
  ⟨⟨hR.start_disc, hR.keep, fun u hu => hR.queue_reach u (List.mem_cons_of_mem _ hu),
    hR.disc_reach⟩, hR.queue_reach v (List.mem_cons_self _ _)⟩

theorem bfsReach_step_new {g : Graph} (hg : g.Dense) {k start x y : Nat} {ys : List Nat}
    {d0 d : TraversalData} {q : List Nat} (hS : BfsScan g k x (y :: ys) d q)
    (hR : BfsReachScan g start x d0 d q) :
    BfsReachScan g start x d0 ((d.markDiscovered y).setParent y x) (q ++ [y]) := by
  have hmem := bfsScan_mem hS
  have hyr := hg.adj_range x y hmem
  have hdisc : ∀ u, ((d.markDiscovered y).setParent y x).disc u =
      if u = y then true else d.disc u := fun u => disc_markDiscovered hS.inv.sized y hyr.2 u
  have hry : g.Reach start y := Relation.ReflTransGen.tail hR.self_reach hmem
  obtain ⟨⟨h1, h2, h3, h4⟩, h5⟩ := hR
  refine ⟨⟨?_, ?_, ?_, ?_⟩, h5⟩
  · rw [hdisc]; split
    · rfl
    · exact h1
  · intro u hu
    rw [hdisc]; split
    · rfl
    · exact h2 u hu
  · intro u hu
    rcases List.mem_append.mp hu with h | h
    · exact h3 u h
    · simp at h; rw [h]; exact hry
  · intro u hu
    rw [hdisc] at hu
    by_cases huy : u = y
    · rw [huy]; exact Or.inr hry
    · simp only [huy, if_false] at hu
      exact h4 u hu

theorem bfsOuter_refuel {g : Graph} {k k2 : Nat} {d : TraversalData} (hO : BfsOuter g k d [])
    (hk : g.nVertices < k2) : BfsOuter g k2 d [] := by
  refine ⟨hO.inv, hO.closed, ?_⟩
  have := undisc_le hO.inv.sized
  simp only [List.length_nil]
  omega

theorem bfsOuter_idle_proc {g : Graph} {k : Nat} {d : TraversalData} (hO : BfsOuter g k d [])
    (u : Nat) : d.disc u = true ↔ d.proc u = true := by
  constructor
  · intro hu
    cases hp : d.proc u
    · have := (hO.inv.queue_iff u).mpr ⟨hu, hp⟩
      simp at this
    · rfl
  · exact hO.inv.proc_disc u

/-- A breadth-first traversal with hooks that do not fail, started at an
undiscovered vertex `i` in a state with empty queue, returns normally and marks,
besides what was marked, exactly the vertices reachable from `i`. -/
theorem bfs_total_run {σ : Type} (g : Graph) (hg : g.Dense) (h : Hooks σ)
    (hpve : ∀ v d a, ∃ a1, h.pve v d a = .ok a1)
    (hpvl : ∀ v d a, ∃ a1, h.pvl v d a = .ok a1)
    (hpe : ∀ x y d a, ∃ a1, h.pe x y d a = .ok a1)
    (fuel : Nat) (hfuel : g.nVertices < fuel) (i : Nat) (hi : 1 ≤ i ∧ i ≤ g.nVertices)
    (d : TraversalData) (a : σ) (k : Nat) (hO : BfsOuter g k d []) (hd : d.disc i = false) :
    ∃ d2 a2, BreadthFirstTraversal g fuel i h (d, a) = .ok (d2, a2) ∧
      BfsOuter g fuel d2 [] ∧
      ∀ u, d2.disc u = true ↔ (d.disc u = true ∨ g.Reach i u) := by
  have hO1 := bfsOuter_start (bfsOuter_refuel hO hfuel) hi hd
  have hdisc : ∀ u, (d.markDiscovered i).disc u = if u = i then true else d.disc u :=
    fun u => disc_markDiscovered hO.inv.sized i hi.2 u
  have hR : BfsReachOuter g i d (d.markDiscovered i) [i] := by
    refine ⟨by rw [hdisc]; simp, ?_, ?_, ?_⟩
    · intro u hu; rw [hdisc]; split
      · rfl
      · exact hu
    · intro u hu
      simp at hu; rw [hu]; exact Relation.ReflTransGen.refl
    · intro u hu
      rw [hdisc] at hu
      by_cases hui : u = i
      · rw [hui]; exact Or.inr Relation.ReflTransGen.refl
      · simp only [hui, if_false] at hu; exact Or.inl hu
  have key := bfs_fresh_rule g hg h
    (fun s => BfsReachOuter g i d s.1 s.2.1)
    (fun x _ s => BfsReachScan g i x d s.1 s.2.1)
    (fun r => (∃ k, BfsOuter g k r.1 []) ∧ BfsReachOuter g i d r.1 [])
    (fun _ => False) ?_ ?_ ?_ ?_ fuel _ _ a hO1 hR
  · unfold BreadthFirstTraversal
    cases hr : bfsLoop g h fuel (d.markDiscovered i, [i], a) with
    | error e => exact absurd (key.1 e hr) id
    | ok r =>
      obtain ⟨d2, a2⟩ := r
      obtain ⟨⟨k2, hO2⟩, hR2⟩ := key.2 _ hr
      refine ⟨d2, a2, rfl, bfsOuter_refuel hO2 hfuel, ?_⟩
      intro u
      constructor
      · exact hR2.disc_reach u
      · rintro (hu | hu)
        · exact hR2.keep u hu
        · unfold Graph.Reach at hu
          induction hu with
          | refl => exact hR2.start_disc
          | tail _ hbc ih =>
            exact hO2.closed _ ((bfsOuter_idle_proc hO2 _).mp ih) _ hbc
  · intro k d a hO2 hL
    exact ⟨⟨k, hO2⟩, hL⟩
  · intro k d v q a _ hL
    obtain ⟨a1, ha1⟩ := hpve v d a
    exact ⟨fun e he => (by rw [ha1] at he; cases he), fun _ _ => bfsReach_deq hL⟩
  · intro k x y ys d q a hS hL
    have hres : ∃ a1, (if g.directed = true ∨ d.proc y = false then h.pe x y d a
        else .ok a) = .ok a1 := by
      split
      · exact hpe x y d a
      · exact ⟨a, rfl⟩
    obtain ⟨a1, ha1⟩ := hres
    rw [ha1]
    exact ⟨fun e he => (by cases he),
      fun _ _ => ⟨fun _ => bfsReach_step_new hg hS hL, fun _ => hL⟩⟩
  · intro k x d q a _ hL
    obtain ⟨a1, ha1⟩ := hpvl x d a
    exact ⟨fun e he => (by rw [ha1] at he; cases he), fun _ _ => hL.outer⟩

theorem ccLoops_agree (g : Graph) (hg : g.Dense) (fuel : Nat) (hfuel : g.nVertices < fuel) :
    ∀ (starts : List Nat), (∀ i ∈ starts, 1 ≤ i ∧ i ≤ g.nVertices) →
      ∀ (db dd : TraversalData) (count k : Nat), BfsOuter g k db [] → DfsIdle g dd →
        ExitInv dd → (∀ u, db.disc u = dd.disc u) →
        ∃ db2 dd2 c, ccLoop g fuel starts (db, count) = .ok (db2, c) ∧
          ccLoopDepthFirst g fuel starts (dd, count) = .ok (dd2, c) := by
  intro starts
  induction starts with
  | nil =>
    intro _ db dd count k _ _ _ _
    exact ⟨db, dd, count, rfl, rfl⟩
  | cons i rest ih =>
    intro hst db dd count k hO hI hX hrel
    have hi := hst i (by simp)
    have hrest : ∀ j ∈ rest, 1 ≤ j ∧ j ≤ g.nVertices := fun j hj => hst j (by simp [hj])
    unfold ccLoop ccLoopDepthFirst
    by_cases hd : db.disc i = false
    · have hd2 : dd.disc i = false := by rw [← hrel]; exact hd
      simp only [hd, hd2, if_true]
      obtain ⟨db2, _, hb, hO2, hbi⟩ := bfs_total_run g hg noHooks (fun _ _ a => ⟨a, rfl⟩)
        (fun _ _ a => ⟨a, rfl⟩) (fun _ _ _ a => ⟨a, rfl⟩) fuel hfuel i hi db () k hO hd
      obtain ⟨dd2, _, hdr, hQ, hX2⟩ := dfs_total_run g hg noHooks (fun _ _ a => ⟨a, rfl⟩)
        (fun _ _ a => ⟨a, rfl⟩) (fun _ _ _ a => ⟨a, rfl⟩) fuel i dd ()
        (dfsPre_root hI hi hd2 hfuel) hX
      unfold DepthFirstTraversal
      rw [hb, hdr]
      dsimp only
      refine ih hrest db2 dd2 (count + 1) fuel hO2 (dfsIdle_post hI hQ) hX2 ?_
      intro u
      have h1 := hbi u
      have h2 := dfs_post_disc_iff hI hQ u
      rw [hrel u] at h1
      cases hx : db2.disc u <;> cases hy : dd2.disc u <;> simp_all
    · have hd1 : db.disc i = true := by simpa using hd
      have hd2 : dd.disc i = true := by rw [← hrel]; exact hd1
      simp only [hd1, hd2, Bool.true_eq_false, if_false]
      exact ih hrest db dd count k hO hI hX hrel

/-- C5: for every graph with dense ids `1..n` and every start in `1..n`,
`BreadthFirstTraversal(start)` and `DepthFirstTraversal(start)`, each on freshly
initialised data with hooks that do not modify the data and do not fail, return
normally and both end with `discovered[v] == processed[v] == true` exactly for
the vertices reachable from start and false for every other vertex; and counting
components with the depth-first traversal in place of the breadth-first one
gives the same number. -/
theorem traversals_mark_reachable {σ τ : Type} (g : Graph) (hg : g.Dense)
    (hb : Hooks σ) (hd : Hooks τ)
    (hbve : ∀ v d a, ∃ a1, hb.pve v d a = .ok a1)
    (hbvl : ∀ v d a, ∃ a1, hb.pvl v d a = .ok a1)
    (hbe : ∀ x y d a, ∃ a1, hb.pe x y d a = .ok a1)
    (hdve : ∀ v d a, ∃ a1, hd.pve v d a = .ok a1)
    (hdvl : ∀ v d a, ∃ a1, hd.pvl v d a = .ok a1)
    (hde : ∀ x y d a, ∃ a1, hd.pe x y d a = .ok a1)
    (fuel : Nat) (hfuel : g.nVertices < fuel) (start : Nat)
    (hstart : 1 ≤ start ∧ start ≤ g.nVertices) (a : σ) (b : τ) :
    (∃ db a2 dd b2,
        BreadthFirstTraversal g fuel start hb (TraversalData.zero.Init g, a) = .ok (db, a2) ∧
        DepthFirstTraversal g fuel start hd (TraversalData.zero.Init g, b) = .ok (dd, b2) ∧
        ∀ v, (db.disc v = true ↔ g.Reach start v) ∧ (db.proc v = true ↔ g.Reach start v) ∧
          (dd.disc v = true ↔ g.Reach start v) ∧ (dd.proc v = true ↔ g.Reach start v)) ∧
      ConnectedComponentsDepthFirst g fuel = ConnectedComponents g fuel := by
  constructor
  · obtain ⟨db, a2, hbr, hO2, hbi⟩ := bfs_total_run g hg hb hbve hbvl hbe fuel hfuel start hstart
      (TraversalData.zero.Init g) a fuel (bfsOuter_Init g _ fuel hfuel) (by simp)
    have hI := dfsIdle_Init g TraversalData.zero
    obtain ⟨dd, b2, hdr, hQ, _⟩ := dfs_total_run g hg hd hdve hdvl hde fuel start
      (TraversalData.zero.Init g) b (dfsPre_root hI hstart (by simp) hfuel) (exitInv_Init g _)
    have hI2 := dfsIdle_post hI hQ
    refine ⟨db, a2, dd, b2, hbr, hdr, ?_⟩
    intro v
    have h1 := hbi v
    have h2 := dfs_post_disc_iff hI hQ v
    simp only [disc_Init, Bool.false_eq_true, false_or] at h1 h2
    refine ⟨h1, ?_, h2, ?_⟩
    · rw [← bfsOuter_idle_proc hO2 v]; exact h1
    · rw [← h2]
      exact ⟨hI2.inv.proc_disc v, hI2.no_gray v⟩
  · unfold ConnectedComponentsDepthFirst ConnectedComponents
    by_cases hn : g.nVertices = 0
    · simp [hn]
    · simp only [hn, if_false]
      obtain ⟨db2, dd2, c, h1, h2⟩ := ccLoops_agree g hg fuel hfuel (List.range' 1 g.nVertices)
        (by intro i hi; rw [List.mem_range'_1] at hi; omega)
        (TraversalData.zero.Init g) (TraversalData.zero.Init g) 0 fuel
        (bfsOuter_Init g _ fuel hfuel) (dfsIdle_Init g _) (exitInv_Init g _) (fun _ => rfl)
      rw [h1, h2]

theorem traversals_mark_reachable_witness :
    (∃ db a2 dd b2,
        BreadthFirstTraversal (Graph.zero.Init true [1, 2, 1, 3, 3, 4, 5, 4]) 6 1 noHooks
          (TraversalData.zero.Init (Graph.zero.Init true [1, 2, 1, 3, 3, 4, 5, 4]), ()) =
            .ok (db, a2) ∧
        DepthFirstTraversal (Graph.zero.Init true [1, 2, 1, 3, 3, 4, 5, 4]) 6 1 noHooks
          (TraversalData.zero.Init (Graph.zero.Init true [1, 2, 1, 3, 3, 4, 5, 4]), ()) =
            .ok (dd, b2) ∧
        ∀ v, (db.disc v = true ↔ (Graph.zero.Init true [1, 2, 1, 3, 3, 4, 5, 4]).Reach 1 v) ∧
          (db.proc v = true ↔ (Graph.zero.Init true [1, 2, 1, 3, 3, 4, 5, 4]).Reach 1 v) ∧
          (dd.disc v = true ↔ (Graph.zero.Init true [1, 2, 1, 3, 3, 4, 5, 4]).Reach 1 v) ∧
          (dd.proc v = true ↔ (Graph.zero.Init true [1, 2, 1, 3, 3, 4, 5, 4]).Reach 1 v)) ∧
      ConnectedComponentsDepthFirst (Graph.zero.Init true [1, 2, 1, 3, 3, 4, 5, 4]) 6 =
        ConnectedComponents (Graph.zero.Init true [1, 2, 1, 3, 3, 4, 5, 4]) 6 :=
  traversals_mark_reachable (Graph.zero.Init true [1, 2, 1, 3, 3, 4, 5, 4])
    (Init_dense Graph.zero true [1, 2, 1, 3, 3, 4, 5, 4] 5 (by decide)) noHooks noHooks
    (fun _ _ a => ⟨a, rfl⟩) (fun _ _ a => ⟨a, rfl⟩) (fun _ _ _ a => ⟨a, rfl⟩)
    (fun _ _ a => ⟨a, rfl⟩) (fun _ _ a => ⟨a, rfl⟩) (fun _ _ _ a => ⟨a, rfl⟩)
    6 (by decide) 1 (by decide) () ()

/-! ## `ConnectedComponents` -/

theorem ccLoop_roots (g : Graph) (hg : g.Dense) (fuel : Nat) (hfuel : g.nVertices < fuel) :
    ∀ (starts : List Nat), (∀ i ∈ starts, 1 ≤ i ∧ i ≤ g.nVertices) →
      ∀ (d : TraversalData) (count k : Nat), BfsOuter g k d [] →
        ∃ (d2 : TraversalData) (roots : List Nat), ccLoop g fuel starts (d, count) = .ok (d2, count + roots.length) ∧
          roots.Sublist starts ∧ (∀ r ∈ roots, d.disc r = false) ∧
          (∀ u, d2.disc u = true ↔ (d.disc u = true ∨ ∃ r ∈ roots, g.Reach r u)) ∧
          (∀ i ∈ starts, d2.disc i = true) ∧
          roots.Pairwise (fun r r2 => ¬ g.Reach r r2) := by
  intro starts
  induction starts with
  | nil =>
    intro _ d count k _
    exact ⟨d, [], rfl, List.Sublist.refl _, by simp, by simp, by simp, List.Pairwise.nil⟩
  | cons i rest ih =>
    intro hst d count k hO
    have hi := hst i (by simp)
    have hrest : ∀ j ∈ rest, 1 ≤ j ∧ j ≤ g.nVertices := fun j hj => hst j (by simp [hj])
    unfold ccLoop
    by_cases hd : d.disc i = false
    · simp only [hd, if_true]
      obtain ⟨d1, _, hb, hO1, hbi⟩ := bfs_total_run g hg noHooks (fun _ _ a => ⟨a, rfl⟩)
        (fun _ _ a => ⟨a, rfl⟩) (fun _ _ _ a => ⟨a, rfl⟩) fuel hfuel i hi d () k hO hd
      rw [hb]
      dsimp only
      obtain ⟨d2, roots, hr, hsub, hnew, hiff, hall, hpw⟩ := ih hrest d1 (count + 1) fuel hO1
      refine ⟨d2, i :: roots, ?_, hsub.cons₂ i, ?_, ?_, ?_, ?_⟩
      · rw [hr]; simp only [List.length_cons]
        congr 2; omega
      · intro r hr2
        rcases List.mem_cons.mp hr2 with h | h
        · rw [h]; exact hd
        · cases hdr : d.disc r
          · rfl
          · have := (hbi r).mpr (Or.inl hdr)
            rw [hnew r h] at this; cases this
      · intro u
        rw [hiff u, hbi u]
        constructor
        · rintro ((h | h) | ⟨r, hr2, h⟩)
          · exact Or.inl h
          · exact Or.inr ⟨i, List.mem_cons_self _ _, h⟩
          · exact Or.inr ⟨r, List.mem_cons_of_mem _ hr2, h⟩
        · rintro (h | ⟨r, hr2, h⟩)
          · exact Or.inl (Or.inl h)
          · rcases List.mem_cons.mp hr2 with h2 | h2
            · rw [h2] at h; exact Or.inl (Or.inr h)
            · exact Or.inr ⟨r, h2, h⟩
      · intro j hj
        rcases List.mem_cons.mp hj with h | h
        · rw [h, hiff i]
          exact Or.inl ((hbi i).mpr (Or.inr Relation.ReflTransGen.refl))
        · exact hall j h
      · rw [List.pairwise_cons]
        refine ⟨?_, hpw⟩
        intro r hr2 hreach
        have := (hbi r).mpr (Or.inr hreach)
        rw [hnew r hr2] at this; cases this
    · have hd1 : d.disc i = true := by simpa using hd
      simp only [hd1, Bool.true_eq_false, if_false]
      obtain ⟨d2, roots, hr, hsub, hnew, hiff, hall, hpw⟩ := ih hrest d count k hO
      refine ⟨d2, roots, hr, hsub.cons i, hnew, hiff, ?_, hpw⟩
      intro j hj
      rcases List.mem_cons.mp hj with h | h
      · rw [h, hiff i]; exact Or.inl hd1
      · exact hall j h

theorem reach_symm {g : Graph} (hsym : ∀ a b, g.Adj a b → g.Adj b a) {a b : Nat}
    (h : g.Reach a b) : g.Reach b a := by
  unfold Graph.Reach at h ⊢
  induction h with
  | refl => exact Relation.ReflTransGen.refl
  | tail _ hbc ih => exact Relation.ReflTransGen.head (hsym _ _ hbc) ih

theorem Init_adj_symm (pairs : List Nat) (n : Nat) (h : DenseIds pairs n) (a b : Nat)
    (hab : (Graph.zero.Init false pairs).Adj a b) : (Graph.zero.Init false pairs).Adj b a := by
  unfold Graph.Adj at hab ⊢
  rw [← List.count_pos_iff] at hab ⊢
  rw [Init_adj Graph.zero false pairs n h, List.count_reverse] at hab ⊢
  rw [emitted_count_symm b a pairs]
  exact hab

/-- C7: for every undirected graph built by `Init` from a pair list with ids
`1..n` (`n` may be 0), `ConnectedComponents` returns the number of connected
components: there is a list of that many distinct vertices, one from each class
of "joined by a path of edges" (every vertex of `1..n` is joined to one of them,
and no two of them are joined). -/
theorem connectedComponents_counts_classes (pairs : List Nat) (n : Nat) (h : DenseIds pairs n)
    (fuel : Nat) (hfuel : n < fuel) :
    ∃ (count : Nat) (reps : List Nat), ConnectedComponents (Graph.zero.Init false pairs) fuel = .ok count ∧
      reps.length = count ∧ reps.Nodup ∧ (∀ r ∈ reps, 1 ≤ r ∧ r ≤ n) ∧
      (∀ v, 1 ≤ v → v ≤ n → ∃ r ∈ reps, (Graph.zero.Init false pairs).Reach r v) ∧
      (∀ r ∈ reps, ∀ r2 ∈ reps, (Graph.zero.Init false pairs).Reach r r2 → r = r2) := by
  have hg := Init_dense Graph.zero false pairs n h
  have hn : (Graph.zero.Init false pairs).nVertices = n := by
    rw [Init_nVertices, denseIds_dedup_length h]
  unfold ConnectedComponents
  by_cases h0 : (Graph.zero.Init false pairs).nVertices = 0
  · simp only [h0, if_true]
    refine ⟨0, [], rfl, rfl, List.nodup_nil, by simp, ?_, by simp⟩
    intro v h1 h2
    rw [hn] at h0
    omega
  · simp only [h0, if_false]
    obtain ⟨d2, roots, hr, hsub, _, hiff, hall, hpw⟩ := ccLoop_roots _ hg fuel
      (by rw [hn]; exact hfuel) (List.range' 1 (Graph.zero.Init false pairs).nVertices)
      (by intro i hi; rw [List.mem_range'_1] at hi; omega)
      (TraversalData.zero.Init (Graph.zero.Init false pairs)) 0 fuel
      (bfsOuter_Init _ _ fuel (by rw [hn]; exact hfuel))
    rw [hr]
    dsimp only
    refine ⟨0 + roots.length, roots, rfl, by omega, ?_, ?_, ?_, ?_⟩
    · exact (List.nodup_range' 1 _).sublist hsub
    · intro r hr2
      have := hsub.subset hr2
      rw [List.mem_range'_1, hn] at this
      omega
    · intro v h1 h2
      have := (hiff v).mp (hall v (by rw [List.mem_range'_1, hn]; omega))
      simp only [disc_Init, Bool.false_eq_true, false_or] at this
      exact this
    · have hR : roots.Pairwise (fun r r2 => r ≠ r2 →
          ¬ (Graph.zero.Init false pairs).Reach r r2) := by
        apply List.Pairwise.imp _ hpw
        intro a b hx _
        exact hx
      have hsymm : Symmetric (fun r r2 => r ≠ r2 →
          ¬ (Graph.zero.Init false pairs).Reach r r2) := by
        intro x y hxy hne hreach
        exact hxy (Ne.symm hne) (reach_symm (Init_adj_symm pairs n h) hreach)
      intro r hr2 r2 hr3 hreach
      by_contra hne
      exact hR.forall_of_forall hsymm (fun x _ hx => absurd rfl hx) hr2 hr3 hne hreach

theorem connectedComponents_counts_classes_witness :
    ∃ (count : Nat) (reps : List Nat), ConnectedComponents (Graph.zero.Init false [1, 2, 3, 4, 4, 5]) 6 = .ok count ∧
      reps.length = count ∧ reps.Nodup ∧ (∀ r ∈ reps, 1 ≤ r ∧ r ≤ 5) ∧
      (∀ v, 1 ≤ v → v ≤ 5 → ∃ r ∈ reps, (Graph.zero.Init false [1, 2, 3, 4, 4, 5]).Reach r v) ∧
      (∀ r ∈ reps, ∀ r2 ∈ reps, (Graph.zero.Init false [1, 2, 3, 4, 4, 5]).Reach r r2 → r = r2) :=
  connectedComponents_counts_classes [1, 2, 3, 4, 4, 5] 5 (by decide) 6 (by decide)

/-! ## Breadth-first parent pointers form a shortest-path tree -/

theorem reachIn_reach {g : Graph} {s : Nat} : ∀ (k v : Nat), g.ReachIn s k v → g.Reach s v := by
  intro k
  induction k with
  | zero =>
    intro v h
    simp only [Graph.ReachIn] at h
    rw [h]; exact Relation.ReflTransGen.refl
  | succ k ih =>
    intro v h
    obtain ⟨u, hu, huv⟩ := h
    exact Relation.ReflTransGen.tail (ih u hu) huv

theorem levelScan_deq {g : Graph} {k start v : Nat} {lev : Nat → Nat} {d : TraversalData}
    {q : List Nat} (hO : BfsOuter g (k + 1) d (v :: q))
    (hV : BfsLevelOuter g start lev d (v :: q)) :
    BfsLevelScan g start lev v (g.adj v) (d.markProcessed v) q := by
  have hv := (hO.inv.queue_iff v).mp (by simp)
  have hvr := hO.inv.disc_range v hv.1
  have hproc : ∀ u, (d.markProcessed v).proc u = if u = v then true else d.proc u :=
    fun u => proc_markProcessed hO.inv.sized v hvr.2 u
  obtain ⟨⟨c1, c2, c3, c4, c5⟩, hedge, hsorted, hbound⟩ := hV
  rw [List.pairwise_cons] at hsorted
  refine ⟨⟨c1, c2, c3, c4, c5⟩, ?_, ⟨[], by simp, by simp⟩, hsorted.2, ?_, hsorted.1⟩
  · intro z hz hzv y hy
    rw [hproc] at hz
    simp only [hzv, if_false] at hz
    exact hedge z hz y hy
  · intro u hu
    exact hbound v (by simp) u hu

theorem levelScan_step_old {g : Graph} {start x y : Nat} {lev : Nat → Nat} {ys : List Nat}
    {d : TraversalData} {q : List Nat} (hV : BfsLevelScan g start lev x (y :: ys) d q)
    (hy : d.disc y = true) : BfsLevelScan g start lev x ys d q := by
  obtain ⟨hc, he, ⟨done, hd1, hd2⟩, hs, hb, hq⟩ := hV
  refine ⟨hc, he, ⟨done ++ [y], by simp [hd1], ?_⟩, hs, hb, hq⟩
  intro z hz
  rcases List.mem_append.mp hz with h | h
  · exact hd2 z h
  · simp at h; rw [h]; exact hb y hy

theorem levelScan_step_new {g : Graph} (hg : g.Dense) {k start x y : Nat} {lev : Nat → Nat}
    {ys : List Nat} {d : TraversalData} {q : List Nat} (hS : BfsScan g k x (y :: ys) d q)
    (hV : BfsLevelScan g start lev x (y :: ys) d q) (hy : d.disc y = false) :
    BfsLevelScan g start (Function.update lev y (lev x + 1)) x ys
      ((d.markDiscovered y).setParent y x) (q ++ [y]) := by
  have hmem := bfsScan_mem hS
  have hyr := hg.adj_range x y hmem
  have hs := hS.inv.sized
  have hdisc : ∀ u, ((d.markDiscovered y).setParent y x).disc u =
      if u = y then true else d.disc u := fun u => disc_markDiscovered hs y hyr.2 u
  have hpar : ∀ u, ((d.markDiscovered y).setParent y x).par u =
      if u = y then x else d.par u :=
    fun u => par_setParent (sized_markDiscovered hs y) y x hyr.2 u
  have hxd : d.disc x = true := hS.inv.proc_disc x hS.proc_self
  have hxy : x ≠ y := by intro h; rw [h, hy] at hxd; cases hxd
  have hlev : ∀ u, u ≠ y → Function.update lev y (lev x + 1) u = lev u :=
    fun u hu => Function.update_noteq hu _ _
  have hlevy : Function.update lev y (lev x + 1) y = lev x + 1 := Function.update_same _ _ _
  have hdne : ∀ u, d.disc u = true → u ≠ y := by
    intro u hu h; rw [h, hy] at hu; cases hu
  obtain ⟨⟨c1, c2, c3, c4, c5⟩, he, ⟨done, hd1, hd2⟩, hsorted, hb, hq⟩ := hV
  have hsy : start ≠ y := hdne start c2
  refine ⟨⟨?_, ?_, ?_, ?_, ?_⟩, ?_, ⟨done ++ [y], by simp [hd1], ?_⟩, ?_, ?_, ?_⟩
  · rw [hlev start hsy]; exact c1
  · rw [hdisc]; simp [hsy, c2]
  · rw [hpar]; simp [hsy, c3]
  · intro u hu
    rw [hdisc] at hu
    by_cases huy : u = y
    · rw [huy, hlevy]
      exact ⟨x, c4 x hxd, hmem⟩
    · simp only [huy, if_false] at hu
      rw [hlev u huy]; exact c4 u hu
  · intro u hu hus
    rw [hdisc] at hu
    by_cases huy : u = y
    · subst huy
      have hp : ((d.markDiscovered u).setParent u x).par u = x := by rw [hpar]; simp
      rw [hp, hlevy, hlev x hxy]
      exact ⟨by have := hS.range; omega, rfl⟩
    · simp only [huy, if_false] at hu
      have hp : ((d.markDiscovered y).setParent y x).par u = d.par u := by
        rw [hpar]; simp [huy]
      obtain ⟨h1, h2⟩ := c5 u hu hus
      have hpd : d.par u ≠ y := hdne _ (hS.inv.proc_disc _ (hS.inv.par_proc u h1).1)
      rw [hp, hlev u huy, hlev _ hpd]
      exact ⟨h1, h2⟩
  · intro z hz hzx w hw
    have hz1 : d.proc z = true := hz
    have hwd := hS.closed z hz1 hzx w hw
    rw [hlev w (hdne w hwd), hlev z (hdne z (hS.inv.proc_disc z hz1))]
    exact he z hz1 hzx w hw
  · intro z hz
    rw [hlev x hxy]
    rcases List.mem_append.mp hz with h | h
    · obtain ⟨done2, he1, he2⟩ := hS.scanned
      have hdd : done = done2 := List.append_cancel_right (hd1.symm.trans he1)
      have hzd := he2 z (hdd ▸ h)
      rw [hlev z (hdne z hzd)]
      exact hd2 z h
    · simp at h; rw [h, hlevy]
  · rw [List.pairwise_append]
    refine ⟨?_, List.pairwise_singleton _ _, ?_⟩
    · refine hsorted.imp_of_mem ?_
      intro a b ha hb2 hab
      have had := ((hS.inv.queue_iff a).mp ha).1
      have hbd := ((hS.inv.queue_iff b).mp hb2).1
      rw [hlev a (hdne a had), hlev b (hdne b hbd)]
      exact hab
    · intro a ha b hb2
      simp at hb2
      have had := ((hS.inv.queue_iff a).mp ha).1
      rw [hb2, hlevy, hlev a (hdne a had)]
      exact hb a had
  · intro u hu
    rw [hdisc] at hu
    rw [hlev x hxy]
    by_cases huy : u = y
    · rw [huy, hlevy]
    · simp only [huy, if_false] at hu
      rw [hlev u huy]; exact hb u hu
  · intro w hw
    rw [hlev x hxy]
    rcases List.mem_append.mp hw with h | h
    · have hwd := ((hS.inv.queue_iff w).mp h).1
      rw [hlev w (hdne w hwd)]
      exact hq w h
    · simp at h; rw [h, hlevy]; omega

theorem levelOuter_end {g : Graph} {start x : Nat} {lev : Nat → Nat}
    {d : TraversalData} {q : List Nat} (hV : BfsLevelScan g start lev x [] d q) :
    BfsLevelOuter g start lev d q := by
  obtain ⟨hc, he, ⟨done, hd1, hd2⟩, hs, hb, hq⟩ := hV
  rw [List.append_nil] at hd1
  refine ⟨hc, ?_, hs, ?_⟩
  · intro z hz y hy
    by_cases hzx : z = x
    · rw [hzx, hd1] at hy
      rw [hzx]; exact hd2 y hy
    · exact he z hz hzx y hy
  · intro h hh u hu
    have hmem : h ∈ q := List.mem_of_mem_head? hh
    have := hq h hmem
    have := hb u hu
    omega

theorem bfs_level_run {σ : Type} (g : Graph) (hg : g.Dense) (h : Hooks σ)
    (hpve : ∀ v d a, ∃ a1, h.pve v d a = .ok a1)
    (hpvl : ∀ v d a, ∃ a1, h.pvl v d a = .ok a1)
    (hpe : ∀ x y d a, ∃ a1, h.pe x y d a = .ok a1)
    (fuel : Nat) (hfuel : g.nVertices < fuel) (start : Nat)
    (hstart : 1 ≤ start ∧ start ≤ g.nVertices) (a : σ) :
    ∃ d2 a2, BreadthFirstTraversal g fuel start h (TraversalData.zero.Init g, a) = .ok (d2, a2) ∧
      (∃ k, BfsOuter g k d2 []) ∧ ∃ lev, BfsLevelOuter g start lev d2 [] := by
  have hO := bfsOuter_start (bfsOuter_Init g TraversalData.zero fuel hfuel) hstart (by simp)
  have hdisc : ∀ u, ((TraversalData.zero.Init g).markDiscovered start).disc u =
      if u = start then true else false := by
    intro u
    rw [disc_markDiscovered (sized_Init _ g) start hstart.2 u, disc_Init]
  have hV : BfsLevelOuter g start (fun _ => 0) ((TraversalData.zero.Init g).markDiscovered start)
      [start] := by
    refine ⟨⟨rfl, by rw [hdisc]; simp, by simp, ?_, ?_⟩, ?_, List.pairwise_singleton _ _, ?_⟩
    · intro u hu
      rw [hdisc] at hu
      by_cases hus : u = start
      · rw [hus]; simp [Graph.ReachIn]
      · simp [hus] at hu
    · intro u hu hus
      rw [hdisc] at hu
      simp [hus] at hu
    · intro x hx
      simp at hx
    · intro _ _ _ _
      omega
  have key := bfs_fresh_rule g hg h
    (fun s => ∃ lev, BfsLevelOuter g start lev s.1 s.2.1)
    (fun x ys s => ∃ lev, BfsLevelScan g start lev x ys s.1 s.2.1)
    (fun r => (∃ k, BfsOuter g k r.1 []) ∧ ∃ lev, BfsLevelOuter g start lev r.1 [])
    (fun _ => False) ?_ ?_ ?_ ?_ fuel _ _ a hO ⟨_, hV⟩
  · unfold BreadthFirstTraversal
    cases hr : bfsLoop g h fuel ((TraversalData.zero.Init g).markDiscovered start, [start], a) with
    | error e => exact absurd (key.1 e hr) id
    | ok r =>
      obtain ⟨d2, a2⟩ := r
      exact ⟨d2, a2, rfl, key.2 _ hr⟩
  · intro k d a hO2 hL
    exact ⟨⟨k, hO2⟩, hL⟩
  · intro k d v q a hO2 hL
    obtain ⟨lev, hL⟩ := hL
    obtain ⟨a1, ha1⟩ := hpve v d a
    exact ⟨fun e he => (by rw [ha1] at he; cases he), fun _ _ => ⟨lev, levelScan_deq hO2 hL⟩⟩
  · intro k x y ys d q a hS hL
    obtain ⟨lev, hL⟩ := hL
    have hres : ∃ a1, (if g.directed = true ∨ d.proc y = false then h.pe x y d a
        else .ok a) = .ok a1 := by
      split
      · exact hpe x y d a
      · exact ⟨a, rfl⟩
    obtain ⟨a1, ha1⟩ := hres
    rw [ha1]
    exact ⟨fun e he => (by cases he),
      fun _ _ => ⟨fun hy => ⟨_, levelScan_step_new hg hS hL hy⟩,
        fun hy => ⟨lev, levelScan_step_old hL hy⟩⟩⟩
  · intro k x d q a _ hL
    obtain ⟨lev, hL⟩ := hL
    obtain ⟨a1, ha1⟩ := hpvl x d a
    exact ⟨fun e he => (by rw [ha1] at he; cases he), fun _ _ => ⟨lev, levelOuter_end hL⟩⟩

/-- C4: for every graph (directed or undirected) with dense ids `1..n` and every
start in `1..n`, `BreadthFirstTraversal(start)` on freshly initialised data with
hooks that do not modify the data and do not fail returns normally with
`parent[start] == 0`, and for every vertex `v != start` reachable from start,
`parent[v]` is reachable from start, `v` occurs in the adjacency list of
`parent[v]`, and the fewest-edges distance from start to `v` is the distance from
start to `parent[v]` plus one. -/
theorem bfs_shortest_path_tree {σ : Type} (g : Graph) (hg : g.Dense) (h : Hooks σ)
    (hpve : ∀ v d a, ∃ a1, h.pve v d a = .ok a1)
    (hpvl : ∀ v d a, ∃ a1, h.pvl v d a = .ok a1)
    (hpe : ∀ x y d a, ∃ a1, h.pe x y d a = .ok a1)
    (fuel : Nat) (hfuel : g.nVertices < fuel) (start : Nat)
    (hstart : 1 ≤ start ∧ start ≤ g.nVertices) (a : σ) :
    ∃ d2 a2, BreadthFirstTraversal g fuel start h (TraversalData.zero.Init g, a) = .ok (d2, a2) ∧
      d2.par start = 0 ∧
      ∀ v, v ≠ start → g.Reach start v →
        g.Reach start (d2.par v) ∧ g.Adj (d2.par v) v ∧
          ∃ k, g.Dist start (d2.par v) k ∧ g.Dist start v (k + 1) := by
  obtain ⟨d2, a2, hr, ⟨k, hO⟩, lev, hV⟩ := bfs_level_run g hg h hpve hpvl hpe fuel hfuel start
    hstart a
  refine ⟨d2, a2, hr, hV.core.par_start, ?_⟩
  have hmin : ∀ j v, g.ReachIn start j v → d2.disc v = true ∧ lev v ≤ j := by
    intro j
    induction j with
    | zero =>
      intro v hv
      simp only [Graph.ReachIn] at hv
      rw [hv, hV.core.lev_start]
      exact ⟨hV.core.start_disc, le_refl _⟩
    | succ j ih =>
      intro v hv
      obtain ⟨u, hu, huv⟩ := hv
      obtain ⟨h1, h2⟩ := ih u hu
      have hpu := (bfsOuter_idle_proc hO u).mp h1
      have := hV.edge u hpu v huv
      exact ⟨hO.closed u hpu v huv, by omega⟩
  have hdist : ∀ v, d2.disc v = true → g.Dist start v (lev v) :=
    fun v hv => ⟨hV.core.walk v hv, fun j hj => (hmin j v hj).2⟩
  have hdisc : ∀ v, g.Reach start v → d2.disc v = true := by
    intro v hv
    unfold Graph.Reach at hv
    induction hv with
    | refl => exact hV.core.start_disc
    | tail _ hbc ih => exact hO.closed _ ((bfsOuter_idle_proc hO _).mp ih) _ hbc
  intro v hvs hreach
  have hdv := hdisc v hreach
  obtain ⟨h0, hl⟩ := hV.core.par_lev v hdv hvs
  obtain ⟨h1, h2, _⟩ := hO.inv.par_proc v h0
  have hdp := hO.inv.proc_disc _ h1
  refine ⟨reachIn_reach _ _ (hV.core.walk _ hdp), h2, lev (d2.par v), hdist _ hdp, ?_⟩
  rw [← hl]
  exact hdist v hdv

theorem bfs_shortest_path_tree_witness :
    ∃ d2 a2, BreadthFirstTraversal (Graph.zero.Init false [1, 2, 1, 3, 3, 4, 2, 4, 4, 5]) 6 1
        noHooks (TraversalData.zero.Init (Graph.zero.Init false [1, 2, 1, 3, 3, 4, 2, 4, 4, 5]),
          ()) = .ok (d2, a2) ∧
      d2.par 1 = 0 ∧
      ∀ v, v ≠ 1 → (Graph.zero.Init false [1, 2, 1, 3, 3, 4, 2, 4, 4, 5]).Reach 1 v →
        (Graph.zero.Init false [1, 2, 1, 3, 3, 4, 2, 4, 4, 5]).Reach 1 (d2.par v) ∧
          (Graph.zero.Init false [1, 2, 1, 3, 3, 4, 2, 4, 4, 5]).Adj (d2.par v) v ∧
          ∃ k, (Graph.zero.Init false [1, 2, 1, 3, 3, 4, 2, 4, 4, 5]).Dist 1 (d2.par v) k ∧
            (Graph.zero.Init false [1, 2, 1, 3, 3, 4, 2, 4, 4, 5]).Dist 1 v (k + 1) :=
  bfs_shortest_path_tree (Graph.zero.Init false [1, 2, 1, 3, 3, 4, 2, 4, 4, 5])
    (Init_dense Graph.zero false [1, 2, 1, 3, 3, 4, 2, 4, 4, 5] 5 (by decide)) noHooks
    (fun _ _ a => ⟨a, rfl⟩) (fun _ _ a => ⟨a, rfl⟩) (fun _ _ _ a => ⟨a, rfl⟩)
    6 (by decide) 1 (by decide) ()

/-! ## Walks -/

theorem reachIn_head {g : Graph} {s u : Nat} (hsu : g.Adj s u) :
    ∀ (k v : Nat), g.ReachIn u k v → g.ReachIn s (k + 1) v := by
  intro k
  induction k with
  | zero =>
    intro v h
    simp only [Graph.ReachIn] at h
    exact ⟨s, by simp [Graph.ReachIn], h ▸ hsu⟩
  | succ k ih =>
    intro v h
    obtain ⟨w, hw, hwv⟩ := h
    exact ⟨w, ih w hw, hwv⟩

theorem reachIn_symm {g : Graph} (hsym : ∀ a b, g.Adj a b → g.Adj b a) {s : Nat} :
    ∀ (k v : Nat), g.ReachIn s k v → g.ReachIn v k s := by
  intro k
  induction k with
  | zero =>
    intro v h
    simp only [Graph.ReachIn] at h ⊢
    exact h.symm
  | succ k ih =>
    intro v h
    obtain ⟨w, hw, hwv⟩ := h
    exact reachIn_head (hsym _ _ hwv) k s (ih w hw)

theorem reachIn_trans {g : Graph} {a b : Nat} {j : Nat} (hab : g.ReachIn a j b) :
    ∀ (k c : Nat), g.ReachIn b k c → g.ReachIn a (j + k) c := by
  intro k
  induction k with
  | zero =>
    intro c h
    simp only [Graph.ReachIn] at h
    rw [h]; exact hab
  | succ k ih =>
    intro c h
    obtain ⟨w, hw, hwc⟩ := h
    exact ⟨w, ih w hw, hwc⟩

theorem twoColourable_walk {g : Graph} {c : Nat → Bool}
    (hc : ∀ x y, g.Adj x y → c x ≠ c y) {s : Nat} :
    ∀ (k v : Nat), g.ReachIn s k v → (c v = c s ↔ k % 2 = 0) := by
  intro k
  induction k with
  | zero =>
    intro v h
    simp only [Graph.ReachIn] at h
    simp [h]
  | succ k ih =>
    intro v h
    obtain ⟨w, hw, hwv⟩ := h
    have h1 := ih w hw
    have h2 := hc w v hwv
    have hk : (k + 1) % 2 = 0 ↔ ¬ k % 2 = 0 := by omega
    rw [hk, ← h1]
    cases hcv : c v <;> cases hcw : c w <;> cases hcs : c s <;> simp_all

theorem oddClosedWalk_not_twoColourable {g : Graph} (h : g.OddClosedWalk) :
    ¬ g.TwoColourable := by
  rintro ⟨c, hc⟩
  obtain ⟨v, k, hk⟩ := h
  have := (twoColourable_walk hc (2 * k + 1) v hk).mp rfl
  omega

theorem levelColour_succ (k : Nat) :
    levelColour (k + 1) = if levelColour k = 1 then 2 else 1 := by
  unfold levelColour
  rcases Nat.mod_two_eq_zero_or_one k with h | h
  · have : (k + 1) % 2 = 1 := by omega
    simp [h, this]
  · have : (k + 1) % 2 = 0 := by omega
    simp [h, this]

theorem levelColour_eq_parity {j k : Nat} (h : levelColour j = levelColour k) :
    ∃ m, j + 1 + k = 2 * m + 1 := by
  unfold levelColour at h
  rcases Nat.mod_two_eq_zero_or_one j with h1 | h1 <;>
    rcases Nat.mod_two_eq_zero_or_one k with h2 | h2 <;>
    simp [h1, h2] at h
  · exact ⟨(j + k) / 2, by omega⟩
  · exact ⟨(j + k) / 2, by omega⟩

/-! ## `Bipartite` on an undirected graph -/

theorem bip_pe_equal (x y : Nat) (d : TraversalData) (st : Bool × List Nat)
    (h : st.2.getD x 0 = st.2.getD y 0) : bipartiteHooks.pe x y d st = .ok (false, st.2) := by
  show (if st.2.getD x 0 = st.2.getD y 0 then Except.ok (false, st.2) else _) = _
  rw [if_pos h]

theorem bip_pe_differ (x y : Nat) (d : TraversalData) (st : Bool × List Nat)
    (h : st.2.getD x 0 ≠ st.2.getD y 0) :
    bipartiteHooks.pe x y d st =
      .ok (st.1, st.2.set y (if st.2.getD x 0 = 1 then 2 else 1)) := by
  show (if st.2.getD x 0 = st.2.getD y 0 then Except.ok (false, st.2) else _) = _
  rw [if_neg h]
  split <;> rfl

theorem bipScan_deq {g : Graph} {k r v : Nat} {d : TraversalData} {q : List Nat}
    {st : Bool × List Nat} (hO : BfsOuter g (k + 1) d (v :: q))
    (hB : BipOuter g r d (v :: q) st) :
    BipScan g r v (g.adj v) (d.markProcessed v) q st := by
  have hv := (hO.inv.queue_iff v).mp (by simp)
  have hvr := hO.inv.disc_range v hv.1
  have hproc : ∀ u, (d.markProcessed v).proc u = if u = v then true else d.proc u :=
    fun u => proc_markProcessed hO.inv.sized v hvr.2 u
  obtain ⟨⟨i1, i2, i3, i4⟩, hp, hw⟩ := hB
  refine ⟨⟨i1, i2, i3, i4⟩, ?_, ⟨[], by simp, by simp⟩,
    fun u hu => hw u (List.mem_cons_of_mem _ hu), hw v (List.mem_cons_self _ _)⟩
  intro hf z hz hzv y hy
  rw [hproc] at hz
  simp only [hzv, if_false] at hz
  exact hp hf z hz y hy

theorem bipOuter_end {g : Graph} {r x : Nat} {d : TraversalData} {q : List Nat}
    {st : Bool × List Nat} (hB : BipScan g r x [] d q st) : BipOuter g r d q st := by
  obtain ⟨hi, hpo, ⟨done, hd1, hd2⟩, hw, _⟩ := hB
  rw [List.append_nil] at hd1
  refine ⟨hi, ?_, hw⟩
  intro hf z hz y hy
  by_cases hzx : z = x
  · rw [hzx, hd1] at hy
    rw [hzx]; exact hd2 hf y hy
  · exact hpo hf z hz hzx y hy

theorem bipScan_skip {g : Graph} (hsym : ∀ a b, g.Adj a b → g.Adj b a)
    (hloop : ∀ a, ¬ g.Adj a a) {k r x y : Nat} {ys : List Nat} {d : TraversalData}
    {q : List Nat} {st : Bool × List Nat} (hS : BfsScan g k x (y :: ys) d q)
    (hB : BipScan g r x (y :: ys) d q st) (hy : d.proc y = true) :
    BipScan g r x ys d q st := by
  have hmem := bfsScan_mem hS
  have hyx : y ≠ x := by intro h; rw [h] at hmem; exact hloop x hmem
  obtain ⟨hi, hpo, ⟨done, hd1, hd2⟩, hw, hws⟩ := hB
  refine ⟨hi, hpo, ⟨done ++ [y], by simp [hd1], ?_⟩, hw, hws⟩
  intro hf z hz
  rcases List.mem_append.mp hz with h | h
  · exact hd2 hf z h
  · simp at h
    rw [h]
    exact Ne.symm (hpo hf y hy hyx x (hsym x y hmem))

theorem bipScan_conflict {g : Graph} (hsym : ∀ a b, g.Adj a b → g.Adj b a)
    {k r x y : Nat} {ys : List Nat} {d : TraversalData}
    {q : List Nat} {st : Bool × List Nat} (hS : BfsScan g k x (y :: ys) d q)
    (hB : BipScan g r x (y :: ys) d q st) (hy : d.proc y = false) (hyd : d.disc y = true)
    (heq : st.2.getD x 0 = st.2.getD y 0) :
    BipScan g r x ys d q (false, st.2) := by
  have hmem := bfsScan_mem hS
  obtain ⟨⟨i1, i2, i3, _⟩, _, ⟨done, hd1, _⟩, hw, hws⟩ := hB
  have hyq : y ∈ q := (hS.inv.queue_iff y).mpr ⟨hyd, hy⟩
  obtain ⟨kx, hkx, hcx⟩ := hws
  obtain ⟨ky, hky, hcy⟩ := hw y hyq
  have hodd : g.OddClosedWalk := by
    obtain ⟨m, hm⟩ := @levelColour_eq_parity kx ky (by rw [← hcx, ← hcy]; exact heq)
    refine ⟨r, m, ?_⟩
    have h1 : g.ReachIn r (kx + 1) y := ⟨x, hkx, hmem⟩
    have h2 := reachIn_trans h1 ky r (reachIn_symm hsym ky y hky)
    rw [← hm]; exact h2
  refine ⟨⟨i1, i2, i3, fun _ => hodd⟩, ?_, ⟨done ++ [y], by simp [hd1], ?_⟩, hw,
    ⟨kx, hkx, hcx⟩⟩
  · intro hf; cases hf
  · intro hf; cases hf

theorem bipScan_same {g : Graph} (hg : g.Dense) {k r x y : Nat} {ys : List Nat}
    {d : TraversalData} {q : List Nat} {st : Bool × List Nat}
    (hS : BfsScan g k x (y :: ys) d q) (hB : BipScan g r x (y :: ys) d q st)
    (hyd : d.disc y = true) (hne : st.2.getD x 0 ≠ st.2.getD y 0) :
    BipScan g r x ys d q (st.1, st.2.set y (if st.2.getD x 0 = 1 then 2 else 1)) := by
  have hmem := bfsScan_mem hS
  have hyr := hg.adj_range x y hmem
  have hxd : d.disc x = true := hS.inv.proc_disc x hS.proc_self
  obtain ⟨⟨i1, i2, i3, i4⟩, hpo, ⟨done, hd1, hd2⟩, hw, hws⟩ := hB
  have hval : (if st.2.getD x 0 = 1 then 2 else 1) = st.2.getD y 0 := by
    rcases i3 x hxd with h1 | h1 <;> rcases i3 y hyd with h2 | h2 <;> simp_all
  have hcol : ∀ u, (st.2.set y (if st.2.getD x 0 = 1 then 2 else 1)).getD u 0 =
      st.2.getD u 0 := by
    intro u
    rw [getD_set_ite _ _ _ _ _ (by omega), hval]
    split
    · next h => rw [h]
    · rfl
  refine ⟨⟨by simp [i1], ?_, ?_, i4⟩, ?_, ⟨done ++ [y], by simp [hd1], ?_⟩, ?_, ?_⟩
  · intro u hu; show (st.2.set y _).getD u 0 = 0; rw [hcol]; exact i2 u hu
  · intro u hu; show (st.2.set y _).getD u 0 = 1 ∨ (st.2.set y _).getD u 0 = 2
    rw [hcol]; exact i3 u hu
  · intro hf z hz hzx w hw2
    show (st.2.set y _).getD z 0 ≠ (st.2.set y _).getD w 0
    rw [hcol, hcol]; exact hpo hf z hz hzx w hw2
  · intro hf z hz
    show (st.2.set y _).getD x 0 ≠ (st.2.set y _).getD z 0
    rw [hcol, hcol]
    rcases List.mem_append.mp hz with h | h
    · exact hd2 hf z h
    · simp at h; rw [h]; exact hne
  · intro u hu
    obtain ⟨ku, h1, h2⟩ := hw u hu
    exact ⟨ku, h1, by show (st.2.set y _).getD u 0 = _; rw [hcol]; exact h2⟩
  · obtain ⟨kx, h1, h2⟩ := hws
    exact ⟨kx, h1, by show (st.2.set y _).getD x 0 = _; rw [hcol]; exact h2⟩

theorem bipScan_new {g : Graph} (hg : g.Dense) {k r x y : Nat} {ys : List Nat}
    {d : TraversalData} {q : List Nat} {st : Bool × List Nat}
    (hS : BfsScan g k x (y :: ys) d q) (hB : BipScan g r x (y :: ys) d q st)
    (hyd : d.disc y = false) :
    BipScan g r x ys ((d.markDiscovered y).setParent y x) (q ++ [y])
      (st.1, st.2.set y (if st.2.getD x 0 = 1 then 2 else 1)) := by
  have hmem := bfsScan_mem hS
  have hyr := hg.adj_range x y hmem
  have hxd : d.disc x = true := hS.inv.proc_disc x hS.proc_self
  have hdisc : ∀ u, ((d.markDiscovered y).setParent y x).disc u =
      if u = y then true else d.disc u := fun u => disc_markDiscovered hS.inv.sized y hyr.2 u
  have hdne : ∀ u, d.disc u = true → u ≠ y := by
    intro u hu h; rw [h, hyd] at hu; cases hu
  obtain ⟨⟨i1, i2, i3, i4⟩, hpo, ⟨done, hd1, hd2⟩, hw, hws⟩ := hB
  have hcol : ∀ u, (st.2.set y (if st.2.getD x 0 = 1 then 2 else 1)).getD u 0 =
      if u = y then (if st.2.getD x 0 = 1 then 2 else 1) else st.2.getD u 0 :=
    fun u => getD_set_ite _ _ _ _ _ (by omega)
  have hcold : ∀ u, d.disc u = true →
      (st.2.set y (if st.2.getD x 0 = 1 then 2 else 1)).getD u 0 = st.2.getD u 0 := by
    intro u hu; rw [hcol]; simp [hdne u hu]
  have hcoly : (st.2.set y (if st.2.getD x 0 = 1 then 2 else 1)).getD y 0 =
      if st.2.getD x 0 = 1 then 2 else 1 := by rw [hcol]; simp
  refine ⟨⟨by simp [i1], ?_, ?_, i4⟩, ?_, ⟨done ++ [y], by simp [hd1], ?_⟩, ?_, ?_⟩
  · intro u hu
    rw [hdisc] at hu
    have huy : u ≠ y := by intro h; simp [h] at hu
    simp only [huy, if_false] at hu
    show (st.2.set y _).getD u 0 = 0
    rw [hcol]; simp only [huy, if_false]; exact i2 u hu
  · intro u hu
    rw [hdisc] at hu
    show (st.2.set y _).getD u 0 = 1 ∨ (st.2.set y _).getD u 0 = 2
    by_cases huy : u = y
    · rw [huy, hcoly]; split <;> simp
    · simp only [huy, if_false] at hu
      rw [hcold u hu]; exact i3 u hu
  · intro hf z hz hzx w hw2
    have hz1 : d.proc z = true := hz
    show (st.2.set y _).getD z 0 ≠ (st.2.set y _).getD w 0
    rw [hcold z (hS.inv.proc_disc z hz1), hcold w (hS.closed z hz1 hzx w hw2)]
    exact hpo hf z hz1 hzx w hw2
  · intro hf z hz
    show (st.2.set y _).getD x 0 ≠ (st.2.set y _).getD z 0
    rw [hcold x hxd]
    rcases List.mem_append.mp hz with h | h
    · obtain ⟨done2, he1, he2⟩ := hS.scanned
      have hdd : done = done2 := List.append_cancel_right (hd1.symm.trans he1)
      rw [hcold z (he2 z (hdd ▸ h))]
      exact hd2 hf z h
    · simp at h
      rw [h, hcoly]
      rcases i3 x hxd with h1 | h1 <;> rw [h1] <;> decide
  · intro u hu
    rcases List.mem_append.mp hu with h | h
    · obtain ⟨ku, h1, h2⟩ := hw u h
      refine ⟨ku, h1, ?_⟩
      show (st.2.set y _).getD u 0 = _
      rw [hcold u ((hS.inv.queue_iff u).mp h).1]; exact h2
    · simp at h
      obtain ⟨kx, h1, h2⟩ := hws
      refine ⟨kx + 1, ?_, ?_⟩
      · rw [h]; exact ⟨x, h1, hmem⟩
      · show (st.2.set y _).getD u 0 = _
        rw [h, hcoly, levelColour_succ, h2]
  · obtain ⟨kx, h1, h2⟩ := hws
    exact ⟨kx, h1, by show (st.2.set y _).getD x 0 = _; rw [hcold x hxd]; exact h2⟩

theorem bip_run (g : Graph) (hg : g.Dense) (hdir : g.directed = false)
    (hsym : ∀ a b, g.Adj a b → g.Adj b a) (hloop : ∀ a, ¬ g.Adj a a)
    (fuel : Nat) (hfuel : g.nVertices < fuel) (i : Nat) (hi : 1 ≤ i ∧ i ≤ g.nVertices)
    (d : TraversalData) (st : Bool × List Nat) (k : Nat) (hO : BfsOuter g k d [])
    (hd : d.disc i = false) (hB : BipOuter g i d [] st) :
    ∃ d2 st2, BreadthFirstTraversal g fuel i bipartiteHooks (d, st.1, st.2.set i 1) =
        .ok (d2, st2) ∧ BfsOuter g fuel d2 [] ∧ BipOuter g i d2 [] st2 ∧ d2.disc i = true ∧
        ∀ u, d.disc u = true → d2.disc u = true := by
  have hO1 := bfsOuter_start (bfsOuter_refuel hO hfuel) hi hd
  have hdisc : ∀ u, (d.markDiscovered i).disc u = if u = i then true else d.disc u :=
    fun u => disc_markDiscovered hO.inv.sized i hi.2 u
  have hdne : ∀ u, d.disc u = true → u ≠ i := by
    intro u hu h; rw [h, hd] at hu; cases hu
  obtain ⟨⟨i1, i2, i3, i4⟩, hp, _⟩ := hB
  have hcol : ∀ u, (st.2.set i 1).getD u 0 = if u = i then 1 else st.2.getD u 0 :=
    fun u => getD_set_ite _ _ _ _ _ (by omega)
  have hB1 : BipOuter g i (d.markDiscovered i) [i] (st.1, st.2.set i 1) := by
    refine ⟨⟨by simp [i1], ?_, ?_, i4⟩, ?_, ?_⟩
    · intro u hu
      rw [hdisc] at hu
      have hui : u ≠ i := by intro h; simp [h] at hu
      simp only [hui, if_false] at hu
      show (st.2.set i 1).getD u 0 = 0
      rw [hcol]; simp only [hui, if_false]; exact i2 u hu
    · intro u hu
      rw [hdisc] at hu
      show (st.2.set i 1).getD u 0 = 1 ∨ (st.2.set i 1).getD u 0 = 2
      rw [hcol]
      by_cases hui : u = i
      · simp [hui]
      · simp only [hui, if_false] at hu ⊢; exact i3 u hu
    · intro hf x hx y hy
      have hx1 : d.proc x = true := hx
      show (st.2.set i 1).getD x 0 ≠ (st.2.set i 1).getD y 0
      rw [hcol, hcol]
      simp only [hdne x (hO.inv.proc_disc x hx1), hdne y (hO.closed x hx1 y hy), if_false]
      exact hp hf x hx1 y hy
    · intro u hu
      simp at hu
      refine ⟨0, by simp [Graph.ReachIn, hu], ?_⟩
      show (st.2.set i 1).getD u 0 = _
      rw [hcol]; simp [hu, levelColour]
  have hR : BfsReachOuter g i d (d.markDiscovered i) [i] := by
    refine ⟨by rw [hdisc]; simp, ?_, ?_, ?_⟩
    · intro u hu; rw [hdisc]; split
      · rfl
      · exact hu
    · intro u hu
      simp at hu; rw [hu]; exact Relation.ReflTransGen.refl
    · intro u hu
      rw [hdisc] at hu
      by_cases hui : u = i
      · rw [hui]; exact Or.inr Relation.ReflTransGen.refl
      · simp only [hui, if_false] at hu; exact Or.inl hu
  have key := bfs_fresh_rule g hg bipartiteHooks
    (fun s => BipOuter g i s.1 s.2.1 s.2.2 ∧ BfsReachOuter g i d s.1 s.2.1)
    (fun x ys s => BipScan g i x ys s.1 s.2.1 s.2.2 ∧ BfsReachScan g i x d s.1 s.2.1)
    (fun r => (∃ k, BfsOuter g k r.1 []) ∧ BipOuter g i r.1 [] r.2 ∧
      BfsReachOuter g i d r.1 [])
    (fun _ => False) ?_ ?_ ?_ ?_ fuel _ _ (st.1, st.2.set i 1) hO1 ⟨hB1, hR⟩
  · unfold BreadthFirstTraversal
    cases hr : bfsLoop g bipartiteHooks fuel (d.markDiscovered i, [i], st.1, st.2.set i 1) with
    | error e => exact absurd (key.1 e hr) id
    | ok r =>
      obtain ⟨d2, st2⟩ := r
      obtain ⟨⟨k2, hO2⟩, hB2, hR2⟩ := key.2 _ hr
      exact ⟨d2, st2, rfl, bfsOuter_refuel hO2 hfuel, hB2, hR2.start_disc, hR2.keep⟩
  · intro k d a hO2 hL
    exact ⟨⟨k, hO2⟩, hL.1, hL.2⟩
  · intro k d v q a hO2 hL
    refine ⟨fun e he => (by simp [bipartiteHooks] at he), fun a1 ha1 => ?_⟩
    simp only [bipartiteHooks, Except.ok.injEq] at ha1
    subst ha1
    exact ⟨bipScan_deq hO2 hL.1, bfsReach_deq hL.2⟩
  · intro k x y ys d q a hS hL
    obtain ⟨hL1, hL2⟩ := hL
    by_cases hp : d.proc y = false
    · have hcond : (g.directed = true ∨ d.proc y = false) := Or.inr hp
      simp only [hcond, if_true]
      by_cases hyd : d.disc y = false
      · have hxd : d.disc x = true := hS.inv.proc_disc x hS.proc_self
        have hne : a.2.getD x 0 ≠ a.2.getD y 0 := by
          rw [hL1.inv.uncoloured y hyd]
          rcases hL1.inv.coloured x hxd with h1 | h1 <;> rw [h1] <;> decide
        rw [bip_pe_differ x y d a hne]
        refine ⟨fun e he => (by cases he), fun a1 ha1 => ?_⟩
        cases ha1
        exact ⟨fun _ => ⟨bipScan_new hg hS hL1 hyd, bfsReach_step_new hg hS hL2⟩,
          fun h => (by rw [hyd] at h; cases h)⟩
      · have hyd1 : d.disc y = true := by simpa using hyd
        by_cases heq : a.2.getD x 0 = a.2.getD y 0
        · rw [bip_pe_equal x y d a heq]
          refine ⟨fun e he => (by cases he), fun a1 ha1 => ?_⟩
          cases ha1
          exact ⟨fun h => (by rw [hyd1] at h; cases h),
            fun _ => ⟨bipScan_conflict hsym hS hL1 hp hyd1 heq, hL2⟩⟩
        · rw [bip_pe_differ x y d a heq]
          refine ⟨fun e he => (by cases he), fun a1 ha1 => ?_⟩
          cases ha1
          exact ⟨fun h => (by rw [hyd1] at h; cases h),
            fun _ => ⟨bipScan_same hg hS hL1 hyd1 heq, hL2⟩⟩
    · have hp1 : d.proc y = true := by simpa using hp
      have hcond : ¬ (g.directed = true ∨ d.proc y = false) := by
        rw [hdir, hp1]; simp
      simp only [hcond, if_false]
      refine ⟨fun e he => (by cases he), fun a1 ha1 => ?_⟩
      cases ha1
      have hyd1 : d.disc y = true := hS.inv.proc_disc y hp1
      exact ⟨fun h => (by rw [hyd1] at h; cases h),
        fun _ => ⟨bipScan_skip hsym hloop hS hL1 hp1, hL2⟩⟩
  · intro k x d q a _ hL
    refine ⟨fun e he => (by simp [bipartiteHooks] at he), fun a1 ha1 => ?_⟩
    simp only [bipartiteHooks, Except.ok.injEq] at ha1
    subst ha1
    exact ⟨bipOuter_end hL.1, hL.2.outer⟩

theorem bipartiteLoop_inv (g : Graph) (hg : g.Dense) (hdir : g.directed = false)
    (hsym : ∀ a b, g.Adj a b → g.Adj b a) (hloop : ∀ a, ¬ g.Adj a a)
    (fuel : Nat) (hfuel : g.nVertices < fuel) :
    ∀ (starts : List Nat), (∀ i ∈ starts, 1 ≤ i ∧ i ≤ g.nVertices) →
      ∀ (d : TraversalData) (st : Bool × List Nat) (k : Nat), BfsOuter g k d [] →
        BipOuter g 0 d [] st →
        ∃ d2 st2, bipartiteLoop g fuel starts (d, st.1, st.2) = .ok (d2, st2) ∧
          (∃ k2, BfsOuter g k2 d2 []) ∧ BipOuter g 0 d2 [] st2 ∧
          (st2.1 = true → ∀ i ∈ starts, d2.disc i = true) ∧
          (∀ u, d.disc u = true → d2.disc u = true) := by
  intro starts
  induction starts with
  | nil =>
    intro _ d st k hO hB
    exact ⟨d, st, rfl, ⟨k, hO⟩, hB, by simp, fun u hu => hu⟩
  | cons i rest ih =>
    intro hst d st k hO hB
    have hi := hst i (by simp)
    have hrest : ∀ j ∈ rest, 1 ≤ j ∧ j ≤ g.nVertices := fun j hj => hst j (by simp [hj])
    obtain ⟨b, color⟩ := st
    unfold bipartiteLoop
    cases b with
    | false =>
      simp only [if_true]
      exact ⟨d, (false, color), rfl, ⟨k, hO⟩, hB, by simp, fun u hu => hu⟩
    | true =>
      simp only [Bool.true_eq_false, if_false]
      by_cases hd : d.disc i = false
      · simp only [hd, if_true]
        obtain ⟨d1, st1, hr, hO1, hB1, hdi, hkeep⟩ := bip_run g hg hdir hsym hloop fuel hfuel i hi
          d (true, color) k hO hd ⟨hB.inv, hB.proper, by simp⟩
        rw [hr]
        dsimp only
        obtain ⟨d2, st2, hr2, hO2, hB2, hall, hkeep2⟩ := ih hrest d1 st1 fuel hO1
          ⟨hB1.inv, hB1.proper, by simp⟩
        refine ⟨d2, st2, hr2, hO2, hB2, ?_, fun u hu => hkeep2 u (hkeep u hu)⟩
        intro hf2 j hj
        rcases List.mem_cons.mp hj with h | h
        · rw [h]; exact hkeep2 i hdi
        · exact hall hf2 j h
      · have hd1 : d.disc i = true := by simpa using hd
        simp only [hd1, Bool.true_eq_false, if_false]
        obtain ⟨d2, st2, hr2, hO2, hB2, hall, hkeep2⟩ := ih hrest d (true, color) k hO hB
        refine ⟨d2, st2, hr2, hO2, hB2, ?_, hkeep2⟩
        intro hf2 j hj
        rcases List.mem_cons.mp hj with h | h
        · rw [h]; exact hkeep2 i hd1
        · exact hall hf2 j h

theorem emitted_no_loop (x : Nat) (pairs : List Nat) (h : NoLoopPair pairs) :
    x ∉ emitted false x pairs := by
  induction pairs using emitted.induct false x with
  | case1 a b rest ih =>
    rw [emitted]
    obtain ⟨hab, hrest⟩ := h
    simp only [List.mem_append, not_or]
    refine ⟨⟨?_, ?_⟩, ih hrest⟩
    · split
      · next h1 => simp; intro h2; exact hab (h1.trans h2)
      · simp
    · split
      · next h1 => simp; intro h2; exact hab (h2.symm.trans h1.2.symm)
      · simp
  | case2 l hl =>
    unfold emitted
    split
    · exact absurd rfl (hl _ _ _)
    · simp

theorem bipOuter_Init (g : Graph) (d : TraversalData) :
    BipOuter g 0 (d.Init g) [] (true, List.replicate (adjustSize g.nVertices) 0) := by
  refine ⟨⟨by simp [adjustSize], ?_, ?_, ?_⟩, ?_, by simp⟩
  · intro u _
    exact getD_replicate_self _ _ _
  · intro u hu; simp at hu
  · intro hf; cases hf
  · intro _ x hx; simp at hx

/-- C8: for every undirected graph built by `Init` from a pair list with ids
`1..n` that contains no pair `(x, x)`, `Bipartite` returns normally; it returns
false if and only if the graph contains a closed walk, hence a cycle, of odd
length, and true if and only if the vertices can be two-coloured so that the
endpoints of every pair get different colours. -/
theorem bipartite_undirected_iff (pairs : List Nat) (n : Nat) (h : DenseIds pairs n)
    (hnl : NoLoopPair pairs) (fuel : Nat) (hfuel : n < fuel) :
    ∃ b, Bipartite (Graph.zero.Init false pairs) fuel = .ok b ∧
      (b = false ↔ (Graph.zero.Init false pairs).OddClosedWalk) ∧
      (b = true ↔ (Graph.zero.Init false pairs).TwoColourable) := by
  have hg := Init_dense Graph.zero false pairs n h
  have hn : (Graph.zero.Init false pairs).nVertices = n := by
    rw [Init_nVertices, denseIds_dedup_length h]
  have hsym := Init_adj_symm pairs n h
  have hloop : ∀ a, ¬ (Graph.zero.Init false pairs).Adj a a := by
    intro a ha
    unfold Graph.Adj at ha
    rw [Init_adj Graph.zero false pairs n h, List.mem_reverse] at ha
    exact emitted_no_loop a pairs hnl ha
  -- the two facts that the run establishes
  have hmain : ∃ b, Bipartite (Graph.zero.Init false pairs) fuel = .ok b ∧
      (b = false → (Graph.zero.Init false pairs).OddClosedWalk) ∧
      (b = true → (Graph.zero.Init false pairs).TwoColourable) := by
    unfold Bipartite
    by_cases h0 : (Graph.zero.Init false pairs).nVertices = 0
    · simp only [h0, if_true]
      refine ⟨true, rfl, (fun hb => by cases hb), fun _ => ⟨fun _ => true, ?_⟩⟩
      intro x y hxy
      have := dense_source_range hg hxy
      omega
    · simp only [h0, if_false]
      obtain ⟨d2, st2, hr, ⟨k2, hO2⟩, hB2, hall, _⟩ := bipartiteLoop_inv _ hg
        (Init_directed _ _ _) hsym hloop fuel (by rw [hn]; exact hfuel)
        (List.range' 1 (Graph.zero.Init false pairs).nVertices)
        (by intro i hi; rw [List.mem_range'_1] at hi; omega)
        (TraversalData.zero.Init (Graph.zero.Init false pairs))
        (true, List.replicate (adjustSize (Graph.zero.Init false pairs).nVertices) 0) fuel
        (bfsOuter_Init _ _ fuel (by rw [hn]; exact hfuel)) (bipOuter_Init _ _)
      rw [hr]
      obtain ⟨b, color⟩ := st2
      dsimp only
      refine ⟨b, rfl, fun hb => hB2.inv.conflict hb, fun hb => ?_⟩
      refine ⟨fun u => decide (color.getD u 0 = 1), ?_⟩
      intro x y hxy
      obtain ⟨h1, h2⟩ := dense_source_range hg hxy
      have hdx := hall hb x (by rw [List.mem_range'_1]; omega)
      have hpx := (bfsOuter_idle_proc hO2 x).mp hdx
      have hdy := hO2.closed x hpx y hxy
      have hne := hB2.proper hb x hpx y hxy
      have hcx := hB2.inv.coloured x hdx
      have hcy := hB2.inv.coloured y hdy
      simp only [] at hne hcx hcy
      rcases hcx with h3 | h3 <;> rcases hcy with h4 | h4 <;> simp_all
  obtain ⟨b, hr, hF, hT⟩ := hmain
  refine ⟨b, hr, ⟨hF, ?_⟩, ⟨hT, ?_⟩⟩
  · intro hodd
    cases b with
    | false => rfl
    | true => exact absurd (hT rfl) (oddClosedWalk_not_twoColourable hodd)
  · intro htwo
    cases b with
    | true => rfl
    | false => exact absurd htwo (oddClosedWalk_not_twoColourable (hF rfl))

theorem bipartite_undirected_iff_witness :
    ∃ b, Bipartite (Graph.zero.Init false [1, 2, 2, 3, 3, 1, 4, 5]) 6 = .ok b ∧
      (b = false ↔ (Graph.zero.Init false [1, 2, 2, 3, 3, 1, 4, 5]).OddClosedWalk) ∧
      (b = true ↔ (Graph.zero.Init false [1, 2, 2, 3, 3, 1, 4, 5]).TwoColourable) :=
  bipartite_undirected_iff [1, 2, 2, 3, 3, 1, 4, 5] 5 (by decide) (by decide) 6 (by decide)

theorem anc_path {g : Graph} {d : TraversalData} (inv : DfsInv g d)
    (hsym : ∀ a b, g.Adj a b → g.Adj b a) {u w : Nat} (h : d.Anc u w) :
    d.disc w = true →
    ∃ l : List Nat, List.Chain g.Adj w l ∧ (w :: l).getLast? = some u ∧
      (w :: l).Pairwise (fun a b => d.entry b < d.entry a) ∧
      ∀ z ∈ w :: l, d.disc z = true := by
  unfold TraversalData.Anc at h
  induction h with
  | refl => intro hw; exact ⟨[], List.Chain.nil, rfl, by simp, by simpa using hw⟩
  | @tail b c _ hbc ih =>
    intro hc
    obtain ⟨h1, h2⟩ := hbc
    obtain ⟨h3, h4⟩ := inv.par_entry c hc (by rw [h1]; exact h2)
    rw [h1] at h3 h4
    obtain ⟨l, hch, hlast, hpw, hdisc⟩ := ih h3
    have hadj : g.Adj b c := by
      have := inv.par_adj c (by rw [h1]; exact h2)
      rwa [h1] at this
    refine ⟨b :: l, List.Chain.cons (hsym _ _ hadj) hch, ?_, ?_, ?_⟩
    · rw [List.getLast?_cons_cons]; exact hlast
    · rw [List.pairwise_cons]
      refine ⟨?_, hpw⟩
      intro z hz
      rcases List.mem_cons.mp hz with hzb | hz
      · rw [hzb]; exact h4
      · have := (List.pairwise_cons.mp hpw).1 z hz
        omega
    · intro z hz
      rcases List.mem_cons.mp hz with hzc | hz
      · rw [hzc]; exact hc
      · exact hdisc z hz

theorem cycle_of_back_edge {g : Graph} {d : TraversalData} (inv : DfsInv g d)
    (hsym : ∀ a b, g.Adj a b → g.Adj b a) {v y : Nat} (hv : d.disc v = true)
    (hadj : g.Adj v y) (hanc : d.Anc y v) (hyv : y ≠ v) (hpar : d.par v ≠ y) :
    CycleSeen g d := by
  rw [anc_iff_eq_or_panc] at hanc
  rcases hanc with h | h
  · exact absurd h hyv
  rw [panc_iff_parent] at h
  obtain ⟨h0, hanc⟩ := h
  obtain ⟨h3, h4⟩ := inv.par_entry v hv h0
  obtain ⟨l, hch, hlast, hpw, hdisc⟩ := anc_path inv hsym hanc h3
  have hl : l ≠ [] := by
    intro hl
    rw [hl] at hlast
    simp at hlast
    exact hpar hlast
  have hpv : g.Adj v (d.par v) := hsym _ _ (inv.par_adj v h0)
  refine ⟨v :: d.par v :: l, ⟨?_, ?_, ?_, ?_⟩, ?_⟩
  · cases l with
    | nil => exact absurd rfl hl
    | cons a t => simp
  · rw [List.nodup_cons]
    constructor
    · intro hmem
      rcases List.mem_cons.mp hmem with hz | hz
      · rw [← hz] at h4; omega
      · have := (List.pairwise_cons.mp hpw).1 v hz
        omega
    · apply List.Pairwise.imp _ hpw
      intro a b hab heq
      rw [heq] at hab
      omega
  · exact List.Chain.cons hpv hch
  · intro a ha b hb
    rw [List.getLast?_cons_cons, hlast] at ha
    simp at ha hb
    rw [← ha, ← hb]
    exact hsym _ _ hadj
  · intro z hz
    rcases List.mem_cons.mp hz with hzv | hz
    · rw [hzv]; exact hv
    · exact hdisc z hz

theorem isCycle_index {g : Graph} {c : List Nat} (hc : g.IsCycle c) :
    (∀ i, i + 1 < c.length → g.Adj (c.getD i 0) (c.getD (i + 1) 0)) ∧
    g.Adj (c.getD (c.length - 1) 0) (c.getD 0 0) ∧
    (∀ i j, i < c.length → j < c.length → c.getD i 0 = c.getD j 0 → i = j) ∧
    (∀ i, i < c.length → c.getD i 0 ∈ c) := by
  obtain ⟨hlen, hnd, hch, hclose⟩ := hc
  refine ⟨?_, ?_, ?_, ?_⟩
  · intro i hi
    have := List.chain'_iff_get.mp hch i (by omega)
    rw [List.getD_eq_getElem _ _ (by omega), List.getD_eq_getElem _ _ hi]
    simpa using this
  · apply hclose
    · rw [List.getLast?_eq_getElem?, List.getD_eq_getElem?_getD]
      rw [List.getElem?_eq_getElem (by omega)]
      simp
    · rw [List.head?_eq_getElem?, List.getD_eq_getElem?_getD]
      rw [List.getElem?_eq_getElem (by omega)]
      simp
  · intro i j hi hj h
    rw [List.getD_eq_getElem _ _ hi, List.getD_eq_getElem _ _ hj] at h
    exact (List.Nodup.getElem_inj_iff hnd).mp h
  · intro i hi
    rw [List.getD_eq_getElem _ _ hi]
    exact List.getElem_mem _

theorem treeEdges_two_parents {g : Graph} (hg : g.Dense) {d : TraversalData} (inv : DfsInv g d)
    (hK : TreeEdgesOnly g d) {m p q : Nat} (hpq : p ≠ q) (hmp : g.Adj m p) (hmq : g.Adj m q)
    (hm : d.proc m = true) (hp : d.disc p = true) (hq : d.disc q = true)
    (hep : d.entry p ≤ d.entry m) (heq : d.entry q ≤ d.entry m) : False := by
  have hm1 := (dense_source_range hg hmp).1
  have key : ∀ z, g.Adj m z → d.disc z = true → d.entry z ≤ d.entry m → d.par m = z := by
    intro z hz hdz hez
    rcases hK m hm z hz with h | h
    · have := (inv.par_entry z hdz (by rw [h]; omega)).2
      rw [h] at this
      omega
    · exact h
  exact hpq ((key p hmp hp hep).symm.trans (key q hmq hq heq))

theorem treeEdges_no_cycle {g : Graph} (hg : g.Dense) {d : TraversalData} (inv : DfsInv g d)
    (hsym : ∀ a b, g.Adj a b → g.Adj b a) (hK : TreeEdgesOnly g d) {c : List Nat}
    (hc : g.IsCycle c) (hproc : ∀ v ∈ c, d.proc v = true) : False := by
  obtain ⟨h1, h2, h3, h4⟩ := isCycle_index hc
  have hlen := hc.1
  obtain ⟨i, hi, hmax⟩ := Finset.exists_max_image (Finset.range c.length)
    (fun i => d.entry (c.getD i 0)) ⟨0, by simp; omega⟩
  rw [Finset.mem_range] at hi
  have hP : ∀ j, j < c.length → d.proc (c.getD j 0) = true := fun j hj => hproc _ (h4 j hj)
  have hD : ∀ j, j < c.length → d.disc (c.getD j 0) = true :=
    fun j hj => inv.proc_disc _ (hP j hj)
  have hM : ∀ j, j < c.length → d.entry (c.getD j 0) ≤ d.entry (c.getD i 0) :=
    fun j hj => hmax j (Finset.mem_range.mpr hj)
  have fin : ∀ j k, j < c.length → k < c.length → j ≠ k →
      g.Adj (c.getD i 0) (c.getD j 0) → g.Adj (c.getD i 0) (c.getD k 0) → False := by
    intro j k hj hk hjk ha hb
    exact treeEdges_two_parents hg inv hK (fun h => hjk (h3 j k hj hk h)) ha hb (hP i hi)
      (hD j hj) (hD k hk) (hM j hj) (hM k hk)
  by_cases hi0 : i = 0
  · subst hi0
    exact fin (c.length - 1) 1 (by omega) (by omega) (by omega) (hsym _ _ h2) (h1 0 (by omega))
  · by_cases hik : i + 1 = c.length
    · have ha := h1 (i - 1) (by omega)
      rw [show i - 1 + 1 = i by omega] at ha
      have hb := h2
      rw [show c.length - 1 = i by omega] at hb
      exact fin (i - 1) 0 (by omega) (by omega) (by omega) (hsym _ _ ha) hb
    · have ha := h1 (i - 1) (by omega)
      rw [show i - 1 + 1 = i by omega] at ha
      exact fin (i - 1) (i + 1) (by omega) (by omega) (by omega) (hsym _ _ ha) (h1 i (by omega))

theorem cycleSeen_mono {g : Graph} {d e : TraversalData} (h : CycleSeen g d)
    (hde : ∀ u, d.disc u = true → e.disc u = true) : CycleSeen g e := by
  obtain ⟨c, hc, hd⟩ := h
  exact ⟨c, hc, fun v hv => hde v (hd v hv)⟩

theorem treeEdges_mono {g : Graph} {d e : TraversalData} (h : TreeEdgesOnly g d)
    (inv : DfsInv g d) (hproc : ∀ x, e.proc x = true → d.proc x = true)
    (hpar : ∀ u, d.disc u = true → e.par u = d.par u) : TreeEdgesOnly g e := by
  intro x hx y hy
  have hx1 := hproc x hx
  rw [hpar x (inv.proc_disc x hx1), hpar y (inv.proc_closed x hx1 y hy)]
  exact h x hx1 y hy

theorem hasCycles_run (g : Graph) (hg : g.Dense) (hdir : g.directed = false)
    (hsym : ∀ a b, g.Adj a b → g.Adj b a) (hloop : ∀ a, ¬ g.Adj a a)
    (fuel v : Nat) (d : TraversalData) (a : Bool) (hP : DfsPre g fuel v d)
    (hA : (a = true → CycleSeen g d) ∧ (a = false → TreeEdgesOnly g d)) :
    (∀ e, depthFirstTraverseVertex g hasCyclesHooks fuel v (d, a) = .error e → False) ∧
    (∀ d2 a2, depthFirstTraverseVertex g hasCyclesHooks fuel v (d, a) = .ok (d2, a2) →
      DfsPost g v d d2 ∧ (a2 = true → CycleSeen g d2) ∧
        (a2 = false → a = false ∧ TreeEdgesOnly g d2)) := by
  refine dfs_fresh_rule g hg hasCyclesHooks
    (fun _ s => (s.2 = true → CycleSeen g s.1) ∧ (s.2 = false → TreeEdgesOnly g s.1))
    (fun _ s0 s2 => (s2.2 = true → CycleSeen g s2.1) ∧
      (s2.2 = false → s0.2 = false ∧ TreeEdgesOnly g s2.1))
    (fun v s0 ys s => (s.2 = true → CycleSeen g s.1) ∧
      (s.2 = false → s0.2 = false ∧ TreeEdgesOnly g s.1 ∧
        ∃ done, g.adj v = done ++ ys ∧ ∀ y ∈ done, s.1.par y = v ∨ s.1.par v = y))
    (fun _ => False) ?_ ?_ ?_ ?_ ?_ fuel v d a hP hA
  · -- enter
    intro k v d a hPre hA
    refine ⟨fun e he => (by cases he), fun a1 ha1 => ?_⟩
    have ha : a1 = a := by cases ha1; rfl
    subst ha
    have hs := hPre.inv.sized
    dsimp only
    refine ⟨fun h => cycleSeen_mono (hA.1 h) ?_, fun h => ⟨h, ?_, [], by simp, by simp⟩⟩
    · intro u hu
      rw [disc_stampEntry, disc_markDiscovered hs v hPre.range.2]
      split
      · rfl
      · exact hu
    · exact treeEdges_mono (hA.2 h) hPre.inv (fun x hx => by simpa using hx)
        (fun u _ => by simp)
  · -- tree edge
    intro k v d0 a0 y ys d a hL hLL hy
    have hmem := dfsLoop_mem hL
    have hyr := hg.adj_range v y hmem
    have hs := hL.inv.sized
    have hpe : hasCyclesHooks.pe v y (d.setParent y v) a = .ok a := by
      unfold hasCyclesHooks
      simp [hy]
    have hpar : ∀ u, d.disc u = true → (d.setParent y v).par u = d.par u := by
      intro u hu
      have : u ≠ y := by intro h; rw [h, hy] at hu; cases hu
      rw [par_setParent hs y v hyr.2]; simp [this]
    refine ⟨fun e he => (by rw [hpe] at he; cases he), fun a1 ha1 => ?_⟩
    rw [hpe] at ha1
    have ha : a1 = a := by cases ha1; rfl
    subst ha
    dsimp only at hLL ⊢
    refine ⟨⟨fun h => cycleSeen_mono (hLL.1 h) (fun u hu => hu),
      fun h => treeEdges_mono (hLL.2 h).2.1 hL.inv (fun x hx => hx) hpar⟩, ?_⟩
    intro d2 a2 hPost hQ
    refine ⟨hQ.1, fun h => ?_⟩
    obtain ⟨ha, hK2⟩ := hQ.2 h
    obtain ⟨ha0, _, done, hdone, htree⟩ := hLL.2 ha
    obtain ⟨done2, hdone2, hdisc⟩ := hL.scanned
    have hdd : done2 = done := List.append_cancel_right (hdone2.symm.trans hdone)
    subst hdd
    have hkeep : ∀ u, d.disc u = true → d2.par u = d.par u := by
      intro u hu
      rw [(hPost.frame.keep u hu).2.2.2, hpar u hu]
    refine ⟨ha0, hK2, done2 ++ [y], by simp [hdone], ?_⟩
    intro z hz
    have hv := hkeep v hL.gray_self.1
    rcases List.mem_append.mp hz with hz | hz
    · rw [hkeep z (hdisc z hz), hv]
      exact htree z hz
    · simp at hz
      left
      rw [hz, hPost.frame.keep_par, par_setParent hs y v hyr.2]
      simp
  · -- an edge to a discovered vertex for which the hook is called
    intro k v d0 a0 y ys d a hL hLL hy hc
    have hmem := dfsLoop_mem hL
    rcases hc with hc | hc
    · rw [hdir] at hc; cases hc
    have hpe : hasCyclesHooks.pe v y d a = .ok true := by
      unfold hasCyclesHooks
      simp [hy, hc.2]
    refine ⟨fun e he => (by rw [hpe] at he; cases he), fun a1 ha1 => ?_⟩
    rw [hpe] at ha1
    have ha : a1 = true := by cases ha1; rfl
    subst ha
    refine ⟨fun _ => ?_, fun h => by cases h⟩
    refine cycle_of_back_edge hL.inv hsym hL.gray_self.1 hmem ((hL.gray_anc y).mp ⟨hy, hc.1⟩)
      ?_ hc.2
    intro hyv
    rw [hyv] at hmem
    exact hloop v hmem
  · -- an edge that is skipped
    intro k v d0 a0 y ys d a hL hLL hy hc
    have hmem := dfsLoop_mem hL
    dsimp only at hLL ⊢
    refine ⟨hLL.1, fun h => ?_⟩
    obtain ⟨ha0, hK, done, hdone, htree⟩ := hLL.2 h
    refine ⟨ha0, hK, done ++ [y], by simp [hdone], ?_⟩
    intro z hz
    rcases List.mem_append.mp hz with hz | hz
    · exact htree z hz
    · simp at hz
      rw [hz]
      cases hpy : d.proc y
      · right
        by_contra hne
        exact hc (Or.inr ⟨hpy, hne⟩)
      · exact (hK y hpy v (hsym _ _ hmem)).symm
  · -- exit
    intro k v d0 a0 d a hL hLL
    refine ⟨fun e he => (by cases he), fun a1 ha1 => ?_⟩
    have ha : a1 = a := by cases ha1; rfl
    subst ha
    have hs := hL.inv.sized
    dsimp only at hLL ⊢
    refine ⟨fun h => cycleSeen_mono (hLL.1 h) (fun u hu => by simpa using hu), fun h => ?_⟩
    obtain ⟨ha0, hK, done, hdone, htree⟩ := hLL.2 h
    refine ⟨ha0, ?_⟩
    intro x hx z hz
    rw [proc_stampExit, proc_markProcessed hs v hL.range.2] at hx
    simp only [par_stampExit, par_markProcessed]
    by_cases hxv : x = v
    · subst hxv
      rw [hdone] at hz
      simp at hz
      exact htree z hz
    · rw [if_neg hxv] at hx
      exact hK x hx z hz

/-- C9: for every undirected graph built by `Init` from a pair list with ids
`1..n`, `n >= 1`, that contains no pair `(x, x)`, `HasCycles` returns normally,
and it returns true if and only if the connected component of vertex 1
contains a cycle (at least three distinct vertices, each adjacent to the next
and the last to the first); a cycle none of whose vertices is reachable from
vertex 1 therefore never makes it return true. -/
theorem hasCycles_undirected_iff (pairs : List Nat) (n : Nat) (h : DenseIds pairs n)
    (hn : 1 ≤ n) (hnl : NoLoopPair pairs) (fuel : Nat) (hfuel : n < fuel) :
    ∃ b, HasCycles (Graph.zero.Init false pairs) fuel = .ok b ∧
      (b = true ↔ (Graph.zero.Init false pairs).CycleInComponent 1) := by
  have hg := Init_dense Graph.zero false pairs n h
  have hnv : (Graph.zero.Init false pairs).nVertices = n := by
    rw [Init_nVertices, denseIds_dedup_length h]
  have hsym := Init_adj_symm pairs n h
  have hloop : ∀ a, ¬ (Graph.zero.Init false pairs).Adj a a := by
    intro a ha
    unfold Graph.Adj at ha
    rw [Init_adj Graph.zero false pairs n h, List.mem_reverse] at ha
    exact emitted_no_loop a pairs hnl ha
  have hI := dfsIdle_Init (Graph.zero.Init false pairs) TraversalData.zero
  have hPre : DfsPre (Graph.zero.Init false pairs) fuel 1
      (TraversalData.zero.Init (Graph.zero.Init false pairs)) :=
    dfsPre_root hI ⟨le_refl 1, by rw [hnv]; exact hn⟩ (by simp) (by rw [hnv]; exact hfuel)
  obtain ⟨hE, hR⟩ := hasCycles_run _ hg (Init_directed _ _ _) hsym hloop fuel 1 _ false hPre
    ⟨fun hf => (by cases hf), fun _ x hx => (by simp at hx)⟩
  unfold HasCycles DepthFirstTraversal
  have h0 : ¬ (Graph.zero.Init false pairs).nVertices = 0 := by rw [hnv]; omega
  simp only [h0, if_false]
  cases hr : depthFirstTraverseVertex (Graph.zero.Init false pairs) hasCyclesHooks fuel 1
      (TraversalData.zero.Init (Graph.zero.Init false pairs), false) with
  | error e => exact absurd (hE e hr) id
  | ok s =>
    obtain ⟨d2, a2⟩ := s
    obtain ⟨hPost, hT, hF⟩ := hR d2 a2 hr
    have hI2 := dfsIdle_post hI hPost
    refine ⟨a2, rfl, ?_, ?_⟩
    · intro ha
      obtain ⟨c, hc, hd⟩ := hT ha
      refine ⟨c, hc, fun v hv => ?_⟩
      rcases (dfs_post_disc_iff hI hPost v).mp (hd v hv) with h1 | h1
      · simp at h1
      · exact h1
    · rintro ⟨c, hc, hreach⟩
      cases ha : a2 with
      | true => rfl
      | false =>
        exfalso
        refine treeEdges_no_cycle hg hPost.inv hsym (hF ha).2 hc ?_
        intro v hv
        exact hI2.no_gray v ((dfs_post_disc_iff hI hPost v).mpr (Or.inr (hreach v hv)))

theorem hasCycles_undirected_iff_witness :
    ∃ b, HasCycles (Graph.zero.Init false [1, 2, 3, 4, 4, 5, 5, 3]) 6 = .ok b ∧
      (b = true ↔ (Graph.zero.Init false [1, 2, 3, 4, 4, 5, 5, 3]).CycleInComponent 1) :=
  hasCycles_undirected_iff [1, 2, 3, 4, 4, 5, 5, 3] 5 (by decide) (by decide) (by decide) 6
    (by decide)

theorem foldl_set_length (c : Nat) : ∀ (seg scc : List Nat),
    (seg.foldl (fun s x => s.set x c) scc).length = scc.length := by
  intro seg
  induction seg with
  | nil => intro scc; rfl
  | cons x t ih =>
    intro scc
    rw [List.foldl_cons, ih, List.length_set]

theorem foldl_set_getD (c w : Nat) : ∀ (seg scc : List Nat), (∀ x ∈ seg, x < scc.length) →
    (seg.foldl (fun s x => s.set x c) scc).getD w 0 = if w ∈ seg then c else scc.getD w 0 := by
  intro seg
  induction seg with
  | nil => intro scc _; simp
  | cons x t ih =>
    intro scc h
    rw [List.foldl_cons, ih]
    · rw [getD_set_ite _ _ _ _ _ (h x (List.mem_cons_self x t))]
      by_cases h1 : w ∈ t
      · simp [h1]
      · by_cases h2 : w = x
        · simp [h2]
        · simp [h1, h2]
    · intro y hy
      rw [List.length_set]
      exact h y (List.mem_cons_of_mem x hy)

theorem popComponent_seg (v c : Nat) (rest : List Nat) : ∀ (seg scc : List Nat), v ∉ seg →
    popComponent v c (seg ++ v :: rest) scc =
      .ok (rest, seg.foldl (fun s x => s.set x c) scc) := by
  intro seg
  induction seg with
  | nil =>
    intro scc _
    simp [popComponent]
  | cons x t ih =>
    intro scc h
    have hx : x ≠ v := fun hxv => h (by rw [hxv]; exact List.mem_cons_self v t)
    have ht : v ∉ t := fun hv => h (List.mem_cons_of_mem x hv)
    rw [List.cons_append, popComponent, if_neg hx, ih _ ht, List.foldl_cons]

theorem sccComplete_pop (v : Nat) (a : SccState) (seg rest : List Nat) (n : Nat)
    (hlen : a.scc.length = n + 1) (hact : a.active = seg ++ v :: rest) (hv : v ∉ seg)
    (hvn : v ≤ n) (hseg : ∀ x ∈ seg, x ≤ n) (hlow : a.lowOf v = v) :
    ∃ a1, sccComplete v a = .ok a1 ∧ a1.componentCount = a.componentCount + 1 ∧
      a1.active = rest ∧ a1.low = a.low ∧ a1.scc.length = n + 1 ∧
      ∀ w, a1.comp w = if w ∈ seg ∨ w = v then a.componentCount + 1 else a.comp w := by
  unfold SccState.lowOf at hlow
  unfold sccComplete
  rw [if_pos hlow, hact, popComponent_seg v _ rest seg _ hv]
  refine ⟨_, rfl, rfl, rfl, rfl, ?_, ?_⟩
  · show List.length (List.foldl (fun s x => s.set x (a.componentCount + 1))
      (a.scc.set v (a.componentCount + 1)) seg) = n + 1
    rw [foldl_set_length, List.length_set, hlen]
  · intro w
    show List.getD (List.foldl (fun s x => s.set x (a.componentCount + 1))
      (a.scc.set v (a.componentCount + 1)) seg) w 0 = _
    rw [foldl_set_getD]
    · rw [getD_set_ite _ _ _ _ _ (by omega)]
      unfold SccState.comp
      by_cases h1 : w ∈ seg
      · simp [h1]
      · by_cases h2 : w = v
        · simp [h2]
        · simp only [h1, h2, if_false, false_or]
    · intro x hx
      rw [List.length_set]
      have := hseg x hx
      omega

theorem sccComplete_keep (v : Nat) (a : SccState) (hlow : a.lowOf v ≠ v) :
    sccComplete v a = .ok a := by
  unfold SccState.lowOf at hlow
  unfold sccComplete
  rw [if_neg hlow]

theorem reach_closed {g : Graph} (C : Nat → Prop) (hC : ∀ x, C x → ∀ y ∈ g.adj x, C y)
    {w x : Nat} (h : g.Reach w x) : C w → C x := by
  unfold Graph.Reach at h
  induction h with
  | refl => exact id
  | tail _ hbc ih => intro hw; exact hC _ (ih hw) _ hbc

theorem reach_trans {g : Graph} {a b c : Nat} (h1 : g.Reach a b) (h2 : g.Reach b c) :
    g.Reach a c := Relation.ReflTransGen.trans h1 h2

theorem reach_adj {g : Graph} {a b : Nat} (h : g.Adj a b) : g.Reach a b :=
  Relation.ReflTransGen.single h

/-- The invariant reads only `discovered`, `processed` and `entryTime`. -/
theorem sccInv_congr {g : Graph} {d e : TraversalData} {a : SccState} (hS : SccInv g d a)
    (hd : ∀ u, e.disc u = d.disc u) (hp : ∀ u, e.proc u = d.proc u)
    (he : ∀ u, e.entry u = d.entry u) : SccInv g e a := by
  have hd2 : e.disc = d.disc := funext hd
  have hp2 : e.proc = d.proc := funext hp
  have he2 : e.entry = d.entry := funext he
  have hg2 : e.gray = d.gray := by
    funext u
    unfold TraversalData.gray
    rw [hd, hp]
  obtain ⟨h1, h2, h3, h4, h5, h6, h7, h8, h9, h10, h11, h12⟩ := hS
  refine ⟨h1, h2, ?_, ?_, ?_, h6, h7, h8, ?_, ?_, ?_, ?_⟩
  · rw [he2]; exact h3
  · rw [hd2]; exact h4
  · rw [hp2]; exact h5
  · rw [hg2, he2]; exact h9
  · rw [hg2, he2]; exact h10
  · rw [hg2, he2]; exact h11
  · rw [hd2]; exact h12

theorem sccInv_enter {g : Graph} {k v : Nat} {d : TraversalData} {a : SccState}
    (hP : DfsPre g k v d) (hS : SccInv g d a) :
    SccInv g ((d.markDiscovered v).stampEntry v) { a with active := v :: a.active } := by
  have hs := hP.inv.sized
  have hvn := hP.range.2
  have hdisc : ∀ u, ((d.markDiscovered v).stampEntry v).disc u =
      if u = v then true else d.disc u := by
    intro u; rw [disc_stampEntry, disc_markDiscovered hs v hvn]
  have hproc : ∀ u, ((d.markDiscovered v).stampEntry v).proc u = d.proc u := by
    intro u; simp
  have hentry : ∀ u, ((d.markDiscovered v).stampEntry v).entry u =
      if u = v then d.time + 1 else d.entry u := by
    intro u
    rw [entry_stampEntry (sized_markDiscovered hs v) v hvn]
    simp
  have hpv : d.proc v = false := by
    cases h : d.proc v
    · rfl
    · have := hP.inv.proc_disc v h
      rw [hP.undisc] at this; cases this
  have hne : ∀ u, d.disc u = true → u ≠ v := by
    intro u hu h; rw [h, hP.undisc] at hu; cases hu
  have hold : ∀ u, d.disc u = true →
      ((d.markDiscovered v).stampEntry v).entry u = d.entry u ∧ d.entry u ≤ d.time := by
    intro u hu
    rw [hentry, if_neg (hne u hu)]
    exact ⟨rfl, (hP.inv.entry_pos u hu).2⟩
  have hev : ((d.markDiscovered v).stampEntry v).entry v = d.time + 1 := by
    rw [hentry, if_pos rfl]
  have hgray : ∀ u, ((d.markDiscovered v).stampEntry v).gray u ↔ u = v ∨ d.gray u := by
    intro u
    unfold TraversalData.gray
    rw [hdisc, hproc]
    by_cases huv : u = v
    · subst huv; simp [hpv]
    · simp [huv]
  have hcv : a.comp v = 0 := by
    by_contra h
    have := hP.inv.proc_disc v (hS.assigned v h).1
    rw [hP.undisc] at this; cases this
  have hmemd : ∀ w, w ∈ a.active → d.disc w = true := fun w hw => ((hS.mem_iff w).mp hw).1
  refine ⟨hS.scc_len, hS.low_len, ?_, ?_, ?_, hS.classes, hS.closed, hS.used, ?_, ?_, ?_, ?_⟩
  · show List.Pairwise _ (v :: a.active)
    rw [List.pairwise_cons]
    constructor
    · intro y hy
      have := hold y (hmemd y hy)
      rw [hev, this.1]
      omega
    · apply List.Pairwise.imp_of_mem _ hS.sorted
      intro x y hx hy hxy
      rw [(hold x (hmemd x hx)).1, (hold y (hmemd y hy)).1]
      exact hxy
  · intro w
    show w ∈ v :: a.active ↔ _ ∧ a.comp w = 0
    rw [List.mem_cons, hdisc, hS.mem_iff]
    by_cases hwv : w = v
    · subst hwv
      simp [hcv]
    · simp [hwv]
  · intro w hw
    rw [hproc]
    exact hS.assigned w hw
  · intro w hw
    have hw2 : w ∈ v :: a.active := hw
    rcases List.mem_cons.mp hw2 with h | h
    · subst h
      exact ⟨w, (hgray w).mpr (Or.inl rfl), le_refl _, Relation.ReflTransGen.refl⟩
    · obtain ⟨u, hu, hle, hr⟩ := hS.to_gray w h
      refine ⟨u, (hgray u).mpr (Or.inr hu), ?_, hr⟩
      rw [(hold u hu.1).1, (hold w (hmemd w h)).1]
      exact hle
  · intro u hu w hw hle
    have hw2 : w ∈ v :: a.active := hw
    rcases (hgray u).mp hu with h | h
    · subst h
      rcases List.mem_cons.mp hw2 with h2 | h2
      · rw [h2]; exact Relation.ReflTransGen.refl
      · have := hold w (hmemd w h2)
        rw [hev, this.1] at hle
        omega
    · rcases List.mem_cons.mp hw2 with h2 | h2
      · rw [h2]
        have := (hP.gray_anc u).mp h
        exact anc_reach hP.inv ((anc_iff_eq_or_panc d u v).mpr (Or.inr this))
      · rw [(hold u h.1).1, (hold w (hmemd w h2)).1] at hle
        exact hS.from_gray u h w h2 hle
  · intro u hu
    show SccState.lowOf a u ∈ v :: a.active ∧ _
    rcases (hgray u).mp hu with h | h
    · subst h
      have : a.lowOf u = u := hS.low_fresh u hvn hP.undisc
      have h2 : SccState.lowOf { a with active := u :: a.active } u = u := this
      rw [this, h2]
      exact ⟨List.mem_cons_self _ _, le_refl _, Relation.ReflTransGen.refl⟩
    · obtain ⟨h1, h2, h3⟩ := hS.low_gray u h
      refine ⟨List.mem_cons_of_mem _ h1, ?_, h3⟩
      show ((d.markDiscovered v).stampEntry v).entry (a.lowOf u) ≤ _
      rw [(hold u h.1).1, (hold _ (hmemd _ h1)).1]
      exact h2
  · intro w hw hdw
    rw [hdisc] at hdw
    by_cases hwv : w = v
    · rw [if_pos hwv] at hdw; cases hdw
    · rw [if_neg hwv] at hdw
      exact hS.low_fresh w hw hdw

theorem sccInv_low {g : Graph} {d : TraversalData} {a : SccState} (hS : SccInv g d a)
    {v y : Nat} (hv : d.gray v) (hvn : v ≤ g.nVertices) (hy : y ∈ a.active)
    (hle : d.entry y ≤ d.entry v) (hr : g.Reach v y) :
    SccInv g d { a with low := a.low.set v y } := by
  have hlow : ∀ u, SccState.lowOf { a with low := a.low.set v y } u =
      if u = v then y else a.lowOf u := by
    intro u
    unfold SccState.lowOf
    exact getD_set_ite _ _ _ _ _ (by have := hS.low_len; omega)
  refine ⟨hS.scc_len, ?_, hS.sorted, hS.mem_iff, hS.assigned, hS.classes, hS.closed, hS.used,
    hS.to_gray, hS.from_gray, ?_, ?_⟩
  · show (a.low.set v y).length = _
    rw [List.length_set]; exact hS.low_len
  · intro u hu
    rw [hlow]
    by_cases huv : u = v
    · subst huv
      rw [if_pos rfl]
      exact ⟨hy, hle, hr⟩
    · rw [if_neg huv]
      exact hS.low_gray u hu
  · intro w hw hdw
    rw [hlow]
    have : w ≠ v := by
      intro h; rw [h, hv.1] at hdw; cases hdw
    rw [if_neg this]
    exact hS.low_fresh w hw hdw

theorem sccInv_process {g : Graph} {d d1 : TraversalData} {a : SccState} (inv : DfsInv g d)
    (hS : SccInv g d a) {v : Nat} (hv : d.gray v) (hlow : a.lowOf v ≠ v)
    (hd : ∀ u, d1.disc u = d.disc u)
    (hp : ∀ u, d1.proc u = if u = v then true else d.proc u)
    (he : ∀ u, d1.entry u = d.entry u) : SccInv g d1 a := by
  have hd2 : d1.disc = d.disc := funext hd
  have he2 : d1.entry = d.entry := funext he
  have hgray : ∀ u, d1.gray u ↔ d.gray u ∧ u ≠ v := by
    intro u
    unfold TraversalData.gray
    rw [hd, hp]
    by_cases huv : u = v
    · simp [huv]
    · simp [huv]
  obtain ⟨hz1, hz2, hz3⟩ := hS.low_gray v hv
  have hzd := ((hS.mem_iff _).mp hz1).1
  have hzlt : d.entry (a.lowOf v) < d.entry v := by
    have : d.entry (a.lowOf v) ≠ d.entry v := fun h => hlow (inv.entry_inj _ _ hzd hv.1 h)
    omega
  refine ⟨hS.scc_len, hS.low_len, ?_, ?_, ?_, hS.classes, hS.closed, hS.used, ?_, ?_, ?_, ?_⟩
  · rw [he2]; exact hS.sorted
  · rw [hd2]; exact hS.mem_iff
  · intro w hw
    rw [hp]
    obtain ⟨h1, h2⟩ := hS.assigned w hw
    refine ⟨?_, h2⟩
    split
    · rfl
    · exact h1
  · intro w hw
    rw [he2]
    obtain ⟨u, hu, hle, hr⟩ := hS.to_gray w hw
    by_cases huv : u = v
    · subst huv
      obtain ⟨u2, hu2, hle2, hr2⟩ := hS.to_gray _ hz1
      refine ⟨u2, (hgray u2).mpr ⟨hu2, ?_⟩, by omega, reach_trans hr (reach_trans hz3 hr2)⟩
      intro h
      rw [h] at hle2
      omega
    · exact ⟨u, (hgray u).mpr ⟨hu, huv⟩, hle, hr⟩
  · intro u hu w hw hle
    rw [he2] at hle
    exact hS.from_gray u ((hgray u).mp hu).1 w hw hle
  · intro u hu
    rw [he2]
    exact hS.low_gray u ((hgray u).mp hu).1
  · rw [hd2]; exact hS.low_fresh

theorem sccInv_complete {g : Graph} {d d1 : TraversalData} {a a1 : SccState}
    (inv : DfsInv g d) (hS : SccInv g d a) {v : Nat} {seg rest : List Nat} (hv : d.gray v)
    (hvr : 1 ≤ v ∧ v ≤ g.nVertices) (hact : a.active = seg ++ v :: rest)
    (hsegp : ∀ x ∈ seg, d.proc x = true)
    (hadjv : ∀ y ∈ g.adj v, d.disc y = true)
    (hgle : ∀ u, d.gray u → d.entry u ≤ d.entry v)
    (hlow : a.lowOf v = v)
    (hbound : ∀ x, x ∈ seg ∨ x = v → ∀ w ∈ g.adj x, w ∈ a.active →
      d.entry (a.lowOf v) ≤ d.entry w)
    (hd : ∀ u, d1.disc u = d.disc u)
    (hp : ∀ u, d1.proc u = if u = v then true else d.proc u)
    (he : ∀ u, d1.entry u = d.entry u)
    (hc : a1.componentCount = a.componentCount + 1) (hact1 : a1.active = rest)
    (hlow1 : a1.low = a.low) (hlen1 : a1.scc.length = g.nVertices + 1)
    (hcomp : ∀ w, a1.comp w = if w ∈ seg ∨ w = v then a.componentCount + 1 else a.comp w) :
    SccInv g d1 a1 := by
  have hd2 : d1.disc = d.disc := funext hd
  have he2 : d1.entry = d.entry := funext he
  have hlowOf : ∀ u, a1.lowOf u = a.lowOf u := by
    intro u; unfold SccState.lowOf; rw [hlow1]
  have hgray : ∀ u, d1.gray u ↔ d.gray u ∧ u ≠ v := by
    intro u
    unfold TraversalData.gray
    rw [hd, hp]
    by_cases huv : u = v
    · simp [huv]
    · simp [huv]
  -- the stack, split at `v`
  have hsorted := hS.sorted
  rw [hact, List.pairwise_append, List.pairwise_cons] at hsorted
  obtain ⟨_, ⟨hrestv, hrestpw⟩, hsegabove⟩ := hsorted
  have hmemS : ∀ w, w ∈ a.active ↔ (w ∈ seg ∨ w = v) ∨ w ∈ rest := by
    intro w
    rw [hact, List.mem_append, List.mem_cons]
    tauto
  have hTentry : ∀ w, w ∈ seg ∨ w = v → d.entry v ≤ d.entry w := by
    rintro w (h | h)
    · exact Nat.le_of_lt (hsegabove w h v (List.mem_cons_self _ _))
    · rw [h]
  have hTnot : ∀ w, w ∈ seg ∨ w = v → w ∉ rest := by
    intro w hT hr
    have := hTentry w hT
    have := hrestv w hr
    omega
  have hT0 : ∀ w, w ∈ seg ∨ w = v → a.comp w = 0 :=
    fun w hT => ((hS.mem_iff w).mp ((hmemS w).mpr (Or.inl hT))).2
  have hTproc : ∀ w, w ∈ seg ∨ w = v → d1.proc w = true := by
    intro w hT
    rw [hp]
    split
    · rfl
    · next hne =>
      rcases hT with h | h
      · exact hsegp w h
      · exact absurd h hne
  -- the completed set together with the vertices with an id is closed under edges
  have hC : ∀ x, ((x ∈ seg ∨ x = v) ∨ a.comp x ≠ 0) → ∀ y ∈ g.adj x,
      ((y ∈ seg ∨ y = v) ∨ a.comp y ≠ 0) := by
    intro x hx y hy
    rcases hx with hT | hA
    · have hdy : d.disc y = true := by
        rcases hT with h | h
        · exact inv.proc_closed x (hsegp x h) y hy
        · rw [h] at hy; exact hadjv y hy
      by_cases hcy : a.comp y = 0
      · left
        have hyS : y ∈ a.active := (hS.mem_iff y).mpr ⟨hdy, hcy⟩
        have hb := hbound x hT y hy hyS
        rw [hlow] at hb
        rcases (hmemS y).mp hyS with h | h
        · exact h
        · have := hrestv y h
          omega
      · exact Or.inr hcy
    · exact Or.inr (hS.closed x hA y hy).1
  have hCA : ∀ x, a.comp x ≠ 0 → ∀ y ∈ g.adj x, a.comp y ≠ 0 :=
    fun x hx y hy => (hS.closed x hx y hy).1
  have hToV : ∀ t, t ∈ seg ∨ t = v → g.Reach t v := by
    intro t hT
    obtain ⟨u, hu, _, hr⟩ := hS.to_gray t ((hmemS t).mpr (Or.inl hT))
    rcases reach_closed _ hC hr (Or.inl hT) with (h | h) | h
    · have := hsegp u h
      rw [hu.2] at this; cases this
    · rw [h] at hr; exact hr
    · have := (hS.assigned u h).1
      rw [hu.2] at this; cases this
  have hFromV : ∀ t, t ∈ seg ∨ t = v → g.Reach v t :=
    fun t hT => hS.from_gray v hv t ((hmemS t).mpr (Or.inl hT)) (hTentry t hT)
  have hle : ∀ w, a.comp w ≠ 0 → a.comp w ≤ a.componentCount := fun w hw => (hS.assigned w hw).2
  refine ⟨hlen1, by rw [hlow1]; exact hS.low_len, ?_, ?_, ?_, ?_, ?_, ?_, ?_, ?_, ?_, ?_⟩
  · rw [hact1, he2]; exact hrestpw
  · intro w
    rw [hact1, hd, hcomp]
    by_cases hT : w ∈ seg ∨ w = v
    · rw [if_pos hT]
      constructor
      · intro h; exact absurd h (hTnot w hT)
      · intro h; omega
    · rw [if_neg hT, ← hS.mem_iff, hmemS]
      constructor
      · intro h; exact Or.inr h
      · rintro (h | h)
        · exact absurd h hT
        · exact h
  · intro w hw
    rw [hcomp] at hw ⊢
    by_cases hT : w ∈ seg ∨ w = v
    · rw [if_pos hT]
      exact ⟨hTproc w hT, by omega⟩
    · rw [if_neg hT] at hw ⊢
      obtain ⟨h1, h2⟩ := hS.assigned w hw
      refine ⟨?_, by omega⟩
      rw [hp]
      split
      · rfl
      · exact h1
  · intro w x hw
    rw [hcomp w, hcomp x] at *
    by_cases hTw : w ∈ seg ∨ w = v
    · rw [if_pos hTw]
      by_cases hTx : x ∈ seg ∨ x = v
      · rw [if_pos hTx]
        exact ⟨fun _ => ⟨reach_trans (hToV w hTw) (hFromV x hTx),
          reach_trans (hToV x hTx) (hFromV w hTw)⟩, fun _ => rfl⟩
      · rw [if_neg hTx]
        constructor
        · intro h
          have : a.comp x ≠ 0 := by omega
          have := hle x this
          omega
        · rintro ⟨h1, h2⟩
          exfalso
          rcases reach_closed _ hC h1 (Or.inl hTw) with h | h
          · exact hTx h
          · have := reach_closed _ hCA h2 h
            exact this (hT0 w hTw)
    · rw [if_neg hTw] at hw ⊢
      by_cases hTx : x ∈ seg ∨ x = v
      · rw [if_pos hTx]
        constructor
        · intro h
          have := hle w hw
          omega
        · rintro ⟨h1, _⟩
          exfalso
          exact reach_closed _ hCA h1 hw (hT0 x hTx)
      · rw [if_neg hTx]
        exact hS.classes w x hw
  · intro x hx y hy
    rw [hcomp x, hcomp y] at *
    by_cases hTx : x ∈ seg ∨ x = v
    · rw [if_pos hTx]
      rcases hC x (Or.inl hTx) y hy with h | h
      · rw [if_pos h]; omega
      · have hTy : ¬ (y ∈ seg ∨ y = v) := fun hT => h (hT0 y hT)
        rw [if_neg hTy]
        exact ⟨h, by have := hle y h; omega⟩
    · rw [if_neg hTx] at hx ⊢
      obtain ⟨h1, h2⟩ := hS.closed x hx y hy
      have hTy : ¬ (y ∈ seg ∨ y = v) := fun hT => h1 (hT0 y hT)
      rw [if_neg hTy]
      exact ⟨h1, h2⟩
  · intro c h1 h2
    rw [hc] at h2
    by_cases hcc : c = a.componentCount + 1
    · refine ⟨v, hvr.1, hvr.2, ?_⟩
      rw [hcomp, if_pos (Or.inr rfl), hcc]
    · obtain ⟨w, hw1, hw2, hw⟩ := hS.used c h1 (by omega)
      refine ⟨w, hw1, hw2, ?_⟩
      have hTw : ¬ (w ∈ seg ∨ w = v) := fun hT => by
        have := hT0 w hT
        omega
      rw [hcomp, if_neg hTw, hw]
  · intro w hw
    rw [hact1] at hw
    rw [he2]
    obtain ⟨u, hu, hle2, hr⟩ := hS.to_gray w ((hmemS w).mpr (Or.inr hw))
    refine ⟨u, (hgray u).mpr ⟨hu, ?_⟩, hle2, hr⟩
    intro h
    have := hrestv w hw
    rw [h] at hle2
    omega
  · intro u hu w hw hle2
    rw [hact1] at hw
    rw [he2] at hle2
    exact hS.from_gray u ((hgray u).mp hu).1 w ((hmemS w).mpr (Or.inr hw)) hle2
  · intro u hu
    rw [hlowOf, hact1, he2]
    obtain ⟨hu1, hu2⟩ := (hgray u).mp hu
    obtain ⟨h1, h2, h3⟩ := hS.low_gray u hu1
    refine ⟨?_, h2, h3⟩
    have hlt : d.entry u < d.entry v := by
      have := hgle u hu1
      have : d.entry u ≠ d.entry v := fun h => hu2 (inv.entry_inj u v hu1.1 hv.1 h)
      omega
    rcases (hmemS _).mp h1 with h | h
    · have := hTentry _ h
      omega
    · exact h
  · intro w hw hdw
    rw [hlowOf]
    rw [hd] at hdw
    exact hS.low_fresh w hw hdw

theorem sccHooks_pe_tree {g : Graph} (hg : g.Dense) {k v : Nat} {d0 d : TraversalData}
    {y : Nat} {ys : List Nat} (hL : DfsLoop g k v d0 (y :: ys) d) (a : SccState) :
    sccHooks.pe v y (d.setParent y v) a = .ok a := by
  simp [sccHooks, classification_tree hg hL]

/-- The edge hook at an edge to a discovered vertex: either `low[v]` becomes
`y`, a stack vertex older than the former `low[v]`, or nothing changes, and then
`y`, if it is on the stack, is not older than `low[v]`. -/
theorem sccHooks_pe_seen {g : Graph} {k v : Nat} {d0 d : TraversalData}
    {y : Nat} {ys : List Nat} (hL : DfsLoop g k v d0 (y :: ys) d) (hy : d.disc y = true)
    {a : SccState} (hS : SccInv g d a) :
    ∃ a1, sccHooks.pe v y d a = .ok a1 ∧
      ((a1 = a ∧ (a.comp y = 0 → d.entry (a.lowOf v) ≤ d.entry y)) ∨
       (a1 = { a with low := a.low.set v y } ∧ a.comp y = 0 ∧
          d.entry y < d.entry (a.lowOf v))) := by
  have hlv := (hS.low_gray v hL.gray_self).2.1
  have hgy : d.proc y = false → a.comp y = 0 := by
    intro hp
    by_contra h
    have := (hS.assigned y h).1
    rw [hp] at this; cases this
  have hv1 := hL.range.1
  unfold SccState.lowOf SccState.comp at *
  unfold sccHooks edgeClassification
  dsimp only
  by_cases h1 : d.par y = v
  · rw [if_pos h1]
    refine ⟨a, by simp, Or.inl ⟨rfl, fun _ => ?_⟩⟩
    have := (hL.inv.par_entry y hy (by rw [h1]; omega)).2
    rw [h1] at this
    omega
  · rw [if_neg h1]
    by_cases h2 : d.proc y = false
    · rw [if_pos ⟨hy, h2⟩]
      dsimp only
      rw [if_pos rfl]
      by_cases h3 : d.entry y < d.entry (a.low.getD v 0)
      · rw [if_pos h3]
        exact ⟨_, rfl, Or.inr ⟨rfl, hgy h2, h3⟩⟩
      · rw [if_neg h3]
        exact ⟨_, rfl, Or.inl ⟨rfl, fun _ => by omega⟩⟩
    · have h2t : d.proc y = true := by simpa using h2
      rw [if_neg (fun h => h2 h.2)]
      by_cases h3 : d.entry y > d.entry v
      · rw [if_pos ⟨h2t, h3⟩]
        dsimp only
        refine ⟨a, by simp, Or.inl ⟨rfl, fun _ => by omega⟩⟩
      · rw [if_neg (fun h => h3 h.2)]
        have hne : y ≠ v := by
          intro h; rw [h, hL.gray_self.2] at h2t; cases h2t
        have hent : d.entry y ≠ d.entry v := fun h =>
          hne (hL.inv.entry_inj y v hy hL.gray_self.1 h)
        have h4 : d.entry y < d.entry v := by omega
        rw [if_pos ⟨h2t, h4⟩]
        dsimp only
        rw [if_neg (by decide)]
        by_cases h5 : a.scc.getD y 0 = 0 ∧ d.entry y < d.entry (a.low.getD v 0)
        · rw [if_pos ⟨rfl, h5⟩]
          exact ⟨_, rfl, Or.inr ⟨rfl, h5.1, h5.2⟩⟩
        · rw [if_neg (fun h => h5 h.2)]
          refine ⟨_, rfl, Or.inl ⟨rfl, fun h0 => ?_⟩⟩
          by_contra hlt
          exact h5 ⟨h0, by omega⟩

theorem sccLoop_enter {g : Graph} {k v : Nat} {d : TraversalData} {a : SccState}
    (hP : DfsPre g k v d) (hS : SccInv g d a) :
    SccLoop g v d a (g.adj v) ((d.markDiscovered v).stampEntry v)
      { a with active := v :: a.active } := by
  refine ⟨sccInv_enter hP hS, ⟨[], rfl, by simp, by simp⟩, ⟨[], rfl, by simp⟩, fun _ _ => rfl⟩

theorem sccLoop_seen {g : Graph} {k v : Nat} {d0 d : TraversalData}
    {y : Nat} {ys : List Nat} (hL : DfsLoop g k v d0 (y :: ys) d) (hy : d.disc y = true)
    {a0 a : SccState} (hS : SccLoop g v d0 a0 (y :: ys) d a) :
    ∃ a1, sccHooks.pe v y d a = .ok a1 ∧ SccLoop g v d0 a0 ys d a1 := by
  obtain ⟨a1, hpe, hcase⟩ := sccHooks_pe_seen hL hy hS.inv
  refine ⟨a1, hpe, ?_⟩
  obtain ⟨seg, hact, hnew, hb⟩ := hS.stack
  obtain ⟨done, hdone, hsc⟩ := hS.scanned
  rcases hcase with ⟨h1, h2⟩ | ⟨h1, h2, h3⟩
  · subst h1
    refine ⟨hS.inv, ⟨seg, hact, hnew, hb⟩, ⟨done ++ [y], by simp [hdone], ?_⟩, hS.low_keep⟩
    intro w hw hwa
    rcases List.mem_append.mp hw with h | h
    · exact hsc w h hwa
    · simp at h
      rw [h] at hwa ⊢
      exact h2 ((hS.inv.mem_iff y).mp hwa).2
  · have hya : y ∈ a.active := (hS.inv.mem_iff y).mpr ⟨hy, h2⟩
    have hlv := (hS.inv.low_gray v hL.gray_self).2.1
    have hlow : ∀ u, a1.lowOf u = if u = v then y else a.lowOf u := by
      intro u
      rw [h1]
      unfold SccState.lowOf
      exact getD_set_ite _ _ _ _ _ (by have := hS.inv.low_len; have := hL.range.2; omega)
    have hact1 : a1.active = a.active := by rw [h1]
    refine ⟨?_, ⟨seg, by rw [hact1]; exact hact, hnew, ?_⟩, ⟨done ++ [y], by simp [hdone], ?_⟩, ?_⟩
    · rw [h1]
      exact sccInv_low hS.inv hL.gray_self hL.range.2 hya (by omega)
        (reach_adj (dfsLoop_mem hL))
    · intro x hx w hw hwa
      rw [hact1] at hwa
      have := hb x hx w hw hwa
      rw [hlow, if_pos rfl]
      omega
    · intro w hw hwa
      rw [hact1] at hwa
      rw [hlow, if_pos rfl]
      rcases List.mem_append.mp hw with h | h
      · have := hsc w h hwa
        omega
      · simp at h
        rw [h]
    · intro u hu
      rw [hlow]
      have : u ≠ v := by
        intro h; rw [h, hL.frame.undisc_start] at hu; cases hu
      rw [if_neg this]
      exact hS.low_keep u hu

theorem sccLoop_tree {g : Graph} (hg : g.Dense) {k v : Nat} {d0 d d2 : TraversalData}
    {y : Nat} {ys : List Nat} (hL : DfsLoop g k v d0 (y :: ys) d) (hy : d.disc y = false)
    (hPost : DfsPost g y (d.setParent y v) d2) {a0 a a2 : SccState}
    (hS : SccLoop g v d0 a0 (y :: ys) d a) (hQ : SccPost g y (d.setParent y v) a d2 a2) :
    SccLoop g v d0 a0 ys d2 a2 := by
  have hL2 := dfsLoop_tree hg hL hy hPost
  have hyr := hg.adj_range v y (dfsLoop_mem hL)
  have hpar : (d.setParent y v).par y = v := by
    rw [par_setParent hL.inv.sized y v hyr.2]; simp
  have hkeep : ∀ u, d.disc u = true → d2.entry u = d.entry u := by
    intro u hu
    have := (hPost.frame.keep u hu).2.2.1
    rw [this]; simp
  obtain ⟨seg, hact, hnew, hb⟩ := hS.stack
  obtain ⟨done, hdone, hsc⟩ := hS.scanned
  obtain ⟨segy, hacty, hnewy, hby, hpy⟩ := hQ.stack
  have hlp := hQ.low_par
  rw [hpar] at hpy hlp
  replace hlp := hlp (by have := hL.range.1; omega)
  have hlv2 := (hQ.inv.low_gray v hL2.gray_self).2.1
  have hlva := (hS.inv.low_gray v hL.gray_self).1
  have hmemd : ∀ w, w ∈ a.active → d.disc w = true := fun w hw => ((hS.inv.mem_iff w).mp hw).1
  have hvy : d2.entry v < d2.entry y := by
    have hp2 : d2.par y = v := by rw [hPost.frame.keep_par, hpar]
    have := (hPost.inv.par_entry y hPost.done_self (by rw [hp2]; have := hL.range.1; omega)).2
    rw [hp2] at this
    exact this
  have hnewEntry : ∀ w, w ∈ a2.active → d.disc w = false → d2.entry v < d2.entry w := by
    intro w hw hdw
    have hd2w := ((hQ.inv.mem_iff w).mp hw).1
    have := anc_entry_le hPost.inv (hPost.frame.fresh_below w hd2w hdw) hd2w
    omega
  have key : ∀ w, w ∈ a2.active → (w ∈ a.active → d.entry (a.lowOf v) ≤ d.entry w) →
      d2.entry (a2.lowOf v) ≤ d2.entry w := by
    intro w hw hold
    cases hdw : d.disc w
    · have := hnewEntry w hw hdw
      omega
    · have hwa : w ∈ a.active := by
        rw [hacty] at hw
        rcases List.mem_append.mp hw with h | h
        · have := hnewy w h
          have h2 : (d.setParent y v).disc w = d.disc w := rfl
          rw [h2, hdw] at this; cases this
        · exact h
      have := hold hwa
      rw [← hkeep w hdw, ← hkeep _ (hmemd _ hlva)] at this
      omega
  refine ⟨hQ.inv, ⟨segy ++ seg, ?_, ?_, ?_⟩, ⟨done ++ [y], by simp [hdone], ?_⟩, ?_⟩
  · rw [hacty, hact, List.append_assoc]
  · intro x hx
    rcases List.mem_append.mp hx with h | h
    · cases h0 : d0.disc x
      · rfl
      · have := (hL.frame.keep x h0).1
        have h2 := hnewy x h
        have h3 : (d.setParent y v).disc x = d.disc x := rfl
        rw [h3, this] at h2; cases h2
    · exact hnew x h
  · intro x hx w hw hwa
    rcases List.mem_append.mp hx with h | h
    · have h1 := hby x h w hw hwa
      have h2 := hpy (List.ne_nil_of_mem h)
      omega
    · exact key w hwa (fun h2 => hb x h w hw h2)
  · intro w hw hwa
    rcases List.mem_append.mp hw with h | h
    · exact key w hwa (fun h2 => hsc w h h2)
    · simp at h
      rw [h]
      omega
  · intro u hu
    have hdu := (hL.frame.keep u hu).1
    have huv : u ≠ v := by
      intro h; rw [h, hL.frame.undisc_start] at hu; cases hu
    rw [hQ.low_keep u hdu (by rw [hpar]; exact huv)]
    exact hS.low_keep u hu

theorem disc_le_of_sized {d : TraversalData} {n : Nat} (hs : d.Sized n) {u : Nat}
    (hu : d.disc u = true) : u ≤ n := by
  by_contra h
  rw [disc_false_of_gt hs (by omega)] at hu
  cases hu

/-- The parent of the current vertex, when there is one, is on the recursion
stack, entered earlier, and was discovered before the call began. -/
theorem dfsLoop_parent {g : Graph} {k v : Nat} {d0 d : TraversalData} {ys : List Nat}
    (hL : DfsLoop g k v d0 ys d) (h0 : d.par v ≠ 0) :
    d.gray (d.par v) ∧ d.entry (d.par v) < d.entry v ∧ d.par v ≠ v ∧
      d0.disc (d.par v) = true := by
  have hanc : d.Anc (d.par v) v :=
    (anc_iff_eq_or_panc d _ v).mpr (Or.inr ((panc_iff_parent d _ v).mpr
      ⟨h0, Relation.ReflTransGen.refl⟩))
  have hgr := (hL.gray_anc _).mpr hanc
  have hlt := (hL.inv.par_entry v hL.gray_self.1 h0).2
  have hne : d.par v ≠ v := by
    intro h; rw [h] at hlt; omega
  refine ⟨hgr, hlt, hne, ?_⟩
  cases h : d0.disc (d.par v)
  · rcases hL.new_done _ hgr.1 h with h1 | h1
    · exact absurd h1 hne
    · rw [hgr.2] at h1; cases h1
  · rfl

theorem sccPost_exit {g : Graph} {k v : Nat} {d0 d : TraversalData} {a0 a : SccState}
    (hL : DfsLoop g k v d0 [] d) (hS : SccLoop g v d0 a0 [] d a) :
    ∃ a2, sccHooks.pvl v (d.markProcessed v) a = .ok a2 ∧
      SccPost g v d0 a0 ((d.markProcessed v).stampExit v) a2 := by
  have inv := hL.inv
  have hs := inv.sized
  have hvn := hL.range.2
  have hv := hL.gray_self
  have hd : ∀ u, ((d.markProcessed v).stampExit v).disc u = d.disc u := by intro u; simp
  have he : ∀ u, ((d.markProcessed v).stampExit v).entry u = d.entry u := by intro u; simp
  have hp : ∀ u, ((d.markProcessed v).stampExit v).proc u = if u = v then true else d.proc u := by
    intro u; rw [proc_stampExit, proc_markProcessed hs v hvn]
  have he2 : ((d.markProcessed v).stampExit v).entry = d.entry := funext he
  have hpar1 : (d.markProcessed v).par v = d.par v := by simp
  have hent1 : ∀ u, (d.markProcessed v).entry u = d.entry u := by intro u; simp
  have hpar0 : d.par v = d0.par v := hL.frame.keep_par
  obtain ⟨seg, hact, hnew, hb⟩ := hS.stack
  obtain ⟨done, hdone, hsc⟩ := hS.scanned
  rw [List.append_nil] at hdone
  have hsorted := hS.inv.sorted
  rw [hact, List.pairwise_append, List.pairwise_cons] at hsorted
  obtain ⟨_, ⟨hrestv, _⟩, hsegabove⟩ := hsorted
  have hmemd : ∀ w, w ∈ a.active → d.disc w = true := fun w hw => ((hS.inv.mem_iff w).mp hw).1
  have hsegS : ∀ x ∈ seg, x ∈ a.active := by
    intro x hx; rw [hact]; exact List.mem_append_left _ hx
  have hvseg : v ∉ seg := by
    intro h
    have := hsegabove v h v (List.mem_cons_self _ _)
    omega
  have hbound : ∀ x, x ∈ seg ∨ x = v → ∀ w ∈ g.adj x, w ∈ a.active →
      d.entry (a.lowOf v) ≤ d.entry w := by
    rintro x (hx | hx) w hw hwa
    · exact hb x hx w hw hwa
    · rw [hx, hdone] at hw
      exact hsc w hw hwa
  obtain ⟨hz1, hz2, hz3⟩ := hS.inv.low_gray v hv
  unfold sccHooks
  dsimp only
  by_cases hlow : a.lowOf v = v
  · -- `v` completes a component
    obtain ⟨a1, hc1, hcount, hact1, hlow1, hlen1, hcomp⟩ := sccComplete_pop v a seg a0.active
      g.nVertices hS.inv.scc_len hact hvseg hvn
      (fun x hx => disc_le_of_sized hs (hmemd x (hsegS x hx))) hlow
    have hlowOf : ∀ u, a1.lowOf u = a.lowOf u := by
      intro u; unfold SccState.lowOf; rw [hlow1]
    rw [hc1]
    dsimp only
    have hguard : ¬ ((d.markProcessed v).par v > 0 ∧
        (d.markProcessed v).entry (a1.low.getD v 0) <
          (d.markProcessed v).entry (a1.low.getD ((d.markProcessed v).par v) 0)) := by
      rintro ⟨h1, h2⟩
      rw [hpar1] at h1 h2
      rw [hent1, hent1] at h2
      obtain ⟨hgr, hlt, _, _⟩ := dfsLoop_parent hL (by omega)
      have h3 := (hS.inv.low_gray _ hgr).2.1
      have h4 : a1.low.getD v 0 = v := by
        have := hlowOf v
        unfold SccState.lowOf at this hlow
        rw [this, hlow]
      have h5 : a1.low.getD (d.par v) 0 = a.lowOf (d.par v) := hlowOf _
      rw [h4, h5] at h2
      omega
    rw [if_neg hguard]
    refine ⟨a1, rfl, ?_, ⟨[], by rw [hact1]; rfl, by simp, by simp, by simp⟩, ?_, ?_⟩
    · refine sccInv_complete inv hS.inv hv hL.range hact ?_ ?_ ?_ hlow hbound hd hp he hcount hact1
        hlow1 hlen1 hcomp
      · intro x hx
        rcases hL.new_done x (hmemd x (hsegS x hx)) (hnew x hx) with h | h
        · rw [h] at hx; exact absurd hx hvseg
        · exact h
      · obtain ⟨done2, h1, h2⟩ := hL.scanned
        rw [List.append_nil] at h1
        rw [h1]; exact h2
      · intro u hu
        exact anc_entry_le inv ((hL.gray_anc u).mp hu) hv.1
    · intro u hu _
      rw [hlowOf]; exact hS.low_keep u hu
    · intro h0
      rw [hlowOf, he2, ← hpar0]
      rw [← hpar0] at h0
      rw [hS.low_keep _ (dfsLoop_parent hL h0).2.2.2]
  · -- `v` stays on the stack
    rw [sccComplete_keep v a hlow]
    dsimp only
    have hzd := hmemd _ hz1
    have hzlt : d.entry (a.lowOf v) < d.entry v := by
      have : d.entry (a.lowOf v) ≠ d.entry v := fun h => hlow (inv.entry_inj _ _ hzd hv.1 h)
      omega
    have h0 : d.par v ≠ 0 := by
      obtain ⟨u, hu, hle, _⟩ := hS.inv.to_gray _ hz1
      have hanc := (hL.gray_anc u).mp hu
      rw [anc_iff_eq_or_panc] at hanc
      rcases hanc with h | h
      · rw [h] at hle; omega
      · exact ((panc_iff_parent d u v).mp h).1
    obtain ⟨hgr, hlt, hne, hold⟩ := dfsLoop_parent hL h0
    have hS3 : SccInv g ((d.markProcessed v).stampExit v) a :=
      sccInv_process inv hS.inv hv hlow hd hp he
    have hstack : a.active = (seg ++ [v]) ++ a0.active := by
      rw [hact]; simp
    have hnew2 : ∀ x ∈ seg ++ [v], d0.disc x = false := by
      intro x hx
      rcases List.mem_append.mp hx with h | h
      · exact hnew x h
      · simp at h; rw [h]; exact hL.frame.undisc_start
    have hbound2 : ∀ x ∈ seg ++ [v], ∀ w ∈ g.adj x, w ∈ a.active →
        d.entry (a.lowOf v) ≤ d.entry w := by
      intro x hx
      apply hbound
      rcases List.mem_append.mp hx with h | h
      · exact Or.inl h
      · simp at h; exact Or.inr h
    by_cases hguard : (d.markProcessed v).par v > 0 ∧
        (d.markProcessed v).entry (a.low.getD v 0) <
          (d.markProcessed v).entry (a.low.getD ((d.markProcessed v).par v) 0)
    · rw [if_pos hguard]
      obtain ⟨_, h2⟩ := hguard
      rw [hpar1, hent1, hent1] at h2
      have h2b : d.entry (a.lowOf v) < d.entry (a.lowOf (d.par v)) := h2
      have hlp := (hS.inv.low_gray _ hgr).2.1
      have hlowOf : ∀ u, SccState.lowOf { a with low := a.low.set (d.par v) (a.low.getD v 0) } u =
          if u = d.par v then a.lowOf v else a.lowOf u := by
        intro u
        unfold SccState.lowOf
        exact getD_set_ite _ _ _ _ _
          (by have := hS.inv.low_len; have := disc_le_of_sized hs hgr.1; omega)
      refine ⟨_, rfl, ?_, ⟨seg ++ [v], hstack, hnew2, ?_, ?_⟩, ?_, ?_⟩
      · rw [hpar1]
        refine sccInv_low hS3 ?_ (disc_le_of_sized hs hgr.1) hz1 ?_ ?_
        · unfold TraversalData.gray
          rw [hd, hp, if_neg hne]
          exact hgr
        · rw [he2]
          show d.entry (a.lowOf v) ≤ _
          omega
        · exact reach_trans (reach_adj (inv.par_adj v h0)) hz3
      · intro x hx w hw hwa
        rw [hpar1, hlowOf, if_neg (Ne.symm hne), he2]
        exact hbound2 x hx w hw hwa
      · intro _
        rw [hpar1, he2, ← hpar0, hlowOf, hlowOf, if_pos rfl, if_neg (Ne.symm hne)]
      · intro u hu hup
        rw [hpar1, hlowOf, if_neg (by rw [hpar0]; exact hup)]
        exact hS.low_keep u hu
      · intro _
        rw [hpar1, he2, ← hpar0, hlowOf, if_pos rfl, ← hS.low_keep _ hold]
        omega
    · rw [if_neg hguard]
      rw [hpar1, hent1, hent1] at hguard
      have hg2 : ¬ d.entry (a.lowOf v) < d.entry (a.lowOf (d.par v)) :=
        fun h => hguard ⟨by omega, h⟩
      refine ⟨a, rfl, hS3, ⟨seg ++ [v], hstack, hnew2, ?_, ?_⟩, ?_, ?_⟩
      · rw [he2]; exact hbound2
      · intro _
        rw [he2, ← hpar0]
        omega
      · intro u hu _
        exact hS.low_keep u hu
      · intro _
        rw [he2, ← hpar0, hS.low_keep _ hold]

theorem scc_inv_run (g : Graph) (hg : g.Dense) (hdir : g.directed = true) (fuel v : Nat)
    (d : TraversalData) (a : SccState) (hP : DfsPre g fuel v d) (hS : SccInv g d a) :
    (∀ e, depthFirstTraverseVertex g sccHooks fuel v (d, a) = .error e → False) ∧
    (∀ d2 a2, depthFirstTraverseVertex g sccHooks fuel v (d, a) = .ok (d2, a2) →
      DfsPost g v d d2 ∧ SccPost g v d a d2 a2) := by
  refine dfs_fresh_rule g hg sccHooks (fun _ s => SccInv g s.1 s.2)
    (fun v s0 s2 => SccPost g v s0.1 s0.2 s2.1 s2.2)
    (fun v s0 ys s => SccLoop g v s0.1 s0.2 ys s.1 s.2) (fun _ => False)
    ?_ ?_ ?_ ?_ ?_ fuel v d a hP hS
  · intro k v d a hPre hS
    refine ⟨fun e he => (by simp [sccHooks] at he), fun a1 ha1 => ?_⟩
    simp only [sccHooks, Except.ok.injEq] at ha1
    subst ha1
    exact sccLoop_enter hPre hS
  · intro k v d0 a0 y ys d a hL hS hy
    have hpe := sccHooks_pe_tree hg hL a
    refine ⟨fun e he => (by rw [hpe] at he; cases he), fun a1 ha1 => ?_⟩
    rw [hpe] at ha1
    cases ha1
    refine ⟨sccInv_congr hS.inv (fun _ => rfl) (fun _ => rfl) (fun _ => rfl), ?_⟩
    intro d2 a2 hPost hQ
    exact sccLoop_tree hg hL hy hPost hS hQ
  · intro k v d0 a0 y ys d a hL hS hy _
    obtain ⟨a1, hpe, hS1⟩ := sccLoop_seen hL hy hS
    refine ⟨fun e he => (by rw [hpe] at he; cases he), fun a1b ha1b => ?_⟩
    rw [hpe] at ha1b
    cases ha1b
    exact hS1
  · intro k v d0 a0 y ys d a _ _ _ hc
    exact absurd (Or.inl hdir) hc
  · intro k v d0 a0 d a hL hS
    obtain ⟨a2, hpvl, hQ⟩ := sccPost_exit hL hS
    refine ⟨fun e he => (by rw [hpvl] at he; cases he), fun a1b ha1b => ?_⟩
    rw [hpvl] at ha1b
    cases ha1b
    exact hQ

theorem sccInv_Init (g : Graph) (d : TraversalData) :
    SccInv g (d.Init g)
      { componentCount := 0
        scc := List.replicate (adjustSize g.nVertices) 0
        low := List.range (adjustSize g.nVertices)
        active := [] } := by
  have hcomp : ∀ w, SccState.comp (SccState.mk 0 (List.replicate (adjustSize g.nVertices) 0)
      (List.range (adjustSize g.nVertices)) []) w = 0 := by
    intro w
    unfold SccState.comp
    by_cases h : w < adjustSize g.nVertices
    · exact getD_replicate_self _ _ _
    · rw [List.getD_eq_default _ _ (by simp; omega)]
  refine ⟨by simp [adjustSize], by simp [adjustSize], List.Pairwise.nil, ?_, ?_, ?_, ?_, ?_, ?_,
    ?_, ?_, ?_⟩
  · intro w; simp
  · intro w hw; exact absurd (hcomp w) hw
  · intro w x hw; exact absurd (hcomp w) hw
  · intro x hx; exact absurd (hcomp x) hx
  · intro c h1 h2
    have h3 : c ≤ 0 := h2
    omega
  · intro w hw; simp at hw
  · intro u hu; unfold TraversalData.gray at hu; simp at hu
  · intro u hu; unfold TraversalData.gray at hu; simp at hu
  · intro w hw _
    unfold SccState.lowOf
    show (List.range (adjustSize g.nVertices)).getD w 0 = w
    rw [List.getD_eq_getElem _ _ (by simp [adjustSize]; omega)]
    simp

/-- What a run of `StronglyConnectedComponents` on a directed graph with dense
ids returns: every vertex has an id, and the ids satisfy the invariant with an
empty stack. -/
theorem scc_total (g : Graph) (hg : g.Dense) (hdir : g.directed = true) (fuel : Nat)
    (hfuel : g.nVertices < fuel) :
    ∃ d a, StronglyConnectedComponents g fuel = .ok (a.componentCount, a.scc) ∧
      SccInv g d a ∧ ∀ v, 1 ≤ v → v ≤ g.nVertices → a.comp v ≠ 0 := by
  have key := dfsAll_fresh_rule g sccHooks fuel hfuel (fun s => SccInv g s.1 s.2)
    (fun _ => False)
    (fun i d a hPre _ hS => by
      obtain ⟨h1, h2⟩ := scc_inv_run g hg hdir fuel i d a hPre hS
      exact ⟨h1, fun d2 a2 hr => ⟨(h2 d2 a2 hr).1, (h2 d2 a2 hr).2.inv⟩⟩)
    (List.range' 1 g.nVertices) (by intro i hi; rw [List.mem_range'_1] at hi; omega)
    (TraversalData.zero.Init g) _ (dfsIdle_Init g _) (sccInv_Init g _)
  unfold StronglyConnectedComponents
  rw [if_neg (by rw [hdir]; decide)]
  cases hr : dfsAll g fuel sccHooks (List.range' 1 g.nVertices)
      (TraversalData.zero.Init g,
        { componentCount := 0
          scc := List.replicate (adjustSize g.nVertices) 0
          low := List.range (adjustSize g.nVertices)
          active := [] }) with
  | error e => exact absurd (key.1 e hr) id
  | ok s =>
    obtain ⟨d2, a2⟩ := s
    obtain ⟨hI, hS, hall, _⟩ := key.2 d2 a2 hr
    refine ⟨d2, a2, rfl, hS, ?_⟩
    intro v h1 h2 h0
    have hd := hall v (by rw [List.mem_range'_1]; omega)
    have hmem := (hS.mem_iff v).mpr ⟨hd, h0⟩
    obtain ⟨u, hu, _, _⟩ := hS.to_gray v hmem
    have := hI.no_gray u hu.1
    rw [hu.2] at this
    cases this

theorem scc_transversal {g : Graph} {d : TraversalData} {a : SccState} (hS : SccInv g d a) :
    ∀ m, m ≤ a.componentCount →
      ∃ reps : List Nat, reps.map a.comp = List.range' 1 m ∧
        ∀ r ∈ reps, 1 ≤ r ∧ r ≤ g.nVertices := by
  intro m
  induction m with
  | zero => intro _; exact ⟨[], rfl, by simp⟩
  | succ m ih =>
    intro hm
    obtain ⟨reps, h1, h2⟩ := ih (by omega)
    obtain ⟨w, hw1, hw2, hw⟩ := hS.used (m + 1) (by omega) hm
    refine ⟨reps ++ [w], ?_, ?_⟩
    · rw [List.map_append, h1, List.range'_concat]
      simp [hw, Nat.add_comm]
    · intro r hr
      rcases List.mem_append.mp hr with h | h
      · exact h2 r h
      · simp at h; rw [h]; exact ⟨hw1, hw2⟩

/-- C1: for every directed graph built by `Init` from a pair list with ids
`1..n`, `StronglyConnectedComponents` returns normally, and the mapping `scc` it
returns (one entry per index `0..n`) satisfies, for all vertices `u`, `v` in
`1..n`: `scc[u] == scc[v]` if and only if `v` is reachable from `u` and `u` is
reachable from `v` along directed edges. -/
theorem scc_same_id_iff_mutually_reachable (pairs : List Nat) (n : Nat)
    (h : DenseIds pairs n) (fuel : Nat) (hfuel : n < fuel) :
    ∃ count scc, StronglyConnectedComponents (Graph.zero.Init true pairs) fuel =
        .ok (count, scc) ∧ scc.length = n + 1 ∧
      ∀ u v, 1 ≤ u → u ≤ n → 1 ≤ v → v ≤ n →
        (scc.getD u 0 = scc.getD v 0 ↔
          (Graph.zero.Init true pairs).Reach u v ∧ (Graph.zero.Init true pairs).Reach v u) := by
  have hg := Init_dense Graph.zero true pairs n h
  have hn : (Graph.zero.Init true pairs).nVertices = n := by
    rw [Init_nVertices, denseIds_dedup_length h]
  obtain ⟨d, a, hr, hS, hall⟩ := scc_total _ hg (Init_directed _ _ _) fuel
    (by rw [hn]; exact hfuel)
  refine ⟨a.componentCount, a.scc, hr, by rw [hS.scc_len, hn], ?_⟩
  intro u v hu1 hu2 hv1 hv2
  have hu := hall u hu1 (by rw [hn]; exact hu2)
  have := hS.classes u v hu
  unfold SccState.comp at this
  rw [← this]
  exact eq_comm

theorem scc_same_id_iff_mutually_reachable_witness :
    ∃ count scc, StronglyConnectedComponents (Graph.zero.Init true [1, 2, 2, 3, 3, 1, 3, 4]) 5 =
        .ok (count, scc) ∧ scc.length = 4 + 1 ∧
      ∀ u v, 1 ≤ u → u ≤ 4 → 1 ≤ v → v ≤ 4 →
        (scc.getD u 0 = scc.getD v 0 ↔
          (Graph.zero.Init true [1, 2, 2, 3, 3, 1, 3, 4]).Reach u v ∧
            (Graph.zero.Init true [1, 2, 2, 3, 3, 1, 3, 4]).Reach v u) :=
  scc_same_id_iff_mutually_reachable [1, 2, 2, 3, 3, 1, 3, 4] 4 (by decide) 5 (by decide)

/-- C10: for every directed graph built by `Init` from a pair list with ids
`1..n`, `StronglyConnectedComponents` returns normally a count and a mapping
`scc` such that every vertex `v` in `1..n` has `1 <= scc[v] <= count`, every id
in `1..count` is assigned to some vertex, and the count is the number of
strongly connected components: there is a list of that many distinct vertices,
one from each class of mutual reachability (every vertex of `1..n` is mutually
reachable with one of them, and no two of them are mutually reachable). -/
theorem scc_count_is_number_of_components (pairs : List Nat) (n : Nat)
    (h : DenseIds pairs n) (fuel : Nat) (hfuel : n < fuel) :
    ∃ (count : Nat) (scc : List Nat),
      StronglyConnectedComponents (Graph.zero.Init true pairs) fuel = .ok (count, scc) ∧
      (∀ v, 1 ≤ v → v ≤ n → 1 ≤ scc.getD v 0 ∧ scc.getD v 0 ≤ count) ∧
      (∀ c, 1 ≤ c → c ≤ count → ∃ v, 1 ≤ v ∧ v ≤ n ∧ scc.getD v 0 = c) ∧
      ∃ reps : List Nat, reps.length = count ∧ reps.Nodup ∧ (∀ r ∈ reps, 1 ≤ r ∧ r ≤ n) ∧
        (∀ v, 1 ≤ v → v ≤ n → ∃ r ∈ reps, (Graph.zero.Init true pairs).Reach r v ∧
          (Graph.zero.Init true pairs).Reach v r) ∧
        (∀ r ∈ reps, ∀ r2 ∈ reps, (Graph.zero.Init true pairs).Reach r r2 →
          (Graph.zero.Init true pairs).Reach r2 r → r = r2) := by
  have hg := Init_dense Graph.zero true pairs n h
  have hn : (Graph.zero.Init true pairs).nVertices = n := by
    rw [Init_nVertices, denseIds_dedup_length h]
  obtain ⟨d, a, hr, hS, hall⟩ := scc_total _ hg (Init_directed _ _ _) fuel
    (by rw [hn]; exact hfuel)
  rw [hn] at hall
  have hrange : ∀ v, 1 ≤ v → v ≤ n → 1 ≤ a.comp v ∧ a.comp v ≤ a.componentCount := by
    intro v h1 h2
    have h0 := hall v h1 h2
    exact ⟨by omega, (hS.assigned v h0).2⟩
  obtain ⟨reps, hmap, hreps⟩ := scc_transversal hS a.componentCount (le_refl _)
  have hlen : reps.length = a.componentCount := by
    have := congrArg List.length hmap
    simpa using this
  have hnd : (reps.map a.comp).Nodup := by rw [hmap]; exact List.nodup_range' 1 _
  refine ⟨a.componentCount, a.scc, hr, hrange, ?_, reps, hlen, hnd.of_map, ?_, ?_, ?_⟩
  · intro c h1 h2
    obtain ⟨w, hw1, hw2, hw⟩ := hS.used c h1 h2
    exact ⟨w, hw1, by rw [← hn]; exact hw2, hw⟩
  · intro r hr2
    have := hreps r hr2
    rw [hn] at this
    exact this
  · intro v h1 h2
    obtain ⟨h3, h4⟩ := hrange v h1 h2
    have hmem : a.comp v ∈ reps.map a.comp := by
      rw [hmap, List.mem_range'_1]; omega
    obtain ⟨r, hr2, hrv⟩ := List.mem_map.mp hmem
    refine ⟨r, hr2, ?_⟩
    have hr0 : a.comp r ≠ 0 := by omega
    exact (hS.classes r v hr0).mp hrv.symm
  · intro r hr1 r2 hr2 h1 h2
    have hr0 : a.comp r ≠ 0 := by
      have := hreps r hr1
      rw [hn] at this
      exact hall r this.1 this.2
    have heq := (hS.classes r r2 hr0).mpr ⟨h1, h2⟩
    exact List.inj_on_of_nodup_map hnd hr1 hr2 heq.symm

theorem scc_count_is_number_of_components_witness :
    ∃ (count : Nat) (scc : List Nat),
      StronglyConnectedComponents (Graph.zero.Init true [1, 2, 2, 3, 3, 4, 4, 2]) 5 =
        .ok (count, scc) ∧
      (∀ v, 1 ≤ v → v ≤ 4 → 1 ≤ scc.getD v 0 ∧ scc.getD v 0 ≤ count) ∧
      (∀ c, 1 ≤ c → c ≤ count → ∃ v, 1 ≤ v ∧ v ≤ 4 ∧ scc.getD v 0 = c) ∧
      ∃ reps : List Nat, reps.length = count ∧ reps.Nodup ∧ (∀ r ∈ reps, 1 ≤ r ∧ r ≤ 4) ∧
        (∀ v, 1 ≤ v → v ≤ 4 → ∃ r ∈ reps,
          (Graph.zero.Init true [1, 2, 2, 3, 3, 4, 4, 2]).Reach r v ∧
          (Graph.zero.Init true [1, 2, 2, 3, 3, 4, 4, 2]).Reach v r) ∧
        (∀ r ∈ reps, ∀ r2 ∈ reps, (Graph.zero.Init true [1, 2, 2, 3, 3, 4, 4, 2]).Reach r r2 →
          (Graph.zero.Init true [1, 2, 2, 3, 3, 4, 4, 2]).Reach r2 r → r = r2) :=
  scc_count_is_number_of_components [1, 2, 2, 3, 3, 4, 4, 2] 4 (by decide) 5 (by decide)

theorem mem_keys_mapSet (m : List (Nat × String)) (k : Nat) (s : String) (j : Nat) :
    j ∈ (mapSet m k s).map Prod.fst ↔ j = k ∨ j ∈ m.map Prod.fst := by
  unfold mapSet
  rw [List.map_cons, List.mem_cons, List.mem_map, List.mem_map]
  constructor
  · rintro (h | ⟨p, hp, hpj⟩)
    · exact Or.inl h
    · exact Or.inr ⟨p, (List.mem_filter.mp hp).1, hpj⟩
  · rintro (h | ⟨p, hp, hpj⟩)
    · exact Or.inl h
    · by_cases hjk : j = k
      · exact Or.inl hjk
      · right
        refine ⟨p, List.mem_filter.mpr ⟨hp, ?_⟩, hpj⟩
        rw [hpj]
        simpa using hjk

theorem ra_trans {g : Graph} {u a b c : Nat} (h1 : g.ReachAvoiding u a b)
    (h2 : g.ReachAvoiding u b c) : g.ReachAvoiding u a c :=
  Relation.ReflTransGen.trans h1 h2

theorem ra_step {g : Graph} {u a b : Nat} (h : g.Adj a b) (ha : a ≠ u) (hb : b ≠ u) :
    g.ReachAvoiding u a b :=
  Relation.ReflTransGen.single ⟨h, ha, hb⟩

theorem ra_symm {g : Graph} (hsym : ∀ a b, g.Adj a b → g.Adj b a) {u a b : Nat}
    (h : g.ReachAvoiding u a b) : g.ReachAvoiding u b a := by
  unfold Graph.ReachAvoiding at h ⊢
  induction h with
  | refl => exact Relation.ReflTransGen.refl
  | tail _ hbc ih =>
    exact Relation.ReflTransGen.head ⟨hsym _ _ hbc.1, hbc.2.2, hbc.2.1⟩ ih

/-- A set closed under the edges that do not lead to `u` is not left by a
path that avoids `u`. -/
theorem ra_closed {g : Graph} {u : Nat} (A : Nat → Prop)
    (hA : ∀ x, A x → ∀ y ∈ g.adj x, y ≠ u → A y) {a b : Nat}
    (h : g.ReachAvoiding u a b) : A a → A b := by
  unfold Graph.ReachAvoiding at h
  induction h with
  | refl => exact id
  | tail _ hbc ih => intro ha; exact hA _ (ih ha) _ hbc.1 hbc.2.2

/-- The tree path from an ancestor `a` down to `b` avoids every vertex that is
older than `a` or newer than `b`. -/
theorem anc_ra {g : Graph} {d : TraversalData} (inv : DfsInv g d) {u a b : Nat}
    (h : d.Anc a b) : d.disc b = true → (d.entry u < d.entry a ∨ d.entry b < d.entry u) →
      g.ReachAvoiding u a b := by
  unfold TraversalData.Anc at h
  induction h with
  | refl => intro _ _; exact Relation.ReflTransGen.refl
  | @tail b c hab hbc ih =>
    intro hc hcase
    obtain ⟨h1, h2⟩ := hbc
    obtain ⟨h3, h4⟩ := inv.par_entry c hc (by rw [h1]; exact h2)
    have hadj := inv.par_adj c (by rw [h1]; exact h2)
    rw [h1] at h3 h4 hadj
    have hle := anc_entry_le inv hab h3
    have hb : g.ReachAvoiding u a b := by
      apply ih h3
      rcases hcase with h | h
      · exact Or.inl h
      · exact Or.inr (by omega)
    refine ra_trans hb (ra_step hadj ?_ ?_)
    · intro hbu
      rw [hbu] at hle h4
      rcases hcase with h | h <;> omega
    · intro hcu
      rw [hcu] at h4 hcase
      rcases hcase with h | h <;> omega

theorem two_of_nodup {cs : List Nat} (hnd : cs.Nodup) (hlen : 1 < cs.length) :
    ∃ c1 c2, c1 ∈ cs ∧ c2 ∈ cs ∧ c1 ≠ c2 := by
  match cs, hnd, hlen with
  | c1 :: c2 :: t, hnd, _ =>
    refine ⟨c1, c2, by simp, by simp, ?_⟩
    intro h
    rw [List.nodup_cons] at hnd
    exact hnd.1 (by rw [h]; simp)

theorem anc_set {a : CutState} {n : Nat} (hlen : a.ancestor.length = n + 1) (v y : Nat)
    (hv : v ≤ n) (u : Nat) :
    CutState.anc { a with ancestor := a.ancestor.set v y } u = if u = v then y else a.anc u := by
  unfold CutState.anc
  exact getD_set_ite _ _ _ _ _ (by omega)

theorem deg_set {a : CutState} {n : Nat} (hlen : a.outDegree.length = n + 1) (v y : Nat)
    (hv : v ≤ n) (u : Nat) :
    CutState.deg { a with outDegree := a.outDegree.set v y } u = if u = v then y else a.deg u := by
  unfold CutState.deg
  exact getD_set_ite _ _ _ _ _ (by omega)

theorem artLoop_enter {g : Graph} {start k v : Nat} {d : TraversalData} {a : CutState}
    (hP : DfsPre g (k + 1) v d) (hA : ArtInv g start d a) (hrv : g.Reach start v) :
    ArtLoop g start v d a (g.adj v) ((d.markDiscovered v).stampEntry v)
      { a with ancestor := a.ancestor.set v v } := by
  have hL := dfsLoop_enter hP
  have hs := hP.inv.sized
  have hvn := hP.range.2
  have hv1 := hP.range.1
  have hdisc : ∀ u, ((d.markDiscovered v).stampEntry v).disc u =
      if u = v then true else d.disc u := by
    intro u; rw [disc_stampEntry, disc_markDiscovered hs v hvn]
  have hproc : ∀ u, ((d.markDiscovered v).stampEntry v).proc u = d.proc u := by
    intro u; simp
  have hpar : ∀ u, ((d.markDiscovered v).stampEntry v).par u = d.par u := by
    intro u; simp
  have hentry : ∀ u, ((d.markDiscovered v).stampEntry v).entry u =
      if u = v then d.time + 1 else d.entry u := by
    intro u
    rw [entry_stampEntry (sized_markDiscovered hs v) v hvn]
    simp
  have hpv : d.proc v = false := by
    cases h : d.proc v
    · rfl
    · have := hP.inv.proc_disc v h
      rw [hP.undisc] at this; cases this
  have hne : ∀ u, d.disc u = true → u ≠ v := by
    intro u hu h; rw [h, hP.undisc] at hu; cases hu
  have hold : ∀ u, d.disc u = true →
      ((d.markDiscovered v).stampEntry v).entry u = d.entry u ∧ d.entry u ≤ d.time := by
    intro u hu
    rw [hentry, if_neg (hne u hu)]
    exact ⟨rfl, (hP.inv.entry_pos u hu).2⟩
  have hev : ((d.markDiscovered v).stampEntry v).entry v = d.time + 1 := by
    rw [hentry, if_pos rfl]
  have hle : ∀ u, ((d.markDiscovered v).stampEntry v).disc u = true →
      ((d.markDiscovered v).stampEntry v).entry u ≤ d.time + 1 := by
    intro u hu
    rw [hdisc] at hu
    by_cases huv : u = v
    · rw [huv, hev]
    · rw [if_neg huv] at hu
      have := hold u hu
      omega
  have hgray : ∀ u, ((d.markDiscovered v).stampEntry v).gray u ↔ u = v ∨ d.gray u := by
    intro u
    unfold TraversalData.gray
    rw [hdisc, hproc]
    by_cases huv : u = v
    · subst huv; simp [hpv]
    · simp [huv]
  have hanc := anc_set hA.anc_len v v hvn
  have hnokid : ∀ c, ((d.markDiscovered v).stampEntry v).disc c = true →
      ((d.markDiscovered v).stampEntry v).par c = v → False := by
    intro c hc hpc
    have := (hL.inv.par_entry c hc (by rw [hpc]; omega)).2
    rw [hpc, hev] at this
    have := hle c hc
    omega
  have hdeg : CutState.deg { a with ancestor := a.ancestor.set v v } v = 0 :=
    hA.deg_fresh v hvn hP.undisc
  refine ⟨⟨?_, hA.deg_len, ?_, ?_, ?_, ?_, hA.sound, ?_, ?_, ?_, ?_⟩, ⟨[], List.nodup_nil, ?_, ?_⟩,
    ?_, ⟨[], rfl, by simp⟩, ?_, ?_, hP.inv.proc_closed, ?_⟩
  · show (a.ancestor.set v v).length = _
    rw [List.length_set]; exact hA.anc_len
  · rw [hdisc, if_neg (by omega)]; exact hA.zero_disc
  · rw [hentry, if_neg (by omega)]; exact hA.zero_entry
  · rw [hanc, if_neg (by omega)]; exact hA.zero_anc
  · intro x hx
    rw [hdisc] at hx
    by_cases hxv : x = v
    · rw [hxv]; exact hrv
    · rw [if_neg hxv] at hx; exact hA.reach x hx
  · intro c hc h1 h2
    rw [hproc] at hc
    rw [hpar, hpar] at h2 ⊢
    rw [hpar] at h1
    exact hA.complete c hc h1 h2
  · intro w hw hdw
    rw [hdisc] at hdw
    by_cases hwv : w = v
    · rw [if_pos hwv] at hdw; cases hdw
    · rw [if_neg hwv] at hdw
      exact hA.deg_fresh w hw hdw
  · intro u hu
    rw [hanc]
    rcases (hgray u).mp hu with h | h
    · left; rw [if_pos h, h]
    · rw [if_neg (hne u h.1)]
      rcases hA.anc_gray u h with h2 | ⟨h2, h3⟩
      · exact Or.inl h2
      · right
        refine ⟨(hgray _).mpr (Or.inr h2), ?_⟩
        rw [(hold _ h2.1).1, (hold u h.1).1]
        exact h3
  · intro u hu w hw hne2
    rw [hanc] at hne2 ⊢
    rcases (hgray u).mp hu with h | h
    · rw [if_pos h, h]; exact Relation.ReflTransGen.refl
    · rw [if_neg (hne u h.1)] at hne2 ⊢
      rw [(hold u h.1).1] at hw
      by_cases hwv : w = v
      · rw [hwv, hev] at hw
        have := (hold u h.1).2
        omega
      · rw [hentry, if_neg hwv] at hw
        exact hA.anc_reach u h w hw hne2
  · exact hdeg.symm
  · intro c
    constructor
    · intro h; cases h
    · rintro ⟨h1, h2⟩
      exact (hnokid c h1 h2).elim
  · intro _ c1 c2 h1 h2 _ _ _
    exact (hnokid c1 h1 h2).elim
  · intro x hx hx0 hxv
    rw [hdisc, if_neg hxv, hx0] at hx
    cases hx
  · intro y hy
    rw [(hold y hy).1, hev]
    have := (hold y hy).2
    omega
  · intro u hu
    refine ⟨?_, rfl⟩
    rw [hanc, if_neg (hne u hu)]

theorem artInv_anc_le {g : Graph} {start : Nat} {d : TraversalData} {a : CutState}
    (hA : ArtInv g start d a) {v : Nat} (hv : d.gray v) : d.entry (a.anc v) ≤ d.entry v := by
  rcases hA.anc_gray v hv with h | h
  · rw [h]
  · exact Nat.le_of_lt h.2

/-- Setting `ancestor[v]` to an older vertex `y` of the recursion stack that
is adjacent to `v` keeps the invariant. -/
theorem artInv_back {g : Graph} {start : Nat} {d : TraversalData} {a : CutState}
    (hA : ArtInv g start d a) {v y : Nat} (hv1 : 1 ≤ v)
    (hvn : v ≤ g.nVertices) (hy : d.gray y) (hlt : d.entry y < d.entry v) (hadj : g.Adj v y) :
    ArtInv g start d { a with ancestor := a.ancestor.set v y } := by
  have hanc := anc_set hA.anc_len v y hvn
  refine ⟨?_, hA.deg_len, hA.zero_disc, hA.zero_entry, ?_, hA.reach, hA.sound, hA.complete,
    hA.deg_fresh, ?_, ?_⟩
  · show (a.ancestor.set v y).length = _
    rw [List.length_set]; exact hA.anc_len
  · rw [hanc, if_neg (by omega)]; exact hA.zero_anc
  · intro u hu
    rw [hanc]
    by_cases huv : u = v
    · rw [if_pos huv, huv]
      exact Or.inr ⟨hy, hlt⟩
    · rw [if_neg huv]
      exact hA.anc_gray u hu
  · intro u hu w hw hne
    rw [hanc] at hne ⊢
    by_cases huv : u = v
    · rw [if_pos huv] at hne ⊢
      rw [huv] at hw ⊢
      refine ra_step hadj ?_ (Ne.symm hne)
      intro h; rw [h] at hw; omega
    · rw [if_neg huv] at hne ⊢
      exact hA.anc_reach u hu w hw hne

theorem artHooks_pe_back {g : Graph} {k v : Nat} {d0 d : TraversalData}
    {y : Nat} {ys : List Nat} (hL : DfsLoop g k v d0 (y :: ys) d) (hy : d.gray y)
    (hpar : d.par v ≠ y) (a : CutState) :
    articulationHooks.pe v y d a =
      if d.entry y < d.entry (a.anc v) then .ok { a with ancestor := a.ancestor.set v y }
      else .ok a := by
  have hle := anc_entry_le hL.inv ((hL.gray_anc y).mp hy) hL.gray_self.1
  have h1 : ¬ d.par y = v := by
    intro h
    have := (hL.inv.par_entry y hy.1 (by rw [h]; have := hL.range.1; omega)).2
    rw [h] at this
    omega
  unfold articulationHooks edgeClassification CutState.anc
  dsimp only
  have hy2 : d.disc y = true ∧ d.proc y = false := hy
  rw [if_neg h1, if_pos hy2]
  dsimp only
  rw [if_neg (by decide), if_pos ⟨rfl, hpar⟩]

theorem artLoop_seen {g : Graph} {start k v : Nat} {d0 d : TraversalData}
    {y : Nat} {ys : List Nat} (hL : DfsLoop g k v d0 (y :: ys) d) (hy : d.gray y)
    (hpar : d.par v ≠ y) {a0 a : CutState} (hA : ArtLoop g start v d0 a0 (y :: ys) d a) :
    ∃ a1, articulationHooks.pe v y d a = .ok a1 ∧ ArtLoop g start v d0 a0 ys d a1 := by
  rw [artHooks_pe_back hL hy hpar a]
  obtain ⟨done, hdone, hsc⟩ := hA.bound_self
  by_cases hlt : d.entry y < d.entry (a.anc v)
  · rw [if_pos hlt]
    refine ⟨_, rfl, ?_⟩
    have hanc := anc_set hA.inv.anc_len v y hL.range.2
    have hav := artInv_anc_le hA.inv hL.gray_self
    have hanv : CutState.anc { a with ancestor := a.ancestor.set v y } v = y := by
      rw [hanc, if_pos rfl]
    refine ⟨artInv_back hA.inv hL.range.1 hL.range.2 hy (by omega)
      (dfsLoop_mem hL), hA.kids, hA.root_sep, ⟨done ++ [y], by simp [hdone], ?_⟩, ?_,
      hA.old_entry, hA.old_closed, ?_⟩
    · intro w hw hwp
      rw [hanv]
      rcases List.mem_append.mp hw with h | h
      · have := hsc w h hwp
        omega
      · simp at h; rw [h]
    · intro x hx hx0 hxv w hw
      rw [hanv]
      have := hA.bound_below x hx hx0 hxv w hw
      omega
    · intro u hu
      have huv : u ≠ v := by
        intro h; rw [h, hL.frame.undisc_start] at hu; cases hu
      refine ⟨?_, (hA.frame u hu).2⟩
      rw [hanc, if_neg huv]
      exact (hA.frame u hu).1
  · rw [if_neg hlt]
    refine ⟨a, rfl, hA.inv, hA.kids, hA.root_sep, ⟨done ++ [y], by simp [hdone], ?_⟩,
      hA.bound_below, hA.old_entry, hA.old_closed, hA.frame⟩
    intro w hw hwp
    rcases List.mem_append.mp hw with h | h
    · exact hsc w h hwp
    · simp at h; rw [h]; omega

theorem artLoop_skip {g : Graph} (hsym : ∀ a b, g.Adj a b → g.Adj b a) {start k v : Nat}
    {d0 d : TraversalData} {y : Nat} {ys : List Nat} (hL : DfsLoop g k v d0 (y :: ys) d)
    (hc : d.proc y = true ∨ d.par v = y) {a0 a : CutState}
    (hA : ArtLoop g start v d0 a0 (y :: ys) d a) : ArtLoop g start v d0 a0 ys d a := by
  obtain ⟨done, hdone, hsc⟩ := hA.bound_self
  refine ⟨hA.inv, hA.kids, hA.root_sep, ⟨done ++ [y], by simp [hdone], ?_⟩,
    hA.bound_below, hA.old_entry, hA.old_closed, hA.frame⟩
  intro w hw hwp
  rcases List.mem_append.mp hw with h | h
  · exact hsc w h hwp
  · simp at h
    rw [h] at hwp ⊢
    have hpy : d.proc y = true := by
      rcases hc with h1 | h1
      · exact h1
      · exact absurd h1.symm hwp
    have hdy := hL.inv.proc_disc y hpy
    have hav := artInv_anc_le hA.inv hL.gray_self
    cases h0 : d0.disc y
    · have := anc_entry_le hL.inv (hL.frame.fresh_below y hdy h0) hdy
      omega
    · have h1 := (hL.frame.keep y h0).2.1
      rw [hpy] at h1
      have := hA.old_closed y h1.symm v (hsym _ _ (dfsLoop_mem hL))
      rw [hL.frame.undisc_start] at this
      cases this

theorem artHooks_pe_tree {g : Graph} (hg : g.Dense) {k v : Nat} {d0 d : TraversalData}
    {y : Nat} {ys : List Nat} (hL : DfsLoop g k v d0 (y :: ys) d) (a : CutState) :
    articulationHooks.pe v y (d.setParent y v) a =
      .ok { a with outDegree := a.outDegree.set v (a.deg v + 1) } := by
  unfold articulationHooks CutState.deg
  dsimp only
  rw [classification_tree hg hL]
  simp

theorem artPre_tree {g : Graph} (hg : g.Dense) {start k v : Nat} {d0 d : TraversalData}
    {y : Nat} {ys : List Nat} (hL : DfsLoop g k v d0 (y :: ys) d) (hy : d.disc y = false)
    {a0 a : CutState} (hA : ArtLoop g start v d0 a0 (y :: ys) d a) :
    ArtInv g start (d.setParent y v) { a with outDegree := a.outDegree.set v (a.deg v + 1) } ∧
      g.Reach start y := by
  have hmem := dfsLoop_mem hL
  have hyr := hg.adj_range v y hmem
  have hs := hL.inv.sized
  have hpar : ∀ u, (d.setParent y v).par u = if u = y then v else d.par u :=
    fun u => par_setParent hs y v hyr.2 u
  have hpar2 : ∀ u, d.disc u = true → (d.setParent y v).par u = d.par u := by
    intro u hu
    have : u ≠ y := by intro h; rw [h, hy] at hu; cases hu
    rw [hpar, if_neg this]
  have hdeg := deg_set hA.inv.deg_len v (a.deg v + 1) hL.range.2
  have hI := hA.inv
  refine ⟨⟨hI.anc_len, ?_, hI.zero_disc, hI.zero_entry, hI.zero_anc, hI.reach, hI.sound, ?_, ?_,
    hI.anc_gray, hI.anc_reach⟩, ?_⟩
  · show (a.outDegree.set v (a.deg v + 1)).length = _
    rw [List.length_set]; exact hI.deg_len
  · intro c hc h1 h2
    have hc2 : d.proc c = true := hc
    have hdc := hL.inv.proc_disc c hc2
    rw [hpar2 c hdc] at h1 h2 ⊢
    have hdp := (hL.inv.par_entry c hdc h1).1
    rw [hpar2 _ hdp] at h2 ⊢
    exact hI.complete c hc2 h1 h2
  · intro w hw hdw
    have hdw2 : d.disc w = false := hdw
    have : w ≠ v := by
      intro h; rw [h, hL.gray_self.1] at hdw2; cases hdw2
    rw [hdeg, if_neg this]
    exact hI.deg_fresh w hw hdw2
  · exact reach_trans (hI.reach v hL.gray_self.1) (reach_adj hmem)

theorem artLoop_tree {g : Graph} (hg : g.Dense) (hsym : ∀ a b, g.Adj a b → g.Adj b a)
    {start k v : Nat} {d0 d d2 : TraversalData} {y : Nat} {ys : List Nat}
    (hL : DfsLoop g k v d0 (y :: ys) d) (hy : d.disc y = false)
    (hPost : DfsPost g y (d.setParent y v) d2) {a0 a a2 : CutState}
    (hA : ArtLoop g start v d0 a0 (y :: ys) d a)
    (hQ : ArtPost g start y (d.setParent y v)
      { a with outDegree := a.outDegree.set v (a.deg v + 1) } d2 a2) :
    ArtLoop g start v d0 a0 ys d2 a2 := by
  have hL2 := dfsLoop_tree hg hL hy hPost
  have hmem := dfsLoop_mem hL
  have hyr := hg.adj_range v y hmem
  have hs := hL.inv.sized
  have hv1 := hL.range.1
  have hparP : (d.setParent y v).par y = v := by
    rw [par_setParent hs y v hyr.2]; simp
  have hpar2 : ∀ u, d.disc u = true → (d.setParent y v).par u = d.par u := by
    intro u hu
    have : u ≠ y := by intro h; rw [h, hy] at hu; cases hu
    rw [par_setParent hs y v hyr.2, if_neg this]
  have hkeep : ∀ u, d.disc u = true → d2.disc u = true ∧ d2.proc u = d.proc u ∧
      d2.entry u = d.entry u ∧ d2.par u = d.par u := by
    intro u hu
    obtain ⟨h1, h2, h3, h4⟩ := hPost.frame.keep u hu
    exact ⟨h1, h2, h3, by rw [h4, hpar2 u hu]⟩
  have hp2y : d2.par y = v := by rw [hPost.frame.keep_par, hparP]
  have hvy : d2.entry v < d2.entry y := by
    have := (hPost.inv.par_entry y hPost.done_self (by rw [hp2y]; omega)).2
    rw [hp2y] at this
    exact this
  have hnewEntry : ∀ x, d2.disc x = true → d.disc x = false → d2.entry y ≤ d2.entry x :=
    fun x hx hx0 => anc_entry_le hPost.inv (hPost.frame.fresh_below x hx hx0) hx
  have hdeg := deg_set hA.inv.deg_len v (a.deg v + 1) hL.range.2
  have hdv := hL.gray_self.1
  have hav2 := artInv_anc_le hQ.inv hL2.gray_self
  obtain ⟨hple1, hple2⟩ := hQ.par_le (by rw [hparP]; omega)
  rw [hparP] at hple1 hple2
  have ha1 : CutState.anc { a with outDegree := a.outDegree.set v (a.deg v + 1) } v = a.anc v := rfl
  rw [ha1] at hple2
  have hancd : d.disc (a.anc v) = true := by
    rcases hA.inv.anc_gray v hL.gray_self with h | h
    · rw [h]; exact hdv
    · exact h.1.1
  have hple3 : d2.entry (a2.anc v) ≤ d.entry (a.anc v) := by
    rw [← (hkeep _ hancd).2.2.1]; exact hple2
  obtain ⟨cs, hnd, hlen, hcs⟩ := hA.kids
  obtain ⟨done, hdone, hsc⟩ := hA.bound_self
  obtain ⟨done2, hdone2, hdisc2⟩ := hL.scanned
  have hdd : done2 = done := List.append_cancel_right (hdone2.symm.trans hdone)
  subst hdd
  -- a vertex discovered by the call on `y`, other than `y`, is not a child of `v`
  have hnewpar : ∀ c, d2.disc c = true → d.disc c = false → d2.par c = v → c = y := by
    intro c hc hc0 hpc
    by_contra hcy
    have hanc := hPost.frame.fresh_below c hc hc0
    rw [anc_iff_eq_or_panc] at hanc
    rcases hanc with h | h
    · exact hcy h.symm
    · have := ((panc_iff_parent d2 y c).mp h).2
      rw [hpc] at this
      have := anc_entry_le hPost.inv this (hkeep v hdv).1
      omega
  have hkids2 : ∀ c, c ∈ y :: cs ↔ d2.disc c = true ∧ d2.par c = v := by
    intro c
    rw [List.mem_cons, hcs]
    constructor
    · rintro (h | ⟨h1, h2⟩)
      · rw [h]; exact ⟨hPost.done_self, hp2y⟩
      · exact ⟨(hkeep c h1).1, by rw [(hkeep c h1).2.2.2, h2]⟩
    · rintro ⟨h1, h2⟩
      cases hc0 : d.disc c
      · exact Or.inl (hnewpar c h1 hc0 h2)
      · exact Or.inr ⟨rfl, by rw [← (hkeep c hc0).2.2.2, h2]⟩
  refine ⟨hQ.inv, ⟨y :: cs, ?_, ?_, hkids2⟩, ?_, ⟨done2 ++ [y], by simp [hdone], ?_⟩, ?_, ?_,
    hA.old_closed, ?_⟩
  · rw [List.nodup_cons]
    refine ⟨?_, hnd⟩
    intro h
    have := ((hcs y).mp h).1
    rw [hy] at this; cases this
  · rw [List.length_cons, hlen, (hQ.frame v hdv).1, hdeg, if_pos rfl]
  · -- the children of a root are separated by it
    intro hroot c1 c2 h1 h2 h3 h4 hne
    have hroot0 : d.par v = 0 := by rw [← (hkeep v hdv).2.2.2]; exact hroot
    have hclosed : ∀ x, (d2.disc x = true ∧ d.disc x = false) → ∀ w ∈ g.adj x, w ≠ v →
        (d2.disc w = true ∧ d.disc w = false) := by
      rintro x ⟨hx, hx0⟩ w hw hwv
      have hpx := hPost.new_done x hx hx0
      refine ⟨hPost.inv.proc_closed x hpx w hw, ?_⟩
      cases hw0 : d.disc w
      · rfl
      · exfalso
        cases hpw : d.proc w
        · have hanc := (hL.gray_anc w).mp ⟨hw0, hpw⟩
          rw [anc_iff_eq_or_panc] at hanc
          rcases hanc with h | h
          · exact hwv h
          · exact ((panc_iff_parent d w v).mp h).1 hroot0
        · have := hL.inv.proc_closed w hpw x (hsym _ _ hw)
          rw [hx0] at this; cases this
    have hsep : ∀ c, d.disc c = true → ¬ g.ReachAvoiding v y c := by
      intro c hc hra
      have := ra_closed _ hclosed hra ⟨hPost.done_self, hy⟩
      rw [hc] at this
      cases this.2
    have m1 := List.mem_cons.mp ((hkids2 c1).mpr ⟨h1, h2⟩)
    have m2 := List.mem_cons.mp ((hkids2 c2).mpr ⟨h3, h4⟩)
    rcases m1 with hc1 | hc1
    · rcases m2 with hc2 | hc2
      · exact absurd (hc1.trans hc2.symm) hne
      · rw [hc1]
        exact hsep c2 ((hcs c2).mp hc2).1
    · rcases m2 with hc2 | hc2
      · rw [hc2]
        intro hra
        exact hsep c1 ((hcs c1).mp hc1).1 (ra_symm hsym hra)
      · obtain ⟨h5, h6⟩ := (hcs c1).mp hc1
        obtain ⟨h7, h8⟩ := (hcs c2).mp hc2
        exact hA.root_sep hroot0 c1 c2 h5 h6 h7 h8 hne
  · intro w hw hwp
    rcases List.mem_append.mp hw with h | h
    · have hdw := hdisc2 w h
      rw [(hkeep v hdv).2.2.2] at hwp
      have := hsc w h hwp
      rw [(hkeep w hdw).2.2.1]
      omega
    · simp at h
      rw [h]
      omega
  · intro x hx hx0 hxv w hw
    cases hxd : d.disc x
    · by_cases hxy : x = y ∧ w = (d.setParent y v).par y
      · rw [hxy.2, hparP]; exact hav2
      · have := hQ.bound x hx hxd w hw hxy
        omega
    · have hpx : d.proc x = true := by
        rcases hL.new_done x hxd hx0 with h | h
        · exact absurd h hxv
        · exact h
      have hdw := hL.inv.proc_closed x hpx w hw
      have := hA.bound_below x hxd hx0 hxv w hw
      rw [(hkeep w hdw).2.2.1]
      omega
  · intro u hu
    have hdu := (hL.frame.keep u hu).1
    rw [(hkeep u hdu).2.2.1, (hkeep v hdv).2.2.1]
    exact hA.old_entry u hu
  · intro u hu
    have hdu := (hL.frame.keep u hu).1
    have huv : u ≠ v := by
      intro h; rw [h, hL.frame.undisc_start] at hu; cases hu
    obtain ⟨h1, h2⟩ := hQ.frame u hdu
    rw [h2 (by rw [hparP]; exact huv), h1]
    have h3 : CutState.deg { a with outDegree := a.outDegree.set v (a.deg v + 1) } u =
        a.deg u := by
      rw [hdeg, if_neg huv]
    rw [h3]
    exact hA.frame u hu

/-- The two ways the `pvl` hook of `ArticulationVertices` goes: a root with more
than one child becomes a key and nothing else happens; otherwise the parent and
`v` become keys as the three tests say, and `ancestor` of the parent is lowered
to `ancestor[v]` when that is older. -/
theorem artHooks_pvl_cases (v : Nat) (data : TraversalData) (a : CutState) :
    (data.par v = 0 ∧ a.deg v > 1 ∧ articulationHooks.pvl v data a =
        .ok { a with cutNodes := mapSet a.cutNodes v "root" }) ∨
    (¬ (data.par v = 0 ∧ a.deg v > 1) ∧ ∃ m : List (Nat × String),
      (∀ j, j ∈ m.map Prod.fst ↔ j ∈ a.keys ∨ (data.par (data.par v) ≠ 0 ∧
        (((a.anc v = data.par v ∨ a.anc v = v) ∧ j = data.par v) ∨
          (a.anc v ≠ data.par v ∧ a.anc v = v ∧ a.deg v > 0 ∧ j = v)))) ∧
      articulationHooks.pvl v data a =
        .ok (if data.entry (a.anc v) < data.entry (a.anc (data.par v)) then
            { cutNodes := m, ancestor := a.ancestor.set (data.par v) (a.anc v),
              outDegree := a.outDegree }
          else { cutNodes := m, ancestor := a.ancestor, outDegree := a.outDegree })) := by
  unfold articulationHooks CutState.anc CutState.deg CutState.keys
  dsimp only
  by_cases hR : data.par v = 0 ∧ a.outDegree.getD v 0 > 1
  · left
    rw [if_pos hR]
    exact ⟨hR.1, hR.2, rfl⟩
  · right
    rw [if_neg hR]
    refine ⟨hR, ?_⟩
    by_cases hroot : data.par (data.par v) = 0
    · refine ⟨a.cutNodes, ?_, ?_⟩
      · intro j
        constructor
        · intro h; exact Or.inl h
        · rintro (h | ⟨h, _⟩)
          · exact h
          · exact absurd hroot h
      · simp only [hroot, decide_True, Bool.true_eq_false, if_false]
        split_ifs <;> rfl
    · by_cases h1 : a.ancestor.getD v 0 = data.par v
      · refine ⟨mapSet a.cutNodes (data.par v) "parent", ?_, ?_⟩
        · intro j
          rw [mem_keys_mapSet]
          constructor
          · rintro (h | h)
            · exact Or.inr ⟨hroot, Or.inl ⟨Or.inl h1, h⟩⟩
            · exact Or.inl h
          · rintro (h | ⟨_, ⟨_, h⟩ | ⟨h2, _⟩⟩)
            · exact Or.inr h
            · exact Or.inl h
            · exact absurd h1 h2
        · simp only [hroot, decide_False, if_true, if_pos h1]
          split_ifs <;> rfl
      · by_cases h2 : a.ancestor.getD v 0 = v
        · by_cases h3 : a.outDegree.getD v 0 > 0
          · refine ⟨mapSet (mapSet a.cutNodes (data.par v) "bridge") v "bridge", ?_, ?_⟩
            · intro j
              rw [mem_keys_mapSet, mem_keys_mapSet]
              constructor
              · rintro (h | h | h)
                · exact Or.inr ⟨hroot, Or.inr ⟨h1, h2, h3, h⟩⟩
                · exact Or.inr ⟨hroot, Or.inl ⟨Or.inr h2, h⟩⟩
                · exact Or.inl h
              · rintro (h | ⟨_, ⟨_, h⟩ | ⟨_, _, _, h⟩⟩)
                · exact Or.inr (Or.inr h)
                · exact Or.inr (Or.inl h)
                · exact Or.inl h
            · simp only [hroot, decide_False, if_true, if_neg h1, if_pos h2, if_pos h3]
              split_ifs <;> rfl
          · refine ⟨mapSet a.cutNodes (data.par v) "bridge", ?_, ?_⟩
            · intro j
              rw [mem_keys_mapSet]
              constructor
              · rintro (h | h)
                · exact Or.inr ⟨hroot, Or.inl ⟨Or.inr h2, h⟩⟩
                · exact Or.inl h
              · rintro (h | ⟨_, ⟨_, h⟩ | ⟨_, _, h4, _⟩⟩)
                · exact Or.inr h
                · exact Or.inl h
                · exact absurd h4 h3
            · simp only [hroot, decide_False, if_true, if_neg h1, if_pos h2, if_neg h3]
              split_ifs <;> rfl
        · refine ⟨a.cutNodes, ?_, ?_⟩
          · intro j
            constructor
            · intro h; exact Or.inl h
            · rintro (h | ⟨_, ⟨h3 | h3, _⟩ | ⟨_, h3, _⟩⟩)
              · exact h
              · exact absurd h3 h1
              · exact absurd h3 h2
              · exact absurd h3 h2
          · simp only [hroot, decide_False, if_true, if_neg h1, if_neg h2]
            split_ifs <;> rfl

/-- A vertex of the recursion stack other than the current vertex was
discovered before the call on the current vertex began. -/
theorem dfsLoop_gray_old {g : Graph} {k v : Nat} {d0 d : TraversalData} {ys : List Nat}
    (hL : DfsLoop g k v d0 ys d) {u : Nat} (hu : d.gray u) (huv : u ≠ v) :
    d0.disc u = true := by
  cases h : d0.disc u
  · rcases hL.new_done u hu.1 h with h1 | h1
    · exact absurd h1 huv
    · rw [hu.2] at h1; cases h1
  · rfl

/-- The grandparent of the current vertex, when there is one, is on the
recursion stack, older than the parent, and was discovered before the call. -/
theorem dfsLoop_grandparent {g : Graph} {k v : Nat} {d0 d : TraversalData} {ys : List Nat}
    (hL : DfsLoop g k v d0 ys d) (h0 : d.par v ≠ 0) (h1 : d.par (d.par v) ≠ 0) :
    d.gray (d.par (d.par v)) ∧ d.entry (d.par (d.par v)) < d.entry (d.par v) ∧
      d0.disc (d.par (d.par v)) = true := by
  obtain ⟨hgp, hlt, hne, _⟩ := dfsLoop_parent hL h0
  have hpv : d.Anc (d.par v) v :=
    (anc_iff_eq_or_panc d _ v).mpr (Or.inr ((panc_iff_parent d _ v).mpr
      ⟨h0, Relation.ReflTransGen.refl⟩))
  have hqp : d.Anc (d.par (d.par v)) (d.par v) :=
    (anc_iff_eq_or_panc d _ _).mpr (Or.inr ((panc_iff_parent d _ _).mpr
      ⟨h1, Relation.ReflTransGen.refl⟩))
  have hgq := (hL.gray_anc _).mpr (Relation.ReflTransGen.trans hqp hpv)
  have hlt2 := (hL.inv.par_entry _ hgp.1 h1).2
  refine ⟨hgq, hlt2, dfsLoop_gray_old hL hgq ?_⟩
  intro h
  rw [h] at hlt2
  omega

/-- An edge from a vertex discovered by the call on `v` to a vertex discovered
before it leads to a vertex of the recursion stack. -/
theorem artLoop_old_target {g : Graph} (hsym : ∀ a b, g.Adj a b → g.Adj b a)
    {start k v : Nat} {d0 d : TraversalData} {a0 a : CutState} {ys : List Nat}
    (hL : DfsLoop g k v d0 ys d) (hA : ArtLoop g start v d0 a0 ys d a) {x w : Nat}
    (hx0 : d0.disc x = false) (hw : w ∈ g.adj x) (hw0 : d0.disc w = true) :
    d.gray w ∧ w ≠ v := by
  have hdw := (hL.frame.keep w hw0).1
  have hwv : w ≠ v := by
    intro h; rw [h, hL.frame.undisc_start] at hw0; cases hw0
  refine ⟨⟨hdw, ?_⟩, hwv⟩
  cases hp : d.proc w
  · rfl
  · have h1 := (hL.frame.keep w hw0).2.1
    rw [hp] at h1
    have := hA.old_closed w h1.symm x (hsym _ _ hw)
    rw [hx0] at this
    cases this

theorem art_cut_parent {g : Graph} (hsym : ∀ a b, g.Adj a b → g.Adj b a)
    {start k v : Nat} {d0 d : TraversalData} {a0 a : CutState}
    (hL : DfsLoop g k v d0 [] d) (hA : ArtLoop g start v d0 a0 [] d a)
    (h0 : d.par v ≠ 0) (h1 : d.par (d.par v) ≠ 0)
    (hanc : a.anc v = d.par v ∨ a.anc v = v) : g.IsCutVertex start (d.par v) := by
  obtain ⟨hgp, hlt, hne, hp0⟩ := dfsLoop_parent hL h0
  obtain ⟨hgq, hlt2, hq0⟩ := dfsLoop_grandparent hL h0 h1
  obtain ⟨done, hdone, hsc⟩ := hA.bound_self
  rw [List.append_nil] at hdone
  obtain ⟨done2, hdone2, hdisc2⟩ := hL.scanned
  rw [List.append_nil] at hdone2
  have hple : d.entry (d.par v) ≤ d.entry (a.anc v) := by
    rcases hanc with h | h
    · rw [h]
    · rw [h]; omega
  have hclosed : ∀ x, (d.disc x = true ∧ d0.disc x = false) → ∀ w ∈ g.adj x, w ≠ d.par v →
      (d.disc w = true ∧ d0.disc w = false) := by
    rintro x ⟨hx, hx0⟩ w hw hwp
    have hdw : d.disc w = true := by
      by_cases hxv : x = v
      · rw [hxv, hdone2] at hw
        exact hdisc2 w hw
      · rcases hL.new_done x hx hx0 with h | h
        · exact absurd h hxv
        · exact hL.inv.proc_closed x h w hw
    refine ⟨hdw, ?_⟩
    cases hw0 : d0.disc w
    · rfl
    · exfalso
      obtain ⟨hgw, hwv⟩ := artLoop_old_target hsym hL hA hx0 hw hw0
      have hb : d.entry (a.anc v) ≤ d.entry w := by
        by_cases hxv : x = v
        · rw [hxv, hdone] at hw
          exact hsc w hw hwp
        · exact hA.bound_below x hx hx0 hxv w hw
      have hanc2 := (hL.gray_anc w).mp hgw
      rw [anc_iff_eq_or_panc] at hanc2
      rcases hanc2 with h | h
      · exact hwv h
      · have h2 := ((panc_iff_parent d w v).mp h).2
        have h3 := anc_entry_le hL.inv h2 hgp.1
        exact hwp (hL.inv.entry_inj w _ hdw hgp.1 (by omega))
  refine ⟨hA.inv.reach _ hgp.1, v, d.par (d.par v), hA.inv.reach v hL.gray_self.1,
    hA.inv.reach _ hgq.1, Ne.symm hne, ?_, ?_⟩
  · intro h; rw [h] at hlt2; omega
  · intro hra
    have := ra_closed _ hclosed hra ⟨hL.gray_self.1, hL.frame.undisc_start⟩
    rw [hq0] at this
    cases this.2

theorem art_cut_self {g : Graph} {start k v : Nat} {d0 d : TraversalData} {a0 a : CutState}
    (hL : DfsLoop g k v d0 [] d) (hA : ArtLoop g start v d0 a0 [] d a)
    (h0 : d.par v ≠ 0) (hanc : a.anc v = v) (hdeg : a.deg v > 0) :
    g.IsCutVertex start v := by
  obtain ⟨hgp, hlt, hne, hp0⟩ := dfsLoop_parent hL h0
  obtain ⟨cs, hnd, hlen, hcs⟩ := hA.kids
  have hclosed : ∀ x, (d.disc x = true ∧ d0.disc x = false ∧ x ≠ v) → ∀ w ∈ g.adj x, w ≠ v →
      (d.disc w = true ∧ d0.disc w = false ∧ w ≠ v) := by
    rintro x ⟨hx, hx0, hxv⟩ w hw hwv
    have hpx : d.proc x = true := by
      rcases hL.new_done x hx hx0 with h | h
      · exact absurd h hxv
      · exact h
    refine ⟨hL.inv.proc_closed x hpx w hw, ?_, hwv⟩
    cases hw0 : d0.disc w
    · rfl
    · exfalso
      have := hA.bound_below x hx hx0 hxv w hw
      rw [hanc] at this
      have := hA.old_entry w hw0
      omega
  obtain ⟨c, hc⟩ : ∃ c, c ∈ cs := by
    cases cs with
    | nil => simp at hlen; omega
    | cons c t => exact ⟨c, List.mem_cons_self _ _⟩
  obtain ⟨hdc, hpc⟩ := (hcs c).mp hc
  have hvc : d.entry v < d.entry c := by
    have := (hL.inv.par_entry c hdc (by rw [hpc]; have := hL.range.1; omega)).2
    rw [hpc] at this
    exact this
  have hcv : c ≠ v := by
    intro h; rw [h] at hvc; omega
  have hc0 : d0.disc c = false := by
    cases h : d0.disc c
    · rfl
    · have := hA.old_entry c h
      omega
  refine ⟨hA.inv.reach v hL.gray_self.1, c, d.par v, hA.inv.reach c hdc,
    hA.inv.reach _ hgp.1, hcv, hne, ?_⟩
  intro hra
  have := ra_closed _ hclosed hra ⟨hdc, hc0, hcv⟩
  rw [hp0] at this
  cases this.2.1

theorem art_cut_root {g : Graph} {start k v : Nat} {d0 d : TraversalData} {a0 a : CutState}
    (hL : DfsLoop g k v d0 [] d) (hA : ArtLoop g start v d0 a0 [] d a)
    (h0 : d.par v = 0) (hdeg : a.deg v > 1) : g.IsCutVertex start v := by
  obtain ⟨cs, hnd, hlen, hcs⟩ := hA.kids
  obtain ⟨c1, c2, hc1, hc2, hne⟩ := two_of_nodup hnd (by omega)
  obtain ⟨h1, h2⟩ := (hcs c1).mp hc1
  obtain ⟨h3, h4⟩ := (hcs c2).mp hc2
  have hv1 := hL.range.1
  refine ⟨hA.inv.reach v hL.gray_self.1, c1, c2, hA.inv.reach c1 h1, hA.inv.reach c2 h3, ?_, ?_,
    hA.root_sep h0 c1 c2 h1 h2 h3 h4 hne⟩
  · intro h; rw [h, h0] at h2; omega
  · intro h; rw [h, h0] at h4; omega

theorem art_escape {g : Graph} {start k v : Nat} {d0 d : TraversalData} {a0 a : CutState}
    (hL : DfsLoop g k v d0 [] d) (hA : ArtLoop g start v d0 a0 [] d a)
    (h0 : d.par v ≠ 0) (h1 : d.par (d.par v) ≠ 0) (hne1 : a.anc v ≠ d.par v)
    (hne2 : a.anc v ≠ v) : g.ReachAvoiding (d.par v) v (d.par (d.par v)) := by
  obtain ⟨hgp, hlt, hne, hp0⟩ := dfsLoop_parent hL h0
  obtain ⟨hgq, hlt2, hq0⟩ := dfsLoop_grandparent hL h0 h1
  rcases hA.inv.anc_gray v hL.gray_self with h | ⟨hgz, hzlt⟩
  · exact absurd h hne2
  have hr1 := hA.inv.anc_reach v hL.gray_self (d.par v) hlt (Ne.symm hne1)
  have hanc := (hL.gray_anc _).mp hgz
  rw [anc_iff_eq_or_panc] at hanc
  rcases hanc with h | h
  · exact absurd h hne2
  have h2 := ((panc_iff_parent d _ v).mp h).2
  rw [anc_iff_eq_or_panc] at h2
  rcases h2 with h3 | h3
  · exact absurd h3 hne1
  have h4 := ((panc_iff_parent d _ _).mp h3).2
  exact ra_trans hr1 (anc_ra hL.inv h4 hgq.1 (Or.inr hlt2))

/-- The postcondition of a call from what the `pvl` hook did to the captured
variables: it added only cut vertices to the keys, among them the parent of `v`
unless `v` reaches its grandparent avoiding the parent, and it lowered
`ancestor` of the parent to `ancestor[v]` exactly when that is older. -/
theorem artPost_of {g : Graph} {start k v : Nat} {d0 d : TraversalData} {a0 a a2 : CutState}
    (hL : DfsLoop g k v d0 [] d) (hA : ArtLoop g start v d0 a0 [] d a)
    (hlen : a2.ancestor.length = g.nVertices + 1) (hdeg : a2.outDegree = a.outDegree)
    (hmono : ∀ j ∈ a.keys, j ∈ a2.keys)
    (hsound : ∀ j ∈ a2.keys, j ∈ a.keys ∨ g.IsCutVertex start j)
    (hcomp : d.par v ≠ 0 → d.par (d.par v) ≠ 0 →
      d.par v ∈ a2.keys ∨ g.ReachAvoiding (d.par v) v (d.par (d.par v)))
    (hanc : ((∀ u, a2.anc u = a.anc u) ∧
        (d.par v ≠ 0 → ¬ d.entry (a.anc v) < d.entry (a.anc (d.par v)))) ∨
      (d.par v ≠ 0 ∧ d.entry (a.anc v) < d.entry (a.anc (d.par v)) ∧
        ∀ u, a2.anc u = if u = d.par v then a.anc v else a.anc u))
    (hroot : d.par v = 0 → v ∈ a2.keys ∨ a.deg v ≤ 1) :
    ArtPost g start v d0 a0 ((d.markProcessed v).stampExit v) a2 := by
  have inv := hL.inv
  have hs := inv.sized
  have hvn := hL.range.2
  have hv1 := hL.range.1
  have hv := hL.gray_self
  have hI := hA.inv
  have hd : ∀ u, ((d.markProcessed v).stampExit v).disc u = d.disc u := by intro u; simp
  have he : ∀ u, ((d.markProcessed v).stampExit v).entry u = d.entry u := by intro u; simp
  have hpr : ∀ u, ((d.markProcessed v).stampExit v).par u = d.par u := by intro u; simp
  have hp : ∀ u, ((d.markProcessed v).stampExit v).proc u = if u = v then true else d.proc u := by
    intro u; rw [proc_stampExit, proc_markProcessed hs v hvn]
  have hd2 : ((d.markProcessed v).stampExit v).disc = d.disc := funext hd
  have he2 : ((d.markProcessed v).stampExit v).entry = d.entry := funext he
  have hpr2 : ((d.markProcessed v).stampExit v).par = d.par := funext hpr
  have hgray : ∀ u, ((d.markProcessed v).stampExit v).gray u ↔ d.gray u ∧ u ≠ v := by
    intro u
    unfold TraversalData.gray
    rw [hd, hp]
    by_cases huv : u = v
    · simp [huv]
    · simp [huv]
  have hpar0 : d.par v = d0.par v := hL.frame.keep_par
  have hdeg2 : ∀ u, a2.deg u = a.deg u := by
    intro u; unfold CutState.deg; rw [hdeg]
  have hgle : ∀ u, d.gray u → d.entry u ≤ d.entry v :=
    fun u hu => anc_entry_le inv ((hL.gray_anc u).mp hu) hv.1
  have hav := artInv_anc_le hI hv
  -- `ancestor[v]` itself is not touched
  have hancv : a2.anc v = a.anc v := by
    rcases hanc with ⟨h, _⟩ | ⟨h0, _, h⟩
    · exact h v
    · rw [h, if_neg (Ne.symm (dfsLoop_parent hL h0).2.2.1)]
  obtain ⟨done, hdone, hsc⟩ := hA.bound_self
  rw [List.append_nil] at hdone
  refine ⟨⟨hlen, by rw [hdeg]; exact hI.deg_len, by rw [hd]; exact hI.zero_disc,
    by rw [he]; exact hI.zero_entry, ?_, by rw [hd2]; exact hI.reach, ?_, ?_, ?_, ?_, ?_⟩,
    ?_, ?_, ?_, ?_⟩
  · rcases hanc with ⟨h, _⟩ | ⟨h0, _, h⟩
    · rw [h]; exact hI.zero_anc
    · rw [h, if_neg (Ne.symm h0)]; exact hI.zero_anc
  · intro j hj
    rcases hsound j hj with h | h
    · exact hI.sound j h
    · exact h
  · intro c hc h1 h2
    rw [hpr2] at h1 h2 ⊢
    by_cases hcv : c = v
    · rw [hcv] at h1 h2 ⊢
      exact hcomp h1 h2
    · rw [hp, if_neg hcv] at hc
      rcases hI.complete c hc h1 h2 with h | h
      · exact Or.inl (hmono _ h)
      · exact Or.inr h
  · intro w hw hdw
    rw [hd] at hdw
    rw [hdeg2]
    exact hI.deg_fresh w hw hdw
  · intro u hu
    obtain ⟨hu1, hu2⟩ := (hgray u).mp hu
    rw [he2]
    have hold : a.anc u = u ∨ (((d.markProcessed v).stampExit v).gray (a.anc u) ∧
        d.entry (a.anc u) < d.entry u) := by
      rcases hI.anc_gray u hu1 with h | ⟨h1, h2⟩
      · exact Or.inl h
      · refine Or.inr ⟨(hgray _).mpr ⟨h1, ?_⟩, h2⟩
        intro h
        rw [h] at h2
        have := hgle u hu1
        omega
    rcases hanc with ⟨h, _⟩ | ⟨h0, hlt, h⟩
    · rw [h]; exact hold
    · rw [h]
      by_cases hup : u = d.par v
      · rw [if_pos hup]
        right
        obtain ⟨hgp, hplt, hne, _⟩ := dfsLoop_parent hL h0
        have hap := artInv_anc_le hI hgp
        rcases hI.anc_gray v hv with h3 | ⟨h3, h4⟩
        · rw [h3] at hlt; omega
        · refine ⟨(hgray _).mpr ⟨h3, ?_⟩, ?_⟩
          · intro h5; rw [h5] at h4; omega
          · rw [hup]; omega
      · rw [if_neg hup]; exact hold
  · intro u hu w hw hne
    obtain ⟨hu1, hu2⟩ := (hgray u).mp hu
    rw [he2] at hw
    rcases hanc with ⟨h, _⟩ | ⟨h0, hlt, h⟩
    · rw [h] at hne ⊢
      exact hI.anc_reach u hu1 w hw hne
    · rw [h] at hne ⊢
      by_cases hup : u = d.par v
      · rw [if_pos hup] at hne ⊢
        obtain ⟨hgp, hplt, hne2, _⟩ := dfsLoop_parent hL h0
        rw [hup] at hw ⊢
        have hstep : g.ReachAvoiding w (d.par v) v := by
          refine ra_step (inv.par_adj v h0) ?_ ?_
          · intro h5; rw [h5] at hw; omega
          · intro h5; rw [← h5] at hw; omega
        exact ra_trans hstep (hI.anc_reach v hv w (by omega) hne)
      · rw [if_neg hup] at hne ⊢
        exact hI.anc_reach u hu1 w hw hne
  · intro x hx hx0 y hy hxy
    rw [he2, hancv]
    rw [hd] at hx
    by_cases hxv : x = v
    · rw [hxv, hdone] at hy
      apply hsc y hy
      intro h
      exact hxy ⟨hxv, by rw [h, hpar0]⟩
    · exact hA.bound_below x hx hx0 hxv y hy
  · intro h0
    rw [← hpar0] at h0 ⊢
    obtain ⟨hgp, hplt, hne, hp0⟩ := dfsLoop_parent hL h0
    rw [he2, hancv, ← (hA.frame _ hp0).1]
    rcases hanc with ⟨h, h2⟩ | ⟨_, hlt, h⟩
    · rw [h]
      have := h2 h0
      exact ⟨by omega, le_refl _⟩
    · rw [h, if_pos rfl]
      exact ⟨le_refl _, by omega⟩
  · intro u hu
    refine ⟨by rw [hdeg2]; exact (hA.frame u hu).2, ?_⟩
    intro hup
    rw [← hpar0] at hup
    rcases hanc with ⟨h, _⟩ | ⟨_, _, h⟩
    · rw [h]; exact (hA.frame u hu).1
    · rw [h, if_neg hup]; exact (hA.frame u hu).1
  · intro h0
    rw [← hpar0] at h0
    rcases hroot h0 with h | h
    · exact Or.inl h
    · right
      intro c1 c2 h1 h2 h3 h4
      rw [hd] at h1 h3
      rw [hpr] at h2 h4
      obtain ⟨cs, hnd, hlen2, hcs⟩ := hA.kids
      have m1 := (hcs c1).mpr ⟨h1, h2⟩
      have m2 := (hcs c2).mpr ⟨h3, h4⟩
      match cs, hlen2, m1, m2 with
      | [c], _, m1, m2 =>
        rw [List.mem_singleton] at m1 m2
        rw [m1, m2]
      | _ :: _ :: _, hlen2, _, _ =>
        simp at hlen2
        omega

theorem artPost_exit {g : Graph} (hsym : ∀ a b, g.Adj a b → g.Adj b a)
    {start k v : Nat} {d0 d : TraversalData} {a0 a : CutState}
    (hL : DfsLoop g k v d0 [] d) (hA : ArtLoop g start v d0 a0 [] d a) :
    ∃ a2, articulationHooks.pvl v (d.markProcessed v) a = .ok a2 ∧
      ArtPost g start v d0 a0 ((d.markProcessed v).stampExit v) a2 := by
  have hparM : (d.markProcessed v).par = d.par := by funext u; simp
  have hentM : (d.markProcessed v).entry = d.entry := by funext u; simp
  have hpar00 : d.par 0 = 0 := hL.fresh_par 0 hA.inv.zero_disc
  rcases artHooks_pvl_cases v (d.markProcessed v) a with ⟨h0, hdeg, hr⟩ | ⟨hR, m, hm, hr⟩
  · rw [hparM] at h0
    have hkeys : ∀ j, j ∈ CutState.keys { a with cutNodes := mapSet a.cutNodes v "root" } ↔
        j = v ∨ j ∈ a.keys := fun j => mem_keys_mapSet _ _ _ _
    refine ⟨_, hr, artPost_of hL hA hA.inv.anc_len rfl ?_ ?_ ?_
      (Or.inl ⟨fun _ => rfl, fun h => absurd h0 h⟩) (fun _ => Or.inl ?_)⟩
    · intro j hj
      exact (hkeys j).mpr (Or.inr hj)
    · intro j hj
      rcases (hkeys j).mp hj with h | h
      · rw [h]; exact Or.inr (art_cut_root hL hA h0 hdeg)
      · exact Or.inl h
    · intro h; exact absurd h0 h
    · exact (hkeys v).mpr (Or.inl rfl)
  · rw [hparM, hentM] at hr
    rw [hparM] at hm hR
    have hmono : ∀ j ∈ a.keys, j ∈ m.map Prod.fst := fun j hj => (hm j).mpr (Or.inl hj)
    have hsound : ∀ j ∈ m.map Prod.fst, j ∈ a.keys ∨ g.IsCutVertex start j := by
      intro j hj
      rcases (hm j).mp hj with h | ⟨hpp, ⟨hanc, hj2⟩ | ⟨_, hself, hdeg, hj2⟩⟩
      · exact Or.inl h
      · have h0 : d.par v ≠ 0 := by
          intro h; rw [h, hpar00] at hpp; exact hpp rfl
        rw [hj2]
        exact Or.inr (art_cut_parent hsym hL hA h0 hpp hanc)
      · have h0 : d.par v ≠ 0 := by
          intro h; rw [h, hpar00] at hpp; exact hpp rfl
        rw [hj2]
        exact Or.inr (art_cut_self hL hA h0 hself hdeg)
    have hcomp : d.par v ≠ 0 → d.par (d.par v) ≠ 0 →
        d.par v ∈ m.map Prod.fst ∨ g.ReachAvoiding (d.par v) v (d.par (d.par v)) := by
      intro h0 h1
      by_cases hanc : a.anc v = d.par v ∨ a.anc v = v
      · exact Or.inl ((hm _).mpr (Or.inr ⟨h1, Or.inl ⟨hanc, rfl⟩⟩))
      · exact Or.inr (art_escape hL hA h0 h1 (fun h => hanc (Or.inl h))
          (fun h => hanc (Or.inr h)))
    have hroot : d.par v = 0 → v ∈ m.map Prod.fst ∨ a.deg v ≤ 1 := by
      intro h0
      right
      by_contra h
      exact hR ⟨h0, by omega⟩
    by_cases hlt : d.entry (a.anc v) < d.entry (a.anc (d.par v))
    · rw [if_pos hlt] at hr
      have h0 : d.par v ≠ 0 := by
        intro h
        rw [h, hA.inv.zero_anc, hA.inv.zero_entry] at hlt
        omega
      have hpn := disc_le_of_sized hL.inv.sized (dfsLoop_parent hL h0).1.1
      refine ⟨_, hr, artPost_of hL hA ?_ rfl hmono hsound hcomp
        (Or.inr ⟨h0, hlt, anc_set hA.inv.anc_len _ _ hpn⟩) hroot⟩
      show (a.ancestor.set _ _).length = _
      rw [List.length_set]; exact hA.inv.anc_len
    · rw [if_neg hlt] at hr
      exact ⟨_, hr, artPost_of hL hA hA.inv.anc_len rfl hmono hsound hcomp
        (Or.inl ⟨fun _ => rfl, fun _ => hlt⟩) hroot⟩

theorem art_run (g : Graph) (hg : g.Dense) (hdir : g.directed = false)
    (hsym : ∀ a b, g.Adj a b → g.Adj b a) (start fuel v : Nat) (d : TraversalData)
    (a : CutState) (hP : DfsPre g fuel v d) (hA : ArtInv g start d a)
    (hrv : g.Reach start v) :
    (∀ e, depthFirstTraverseVertex g articulationHooks fuel v (d, a) = .error e → False) ∧
    (∀ d2 a2, depthFirstTraverseVertex g articulationHooks fuel v (d, a) = .ok (d2, a2) →
      DfsPost g v d d2 ∧ ArtPost g start v d a d2 a2) := by
  refine dfs_fresh_rule g hg articulationHooks
    (fun v s => ArtInv g start s.1 s.2 ∧ g.Reach start v)
    (fun v s0 s2 => ArtPost g start v s0.1 s0.2 s2.1 s2.2)
    (fun v s0 ys s => ArtLoop g start v s0.1 s0.2 ys s.1 s.2) (fun _ => False)
    ?_ ?_ ?_ ?_ ?_ fuel v d a hP ⟨hA, hrv⟩
  · intro k v d a hPre hA
    refine ⟨fun e he => (by simp [articulationHooks] at he), fun a1 ha1 => ?_⟩
    simp only [articulationHooks, Except.ok.injEq] at ha1
    subst ha1
    exact artLoop_enter hPre hA.1 hA.2
  · intro k v d0 a0 y ys d a hL hA hy
    have hpe := artHooks_pe_tree hg hL a
    refine ⟨fun e he => (by rw [hpe] at he; cases he), fun a1 ha1 => ?_⟩
    rw [hpe] at ha1
    cases ha1
    refine ⟨artPre_tree hg hL hy hA, ?_⟩
    intro d2 a2 hPost hQ
    exact artLoop_tree hg hsym hL hy hPost hA hQ
  · intro k v d0 a0 y ys d a hL hA hy hc
    rcases hc with hc | hc
    · rw [hdir] at hc; cases hc
    obtain ⟨a1, hpe, hA1⟩ := artLoop_seen hL ⟨hy, hc.1⟩ hc.2 hA
    refine ⟨fun e he => (by rw [hpe] at he; cases he), fun a1b ha1b => ?_⟩
    rw [hpe] at ha1b
    cases ha1b
    exact hA1
  · intro k v d0 a0 y ys d a hL hA _ hc
    refine artLoop_skip hsym hL ?_ hA
    cases hpy : d.proc y
    · right
      by_contra hne
      exact hc (Or.inr ⟨hpy, hne⟩)
    · exact Or.inl rfl
  · intro k v d0 a0 d a hL hA
    obtain ⟨a2, hpvl, hQ⟩ := artPost_exit hsym hL hA
    refine ⟨fun e he => (by rw [hpvl] at he; cases he), fun a1b ha1b => ?_⟩
    rw [hpvl] at ha1b
    cases ha1b
    exact hQ

theorem artInv_Init (g : Graph) (start : Nat) (d : TraversalData) :
    ArtInv g start (d.Init g)
      (CutState.mk [] (List.replicate (adjustSize g.nVertices) 0)
        (List.replicate (adjustSize g.nVertices) 0)) := by
  have hzero : ∀ w, (List.replicate (adjustSize g.nVertices) 0).getD w 0 = 0 := by
    intro w
    by_cases h : w < adjustSize g.nVertices
    · exact getD_replicate_self _ _ _
    · rw [List.getD_eq_default _ _ (by simp; omega)]
  refine ⟨by simp [adjustSize], by simp [adjustSize], by simp, by simp, hzero 0, ?_, ?_, ?_, ?_,
    ?_, ?_⟩
  · intro x hx; simp at hx
  · intro k hk; simp [CutState.keys] at hk
  · intro c hc; simp at hc
  · intro w _ _; exact hzero w
  · intro v hv; unfold TraversalData.gray at hv; simp at hv
  · intro v hv; unfold TraversalData.gray at hv; simp at hv

/-- A vertex other than the root whose children all reach its parent around
it is no cut vertex: every discovered vertex reaches the root around it. -/
theorem art_reach_root {g : Graph} (hsym : ∀ a b, g.Adj a b → g.Adj b a) {start : Nat}
    {d : TraversalData} (inv : DfsInv g d) (hbelow : ∀ w, d.disc w = true → d.Anc start w)
    {v : Nat} (hv : d.disc v = true) (hv0 : d.par v ≠ 0)
    (hcomp : ∀ c, d.disc c = true → d.par c = v → g.ReachAvoiding v c (d.par v)) :
    ∀ n w, d.entry w ≤ n → d.disc w = true → w ≠ v → g.ReachAvoiding v w start := by
  obtain ⟨hdp, hplt⟩ := inv.par_entry v hv hv0
  have hpv : d.par v ≠ v := by
    intro h; rw [h] at hplt; omega
  intro n
  induction n with
  | zero =>
    intro w hw hdw _
    have := (inv.entry_pos w hdw).1
    omega
  | succ n ih =>
    intro w hw hdw hwv
    have hanc := hbelow w hdw
    rw [anc_iff_eq_or_panc] at hanc
    rcases hanc with h | h
    · rw [h]; exact Relation.ReflTransGen.refl
    · have h0 := ((panc_iff_parent d start w).mp h).1
      obtain ⟨hdq, hqlt⟩ := inv.par_entry w hdw h0
      by_cases hq : d.par w = v
      · rw [hq] at hqlt
        exact ra_trans (hcomp w hdw hq) (ih _ (by omega) hdp hpv)
      · exact ra_trans (ra_step (hsym _ _ (inv.par_adj w h0)) hwv hq)
          (ih _ (by omega) hdq hq)

/-- Every discovered vertex other than the root reaches a child of the root
around the root. -/
theorem art_reach_child {g : Graph} (hsym : ∀ a b, g.Adj a b → g.Adj b a) {start : Nat}
    {d : TraversalData} (inv : DfsInv g d) (hbelow : ∀ w, d.disc w = true → d.Anc start w) :
    ∀ n w, d.entry w ≤ n → d.disc w = true → w ≠ start →
      ∃ c, d.disc c = true ∧ d.par c = start ∧ g.ReachAvoiding start w c := by
  intro n
  induction n with
  | zero =>
    intro w hw hdw _
    have := (inv.entry_pos w hdw).1
    omega
  | succ n ih =>
    intro w hw hdw hws
    have hanc := hbelow w hdw
    rw [anc_iff_eq_or_panc] at hanc
    rcases hanc with h | h
    · exact absurd h.symm hws
    · have h0 := ((panc_iff_parent d start w).mp h).1
      obtain ⟨hdq, hqlt⟩ := inv.par_entry w hdw h0
      by_cases hq : d.par w = start
      · exact ⟨w, hdw, hq, Relation.ReflTransGen.refl⟩
      · obtain ⟨c, h1, h2, h3⟩ := ih _ (by omega) hdq hq
        exact ⟨c, h1, h2, ra_trans (ra_step (hsym _ _ (inv.par_adj w h0)) hws hq) h3⟩

/-- What a run of `ArticulationVertices(start)` on an undirected graph with
dense ids returns: the final traversal data and captured variables satisfy the
postcondition of the call on `start`. -/
theorem art_total (g : Graph) (hg : g.Dense) (hdir : g.directed = false)
    (hsym : ∀ a b, g.Adj a b → g.Adj b a) (fuel : Nat) (hfuel : g.nVertices < fuel)
    (start : Nat) (hstart : 1 ≤ start ∧ start ≤ g.nVertices) :
    ∃ d2 a2, ArticulationVertices g fuel start = .ok a2.cutNodes ∧
      DfsPost g start (TraversalData.zero.Init g) d2 ∧
      ArtPost g start start (TraversalData.zero.Init g)
        (CutState.mk [] (List.replicate (adjustSize g.nVertices) 0)
          (List.replicate (adjustSize g.nVertices) 0)) d2 a2 := by
  have hI := dfsIdle_Init g TraversalData.zero
  obtain ⟨hE, hR⟩ := art_run g hg hdir hsym start fuel start (TraversalData.zero.Init g)
    (CutState.mk [] (List.replicate (adjustSize g.nVertices) 0)
      (List.replicate (adjustSize g.nVertices) 0))
    (dfsPre_root hI hstart (by simp) hfuel) (artInv_Init g start _) Relation.ReflTransGen.refl
  unfold ArticulationVertices DepthFirstTraversal
  have h0 : ¬ g.nVertices = 0 := by omega
  rw [if_neg h0]
  cases hr : depthFirstTraverseVertex g articulationHooks fuel start
      (TraversalData.zero.Init g,
        CutState.mk [] (List.replicate (adjustSize g.nVertices) 0)
          (List.replicate (adjustSize g.nVertices) 0)) with
  | error e => exact absurd (hE e hr) id
  | ok s =>
    obtain ⟨d2, a2⟩ := s
    obtain ⟨hPost, hQ⟩ := hR d2 a2 hr
    exact ⟨d2, a2, rfl, hPost, hQ⟩

/-- At the end of the run a discovered vertex that is no key is no cut
vertex: any two other discovered vertices are joined around it. -/
theorem art_not_key_joined {g : Graph} (hsym : ∀ a b, g.Adj a b → g.Adj b a)
    {start : Nat} {d0 d2 : TraversalData} {a0 a2 : CutState}
    (hd0 : ∀ u, d0.disc u = false) (hp0 : d0.par start = 0)
    (hno : ∀ u, d2.disc u = true → d2.proc u = true)
    (hPost : DfsPost g start d0 d2) (hQ : ArtPost g start start d0 a0 d2 a2)
    {v : Nat} (hv : d2.disc v = true) (hvk : v ∉ a2.keys) {a b : Nat}
    (ha : d2.disc a = true) (hb : d2.disc b = true) (hav : a ≠ v) (hbv : b ≠ v) :
    g.ReachAvoiding v a b := by
  have inv := hPost.inv
  have hbelow : ∀ w, d2.disc w = true → d2.Anc start w :=
    fun w hw => hPost.frame.fresh_below w hw (hd0 w)
  by_cases hvs : v = start
  · subst hvs
    rcases hQ.root_done hp0 with h | h
    · exact absurd h hvk
    · obtain ⟨c1, h1, h2, h3⟩ := art_reach_child hsym inv hbelow _ a (le_refl _) ha hav
      obtain ⟨c2, h4, h5, h6⟩ := art_reach_child hsym inv hbelow _ b (le_refl _) hb hbv
      have := h c1 c2 h1 h2 h4 h5
      rw [this] at h3
      exact ra_trans h3 (ra_symm hsym h6)
  · have hanc := hbelow v hv
    rw [anc_iff_eq_or_panc] at hanc
    rcases hanc with h | h
    · exact absurd h.symm hvs
    have hv0 := ((panc_iff_parent d2 start v).mp h).1
    have hvz : v ≠ 0 := by
      intro h0; rw [h0, hQ.inv.zero_disc] at hv; cases hv
    have hcomp : ∀ c, d2.disc c = true → d2.par c = v → g.ReachAvoiding v c (d2.par v) := by
      intro c hc hpc
      rcases hQ.inv.complete c (hno c hc) (by rw [hpc]; exact hvz) (by rw [hpc]; exact hv0)
        with h1 | h1
      · rw [hpc] at h1; exact absurd h1 hvk
      · rw [hpc] at h1; exact h1
    have h1 := art_reach_root hsym inv hbelow hv hv0 hcomp _ a (le_refl _) ha hav
    have h2 := art_reach_root hsym inv hbelow hv hv0 hcomp _ b (le_refl _) hb hbv
    exact ra_trans h1 (ra_symm hsym h2)

/-- C2: for every undirected graph built by `Init` from a pair list with ids
`1..n` and every start in `1..n`, `ArticulationVertices(start)` returns
normally, and the key set of the map it returns is exactly the set of cut
vertices of the connected component of start: `v` is a key if and only if `v`
is reachable from start and two vertices of that component, both different from
`v`, are connected only by paths through `v`.  (Pairs `(x, x)` and repeated
pairs do not change this and are allowed.) -/
theorem articulation_keys_iff_cut_vertices (pairs : List Nat) (n : Nat)
    (h : DenseIds pairs n) (fuel : Nat) (hfuel : n < fuel) (start : Nat)
    (hstart : 1 ≤ start ∧ start ≤ n) :
    ∃ m, ArticulationVertices (Graph.zero.Init false pairs) fuel start = .ok m ∧
      ∀ v, v ∈ m.map Prod.fst ↔ (Graph.zero.Init false pairs).IsCutVertex start v := by
  have hg := Init_dense Graph.zero false pairs n h
  have hn : (Graph.zero.Init false pairs).nVertices = n := by
    rw [Init_nVertices, denseIds_dedup_length h]
  have hsym := Init_adj_symm pairs n h
  obtain ⟨d2, a2, hr, hPost, hQ⟩ := art_total _ hg (Init_directed _ _ _) hsym fuel
    (by rw [hn]; exact hfuel) start (by rw [hn]; exact hstart)
  have hI := dfsIdle_Init (Graph.zero.Init false pairs) TraversalData.zero
  have hI2 := dfsIdle_post hI hPost
  have hdisc : ∀ u, d2.disc u = true ↔ (Graph.zero.Init false pairs).Reach start u := by
    intro u
    rw [dfs_post_disc_iff hI hPost u]
    simp
  refine ⟨a2.cutNodes, hr, fun v => ⟨fun hv => hQ.inv.sound v hv, ?_⟩⟩
  rintro ⟨hrv, a, b, hra, hrb, hav, hbv, hnot⟩
  by_contra hvk
  exact hnot (art_not_key_joined hsym (fun u => by simp) (by simp) hI2.no_gray hPost hQ
    ((hdisc v).mpr hrv) hvk ((hdisc a).mpr hra) ((hdisc b).mpr hrb) hav hbv)

theorem articulation_keys_iff_cut_vertices_witness :
    ∃ m, ArticulationVertices (Graph.zero.Init false [1, 2, 2, 3, 3, 1, 3, 4, 5, 6]) 7 1 =
        .ok m ∧
      ∀ v, v ∈ m.map Prod.fst ↔
        (Graph.zero.Init false [1, 2, 2, 3, 3, 1, 3, 4, 5, 6]).IsCutVertex 1 v :=
  articulation_keys_iff_cut_vertices [1, 2, 2, 3, 3, 1, 3, 4, 5, 6] 6 (by decide) 7 (by decide)
    1 (by decide)

/-- C23: for every directed graph built by `Init` from a pair list with ids
`1..n`, `StronglyConnectedComponents` returns normally, and the component ids
it returns number the condensation in reverse topological order: for every
edge `x -> y` of the graph, `scc[y] <= scc[x]`. -/
theorem scc_ids_reverse_topological (pairs : List Nat) (n : Nat) (h : DenseIds pairs n)
    (fuel : Nat) (hfuel : n < fuel) :
    ∃ count scc, StronglyConnectedComponents (Graph.zero.Init true pairs) fuel =
        .ok (count, scc) ∧
      ∀ x y, (Graph.zero.Init true pairs).Adj x y → scc.getD y 0 ≤ scc.getD x 0 := by
  have hg := Init_dense Graph.zero true pairs n h
  have hn : (Graph.zero.Init true pairs).nVertices = n := by
    rw [Init_nVertices, denseIds_dedup_length h]
  obtain ⟨d, a, hr, hS, hall⟩ := scc_total _ hg (Init_directed _ _ _) fuel
    (by rw [hn]; exact hfuel)
  refine ⟨a.componentCount, a.scc, hr, ?_⟩
  intro x y hxy
  obtain ⟨h1, h2⟩ := dense_source_range hg hxy
  exact (hS.closed x (hall x h1 h2) y hxy).2

theorem scc_ids_reverse_topological_witness :
    ∃ count scc, StronglyConnectedComponents
        (Graph.zero.Init true [1, 2, 2, 3, 3, 1, 3, 4, 4, 5, 5, 4]) 6 = .ok (count, scc) ∧
      ∀ x y, (Graph.zero.Init true [1, 2, 2, 3, 3, 1, 3, 4, 4, 5, 5, 4]).Adj x y →
        scc.getD y 0 ≤ scc.getD x 0 :=
  scc_ids_reverse_topological [1, 2, 2, 3, 3, 1, 3, 4, 4, 5, 5, 4] 5 (by decide) 6 (by decide)

/-- At the end of a breadth-first traversal the level of a discovered vertex is
its fewest-edges distance from `start`. -/
theorem level_is_dist {g : Graph} {k start : Nat} {lev : Nat → Nat} {d : TraversalData}
    (hO : BfsOuter g k d []) (hV : BfsLevelOuter g start lev d []) (v : Nat)
    (hv : d.disc v = true) : g.Dist start v (lev v) := by
  have hmin : ∀ j v, g.ReachIn start j v → d.disc v = true ∧ lev v ≤ j := by
    intro j
    induction j with
    | zero =>
      intro v hv
      simp only [Graph.ReachIn] at hv
      rw [hv, hV.core.lev_start]
      exact ⟨hV.core.start_disc, le_refl _⟩
    | succ j ih =>
      intro v hv
      obtain ⟨u, hu, huv⟩ := hv
      obtain ⟨h1, h2⟩ := ih u hu
      have hpu := (bfsOuter_idle_proc hO u).mp h1
      have := hV.edge u hpu v huv
      exact ⟨hO.closed u hpu v huv, by omega⟩
  exact ⟨hV.core.walk v hv, fun j hj => (hmin j v hj).2⟩

theorem enterInv_deq {g : Graph} {k start v : Nat} {lev : Nat → Nat} {d : TraversalData}
    {q tr : List Nat} (hO : BfsOuter g (k + 1) d (v :: q))
    (hE : EnterInv lev start d (v :: q) tr) :
    EnterInv lev start (d.markProcessed v) q (tr ++ [v]) := by
  have hvq := (hO.inv.queue_iff v).mp (List.mem_cons_self v q)
  have hvn := (hO.inv.disc_range v hvq.1).2
  have hproc := proc_markProcessed hO.inv.sized v hvn
  have hvtr : v ∉ tr := by
    intro h
    have := (hE.mem_iff v).mp h
    rw [hvq.2] at this; cases this
  refine ⟨?_, ?_, ?_, ?_⟩
  · rw [List.nodup_append]
    refine ⟨hE.nodup, List.nodup_singleton v, ?_⟩
    intro x hx hx2
    rw [List.mem_singleton] at hx2
    rw [hx2] at hx
    exact hvtr hx
  · intro u
    rw [List.mem_append, List.mem_singleton, hproc, hE.mem_iff]
    by_cases huv : u = v
    · simp [huv]
    · simp [huv]
  · rw [List.append_assoc]
    exact hE.sorted
  · rw [List.append_assoc]
    exact hE.head

theorem enterInv_new {g : Graph} {k start x y : Nat} {lev : Nat → Nat}
    {ys : List Nat} {d : TraversalData} {q tr : List Nat} (hS : BfsScan g k x (y :: ys) d q)
    (hV : BfsLevelScan g start lev x (y :: ys) d q) (hE : EnterInv lev start d q tr)
    (hy : d.disc y = false) :
    EnterInv (Function.update lev y (lev x + 1)) start ((d.markDiscovered y).setParent y x)
      (q ++ [y]) tr := by
  have hdisc : ∀ u ∈ tr ++ q, d.disc u = true := by
    intro u hu
    rcases List.mem_append.mp hu with h | h
    · exact hS.inv.proc_disc u ((hE.mem_iff u).mp h)
    · exact ((hS.inv.queue_iff u).mp h).1
  have hne : ∀ u ∈ tr ++ q, u ≠ y := by
    intro u hu h
    have := hdisc u hu
    rw [h, hy] at this; cases this
  have hlev : ∀ u ∈ tr ++ q, Function.update lev y (lev x + 1) u = lev u :=
    fun u hu => Function.update_noteq (hne u hu) _ _
  have hxtr : x ∈ tr := (hE.mem_iff x).mpr hS.proc_self
  refine ⟨hE.nodup, ?_, ?_, ?_⟩
  · intro u
    rw [hE.mem_iff]
    simp
  · rw [← List.append_assoc, List.pairwise_append]
    refine ⟨?_, List.pairwise_singleton _ _, ?_⟩
    · apply List.Pairwise.imp_of_mem _ hE.sorted
      intro a b ha hb hab
      rw [hlev a ha, hlev b hb]
      exact hab
    · intro a ha b hb
      rw [List.mem_singleton] at hb
      rw [hb, hlev a ha, Function.update_same]
      exact hV.bound a (hdisc a ha)
  · have h := hE.head
    cases tr with
    | nil => simp at hxtr
    | cons t ts =>
      simp only [List.cons_append, List.head?_cons] at h ⊢
      exact h

/-- A breadth-first traversal from `start` on fresh data that records the
invocations of the vertex-enter hook returns normally; with the levels `lev`
of the tree of parent pointers, the final data and the recorded sequence
satisfy the invariants with an empty queue. -/
theorem bfs_enters_run (g : Graph) (hg : g.Dense) (fuel : Nat) (hfuel : g.nVertices < fuel)
    (start : Nat) (hstart : 1 ≤ start ∧ start ≤ g.nVertices) :
    ∃ d tr, BreadthFirstTraversal g fuel start recordEnters (TraversalData.zero.Init g, []) =
        .ok (d, tr) ∧ (∃ k, BfsOuter g k d []) ∧
      ∃ lev, BfsLevelOuter g start lev d [] ∧ EnterInv lev start d [] tr := by
  have hO := bfsOuter_start (bfsOuter_Init g TraversalData.zero fuel hfuel) hstart (by simp)
  have hdisc : ∀ u, ((TraversalData.zero.Init g).markDiscovered start).disc u =
      if u = start then true else false := by
    intro u
    rw [disc_markDiscovered (sized_Init _ g) start hstart.2 u, disc_Init]
  have hV : BfsLevelOuter g start (fun _ => 0) ((TraversalData.zero.Init g).markDiscovered start)
      [start] := by
    refine ⟨⟨rfl, by rw [hdisc]; simp, by simp, ?_, ?_⟩, ?_, List.pairwise_singleton _ _, ?_⟩
    · intro u hu
      rw [hdisc] at hu
      by_cases hus : u = start
      · rw [hus]; simp [Graph.ReachIn]
      · simp [hus] at hu
    · intro u hu hus
      rw [hdisc] at hu
      simp [hus] at hu
    · intro x hx
      simp at hx
    · intro _ _ _ _
      omega
  have hE : EnterInv (fun _ => 0) start ((TraversalData.zero.Init g).markDiscovered start)
      [start] [] := by
    refine ⟨List.nodup_nil, ?_, by simp, rfl⟩
    intro v
    simp
  have key := bfs_fresh_rule g hg recordEnters
    (fun s => ∃ lev, BfsLevelOuter g start lev s.1 s.2.1 ∧ EnterInv lev start s.1 s.2.1 s.2.2)
    (fun x ys s => ∃ lev, BfsLevelScan g start lev x ys s.1 s.2.1 ∧
      EnterInv lev start s.1 s.2.1 s.2.2)
    (fun r => (∃ k, BfsOuter g k r.1 []) ∧
      ∃ lev, BfsLevelOuter g start lev r.1 [] ∧ EnterInv lev start r.1 [] r.2)
    (fun _ => False) ?_ ?_ ?_ ?_ fuel _ _ [] hO ⟨_, hV, hE⟩
  · unfold BreadthFirstTraversal
    cases hr : bfsLoop g recordEnters fuel
        ((TraversalData.zero.Init g).markDiscovered start, [start], []) with
    | error e => exact absurd (key.1 e hr) id
    | ok r =>
      obtain ⟨d2, a2⟩ := r
      exact ⟨d2, a2, rfl, key.2 _ hr⟩
  · intro k d a hO2 hL
    exact ⟨⟨k, hO2⟩, hL⟩
  · intro k d v q a hO2 hL
    obtain ⟨lev, hL, hE2⟩ := hL
    refine ⟨fun e he => (by simp [recordEnters] at he), fun a1 ha1 => ?_⟩
    simp only [recordEnters, Except.ok.injEq] at ha1
    subst ha1
    exact ⟨lev, levelScan_deq hO2 hL, enterInv_deq hO2 hE2⟩
  · intro k x y ys d q a hS hL
    obtain ⟨lev, hL, hE2⟩ := hL
    have hres : (if g.directed = true ∨ d.proc y = false then recordEnters.pe x y d a
        else .ok a) = .ok a := by
      split <;> rfl
    rw [hres]
    refine ⟨fun e he => (by cases he), fun a1 ha1 => ?_⟩
    cases ha1
    exact ⟨fun hy => ⟨_, levelScan_step_new hg hS hL hy, enterInv_new hS hL hE2 hy⟩,
      fun hy => ⟨lev, levelScan_step_old hL hy, hE2⟩⟩
  · intro k x d q a _ hL
    obtain ⟨lev, hL, hE2⟩ := hL
    refine ⟨fun e he => (by simp [recordEnters] at he), fun a1 ha1 => ?_⟩
    simp only [recordEnters, Except.ok.injEq] at ha1
    subst ha1
    exact ⟨lev, levelOuter_end hL, hE2⟩

/-- C21: for every graph with dense ids `1..n` and every start in `1..n`,
`BreadthFirstTraversal(start)` on freshly initialised data returns normally and
invokes the vertex-enter hook exactly once for each vertex reachable from start
and for no other vertex, beginning with start, and the sequence of vertices
passed to it is in non-decreasing order of fewest-edges distance from start. -/
theorem bfs_enter_hook_level_order (g : Graph) (hg : g.Dense) (fuel : Nat)
    (hfuel : g.nVertices < fuel) (start : Nat) (hstart : 1 ≤ start ∧ start ≤ g.nVertices) :
    ∃ d tr, BreadthFirstTraversal g fuel start recordEnters (TraversalData.zero.Init g, []) =
        .ok (d, tr) ∧
      tr.Nodup ∧ (∀ v, v ∈ tr ↔ g.Reach start v) ∧ tr.head? = some start ∧
      ∃ dist : Nat → Nat, (∀ v, g.Reach start v → g.Dist start v (dist v)) ∧
        tr.Pairwise (fun a b => dist a ≤ dist b) := by
  obtain ⟨d, tr, hr, ⟨k, hO⟩, lev, hV, hE⟩ := bfs_enters_run g hg fuel hfuel start hstart
  have hreach : ∀ u, d.disc u = true → g.Reach start u :=
    fun u hu => reachIn_reach _ _ (hV.core.walk u hu)
  have hiff := bfs_final_proc_iff hO hV.core.start_disc hreach
  have hsorted := hE.sorted
  have hhead := hE.head
  rw [List.append_nil] at hsorted hhead
  refine ⟨d, tr, hr, hE.nodup, fun v => (hE.mem_iff v).trans (hiff v), hhead, lev, ?_, hsorted⟩
  intro v hv
  exact level_is_dist hO hV v ((bfsOuter_idle_proc hO v).mpr ((hiff v).mpr hv))

theorem bfs_enter_hook_level_order_witness :
    ∃ d tr, BreadthFirstTraversal (Graph.zero.Init false [1, 2, 1, 3, 3, 4, 5, 6]) 7 1
        recordEnters (TraversalData.zero.Init (Graph.zero.Init false [1, 2, 1, 3, 3, 4, 5, 6]), [])
          = .ok (d, tr) ∧
      tr.Nodup ∧ (∀ v, v ∈ tr ↔ (Graph.zero.Init false [1, 2, 1, 3, 3, 4, 5, 6]).Reach 1 v) ∧
      tr.head? = some 1 ∧
      ∃ dist : Nat → Nat,
        (∀ v, (Graph.zero.Init false [1, 2, 1, 3, 3, 4, 5, 6]).Reach 1 v →
          (Graph.zero.Init false [1, 2, 1, 3, 3, 4, 5, 6]).Dist 1 v (dist v)) ∧
        tr.Pairwise (fun a b => dist a ≤ dist b) :=
  bfs_enter_hook_level_order (Graph.zero.Init false [1, 2, 1, 3, 3, 4, 5, 6])
    (Init_dense Graph.zero false [1, 2, 1, 3, 3, 4, 5, 6] 6 (by decide)) 7 (by decide) 1
    (by decide)

theorem mem_mapSet {m : List (Nat × String)} {k : Nat} {s : String} {p : Nat × String}
    (h : p ∈ mapSet m k s) : p = (k, s) ∨ p ∈ m := by
  unfold mapSet at h
  rcases List.mem_cons.mp h with h1 | h1
  · exact Or.inl h1
  · exact Or.inr (List.mem_filter.mp h1).1

/-- The entries with the label "bridge" after the `pvl` hook of
`ArticulationVertices`: the former ones, and the parent of `v` and `v` itself
when `ancestor[v]` is `v` and the parent is not the root. -/
theorem artHooks_pvl_labels (v : Nat) (data : TraversalData) (a a2 : CutState)
    (h : articulationHooks.pvl v data a = .ok a2) :
    ∀ p ∈ a2.cutNodes, p.2 = "bridge" → p ∈ a.cutNodes ∨
      (data.par (data.par v) ≠ 0 ∧ a.anc v = v ∧ (p.1 = data.par v ∨ p.1 = v)) := by
  unfold articulationHooks CutState.anc at *
  dsimp only at h
  by_cases hR : data.par v = 0 ∧ a.outDegree.getD v 0 > 1
  · rw [if_pos hR] at h
    cases h
    intro p hp hlab
    rcases mem_mapSet hp with h1 | h1
    · rw [h1] at hlab
      have hne : ("root" : String) ≠ "bridge" := by decide
      exact absurd hlab hne
    · exact Or.inl h1
  · rw [if_neg hR] at h
    by_cases hroot : data.par (data.par v) = 0
    · simp only [hroot, decide_True, Bool.true_eq_false, if_false] at h
      split_ifs at h <;> (cases h; exact fun p hp _ => Or.inl hp)
    · by_cases h1 : a.ancestor.getD v 0 = data.par v
      · simp only [hroot, decide_False, if_true, if_pos h1] at h
        have key : ∀ p ∈ mapSet a.cutNodes (data.par v) "parent", p.2 = "bridge" →
            p ∈ a.cutNodes ∨ (data.par (data.par v) ≠ 0 ∧ a.ancestor.getD v 0 = v ∧
              (p.1 = data.par v ∨ p.1 = v)) := by
          intro p hp hlab
          rcases mem_mapSet hp with h2 | h2
          · rw [h2] at hlab
            have hne : ("parent" : String) ≠ "bridge" := by decide
            exact absurd hlab hne
          · exact Or.inl h2
        split_ifs at h <;> (cases h; exact key)
      · by_cases h2 : a.ancestor.getD v 0 = v
        · by_cases h3 : a.outDegree.getD v 0 > 0
          · simp only [hroot, decide_False, if_true, if_neg h1, if_pos h2, if_pos h3] at h
            have key : ∀ p ∈ mapSet (mapSet a.cutNodes (data.par v) "bridge") v "bridge",
                p.2 = "bridge" →
                p ∈ a.cutNodes ∨ (data.par (data.par v) ≠ 0 ∧ a.ancestor.getD v 0 = v ∧
                  (p.1 = data.par v ∨ p.1 = v)) := by
              intro p hp _
              rcases mem_mapSet hp with h4 | h4
              · exact Or.inr ⟨hroot, h2, Or.inr (by rw [h4])⟩
              · rcases mem_mapSet h4 with h5 | h5
                · exact Or.inr ⟨hroot, h2, Or.inl (by rw [h5])⟩
                · exact Or.inl h5
            split_ifs at h <;> (cases h; exact key)
          · simp only [hroot, decide_False, if_true, if_neg h1, if_pos h2, if_neg h3] at h
            have key : ∀ p ∈ mapSet a.cutNodes (data.par v) "bridge", p.2 = "bridge" →
                p ∈ a.cutNodes ∨ (data.par (data.par v) ≠ 0 ∧ a.ancestor.getD v 0 = v ∧
                  (p.1 = data.par v ∨ p.1 = v)) := by
              intro p hp _
              rcases mem_mapSet hp with h4 | h4
              · exact Or.inr ⟨hroot, h2, Or.inl (by rw [h4])⟩
              · exact Or.inl h4
            split_ifs at h <;> (cases h; exact key)
        · simp only [hroot, decide_False, if_true, if_neg h1, if_neg h2] at h
          split_ifs at h <;> (cases h; exact fun p hp _ => Or.inl hp)

/-- A set closed under all edges but the one from `x` to `y` is not left by a
path that does not use the edge between `x` and `y`. -/
theorem rw_closed {g : Graph} {x y : Nat} (A : Nat → Prop)
    (hA : ∀ p, A p → ∀ q ∈ g.adj p, ¬ (p = x ∧ q = y) → A q) {a b : Nat}
    (h : g.ReachWithout x y a b) : A a → A b := by
  unfold Graph.ReachWithout at h
  induction h with
  | refl => exact id
  | tail _ hbc ih => intro ha; exact hA _ (ih ha) _ hbc.1 hbc.2.1

/-- When `ancestor[v]` is still `v` at the end of the call on `v`, the edge to
the parent of `v` is a bridge. -/
theorem art_bridge {g : Graph} (hsym : ∀ a b, g.Adj a b → g.Adj b a)
    {start k v : Nat} {d0 d : TraversalData} {a0 a : CutState}
    (hL : DfsLoop g k v d0 [] d) (hA : ArtLoop g start v d0 a0 [] d a)
    (h0 : d.par v ≠ 0) (hanc : a.anc v = v) : g.IsBridge v (d.par v) := by
  obtain ⟨hgp, hlt, hne, hp0⟩ := dfsLoop_parent hL h0
  obtain ⟨done, hdone, hsc⟩ := hA.bound_self
  rw [List.append_nil] at hdone
  obtain ⟨done2, hdone2, hdisc2⟩ := hL.scanned
  rw [List.append_nil] at hdone2
  have hclosed : ∀ x, (d.disc x = true ∧ d0.disc x = false) → ∀ w ∈ g.adj x,
      ¬ (x = v ∧ w = d.par v) → (d.disc w = true ∧ d0.disc w = false) := by
    rintro x ⟨hx, hx0⟩ w hw hxw
    have hdw : d.disc w = true := by
      by_cases hxv : x = v
      · rw [hxv, hdone2] at hw
        exact hdisc2 w hw
      · rcases hL.new_done x hx hx0 with h | h
        · exact absurd h hxv
        · exact hL.inv.proc_closed x h w hw
    refine ⟨hdw, ?_⟩
    cases hw0 : d0.disc w
    · rfl
    · exfalso
      have hb : d.entry (a.anc v) ≤ d.entry w := by
        by_cases hxv : x = v
        · rw [hxv, hdone] at hw
          exact hsc w hw (fun h => hxw ⟨hxv, h⟩)
        · exact hA.bound_below x hx hx0 hxv w hw
      rw [hanc] at hb
      have := hA.old_entry w hw0
      omega
  refine ⟨hsym _ _ (hL.inv.par_adj v h0), ?_⟩
  intro hra
  have := rw_closed _ hclosed hra ⟨hL.gray_self.1, hL.frame.undisc_start⟩
  rw [hp0] at this
  cases this.2

theorem art_run_bridge (g : Graph) (hg : g.Dense) (hdir : g.directed = false)
    (hsym : ∀ a b, g.Adj a b → g.Adj b a) (start fuel v : Nat) (d : TraversalData)
    (a : CutState) (hP : DfsPre g fuel v d) (hA : ArtInv g start d a)
    (hrv : g.Reach start v) (hB : BridgeInv g a) :
    (∀ e, depthFirstTraverseVertex g articulationHooks fuel v (d, a) = .error e → False) ∧
    (∀ d2 a2, depthFirstTraverseVertex g articulationHooks fuel v (d, a) = .ok (d2, a2) →
      BridgeInv g a2) := by
  have key := dfs_fresh_rule g hg articulationHooks
    (fun v s => (ArtInv g start s.1 s.2 ∧ g.Reach start v) ∧ BridgeInv g s.2)
    (fun v s0 s2 => ArtPost g start v s0.1 s0.2 s2.1 s2.2 ∧ BridgeInv g s2.2)
    (fun v s0 ys s => ArtLoop g start v s0.1 s0.2 ys s.1 s.2 ∧ BridgeInv g s.2) (fun _ => False)
    ?_ ?_ ?_ ?_ ?_ fuel v d a hP ⟨⟨hA, hrv⟩, hB⟩
  · exact ⟨key.1, fun d2 a2 hr => (key.2 d2 a2 hr).2.2⟩
  · intro k v d a hPre hA
    refine ⟨fun e he => (by simp [articulationHooks] at he), fun a1 ha1 => ?_⟩
    simp only [articulationHooks, Except.ok.injEq] at ha1
    subst ha1
    exact ⟨artLoop_enter hPre hA.1.1 hA.1.2, hA.2⟩
  · intro k v d0 a0 y ys d a hL hA hy
    have hpe := artHooks_pe_tree hg hL a
    refine ⟨fun e he => (by rw [hpe] at he; cases he), fun a1 ha1 => ?_⟩
    rw [hpe] at ha1
    cases ha1
    refine ⟨⟨artPre_tree hg hL hy hA.1, hA.2⟩, ?_⟩
    intro d2 a2 hPost hQ
    exact ⟨artLoop_tree hg hsym hL hy hPost hA.1 hQ.1, hQ.2⟩
  · intro k v d0 a0 y ys d a hL hA hy hc
    rcases hc with hc | hc
    · rw [hdir] at hc; cases hc
    obtain ⟨a1, hpe, hA1⟩ := artLoop_seen hL ⟨hy, hc.1⟩ hc.2 hA.1
    refine ⟨fun e he => (by rw [hpe] at he; cases he), fun a1b ha1b => ?_⟩
    have hcut : a1.cutNodes = a.cutNodes := by
      have h2 := artHooks_pe_back hL ⟨hy, hc.1⟩ hc.2 a
      rw [hpe] at h2
      split at h2 <;> (cases h2; rfl)
    rw [hpe] at ha1b
    cases ha1b
    refine ⟨hA1, ?_⟩
    intro p hp
    rw [hcut] at hp
    exact hA.2 p hp
  · intro k v d0 a0 y ys d a hL hA _ hc
    refine ⟨artLoop_skip hsym hL ?_ hA.1, hA.2⟩
    cases hpy : d.proc y
    · right
      by_contra hne
      exact hc (Or.inr ⟨hpy, hne⟩)
    · exact Or.inl rfl
  · intro k v d0 a0 d a hL hA
    obtain ⟨a2, hpvl, hQ⟩ := artPost_exit hsym hL hA.1
    refine ⟨fun e he => (by rw [hpvl] at he; cases he), fun a1b ha1b => ?_⟩
    rw [hpvl] at ha1b
    cases ha1b
    refine ⟨hQ, ?_⟩
    intro p hp hlab
    have hpar00 : d.par 0 = 0 := hL.fresh_par 0 hA.1.inv.zero_disc
    rcases artHooks_pvl_labels v (d.markProcessed v) a a2 hpvl p hp hlab with h | ⟨h1, h2, h3⟩
    · exact hA.2 p h hlab
    · have hpm : ∀ u, (d.markProcessed v).par u = d.par u := by intro u; simp
      rw [hpm, hpm] at h1
      rw [hpm] at h3
      have h0 : d.par v ≠ 0 := by
        intro h; rw [h, hpar00] at h1; exact h1 rfl
      refine ⟨v, d.par v, art_bridge hsym hL hA.1 h0 h2, ?_⟩
      rcases h3 with h4 | h4
      · exact Or.inr h4
      · exact Or.inl h4

/-- C22: for every undirected graph built by `Init` from a pair list with ids
`1..n` and every start in `1..n`, `ArticulationVertices(start)` returns
normally, and every vertex that the returned map gives the label "bridge" is an
endpoint of a bridge: of an edge such that every path between its two endpoints
uses it.  (Pairs `(x, x)` are allowed; of a repeated pair all copies count as
the one edge.) -/
theorem articulation_bridge_label (pairs : List Nat) (n : Nat)
    (h : DenseIds pairs n) (fuel : Nat) (hfuel : n < fuel) (start : Nat)
    (hstart : 1 ≤ start ∧ start ≤ n) :
    ∃ m, ArticulationVertices (Graph.zero.Init false pairs) fuel start = .ok m ∧
      ∀ v, (v, "bridge") ∈ m → (Graph.zero.Init false pairs).BridgeEnd v := by
  have hg := Init_dense Graph.zero false pairs n h
  have hn : (Graph.zero.Init false pairs).nVertices = n := by
    rw [Init_nVertices, denseIds_dedup_length h]
  have hsym := Init_adj_symm pairs n h
  have hI := dfsIdle_Init (Graph.zero.Init false pairs) TraversalData.zero
  obtain ⟨hE, hR⟩ := art_run_bridge _ hg (Init_directed _ _ _) hsym start fuel start
    (TraversalData.zero.Init (Graph.zero.Init false pairs))
    (CutState.mk [] (List.replicate (adjustSize (Graph.zero.Init false pairs).nVertices) 0)
      (List.replicate (adjustSize (Graph.zero.Init false pairs).nVertices) 0))
    (dfsPre_root hI (by rw [hn]; exact hstart) (by simp) (by rw [hn]; exact hfuel))
    (artInv_Init _ start _) Relation.ReflTransGen.refl
    (fun p hp => by simp at hp)
  unfold ArticulationVertices DepthFirstTraversal
  have h0 : ¬ (Graph.zero.Init false pairs).nVertices = 0 := by rw [hn]; omega
  rw [if_neg h0]
  cases hr : depthFirstTraverseVertex (Graph.zero.Init false pairs) articulationHooks fuel start
      (TraversalData.zero.Init (Graph.zero.Init false pairs),
        CutState.mk [] (List.replicate (adjustSize (Graph.zero.Init false pairs).nVertices) 0)
          (List.replicate (adjustSize (Graph.zero.Init false pairs).nVertices) 0)) with
  | error e => exact absurd (hE e hr) id
  | ok s =>
    obtain ⟨d2, a2⟩ := s
    exact ⟨a2.cutNodes, rfl, fun v hv => hR d2 a2 hr (v, "bridge") hv rfl⟩

theorem articulation_bridge_label_witness :
    ∃ m, ArticulationVertices (Graph.zero.Init false [1, 2, 2, 3, 3, 4, 4, 2, 3, 5]) 6 1 =
        .ok m ∧
      ∀ v, (v, "bridge") ∈ m →
        (Graph.zero.Init false [1, 2, 2, 3, 3, 4, 4, 2, 3, 5]).BridgeEnd v :=
  articulation_bridge_label [1, 2, 2, 3, 3, 4, 4, 2, 3, 5] 5 (by decide) 6 (by decide) 1
    (by decide)

theorem count_false_set_true_le (xs : List Bool) (i : Nat) :
    (xs.set i true).count false ≤ xs.count false := by
  induction xs generalizing i with
  | nil => simp
  | cons x xs ih =>
    cases i with
    | zero => cases x <;> simp [List.count_cons]
    | succ i =>
      have := ih i
      cases x <;> simp [List.count_cons] <;> omega

theorem count_false_lt_length (xs : List Bool) (i : Nat) (h : xs.getD i false = true) :
    xs.count false + 1 ≤ xs.length := by
  induction xs generalizing i with
  | nil => simp at h
  | cons x xs ih =>
    cases i with
    | zero =>
      simp at h
      subst h
      have := List.count_le_length false xs
      simp [List.count_cons]
      omega
    | succ i =>
      have := ih i (by simpa [List.getD_eq_getElem?_getD] using h)
      cases x <;> simp [List.count_cons] <;> omega

theorem undisc_markDiscovered_le (d : TraversalData) (v : Nat) :
    (d.markDiscovered v).undisc ≤ d.undisc := by
  unfold TraversalData.undisc TraversalData.markDiscovered
  exact count_false_set_true_le _ _

theorem undisc_lt_of_disc {d : TraversalData} {n : Nat} (hs : d.Sized n) {v : Nat}
    (hd : d.disc v = true) : d.undisc ≤ n := by
  have := count_false_lt_length d.discovered v hd
  have := hs.discovered
  unfold TraversalData.undisc
  omega

/-- At an edge to a discovered vertex `y` the classification returns a class
unless `y` is processed with the entry time of `x`. -/
theorem classification_ok_of {x y : Nat} {d : TraversalData} (hy : d.disc y = true)
    (h : d.proc y = true → d.entry y ≠ d.entry x) :
    ∃ c, edgeClassification x y d = .ok c := by
  unfold edgeClassification
  by_cases h1 : d.par y = x
  · exact ⟨.TREE, by simp [h1]⟩
  · by_cases h2 : d.proc y = false
    · exact ⟨.BACK, by simp [h1, h2, hy]⟩
    · have h2t : d.proc y = true := by simpa using h2
      rcases Nat.lt_or_gt_of_ne (h h2t) with h3 | h3
      · refine ⟨.CROSS, ?_⟩
        have h4 : ¬ d.entry y > d.entry x := by omega
        simp [h1, h2t, h3, h4]
      · exact ⟨.FORWARD, by simp [h1, h2t, h3]⟩

/-! ## Runs that start again at discovered vertices -/

theorem restartInv_setParent {g : Graph} {prev : List Nat} {d : TraversalData}
    (hI : RestartInv g prev d) (y v : Nat) : RestartInv g prev (d.setParent y v) :=
  ⟨sized_setParent hI.sized y v, hI.proc_disc, hI.entry_le, hI.entry_inj, hI.reach⟩

theorem restartInv_enter {g : Graph} {prev : List Nat} {d : TraversalData}
    (hI : RestartInv g prev d) {v : Nat} (hvn : v ≤ g.nVertices)
    (hrv : ∃ s ∈ prev, g.Reach s v) :
    RestartInv g prev ((d.markDiscovered v).stampEntry v) := by
  have hs := hI.sized
  have hdisc : ∀ u, ((d.markDiscovered v).stampEntry v).disc u =
      if u = v then true else d.disc u := by
    intro u; rw [disc_stampEntry, disc_markDiscovered hs v hvn]
  have hentry : ∀ u, ((d.markDiscovered v).stampEntry v).entry u =
      if u = v then d.time + 1 else d.entry u := by
    intro u
    rw [entry_stampEntry (sized_markDiscovered hs v) v hvn]
    simp
  have htime : ((d.markDiscovered v).stampEntry v).time = d.time + 1 := by simp
  have hold : ∀ u, ((d.markDiscovered v).stampEntry v).disc u = true → u ≠ v →
      d.disc u = true := by
    intro u hu huv
    rw [hdisc, if_neg huv] at hu
    exact hu
  refine ⟨sized_stampEntry (sized_markDiscovered hs v) v, ?_, ?_, ?_, ?_⟩
  · intro u hu
    have hu2 : d.proc u = true := by simpa using hu
    rw [hdisc]
    split
    · rfl
    · exact hI.proc_disc u hu2
  · intro u hu
    rw [hentry, htime]
    by_cases huv : u = v
    · rw [if_pos huv]
    · rw [if_neg huv]
      have := hI.entry_le u (hold u hu huv)
      omega
  · intro u w hu hw he
    rw [hentry, hentry] at he
    by_cases huv : u = v
    · by_cases hwv : w = v
      · rw [huv, hwv]
      · rw [if_pos huv, if_neg hwv] at he
        have := hI.entry_le w (hold w hw hwv)
        omega
    · by_cases hwv : w = v
      · rw [if_neg huv, if_pos hwv] at he
        have := hI.entry_le u (hold u hu huv)
        omega
      · rw [if_neg huv, if_neg hwv] at he
        exact hI.entry_inj u w (hold u hu huv) (hold w hw hwv) he
  · intro u hu
    by_cases huv : u = v
    · rw [huv]; exact hrv
    · exact hI.reach u (hold u hu huv)

theorem restartInv_exit {g : Graph} {prev : List Nat} {d : TraversalData}
    (hI : RestartInv g prev d) {v : Nat} (hvn : v ≤ g.nVertices) (hv : d.disc v = true) :
    RestartInv g prev ((d.markProcessed v).stampExit v) := by
  have hs := hI.sized
  have hp : ∀ u, ((d.markProcessed v).stampExit v).proc u = if u = v then true else d.proc u := by
    intro u; rw [proc_stampExit, proc_markProcessed hs v hvn]
  refine ⟨sized_stampExit (sized_markProcessed hs v) v, ?_, ?_, ?_, ?_⟩
  · intro u hu
    rw [hp] at hu
    show d.disc u = true
    by_cases huv : u = v
    · rw [huv]; exact hv
    · rw [if_neg huv] at hu
      exact hI.proc_disc u hu
  · intro u hu
    have hu2 : d.disc u = true := by simpa using hu
    have := hI.entry_le u hu2
    have h1 : ((d.markProcessed v).stampExit v).entry u = d.entry u := by simp
    have h2 : ((d.markProcessed v).stampExit v).time = d.time + 1 := by simp
    rw [h1, h2]
    omega
  · intro u w hu hw he
    have hu2 : d.disc u = true := by simpa using hu
    have hw2 : d.disc w = true := by simpa using hw
    have he2 : d.entry u = d.entry w := by simpa using he
    exact hI.entry_inj u w hu2 hw2 he2
  · intro u hu
    have hu2 : d.disc u = true := by simpa using hu
    exact hI.reach u hu2

/-- One depth-first run with classifying hooks from a vertex `v` that may
already be discovered: unless `v` is discovered and has an edge to itself in a
directed graph, the run returns normally. -/
theorem restart_run {σ : Type} (g : Graph) (hg : g.Dense) (h : Hooks σ)
    (hpve : ∀ v d a, ∃ a1, h.pve v d a = .ok a1)
    (hpvl : ∀ v d a, ∃ a1, h.pvl v d a = .ok a1)
    (hpe : ∀ x y d a, ∃ a1, h.pe x y d a = .ok a1) (prev : List Nat)
    (fuel v : Nat) (d : TraversalData) (a : σ) (hI : RestartInv g prev d)
    (hv : 1 ≤ v ∧ v ≤ g.nVertices) (hrv : ∃ t ∈ prev, g.Reach t v)
    (hcase : (d.disc v = false ∧ d.undisc ≤ fuel) ∨
      (d.disc v = true ∧ d.undisc + 1 ≤ fuel ∧ (g.directed = true → ¬ g.Adj v v))) :
    (∀ e, depthFirstTraverseVertex g (withClassification h) fuel v (d, a) = .error e → False) ∧
    (∀ s2, depthFirstTraverseVertex g (withClassification h) fuel v (d, a) = .ok s2 →
      RestartInv g prev s2.1) := by
  have key := dfs_rule g (withClassification h)
    (fun k v s => RestartInv g prev s.1 ∧ (1 ≤ v ∧ v ≤ g.nVertices) ∧
      (∃ t ∈ prev, g.Reach t v) ∧ ((s.1.disc v = false ∧ s.1.undisc ≤ k) ∨
        (s.1.disc v = true ∧ s.1.undisc + 1 ≤ k ∧ (g.directed = true → ¬ g.Adj v v))))
    (fun v s0 s2 => RestartInv g prev s2.1 ∧ s2.1.undisc ≤ s0.1.undisc ∧
      ∀ u, s0.1.disc u = true → s2.1.disc u = true ∧ (u ≠ v → s2.1.proc u = s0.1.proc u))
    (fun k v s0 ys s => RestartInv g prev s.1 ∧ (1 ≤ v ∧ v ≤ g.nVertices) ∧
      s.1.disc v = true ∧ (s.1.proc v = false ∨ (g.directed = true → ¬ g.Adj v v)) ∧
      s.1.undisc ≤ k ∧ (∃ done, g.adj v = done ++ ys) ∧ s.1.undisc ≤ s0.1.undisc ∧
      ∀ u, s0.1.disc u = true → s.1.disc u = true ∧ (u ≠ v → s.1.proc u = s0.1.proc u))
    (fun _ => False) ?_ ?_ ?_ ?_ ?_ ?_ fuel v (d, a) ⟨hI, hv, hrv, hcase⟩
  · exact ⟨key.1, fun s2 hr => (key.2 s2 hr).1⟩
  · -- fuel
    rintro v ⟨d, a⟩ ⟨hI, hv, _, hc⟩
    rcases hc with ⟨h1, h2⟩ | ⟨_, h2, _⟩
    · have := undisc_pos hI.sized v hv.2 h1
      omega
    · omega
  · -- enter
    rintro k v d a ⟨hI, hv, hrv, hc⟩
    obtain ⟨a1, ha1⟩ := hpve v (d.markDiscovered v) a
    refine ⟨fun e he => (by simp only [withClassification] at he; rw [ha1] at he; cases he),
      fun _ _ => ?_⟩
    have hs : d.Sized g.nVertices := hI.sized
    have hdisc : ∀ u, ((d.markDiscovered v).stampEntry v).disc u =
        if u = v then true else d.disc u := by
      intro u; rw [disc_stampEntry, disc_markDiscovered hs v hv.2]
    refine ⟨restartInv_enter hI hv.2 hrv, hv, by rw [hdisc, if_pos rfl], ?_, ?_,
      ⟨[], rfl⟩, ?_, ?_⟩
    · rcases hc with ⟨h1, _⟩ | ⟨_, _, h3⟩
      · left
        show d.proc v = false
        cases hp : d.proc v
        · rfl
        · have := hI.proc_disc v hp
          rw [h1] at this; cases this
      · exact Or.inr h3
    · show ((d.markDiscovered v).stampEntry v).undisc ≤ k
      rw [undisc_stampEntry]
      rcases hc with ⟨h1, h2⟩ | ⟨_, h2, _⟩
      · have h3 := undisc_markDiscovered hs v hv.2 h1
        have h4 : d.undisc ≤ k + 1 := h2
        omega
      · have h3 := undisc_markDiscovered_le d v
        have h4 : d.undisc + 1 ≤ k + 1 := h2
        omega
    · show ((d.markDiscovered v).stampEntry v).undisc ≤ d.undisc
      rw [undisc_stampEntry]
      exact undisc_markDiscovered_le d v
    · intro u hu
      refine ⟨?_, fun _ => rfl⟩
      rw [hdisc]
      split
      · rfl
      · exact hu
  · -- tree edge
    rintro k v ⟨d0, a0⟩ y ys d a ⟨hI, hv, hdv, hpv, hfuel, ⟨done, hdone⟩, hle, hframe⟩ hy
    have hmem : y ∈ g.adj v := by rw [hdone]; simp
    have hyr := hg.adj_range v y hmem
    have hcls : edgeClassification v y (d.setParent y v) = .ok .TREE := by
      unfold edgeClassification
      rw [par_setParent hI.sized y v hyr.2 y]
      simp
    obtain ⟨a1, ha1⟩ := hpe v y (d.setParent y v) a
    have hres : (withClassification h).pe v y (d.setParent y v) a = .ok a1 := by
      simp only [withClassification, hcls]
      exact ha1
    rw [hres]
    refine ⟨fun e he => (by cases he), fun a1b ha1b => ?_⟩
    cases ha1b
    have hry : ∃ t ∈ prev, g.Reach t y := by
      obtain ⟨t, ht, hr⟩ := hI.reach v hdv
      exact ⟨t, ht, reach_trans hr (reach_adj hmem)⟩
    refine ⟨⟨restartInv_setParent hI y v, hyr, hry, Or.inl ⟨hy, hfuel⟩⟩, ?_⟩
    rintro ⟨d2, a2⟩ ⟨hI2, hle2, hframe2⟩
    have hvy : v ≠ y := by
      intro hvy; rw [hvy, hy] at hdv; cases hdv
    have hkeepv := hframe2 v hdv
    refine ⟨hI2, hv, hkeepv.1, ?_, ?_, ⟨done ++ [y], by simp [hdone]⟩, ?_, ?_⟩
    · rw [hkeepv.2 hvy]
      exact hpv
    · have h1 : (d.setParent y v).undisc = d.undisc := rfl
      show d2.undisc ≤ k
      have h2 : d2.undisc ≤ d.undisc := by rw [← h1]; exact hle2
      have h3 : d.undisc ≤ k := hfuel
      omega
    · have h1 : (d.setParent y v).undisc = d.undisc := rfl
      show d2.undisc ≤ d0.undisc
      have h2 : d2.undisc ≤ d.undisc := by rw [← h1]; exact hle2
      have h3 : d.undisc ≤ d0.undisc := hle
      omega
    · intro u hu
      obtain ⟨h1, h2⟩ := hframe u hu
      have huy : u ≠ y := by
        intro huy; rw [huy, hy] at h1; cases h1
      obtain ⟨h3, h4⟩ := hframe2 u h1
      refine ⟨h3, fun huv => ?_⟩
      show d2.proc u = d0.proc u
      have h5 : d2.proc u = d.proc u := h4 huy
      rw [h5]
      exact h2 huv
  · -- an edge to a discovered vertex for which the hook is called
    rintro k v ⟨d0, a0⟩ y ys d a ⟨hI, hv, hdv, hpv, hfuel, ⟨done, hdone⟩, hle, hframe⟩ hy hc
    have hmem : y ∈ g.adj v := by rw [hdone]; simp
    have hne : d.proc y = true → d.entry y ≠ d.entry v := by
      intro hpy he
      have hyv := hI.entry_inj y v hy hdv he
      rw [hyv] at hpy hmem
      rcases hc with hc | hc
      · rcases hpv with h1 | h1
        · rw [h1] at hpy; cases hpy
        · exact h1 hc hmem
      · rw [hyv] at hc
        rw [hc.1] at hpy; cases hpy
    obtain ⟨c, hcls⟩ := classification_ok_of hy hne
    obtain ⟨a1, ha1⟩ := hpe v y d a
    have hres : (withClassification h).pe v y d a = .ok a1 := by
      simp only [withClassification, hcls]
      exact ha1
    rw [hres]
    refine ⟨fun e he => (by cases he), fun a1b ha1b => ?_⟩
    cases ha1b
    exact ⟨hI, hv, hdv, hpv, hfuel, ⟨done ++ [y], by simp [hdone]⟩, hle, hframe⟩
  · -- an edge that is skipped
    rintro k v ⟨d0, a0⟩ y ys d a ⟨hI, hv, hdv, hpv, hfuel, ⟨done, hdone⟩, hle, hframe⟩ _ _
    exact ⟨hI, hv, hdv, hpv, hfuel, ⟨done ++ [y], by simp [hdone]⟩, hle, hframe⟩
  · -- exit
    rintro k v ⟨d0, a0⟩ d a ⟨hI, hv, hdv, hpv, hfuel, _, hle, hframe⟩
    obtain ⟨a1, ha1⟩ := hpvl v (d.markProcessed v) a
    refine ⟨fun e he => (by simp only [withClassification] at he; rw [ha1] at he; cases he),
      fun _ _ => ?_⟩
    refine ⟨restartInv_exit hI hv.2 hdv, hle, ?_⟩
    intro u hu
    obtain ⟨h1, h2⟩ := hframe u hu
    refine ⟨h1, fun huv => ?_⟩
    show ((d.markProcessed v).stampExit v).proc u = d0.proc u
    rw [proc_stampExit, proc_markProcessed hI.sized v hv.2, if_neg huv]
    exact h2 huv


theorem restartInv_mono {g : Graph} {prev : List Nat} {d : TraversalData}
    (hI : RestartInv g prev d) (i : Nat) : RestartInv g (i :: prev) d :=
  ⟨hI.sized, hI.proc_disc, hI.entry_le, hI.entry_inj, fun u hu => by
    obtain ⟨t, ht, hr⟩ := hI.reach u hu
    exact ⟨t, List.mem_cons_of_mem i ht, hr⟩⟩

theorem restartInv_Init (g : Graph) (d : TraversalData) : RestartInv g [] (d.Init g) := by
  have hd : ∀ u, (d.Init g).disc u = false := fun u => disc_Init d g u
  have hp : ∀ u, (d.Init g).proc u = false := fun u => proc_Init d g u
  refine ⟨sized_Init d g, ?_, ?_, ?_, ?_⟩
  · intro u hu; rw [hp] at hu; cases hu
  · intro u hu; rw [hd] at hu; cases hu
  · intro u w hu; rw [hd] at hu; cases hu
  · intro u hu; rw [hd] at hu; cases hu

/-- A sequence of depth-first runs with classifying hooks over shared data, in
which a start vertex may already be discovered: the runs return normally when,
in a directed graph, no start vertex with an edge to itself is reachable from
an earlier start vertex. -/
theorem restart_runs {σ : Type} (g : Graph) (hg : g.Dense) (h : Hooks σ)
    (hpve : ∀ v d a, ∃ a1, h.pve v d a = .ok a1)
    (hpvl : ∀ v d a, ∃ a1, h.pvl v d a = .ok a1)
    (hpe : ∀ x y d a, ∃ a1, h.pe x y d a = .ok a1)
    (fuel : Nat) (hfuel : g.nVertices < fuel) :
    ∀ (starts prev : List Nat) (d : TraversalData) (a : σ), RestartInv g prev d →
      (∀ i ∈ starts, 1 ≤ i ∧ i ≤ g.nVertices) →
      (g.directed = true → ∀ t ∈ prev, ∀ s ∈ starts, g.Adj s s → ¬ g.Reach t s) →
      (g.directed = true → starts.Pairwise (fun t s => g.Adj s s → ¬ g.Reach t s)) →
      ∃ s, dfsRuns g fuel (withClassification h) starts (d, a) = .ok s := by
  intro starts
  induction starts with
  | nil => intro prev d a _ _ _ _; exact ⟨_, rfl⟩
  | cons i rest ih =>
    intro prev d a hI hst hprev hpw
    have hi := hst i (List.mem_cons_self i rest)
    have hcase : (d.disc i = false ∧ d.undisc ≤ fuel) ∨
        (d.disc i = true ∧ d.undisc + 1 ≤ fuel ∧ (g.directed = true → ¬ g.Adj i i)) := by
      cases hdi : d.disc i
      · left
        have := undisc_le hI.sized
        exact ⟨rfl, by omega⟩
      · right
        have := undisc_lt_of_disc hI.sized hdi
        refine ⟨rfl, by omega, fun hdir hadj => ?_⟩
        obtain ⟨t, ht, hr⟩ := hI.reach i hdi
        exact hprev hdir t ht i (List.mem_cons_self i rest) hadj hr
    have key := restart_run g hg h hpve hpvl hpe (i :: prev) fuel i d a (restartInv_mono hI i) hi
      ⟨i, List.mem_cons_self i prev, Relation.ReflTransGen.refl⟩ hcase
    simp only [dfsRuns, DepthFirstTraversal]
    cases hr : depthFirstTraverseVertex g (withClassification h) fuel i (d, a) with
    | error e => exact absurd (key.1 e hr) id
    | ok s1 =>
      obtain ⟨d1, a1⟩ := s1
      have hI1 : RestartInv g (i :: prev) d1 := key.2 _ hr
      refine ih (i :: prev) d1 a1 hI1 (fun j hj => hst j (List.mem_cons_of_mem i hj)) ?_ ?_
      · intro hdir t ht s hs
        rcases List.mem_cons.mp ht with ht | ht
        · rw [ht]
          exact List.rel_of_pairwise_cons (hpw hdir) hs
        · exact hprev hdir t ht s (List.mem_cons_of_mem i hs)
      · intro hdir
        exact (List.pairwise_cons.mp (hpw hdir)).2


/-- C18: for every graph (directed or undirected) with dense ids `1..n` and
hooks that do not modify the traversal data and do not fail themselves, in a
sequence of `DepthFirstTraversal` runs from start vertices in `1..n` that share
one freshly initialised `TraversalData`, `edgeClassification(x, y, data)`
returns a class at every invocation of the edge hook `pe(x, y)`, so that the
runs return normally. This holds for the loop that starts a run at every
vertex that is still undiscovered, and for every sequence of runs, also one
that starts runs again at discovered vertices, in which no start vertex that
has an edge to itself in a directed graph is reachable from an earlier start
vertex. In particular `ArticulationVertices(start)` returns normally for every
start in `1..n`. -/
theorem classification_never_fatal {σ : Type} (g : Graph) (hg : g.Dense) (h : Hooks σ)
    (hpve : ∀ v d a, ∃ a1, h.pve v d a = .ok a1)
    (hpvl : ∀ v d a, ∃ a1, h.pvl v d a = .ok a1)
    (hpe : ∀ x y d a, ∃ a1, h.pe x y d a = .ok a1)
    (fuel : Nat) (hfuel : g.nVertices < fuel) (starts : List Nat)
    (hstarts : ∀ i ∈ starts, 1 ≤ i ∧ i ≤ g.nVertices) (a : σ) :
    (∃ s, dfsAll g fuel (withClassification h) starts (TraversalData.zero.Init g, a) = .ok s) ∧
      ((g.directed = true → starts.Pairwise (fun t s => g.Adj s s → ¬ g.Reach t s)) →
        ∃ s, dfsRuns g fuel (withClassification h) starts
          (TraversalData.zero.Init g, a) = .ok s) ∧
      ∀ start, 1 ≤ start → start ≤ g.nVertices →
        ∃ m, ArticulationVertices g fuel start = .ok m := by
  refine ⟨?_, ?_, ?_⟩
  · have key := dfsAll_fresh_rule g (withClassification h) fuel hfuel (fun _ => True)
      (fun _ => False) ?_ starts hstarts (TraversalData.zero.Init g) a
      (dfsIdle_Init g _) trivial
    · cases hr : dfsAll g fuel (withClassification h) starts (TraversalData.zero.Init g, a) with
      | error e => exact absurd (key.1 e hr) id
      | ok s => exact ⟨s, rfl⟩
    · intro i d a hP _ _
      exact classified_run_ok g hg h hpve hpvl hpe fuel i d a hP
  · intro hloop
    exact restart_runs g hg h hpve hpvl hpe fuel hfuel starts [] (TraversalData.zero.Init g) a
      (restartInv_Init g _) hstarts (fun _ t ht => absurd ht (List.not_mem_nil t)) hloop
  · intro start h1 h2
    unfold ArticulationVertices
    have hn : g.nVertices ≠ 0 := by omega
    simp only [hn, if_false, DepthFirstTraversal]
    obtain ⟨s, hs⟩ := articulation_run_ok g hg fuel start (TraversalData.zero.Init g)
      { cutNodes := []
        ancestor := List.replicate (adjustSize g.nVertices) 0
        outDegree := List.replicate (adjustSize g.nVertices) 0 }
      (dfsPre_root (dfsIdle_Init g _) ⟨h1, h2⟩ (by simp) hfuel)
    rw [hs]
    exact ⟨_, rfl⟩

theorem classification_never_fatal_witness :
    (∃ s, dfsAll (Graph.zero.Init true [1, 1, 1, 2, 2, 3, 3, 2]) 4 (withClassification noHooks)
        [1, 3, 2, 3] (TraversalData.zero.Init (Graph.zero.Init true [1, 1, 1, 2, 2, 3, 3, 2]), ())
          = .ok s) ∧
      (∃ s, dfsRuns (Graph.zero.Init true [1, 1, 1, 2, 2, 3, 3, 2]) 4 (withClassification noHooks)
        [1, 3, 2, 3] (TraversalData.zero.Init (Graph.zero.Init true [1, 1, 1, 2, 2, 3, 3, 2]), ())
          = .ok s) ∧
      ∀ start, 1 ≤ start → start ≤ (Graph.zero.Init true [1, 1, 1, 2, 2, 3, 3, 2]).nVertices →
        ∃ m, ArticulationVertices (Graph.zero.Init true [1, 1, 1, 2, 2, 3, 3, 2]) 4 start = .ok m :=
  have k := classification_never_fatal (Graph.zero.Init true [1, 1, 1, 2, 2, 3, 3, 2])
    (Init_dense Graph.zero true [1, 1, 1, 2, 2, 3, 3, 2] 3 (by decide)) noHooks
    (fun _ _ a => ⟨a, rfl⟩) (fun _ _ a => ⟨a, rfl⟩) (fun _ _ _ a => ⟨a, rfl⟩)
    4 (by decide) [1, 3, 2, 3] (by decide) ()
  have h2 : ¬ (Graph.zero.Init true [1, 1, 1, 2, 2, 3, 3, 2]).Adj 2 2 := by decide
  have h3 : ¬ (Graph.zero.Init true [1, 1, 1, 2, 2, 3, 3, 2]).Adj 3 3 := by decide
  ⟨k.1, k.2.1 (fun _ =>
    List.Pairwise.cons
      (fun s hs hadj => by
        rcases List.mem_cons.mp hs with e | hs
        · rw [e] at hadj; exact absurd hadj h3
        rcases List.mem_cons.mp hs with e | hs
        · rw [e] at hadj; exact absurd hadj h2
        rcases List.mem_cons.mp hs with e | hs
        · rw [e] at hadj; exact absurd hadj h3
        · cases hs)
      (List.Pairwise.cons
        (fun s hs hadj => by
          rcases List.mem_cons.mp hs with e | hs
          · rw [e] at hadj; exact absurd hadj h2
          rcases List.mem_cons.mp hs with e | hs
          · rw [e] at hadj; exact absurd hadj h3
          · cases hs)
        (List.Pairwise.cons
          (fun s hs hadj => by
            rcases List.mem_cons.mp hs with e | hs
            · rw [e] at hadj; exact absurd hadj h3
            · cases hs)
          (List.Pairwise.cons (fun s hs => by cases hs) List.Pairwise.nil)))), k.2.2⟩

end Tmoc
